import Mathlib

/-!
# MiniVSFS: image builder and file adder

A shallow embedding of `mkfs_builder_skeleton.c` and `mkfs_adder_skeleton.c`.

Conventions of the embedding:

* a byte is a natural number below 256 and a buffer is a `List Nat` of bytes;
* a C pointer into a buffer is the buffer together with an offset, and pointer
  arithmetic on `uint64_t` offsets is taken modulo `2^64`;
* `uint32_t` and `uint64_t` arithmetic is written with an explicit remainder
  wherever the C expression can wrap;
* a read outside the buffer (undefined in C) yields `0`, a write outside the
  buffer is dropped; theorems that depend on such an access carry bounds;
* `time(NULL)` is the parameter `now`; the file system calls (`fopen`, `fread`,
  `fwrite`) are assumed to succeed and to transfer whole buffers.
-/

namespace MiniVSFS

/-! ## Constants (`#define`s of both files) -/

/-- Block size `BS`. -/
def BS : Nat := 4096

/-- Size of an inode record `INODE_SIZE`. -/
def INODE_SIZE : Nat := 128

/-- Inode number of the root directory `ROOT_INO`. -/
def ROOT_INO : Nat := 1

/-- Number of direct pointers `DIRECT_MAX`. -/
def DIRECT_MAX : Nat := 12

/-! ## Memory primitives -/

/-- Little-endian encoding of `v` on `w` bytes (a packed integer field). -/
def le_bytes : Nat → Nat → List Nat
  | 0, _ => []
  | w + 1, v => v % 256 :: le_bytes w (v / 256)

/-- Little-endian value of the `w` bytes of `mem` starting at `off`. -/
def le_read (mem : List Nat) (off : Nat) : Nat → Nat
  | 0 => 0
  | w + 1 => mem.getD off 0 + 256 * le_read mem (off + 1) w

/-- Byte-wise `memcpy(mem + off, src, src.length)`. -/
def memcpy : List Nat → Nat → List Nat → List Nat
  | mem, _, [] => mem
  | mem, off, b :: bs => memcpy (mem.set off b) (off + 1) bs

/-- The `n` bytes of `mem` starting at `off` (a struct read through a pointer). -/
def mem_read (mem : List Nat) (off n : Nat) : List Nat :=
  (List.range n).map fun i => mem.getD (off + i) 0

/-! ## CRC32 (identical in both files) -/

/-- One round of the inner loop of `crc32_init`. -/
def crc32_init_round (c : Nat) : Nat :=
  if c &&& 1 ≠ 0 then 0xEDB88320 ^^^ (c >>> 1) else c >>> 1

/-- Entry `i` of the table as `crc32_init` computes it: eight rounds from `i`. -/
def crc32_init_entry (i : Nat) : Nat :=
  crc32_init_round (crc32_init_round (crc32_init_round (crc32_init_round
    (crc32_init_round (crc32_init_round (crc32_init_round (crc32_init_round i)))))))

/-- The table `CRC32_TAB` after `crc32_init`. -/
def CRC32_TAB : List Nat := (List.range 256).map crc32_init_entry

/-- Body of the loop of `crc32`: `c = CRC32_TAB[(c^p[i])&0xFF] ^ (c>>8)`. -/
def crc32_step (c b : Nat) : Nat :=
  CRC32_TAB.getD ((c ^^^ b) &&& 0xFF) 0 ^^^ (c >>> 8)

/-- The loop of `crc32` over the `n` bytes at the head of `p`, from state `c`. -/
def crc32_loop : List Nat → Nat → Nat → Nat
  | _, 0, c => c
  | [], n + 1, c => crc32_loop [] n (crc32_step c 0)
  | b :: bs, n + 1, c => crc32_loop bs n (crc32_step c b)

/-- The function `crc32(data, n)`. -/
def crc32 (data : List Nat) (n : Nat) : Nat :=
  crc32_loop data n 0xFFFFFFFF ^^^ 0xFFFFFFFF

/-! ## Checksum finalizers (identical in both files) -/

/-- The function `superblock_crc_finalize(sb)`: `sb` is an offset into `mem`. The
checksum field is at offset 112 of the packed struct; `crc32` reads `BS - 4`
bytes starting at `sb`, whatever object they belong to. -/
def superblock_crc_finalize (mem : List Nat) (sb : Nat) : List Nat :=
  let mem1 := memcpy mem (sb + 112) (le_bytes 4 0)
  let s := crc32 (mem1.drop sb) (BS - 4)
  memcpy mem1 (sb + 112) (le_bytes 4 s)

/-- The function `inode_crc_finalize(ino)`: `ino` is an offset into `mem`. -/
def inode_crc_finalize (mem : List Nat) (ino : Nat) : List Nat :=
  let tmp := mem_read mem ino INODE_SIZE
  let tmp1 := memcpy tmp 120 (List.replicate 8 0)
  let c := crc32 tmp1 120
  memcpy mem (ino + 120) (le_bytes 8 c)

/-- The XOR loop of `dirent_checksum_finalize` over bytes `i .. 62` of the entry. -/
def dirent_xor (mem : List Nat) (de : Nat) : Nat → Nat → Nat
  | 0, x => x
  | k + 1, x => dirent_xor mem (de + 1) k (x ^^^ mem.getD de 0)

/-- The function `dirent_checksum_finalize(de)`: `de` is an offset into `mem`. -/
def dirent_checksum_finalize (mem : List Nat) (de : Nat) : List Nat :=
  mem.set (de + 63) (dirent_xor mem de 63 0)

/-! ## Bitmap helpers of the adder -/

/-- Inner loop of `find_first_free_bit` for one `byte`, from `bit` on; `none`
when the loop ends without a `return`. -/
def find_first_free_bit_inner (mem : List Nat) (bitmap byte max_items : Nat) :
    Nat → Nat → Option Nat
  | 0, _ => none
  | fuel + 1, bit =>
    if bit < 8 ∧ (byte * 8 % 4294967296 + bit) % 4294967296 < max_items then
      if mem.getD (bitmap + byte) 0 &&& (1 <<< bit) = 0 then
        some ((byte * 8 % 4294967296 + bit + 1) % 4294967296)
      else find_first_free_bit_inner mem bitmap byte max_items fuel (bit + 1)
    else none

/-- Outer loop of `find_first_free_bit`, from `byte` on. -/
def find_first_free_bit_outer (mem : List Nat) (bitmap bitmap_size max_items : Nat) :
    Nat → Nat → Nat
  | 0, _ => 0
  | fuel + 1, byte =>
    if byte < bitmap_size ∧ byte * 8 % 4294967296 < max_items then
      match find_first_free_bit_inner mem bitmap byte max_items 8 0 with
      | some r => r
      | none => find_first_free_bit_outer mem bitmap bitmap_size max_items fuel (byte + 1)
    else 0

/-- The function `find_first_free_bit(bitmap, bitmap_size, max_items)`; `bitmap`
is an offset into `mem`. The outer loop runs at most `bitmap_size` times and the
inner one at most 8 times, which is the fuel given. -/
def find_first_free_bit (mem : List Nat) (bitmap bitmap_size max_items : Nat) : Nat :=
  find_first_free_bit_outer mem bitmap bitmap_size max_items bitmap_size 0

/-- The function `set_bit(bitmap, bit_index)`; `bitmap` is an offset into `mem`. -/
def set_bit (mem : List Nat) (bitmap bit_index : Nat) : List Nat :=
  let byte_index := (bit_index + 4294967296 - 1) % 4294967296 / 8
  let bit_offset := (bit_index + 4294967296 - 1) % 4294967296 % 8
  mem.set (bitmap + byte_index) (mem.getD (bitmap + byte_index) 0 ||| (1 <<< bit_offset))

/-! ## On-disk records (packed structs of both files) -/

/-- The struct `superblock_t` (116 bytes, packed). -/
structure superblock_t where
  magic : Nat
  version : Nat
  block_size : Nat
  total_blocks : Nat
  inode_count : Nat
  inode_bitmap_start : Nat
  inode_bitmap_blocks : Nat
  data_bitmap_start : Nat
  data_bitmap_blocks : Nat
  inode_table_start : Nat
  inode_table_blocks : Nat
  data_region_start : Nat
  data_region_blocks : Nat
  root_inode : Nat
  mtime_epoch : Nat
  flags : Nat
  checksum : Nat
  deriving DecidableEq, Repr

/-- Memory image of a `superblock_t`, field by field in declaration order. -/
def superblock_t.bytes (sb : superblock_t) : List Nat :=
  le_bytes 4 sb.magic ++ le_bytes 4 sb.version ++ le_bytes 4 sb.block_size ++
  le_bytes 8 sb.total_blocks ++ le_bytes 8 sb.inode_count ++
  le_bytes 8 sb.inode_bitmap_start ++ le_bytes 8 sb.inode_bitmap_blocks ++
  le_bytes 8 sb.data_bitmap_start ++ le_bytes 8 sb.data_bitmap_blocks ++
  le_bytes 8 sb.inode_table_start ++ le_bytes 8 sb.inode_table_blocks ++
  le_bytes 8 sb.data_region_start ++ le_bytes 8 sb.data_region_blocks ++
  le_bytes 8 sb.root_inode ++ le_bytes 8 sb.mtime_epoch ++
  le_bytes 4 sb.flags ++ le_bytes 4 sb.checksum

/-- The `superblock_t` seen through a pointer `sb` into `mem`. -/
def read_superblock (mem : List Nat) (sb : Nat) : superblock_t where
  magic := le_read mem sb 4
  version := le_read mem (sb + 4) 4
  block_size := le_read mem (sb + 8) 4
  total_blocks := le_read mem (sb + 12) 8
  inode_count := le_read mem (sb + 20) 8
  inode_bitmap_start := le_read mem (sb + 28) 8
  inode_bitmap_blocks := le_read mem (sb + 36) 8
  data_bitmap_start := le_read mem (sb + 44) 8
  data_bitmap_blocks := le_read mem (sb + 52) 8
  inode_table_start := le_read mem (sb + 60) 8
  inode_table_blocks := le_read mem (sb + 68) 8
  data_region_start := le_read mem (sb + 76) 8
  data_region_blocks := le_read mem (sb + 84) 8
  root_inode := le_read mem (sb + 92) 8
  mtime_epoch := le_read mem (sb + 100) 8
  flags := le_read mem (sb + 108) 4
  checksum := le_read mem (sb + 112) 4

/-- The struct `inode_t` (128 bytes, packed); `direct` holds `DIRECT_MAX` entries. -/
structure inode_t where
  mode : Nat
  links : Nat
  uid : Nat
  gid : Nat
  size_bytes : Nat
  atime : Nat
  mtime : Nat
  ctime : Nat
  direct : List Nat
  reserved_0 : Nat
  reserved_1 : Nat
  reserved_2 : Nat
  proj_id : Nat
  uid16_gid16 : Nat
  xattr_ptr : Nat
  inode_crc : Nat
  deriving DecidableEq, Repr

/-- Memory image of the array `direct[DIRECT_MAX]`: entry `i` for `i = k, k+1, ..`. -/
def direct_bytes (direct : List Nat) : Nat → Nat → List Nat
  | 0, _ => []
  | n + 1, k => le_bytes 4 (direct.getD k 0) ++ direct_bytes direct n (k + 1)

/-- Memory image of an `inode_t`, field by field in declaration order. -/
def inode_t.bytes (ino : inode_t) : List Nat :=
  le_bytes 2 ino.mode ++ le_bytes 2 ino.links ++ le_bytes 4 ino.uid ++ le_bytes 4 ino.gid ++
  le_bytes 8 ino.size_bytes ++ le_bytes 8 ino.atime ++ le_bytes 8 ino.mtime ++
  le_bytes 8 ino.ctime ++ direct_bytes ino.direct DIRECT_MAX 0 ++
  le_bytes 4 ino.reserved_0 ++ le_bytes 4 ino.reserved_1 ++ le_bytes 4 ino.reserved_2 ++
  le_bytes 4 ino.proj_id ++ le_bytes 4 ino.uid16_gid16 ++ le_bytes 8 ino.xattr_ptr ++
  le_bytes 8 ino.inode_crc

/-- The `inode_t` seen through a pointer `ino` into `mem`. -/
def read_inode (mem : List Nat) (ino : Nat) : inode_t where
  mode := le_read mem ino 2
  links := le_read mem (ino + 2) 2
  uid := le_read mem (ino + 4) 4
  gid := le_read mem (ino + 8) 4
  size_bytes := le_read mem (ino + 12) 8
  atime := le_read mem (ino + 20) 8
  mtime := le_read mem (ino + 28) 8
  ctime := le_read mem (ino + 36) 8
  direct := (List.range DIRECT_MAX).map fun k => le_read mem (ino + 44 + 4 * k) 4
  reserved_0 := le_read mem (ino + 92) 4
  reserved_1 := le_read mem (ino + 96) 4
  reserved_2 := le_read mem (ino + 100) 4
  proj_id := le_read mem (ino + 104) 4
  uid16_gid16 := le_read mem (ino + 108) 4
  xattr_ptr := le_read mem (ino + 112) 8
  inode_crc := le_read mem (ino + 120) 8

/-- The struct `dirent64_t` (64 bytes, packed); `name` holds 58 bytes. -/
structure dirent64_t where
  inode_no : Nat
  type : Nat
  name : List Nat
  checksum : Nat
  deriving DecidableEq, Repr

/-- The array `name[58]` of a zero-initialised entry after `strcpy(name, s)`, for a
string `s` of fewer than 58 characters: the characters, then NUL bytes. -/
def name_field (s : List Nat) : List Nat :=
  s ++ List.replicate (58 - s.length) 0

/-- Memory image of a `dirent64_t`, field by field in declaration order. -/
def dirent64_t.bytes (de : dirent64_t) : List Nat :=
  le_bytes 4 de.inode_no ++ [de.type] ++ de.name ++ [de.checksum]

/-- The `dirent64_t` seen through a pointer `de` into `mem`. -/
def read_dirent (mem : List Nat) (de : Nat) : dirent64_t where
  inode_no := le_read mem de 4
  type := mem.getD (de + 4) 0
  name := mem_read mem (de + 5) 58
  checksum := mem.getD (de + 63) 0

/-! ## The image builder: `main` of `mkfs_builder_skeleton.c` (`create_image`) -/

/-- How a run of the builder ends before an image is written. Every such exit of
`main` is `return 1` after a message; the constructors name the message. -/
inductive BuildError where
  /-- "Missing required arguments", "size-kib must be between 180-4096 and multiple
  of 4", "inodes must be between 128-512". -/
  | InvalidParameters
  /-- "Not enough blocks for filesystem metadata". -/
  | InsufficientCapacity
  deriving DecidableEq, Repr

/-- The geometry computed in lines 179-206 of the builder. -/
def builder_superblock (size_kib inode_count now : Nat) : superblock_t :=
  let total_blocks := (size_kib * 1024) / BS
  let inode_table_blocks := (inode_count * INODE_SIZE + BS - 1) / BS
  let metadata_blocks := 1 + 1 + 1 + inode_table_blocks
  let data_region_blocks := total_blocks - metadata_blocks
  { magic := 0x4D565346
    version := 1
    block_size := BS
    total_blocks := total_blocks
    inode_count := inode_count
    inode_bitmap_start := 1
    inode_bitmap_blocks := 1
    data_bitmap_start := 2
    data_bitmap_blocks := 1
    inode_table_start := 3
    inode_table_blocks := inode_table_blocks
    data_region_start := 3 + inode_table_blocks
    data_region_blocks := data_region_blocks
    root_inode := ROOT_INO
    mtime_epoch := now
    flags := 0
    checksum := 0 }

/-- The local `root_inode` of the builder (lines 208-226), before its checksum. -/
def builder_root_inode (sb : superblock_t) : inode_t :=
  { mode := 0o040000
    links := 2
    uid := 0
    gid := 0
    size_bytes := 2 * 64
    atime := sb.mtime_epoch
    mtime := sb.mtime_epoch
    ctime := sb.mtime_epoch
    direct := (sb.data_region_start % 4294967296) :: List.replicate (DIRECT_MAX - 1) 0
    reserved_0 := 0
    reserved_1 := 0
    reserved_2 := 0
    proj_id := 13
    uid16_gid16 := 0
    xattr_ptr := 0
    inode_crc := 0 }

/-- The locals `dot_entry` (`s = "."`) and `dotdot_entry` (`s = ".."`) of the
builder (lines 228-236), before their checksum. -/
def builder_dir_entry (s : List Nat) : dirent64_t :=
  { inode_no := ROOT_INO, type := 2, name := name_field s, checksum := 0 }

/-- Block `i` of the inode table as the loop of lines 269-280 writes it. -/
def builder_inode_block (root_inode : inode_t) (i : Nat) : List Nat :=
  let block := List.replicate BS 0
  if i = 0 then memcpy block 0 (inode_crc_finalize root_inode.bytes 0) else block

/-- Block `i` of the data region as the loop of lines 282-295 writes it. -/
def builder_data_block (i : Nat) : List Nat :=
  let block := List.replicate BS 0
  if i = 0 then
    let dot_entry := dirent_checksum_finalize (builder_dir_entry [46]).bytes 0
    let dotdot_entry := dirent_checksum_finalize (builder_dir_entry [46, 46]).bytes 0
    memcpy (memcpy block 0 dot_entry) 64 dotdot_entry
  else block

/-- The blocks a `for (i = 0; i < n; i++)` loop writes one after the other. -/
def write_blocks (blk : Nat → List Nat) : Nat → Nat → List Nat
  | 0, _ => []
  | n + 1, i => blk i ++ write_blocks blk n (i + 1)

/-- Lines 188-295 of the builder, once the parameters have passed the checks of
lines 162-186: the bytes written to the image file.

`superblock_crc_finalize(&sb)` is called on the 116-byte local `sb`, so `crc32`
reads `BS - 4` bytes starting at `&sb`: the struct and then the 3976 bytes that
happen to follow it in memory. The C code leaves those bytes undetermined; they
are the parameter `adj`. -/
def builder_write (size_kib inode_count now : Nat) (adj : List Nat) : List Nat :=
  let total_blocks := (size_kib * 1024) / BS
  let inode_table_blocks := (inode_count * INODE_SIZE + BS - 1) / BS
  let metadata_blocks := 1 + 1 + 1 + inode_table_blocks
  let data_region_blocks := total_blocks - metadata_blocks
  let sb := builder_superblock size_kib inode_count now
  let root_inode := builder_root_inode sb
  let stack := superblock_crc_finalize (sb.bytes ++ adj) 0
  let block0 := memcpy (List.replicate BS 0) 0 (stack.take 116)
  let block1 := (List.replicate BS 0).set 0 0x01
  let block2 := (List.replicate BS 0).set 0 0x01
  block0 ++ block1 ++ block2 ++
    write_blocks (builder_inode_block root_inode) inode_table_blocks 0 ++
    write_blocks builder_data_block data_region_blocks 0

/-- The function `main` of `mkfs_builder_skeleton.c` after argument parsing
(`create_image` of the specification): the bytes written to the image file, or
the reason for `return 1`. The parameter `adj` stands for the memory that follows
the local `sb`, see `builder_write`. -/
def mkfs_builder.main (size_kib inode_count now : Nat) (adj : List Nat) :
    Except BuildError (List Nat) :=
  if size_kib = 0 ∨ inode_count = 0 then .error .InvalidParameters
  else if size_kib < 180 ∨ size_kib > 4096 ∨ size_kib % 4 ≠ 0 then .error .InvalidParameters
  else if inode_count < 128 ∨ inode_count > 512 then .error .InvalidParameters
  else
    let total_blocks := (size_kib * 1024) / BS
    let inode_table_blocks := (inode_count * INODE_SIZE + BS - 1) / BS
    let metadata_blocks := 1 + 1 + 1 + inode_table_blocks
    if total_blocks ≤ metadata_blocks then .error .InsufficientCapacity
    else .ok (builder_write size_kib inode_count now adj)

/-! ## The file adder: `main` of `mkfs_adder_skeleton.c` (`insert_file`) -/

/-- How a run of the adder ends. Every failing exit of `main` is `return 1` after
a message; the constructors name the message. -/
inductive Status where
  /-- The run reaches `return 0`: the buffer is written to the output file. -/
  | Ok
  /-- "File too large to fit in 12 direct blocks". -/
  | FileTooLarge
  /-- "Error reading superblock", "Invalid filesystem magic number". -/
  | InvalidImage
  /-- "Not enough free data blocks" (both occurrences). -/
  | OutOfSpace
  /-- "No free inodes available". -/
  | NoFreeInodes
  /-- "No free directory entries in root directory". -/
  | DirectoryFull
  /-- "Filename too long (max 57 characters)". -/
  | NameTooLong
  /-- The scan of the data bitmap does not end: its 32-bit counter wraps around
  for ever (only possible when `data_region_blocks` is at least `2^32 - 1`). -/
  | Hang
  deriving DecidableEq, Repr

/-- The end of a run of the adder: how it ended, and the contents of the buffer
`fs_image` at that point (the input image when the run ends before the buffer is
filled). Only a run that ends with `Status.Ok` writes the buffer out. -/
structure Run where
  status : Status
  fs_image : List Nat
  deriving DecidableEq, Repr

/-- The characters of a C string: everything before the first NUL. -/
def c_string (s : List Nat) : List Nat := s.takeWhile (· ≠ 0)

/-- The characters after the last `'/'` of a C string, the whole string when it
has none: `strrchr(file_name, '/')` followed by `basename++`. -/
def after_last_slash : List Nat → List Nat
  | [] => []
  | c :: cs => if 47 ∈ cs then after_last_slash cs else if c = 47 then cs else c :: cs

/-- The C string `basename` of lines 358-363. -/
def basename (file_name : List Nat) : List Nat := after_last_slash (c_string file_name)

/-- The loop of lines 265-272 from counter `i` on, `found` being the filled part
of `data_blocks`; `none` when the fuel runs out. -/
def alloc_loop (mem : List Nat) (data_bitmap data_region_start data_region_blocks
    blocks_needed : Nat) : Nat → Nat → List Nat → Option (List Nat)
  | 0, _, _ => none
  | fuel + 1, i, found =>
    if i ≤ data_region_blocks ∧ found.length < blocks_needed then
      let byte_idx := (i + 4294967296 - 1) % 4294967296 / 8
      let bit_idx := (i + 4294967296 - 1) % 4294967296 % 8
      if mem.getD (data_bitmap + byte_idx) 0 &&& (1 <<< bit_idx) = 0 then
        alloc_loop mem data_bitmap data_region_start data_region_blocks blocks_needed fuel
          ((i + 1) % 4294967296)
          (found ++ [(data_region_start + i + 18446744073709551616 - 1)
            % 18446744073709551616 % 4294967296])
      else
        alloc_loop mem data_bitmap data_region_start data_region_blocks blocks_needed fuel
          ((i + 1) % 4294967296) found
    else some found

/-- Fuel for `alloc_loop`: thirteen rounds of the 32-bit counter. A scan that ends
finds a free unit in every round, so it ends within twelve rounds. -/
def alloc_fuel : Nat := 13 * 4294967296

/-- The local `new_inode` of lines 281-304, before its checksum. -/
def adder_new_inode (file_size now blocks_needed : Nat) (data_blocks : List Nat) : inode_t :=
  { mode := 0o100000
    links := 1
    uid := 0
    gid := 0
    size_bytes := file_size
    atime := now
    mtime := now
    ctime := now
    direct := (List.range DIRECT_MAX).map fun i =>
      if i < blocks_needed then data_blocks.getD i 0 else 0
    reserved_0 := 0
    reserved_1 := 0
    reserved_2 := 0
    proj_id := 13
    uid16_gid16 := 0
    xattr_ptr := 0
    inode_crc := 0 }

/-- The array `block_data` of round `i` of the loop of lines 306-320: zeroes, then
the next `to_read` bytes of the file read over its beginning. -/
def block_data (file : List Nat) (blocks_needed i : Nat) : List Nat :=
  let to_read := if i = blocks_needed - 1 then file.length - i * BS else BS
  memcpy (List.replicate BS 0) 0 ((file.drop (i * BS)).take to_read)

/-- Body of the loop of lines 306-320. -/
def copy_block (file : List Nat) (blocks_needed : Nat) (data_blocks : List Nat)
    (mem : List Nat) (i : Nat) : List Nat :=
  let block_offset := data_blocks.getD i 0 * BS % 4294967296
  memcpy mem block_offset (block_data file blocks_needed i)

/-- Body of the loop of lines 324-327. -/
def mark_block (data_bitmap data_region_start : Nat) (data_blocks : List Nat)
    (mem : List Nat) (i : Nat) : List Nat :=
  let data_block_idx := (data_blocks.getD i 0 + 18446744073709551616 - data_region_start + 1)
    % 18446744073709551616 % 4294967296
  set_bit mem data_bitmap data_block_idx

/-- The local `new_entry` of lines 354-371, before its checksum. -/
def adder_new_entry (new_inode_no : Nat) (name : List Nat) : dirent64_t :=
  { inode_no := new_inode_no, type := 1, name := name_field name, checksum := 0 }

/-- Lines 376-379: the update of the root inode in place. -/
def update_root_inode (mem : List Nat) (root_inode now : Nat) : List Nat :=
  let mem1 := memcpy mem (root_inode + 12)
    (le_bytes 8 ((le_read mem (root_inode + 12) 8 + 64) % 18446744073709551616))
  let mem2 := memcpy mem1 (root_inode + 2)
    (le_bytes 2 ((le_read mem1 (root_inode + 2) 2 + 1) % 65536))
  let mem3 := memcpy mem2 (root_inode + 28) (le_bytes 8 now)
  inode_crc_finalize mem3 root_inode

/-- Lines 281-331 of the adder: build the new inode, copy the file into the blocks
`data_blocks`, mark the inode and the blocks in the bitmaps, write the inode into
its slot of the table. The result is the buffer after line 331. -/
def adder_store (sb : superblock_t) (fs_image file : List Nat) (now blocks_needed
    new_inode_no : Nat) (data_blocks : List Nat) : List Nat :=
  let inode_bitmap := sb.inode_bitmap_start * BS % 18446744073709551616
  let data_bitmap := sb.data_bitmap_start * BS % 18446744073709551616
  let inode_table := sb.inode_table_start * BS % 18446744073709551616
  let new_inode := adder_new_inode file.length now blocks_needed data_blocks
  let fs1 := (List.range blocks_needed).foldl
    (copy_block file blocks_needed data_blocks) fs_image
  let fs2 := set_bit fs1 inode_bitmap new_inode_no
  let fs3 := (List.range blocks_needed).foldl
    (mark_block data_bitmap sb.data_region_start data_blocks) fs2
  let inode_offset := (new_inode_no + 4294967296 - 1) % 4294967296 * INODE_SIZE % 4294967296
  memcpy fs3 (inode_table + inode_offset) (inode_crc_finalize new_inode.bytes 0)

/-- Lines 333-335 of the adder: the pointer `root_dir_data`, as an offset into the
buffer `mem`. -/
def adder_root_dir_data (sb : superblock_t) (mem : List Nat) : Nat :=
  let inode_table := sb.inode_table_start * BS % 18446744073709551616
  let data_region := sb.data_region_start * BS % 18446744073709551616
  let root_inode := inode_table
  let direct0 := le_read mem (root_inode + 44) 4
  (data_region +
    (direct0 + 18446744073709551616 - sb.data_region_start) % 18446744073709551616 * BS
      % 18446744073709551616) % 18446744073709551616

/-- Lines 354-382 of the adder, for a name that passed the check of line 365: write
the directory entry into slot `free_entry`, update the root inode, and finalize
the superblock checksum. The result is the buffer written to the output file. -/
def adder_link (sb : superblock_t) (mem : List Nat) (root_dir_data free_entry
    new_inode_no : Nat) (name : List Nat) (now : Nat) : List Nat :=
  let inode_table := sb.inode_table_start * BS % 18446744073709551616
  let root_inode := inode_table
  let new_entry := adder_new_entry new_inode_no name
  let fs5 := memcpy mem (root_dir_data + free_entry * 64)
    (dirent_checksum_finalize new_entry.bytes 0)
  let fs6 := update_root_inode fs5 root_inode now
  superblock_crc_finalize fs6 0

/-- Lines 249-382 of the adder, once the superblock `sb` has passed the checks of
lines 214-226 and the image has been read into `fs_image`. -/
def adder_insert (sb : superblock_t) (fs_image file file_name : List Nat) (now : Nat)
    (blocks_needed : Nat) : Run :=
  let inode_bitmap := sb.inode_bitmap_start * BS % 18446744073709551616
  let data_bitmap := sb.data_bitmap_start * BS % 18446744073709551616
  let new_inode_no := find_first_free_bit fs_image inode_bitmap BS (sb.inode_count % 4294967296)
  if new_inode_no = 0 then ⟨.NoFreeInodes, fs_image⟩
  else
    match alloc_loop fs_image data_bitmap sb.data_region_start sb.data_region_blocks
        blocks_needed alloc_fuel 1 [] with
    | none => ⟨.Hang, fs_image⟩
    | some found =>
      if found.length < blocks_needed then ⟨.OutOfSpace, fs_image⟩
      else
        let data_blocks := found ++ List.replicate (DIRECT_MAX - found.length) 0
        let fs4 := adder_store sb fs_image file now blocks_needed new_inode_no data_blocks
        let root_dir_data := adder_root_dir_data sb fs4
        let entries_per_block := BS / 64
        match (List.range entries_per_block).find?
            (fun i => le_read fs4 (root_dir_data + i * 64) 4 = 0) with
        | none => ⟨.DirectoryFull, fs4⟩
        | some free_entry =>
          if (basename file_name).length ≥ 58 then ⟨.NameTooLong, fs4⟩
          else ⟨.Ok, adder_link sb fs4 root_dir_data free_entry new_inode_no
            (basename file_name) now⟩

/-- The function `main` of `mkfs_adder_skeleton.c` after argument parsing
(`insert_file` of the specification): `image` is the contents of the input image
file, `file` the contents of the file to add, `file_name` its path. -/
def mkfs_adder.main (image file file_name : List Nat) (now : Nat) : Run :=
  let file_size := file.length
  let blocks_needed := (file_size + BS - 1) / BS
  if blocks_needed > DIRECT_MAX then ⟨.FileTooLarge, image⟩
  else if image.length < 116 then ⟨.InvalidImage, image⟩
  else
    let sb := read_superblock image 0
    if sb.magic ≠ 0x4D565346 then ⟨.InvalidImage, image⟩
    else if blocks_needed > sb.data_region_blocks then ⟨.OutOfSpace, image⟩
    else adder_insert sb image file file_name now blocks_needed


/-! ## Vocabulary of the statements -/

/-- Bit `pos` of the bitmap at offset `bitmap` of `mem`, positions counted from 0,
byte-major and least-significant bit first within a byte. -/
def bitmap_bit (mem : List Nat) (bitmap pos : Nat) : Bool :=
  (mem.getD (bitmap + pos / 8) 0).testBit (pos % 8)

/-- The parameters the builder accepts (lines 168-176). -/
def valid_params (size_kib inode_count : Nat) : Prop :=
  180 ≤ size_kib ∧ size_kib ≤ 4096 ∧ size_kib % 4 = 0 ∧ 128 ≤ inode_count ∧ inode_count ≤ 512

instance (size_kib inode_count : Nat) : Decidable (valid_params size_kib inode_count) := by
  unfold valid_params; infer_instance

/-- The superblock checksum stored in the image `img` equals the one recomputed
from the image: CRC32 over bytes `[0, BS - 4)` of block 0 with the checksum field
taken as zero. -/
def superblock_checksum_ok (img : List Nat) : Prop :=
  le_read img 112 4 = crc32 (memcpy img 112 (le_bytes 4 0)) (BS - 4)

instance (img : List Nat) : Decidable (superblock_checksum_ok img) := by
  unfold superblock_checksum_ok; infer_instance

/-- The units `1 .. data_region_blocks` of the data bitmap whose bit is unset, in
ascending order (unit `u` is bit `u - 1`). -/
def free_units (mem : List Nat) (data_bitmap data_region_blocks : Nat) : List Nat :=
  (List.range' 1 data_region_blocks).filter fun u => !bitmap_bit mem data_bitmap (u - 1)

/-- The absolute block numbers of the first `bn` free units of the data bitmap:
unit `u` is block `data_region_start + u - 1`. -/
def alloc_blocks (mem : List Nat) (data_bitmap data_region_start data_region_blocks bn : Nat) :
    List Nat :=
  ((free_units mem data_bitmap data_region_blocks).take bn).map
    fun u => data_region_start + u - 1

/-- A valid image for the parameters `size_kib`, `inode_count`, after the data
model of the specification: it has the size and the geometry the builder gives
(superblock fields other than the time stamp and the checksum), bit 0 of the inode
bitmap and bit 0 of the data bitmap are set (root inode and root directory block
reserved), and `direct[0]` of the root inode is the first block of the data
region. -/
def valid_image (size_kib inode_count : Nat) (img : List Nat) : Prop :=
  valid_params size_kib inode_count ∧
  img.length = size_kib * 1024 ∧
  { read_superblock img 0 with mtime_epoch := 0, checksum := 0 }
    = builder_superblock size_kib inode_count 0 ∧
  bitmap_bit img (1 * BS) 0 = true ∧
  bitmap_bit img (2 * BS) 0 = true ∧
  le_read img (3 * BS + 44) 4 = (builder_superblock size_kib inode_count 0).data_region_start

/-- An image of 4097 bytes with the magic number, `inode_count = 8`, the inode
bitmap in block 1 with all 8 bits set, and an empty data region
(`data_region_blocks = 0`). -/
def full_inodes_image : List Nat :=
  ({ magic := 0x4D565346, version := 1, block_size := 4096, total_blocks := 2,
     inode_count := 8, inode_bitmap_start := 1, inode_bitmap_blocks := 1,
     data_bitmap_start := 0, data_bitmap_blocks := 0, inode_table_start := 0,
     inode_table_blocks := 0, data_region_start := 0, data_region_blocks := 0,
     root_inode := 1, mtime_epoch := 0, flags := 0, checksum := 0 } : superblock_t).bytes
  ++ List.replicate (BS - 116) 0 ++ [255]

/-- The XOR of the bytes of `l`: the value a directory entry's checksum byte is
specified to have, for `l` the first 63 bytes of the entry. -/
def xor_bytes (l : List Nat) : Nat := l.foldl (· ^^^ ·) 0

/-- One shift of the bit-by-bit CRC-32 with the reflected polynomial `0xEDB88320`:
the register moves right by one bit, and the polynomial is XORed in when the bit
shifted out is 1. -/
def crc32_bitwise_shift (c : Nat) : Nat :=
  if c % 2 = 1 then (c / 2) ^^^ 0xEDB88320 else c / 2

/-- The register of the bit-by-bit CRC-32 after one more byte `b`: the byte is
XORed into the low bits, then come eight shifts. -/
def crc32_bitwise_byte (c b : Nat) : Nat :=
  Nat.iterate crc32_bitwise_shift 8 (c ^^^ b)

/-- The standard bit-by-bit CRC-32 of a byte sequence: initial value `0xFFFFFFFF`,
reflected polynomial `0xEDB88320`, final complement of the 32-bit register. -/
def crc32_bitwise (data : List Nat) : Nat :=
  data.foldl crc32_bitwise_byte 0xFFFFFFFF ^^^ 0xFFFFFFFF

/-- What one successful run of the adder did to the valid image `img`, told by the
inode number `ino`, the blocks `dbs` and the root directory slot `e` it chose; `out`
is the image written, `name` the name stored, `drs` and `drb` the first block and
the number of blocks of the data region. -/
structure insert_effect (inode_count : Nat) (img file name out : List Nat)
    (now drs drb ino e : Nat) (dbs : List Nat) : Prop where
  ino_eq : ino = find_first_free_bit img 4096 BS inode_count
  ino_ge : 2 ≤ ino
  ino_le : ino ≤ inode_count
  ino_free : bitmap_bit img 4096 (ino - 1) = false
  ino_min : ∀ p, p < ino - 1 → bitmap_bit img 4096 p = true
  dbs_eq : dbs = alloc_blocks img 8192 drs drb ((file.length + BS - 1) / BS)
  dbs_len : dbs.length = (file.length + BS - 1) / BS
  dbs_le : dbs.length ≤ 12
  dbs_range : ∀ i, i < dbs.length → drs + 1 ≤ dbs.getD i 0 ∧ dbs.getD i 0 < drs + drb
  dbs_free : ∀ i, i < dbs.length → bitmap_bit img 8192 (dbs.getD i 0 - drs) = false
  dbs_lt : ∀ i j, i < j → j < dbs.length → dbs.getD i 0 < dbs.getD j 0
  e_lt : e < 64
  e_free : le_read img (drs * 4096 + e * 64) 4 = 0
  e_min : ∀ i, i < e → le_read img (drs * 4096 + i * 64) 4 ≠ 0
  name_le : name.length ≤ 57
  length_eq : out.length = img.length
  frame : ∀ j, (j < 112 ∨ 116 ≤ j) → (j < 4096 ∨ 12288 ≤ j) →
    (j < 12288 ∨ 12288 + 128 ≤ j) →
    (j < 12288 + (ino - 1) * 128 ∨ 12288 + (ino - 1) * 128 + 128 ≤ j) →
    (∀ i, i < dbs.length → j < dbs.getD i 0 * 4096 ∨ dbs.getD i 0 * 4096 + 4096 ≤ j) →
    (j < drs * 4096 + e * 64 ∨ drs * 4096 + e * 64 + 64 ≤ j) →
    out.getD j 0 = img.getD j 0
  inode_bits : ∀ pos, pos < 32768 →
    bitmap_bit out 4096 pos = (bitmap_bit img 4096 pos || decide (pos = ino - 1))
  data_bits : ∀ pos, pos < 32768 →
    (bitmap_bit out 8192 pos = true ↔
      bitmap_bit img 8192 pos = true ∨ ∃ i, i < dbs.length ∧ pos = dbs.getD i 0 - drs)
  inode_slot : ∀ k, k < 128 →
    out.getD (12288 + (ino - 1) * 128 + k) 0
      = (inode_crc_finalize (adder_new_inode file.length now dbs.length
          (dbs ++ List.replicate (DIRECT_MAX - dbs.length) 0)).bytes 0).getD k 0
  blocks : ∀ i t, i < dbs.length → t < 4096 →
    out.getD (dbs.getD i 0 * 4096 + t) 0 = (block_data file dbs.length i).getD t 0
  dir_slot : ∀ k, k < 64 →
    out.getD (drs * 4096 + e * 64 + k) 0
      = (dirent_checksum_finalize (adder_new_entry ino name).bytes 0).getD k 0
  root_bytes : ∀ k, k < 128 →
    out.getD (12288 + k) 0 = (update_root_inode img 12288 now).getD (12288 + k) 0
  checksum : superblock_checksum_ok out

/-- The images reachable from the builder: `reachable size_kib inode_count k img`
says that `img` is the image written by `k` successful runs of the adder, each on
the output of the one before, the first on an image the builder wrote for the
parameters. -/
def reachable (size_kib inode_count : Nat) : Nat → List Nat → Prop
  | 0, img => ∃ now adj, mkfs_builder.main size_kib inode_count now adj = .ok img
  | k + 1, out => ∃ img file file_name now, reachable size_kib inode_count k img ∧
      mkfs_adder.main img file file_name now = ⟨.Ok, out⟩

/-- The invariant of the images reachable in `k` insertions (`drs`, `drb`: first
block and number of blocks of the data region): inodes `1 .. k + 1` are in use,
root directory slots `0 .. k + 1` are occupied, the root inode counts them, every
inode record has as many leading non-zero direct pointers as its size needs and
zeroes after them, and every non-zero direct pointer names a block of the data
region that is marked used and that no other pointer names. -/
structure image_inv (size_kib inode_count k : Nat) (img : List Nat) (drs drb : Nat) :
    Prop where
  valid : valid_image size_kib inode_count img
  count_le : k ≤ 62
  inode_bits : ∀ p, p < 32768 → bitmap_bit img 4096 p = decide (p ≤ k)
  dir_slots : ∀ i, i < 64 → (le_read img (drs * 4096 + i * 64) 4 = 0 ↔ 2 + k ≤ i)
  root_size : le_read img (12288 + 12) 8 = 64 * (2 + k)
  root_links : le_read img (12288 + 2) 2 = 2 + k
  root_direct : ∀ j, 1 ≤ j → j < 12 → le_read img (12288 + 0 * 128 + 44 + 4 * j) 4 = 0
  slots : ∀ t, 1 ≤ t → 12288 + t * 128 + 128 ≤ drs * 4096 → ∀ j, j < 12 →
    (j < (le_read img (12288 + t * 128 + 12) 8 + 4095) / 4096 →
      le_read img (12288 + t * 128 + 44 + 4 * j) 4 ≠ 0) ∧
    ((le_read img (12288 + t * 128 + 12) 8 + 4095) / 4096 ≤ j →
      le_read img (12288 + t * 128 + 44 + 4 * j) 4 = 0)
  owned : ∀ t j, 12288 + t * 128 + 128 ≤ drs * 4096 → j < 12 →
    le_read img (12288 + t * 128 + 44 + 4 * j) 4 ≠ 0 →
    drs ≤ le_read img (12288 + t * 128 + 44 + 4 * j) 4 ∧
    le_read img (12288 + t * 128 + 44 + 4 * j) 4 < drs + drb ∧
    bitmap_bit img 8192 (le_read img (12288 + t * 128 + 44 + 4 * j) 4 - drs) = true
  unique : ∀ t j t' j', 12288 + t * 128 + 128 ≤ drs * 4096 → j < 12 →
    12288 + t' * 128 + 128 ≤ drs * 4096 → j' < 12 →
    le_read img (12288 + t * 128 + 44 + 4 * j) 4 ≠ 0 →
    le_read img (12288 + t * 128 + 44 + 4 * j) 4
      = le_read img (12288 + t' * 128 + 44 + 4 * j') 4 →
    t = t' ∧ j = j'

/-- The adder run `k` times in a row with the same file, path and time, each run on
the image the run before wrote, starting from `img`; the runs stop at the first one
that fails. -/
def insert_times (img file file_name : List Nat) (now : Nat) : Nat → Run
  | 0 => ⟨.Ok, img⟩
  | k + 1 =>
    let r := insert_times img file file_name now k
    if r.status = .Ok then mkfs_adder.main r.fs_image file file_name now else r

/-- The number of occupied slots of the directory block at offset `dir` of `img`:
the slots whose inode number is not 0. -/
def occupied_slots (img : List Nat) (dir : Nat) : Nat :=
  ((List.range 64).filter fun i => decide ((read_dirent img (dir + i * 64)).inode_no ≠ 0)).length

/-- The number of set bits among the positions `0 .. n - 1` of the bitmap at offset
`bitmap` of `mem`. -/
def count_set_bits (mem : List Nat) (bitmap n : Nat) : Nat :=
  ((List.range n).filter fun p => bitmap_bit mem bitmap p).length

/-- The fresh image for `size_kib = 180`, `inode_count = 128` with the first 128
bits of the inode bitmap and the first 40 bits of the data bitmap set: a valid image
with no free inode and no free block. -/
def full_bitmaps_image : List Nat :=
  memcpy (memcpy (builder_write 180 128 0 []) (1 * BS) (List.replicate 16 255)) (2 * BS)
    (List.replicate 5 255)

/-- The fresh image for `size_kib = 180`, `inode_count = 128` with the field
`data_region_start` of the superblock (offset 76) set to `2^32 + 7`. -/
def moved_region_image : List Nat :=
  memcpy (builder_write 180 128 0 []) 76 (le_bytes 8 4294967303)

/-- The fresh image for `size_kib = 180`, `inode_count = 128` with the field `links`
of the root inode (offset 2 of slot 0 of the inode table) set to `0xFFFF`. -/
def links_max_image : List Nat :=
  memcpy (builder_write 180 128 0 []) (3 * BS + 2) (le_bytes 2 65535)

/-! ## Theorems -/

theorem length_memcpy (src : List Nat) :
    ∀ (mem : List Nat) (off : Nat), (memcpy mem off src).length = mem.length := by
  induction src with
  | nil => intro mem off; rfl
  | cons b bs ih => intro mem off; simp [memcpy, ih]

theorem getD_set (mem : List Nat) (i j v : Nat) :
    (mem.set i v).getD j 0 = if i = j ∧ j < mem.length then v else mem.getD j 0 := by
  simp only [List.getD_eq_getElem?_getD, List.getElem?_set]
  by_cases h : i = j
  · subst h
    by_cases h2 : i < mem.length
    · simp [h2]
    · simp [h2, List.getElem?_eq_none (Nat.le_of_not_lt h2)]
  · simp [h]

theorem getD_memcpy (src : List Nat) :
    ∀ (mem : List Nat) (off j : Nat), (memcpy mem off src).getD j 0 =
      if off ≤ j ∧ j < off + src.length ∧ j < mem.length then src.getD (j - off) 0
      else mem.getD j 0 := by
  induction src with
  | nil =>
    intro mem off j
    rw [if_neg (by simp only [List.length_nil]; omega)]; rfl
  | cons b bs ih =>
    intro mem off j
    simp only [memcpy, ih, getD_set, List.length_set, List.length_cons]
    by_cases h1 : off = j
    · subst h1
      by_cases h2 : off < mem.length
      · simp [h2]
      · simp [h2]
    · by_cases h2 : off + 1 ≤ j
      · have : j - off = (j - (off + 1)) + 1 := by omega
        by_cases h3 : j < off + 1 + bs.length ∧ j < mem.length
        · rw [if_pos ⟨h2, h3⟩, if_pos ⟨by omega, by omega, h3.2⟩, this]; rfl
        · rw [if_neg (by tauto), if_neg (by omega), if_neg (by intro h; apply h3; omega)]
      · rw [if_neg (by omega), if_neg (by omega), if_neg (by omega)]

theorem length_le_bytes : ∀ (w v : Nat), (le_bytes w v).length = w := by
  intro w
  induction w with
  | zero => intro v; rfl
  | succ w ih => intro v; simp [le_bytes, ih]

theorem le_read_congr (m1 m2 : List Nat) :
    ∀ (w o1 o2 : Nat), (∀ k, k < w → m1.getD (o1 + k) 0 = m2.getD (o2 + k) 0) →
      le_read m1 o1 w = le_read m2 o2 w := by
  intro w
  induction w with
  | zero => intro o1 o2 _; rfl
  | succ w ih =>
    intro o1 o2 h
    have h0 := h 0 (Nat.succ_pos w)
    have hrest : le_read m1 (o1 + 1) w = le_read m2 (o2 + 1) w := by
      apply ih
      intro k hk
      have := h (k + 1) (Nat.succ_lt_succ hk)
      simpa [Nat.add_assoc, Nat.add_comm 1 k] using this
    simp only [le_read, hrest]
    simpa using h0

theorem le_read_le_bytes : ∀ (w v : Nat), le_read (le_bytes w v) 0 w = v % 256 ^ w := by
  intro w
  induction w with
  | zero => intro v; simp [le_read, Nat.mod_one]
  | succ w ih =>
    intro v
    have hshift : le_read (v % 256 :: le_bytes w (v / 256)) (0 + 1) w
        = le_read (le_bytes w (v / 256)) 0 w := by
      apply le_read_congr
      intro k _
      simp [Nat.add_comm 1 k]
    simp only [le_bytes, le_read, hshift, ih]
    rw [Nat.pow_succ, Nat.mul_comm (256 ^ w) 256, Nat.mod_mul]
    simp

theorem le_read_lt (mem : List Nat) :
    ∀ (w off : Nat), (∀ k, k < w → mem.getD (off + k) 0 < 256) → le_read mem off w < 256 ^ w := by
  intro w
  induction w with
  | zero => intro off _; simp [le_read]
  | succ w ih =>
    intro off h
    have h0 : mem.getD off 0 < 256 := by simpa using h 0 (Nat.succ_pos w)
    have h1 : le_read mem (off + 1) w < 256 ^ w := by
      apply ih
      intro k hk
      have := h (k + 1) (Nat.succ_lt_succ hk)
      simpa [Nat.add_assoc, Nat.add_comm 1 k] using this
    simp only [le_read, Nat.pow_succ]
    omega

theorem le_read_memcpy_of_disjoint (mem src : List Nat) (off p w : Nat)
    (h : p + w ≤ off ∨ off + src.length ≤ p) :
    le_read (memcpy mem off src) p w = le_read mem p w := by
  apply le_read_congr
  intro k hk
  rw [getD_memcpy, if_neg (by omega)]

theorem le_read_memcpy_inside (mem src : List Nat) (off p w : Nat)
    (h1 : off ≤ p) (h2 : p + w ≤ off + src.length) (h3 : off + src.length ≤ mem.length) :
    le_read (memcpy mem off src) p w = le_read src (p - off) w := by
  apply le_read_congr
  intro k hk
  rw [getD_memcpy, if_pos (by omega)]
  congr 1
  omega

theorem le_read_set_of_disjoint (mem : List Nat) (i v p w : Nat) (h : i < p ∨ p + w ≤ i) :
    le_read (mem.set i v) p w = le_read mem p w := by
  apply le_read_congr
  intro k hk
  rw [getD_set, if_neg (by omega)]

theorem le_read_append_left (a b : List Nat) (p w : Nat) (h : p + w ≤ a.length) :
    le_read (a ++ b) p w = le_read a p w := by
  apply le_read_congr
  intro k hk
  rw [List.getD_append _ _ _ _ (by omega)]

theorem le_read_append_right (a b : List Nat) (p w : Nat) (h : a.length ≤ p) :
    le_read (a ++ b) p w = le_read b (p - a.length) w := by
  apply le_read_congr
  intro k hk
  rw [List.getD_append_right _ _ _ _ (by omega)]
  congr 1
  omega

theorem le_read_le_bytes_append (w v : Nat) (rest : List Nat) :
    le_read (le_bytes w v ++ rest) 0 w = v % 256 ^ w := by
  rw [le_read_append_left _ _ _ _ (by simp [length_le_bytes]), le_read_le_bytes]

theorem and_one_shiftLeft_eq_zero (x k : Nat) : x &&& (1 <<< k) = 0 ↔ x.testBit k = false := by
  rw [Nat.one_shiftLeft, Nat.and_two_pow]
  cases h : x.testBit k
  · simp
  · simp [Nat.pos_iff_ne_zero.mp (Nat.two_pow_pos k)]

theorem find_first_free_bit_inner_spec (mem : List Nat) (bitmap byte max_items : Nat)
    (hb : byte * 8 + 8 ≤ 4294967296) (hmax : max_items < 4294967296) :
    ∀ (fuel bit : Nat), fuel + bit = 8 →
      match find_first_free_bit_inner mem bitmap byte max_items fuel bit with
      | some r => ∃ q, bit ≤ q ∧ q < 8 ∧ byte * 8 + q < max_items ∧ r = byte * 8 + q + 1 ∧
          bitmap_bit mem bitmap (byte * 8 + q) = false ∧
          ∀ q', bit ≤ q' → q' < q → bitmap_bit mem bitmap (byte * 8 + q') = true
      | none => ∀ q, bit ≤ q → q < 8 → byte * 8 + q < max_items →
          bitmap_bit mem bitmap (byte * 8 + q) = true := by
  intro fuel
  induction fuel with
  | zero =>
    intro bit h
    simp only [find_first_free_bit_inner]
    intro q h1 h2 _
    omega
  | succ fuel ih =>
    intro bit h
    have hbit : bit < 8 := by omega
    have hm1 : byte * 8 % 4294967296 = byte * 8 := Nat.mod_eq_of_lt (by omega)
    have hm2 : (byte * 8 + bit) % 4294967296 = byte * 8 + bit := Nat.mod_eq_of_lt (by omega)
    have hpos : ∀ q, q < 8 → bitmap_bit mem bitmap (byte * 8 + q)
        = (mem.getD (bitmap + byte) 0).testBit q := by
      intro q hq
      have e1 : (byte * 8 + q) / 8 = byte := by omega
      have e2 : (byte * 8 + q) % 8 = q := by omega
      simp only [bitmap_bit, e1, e2]
    simp only [find_first_free_bit_inner, hm1, hm2]
    by_cases hlt : byte * 8 + bit < max_items
    · rw [if_pos ⟨hbit, hlt⟩]
      have hm3 : (byte * 8 + bit + 1) % 4294967296 = byte * 8 + bit + 1 :=
        Nat.mod_eq_of_lt (by omega)
      rw [hm3]
      by_cases hfree : mem.getD (bitmap + byte) 0 &&& (1 <<< bit) = 0
      · rw [if_pos hfree]
        refine ⟨bit, Nat.le_refl _, hbit, hlt, rfl, ?_, ?_⟩
        · rw [hpos bit hbit]; exact (and_one_shiftLeft_eq_zero _ _).mp hfree
        · intro q' h1 h2; omega
      · rw [if_neg hfree]
        have hset : bitmap_bit mem bitmap (byte * 8 + bit) = true := by
          rw [hpos bit hbit]
          cases hx : (mem.getD (bitmap + byte) 0).testBit bit
          · exact absurd ((and_one_shiftLeft_eq_zero _ _).mpr hx) hfree
          · rfl
        have hrec := ih (bit + 1) (by omega)
        cases hres : find_first_free_bit_inner mem bitmap byte max_items fuel (bit + 1) with
        | none =>
          rw [hres] at hrec
          intro q h1 h2 h3
          by_cases hq : q = bit
          · rw [hq]; exact hset
          · exact hrec q (by omega) h2 h3
        | some r =>
          rw [hres] at hrec
          obtain ⟨q, h1, h2, h3, h4, h5, h6⟩ := hrec
          refine ⟨q, by omega, h2, h3, h4, h5, ?_⟩
          intro q' h7 h8
          by_cases hq : q' = bit
          · rw [hq]; exact hset
          · exact h6 q' (by omega) h8
    · rw [if_neg (by intro h; exact hlt h.2)]
      intro q h1 h2 h3
      omega

theorem find_first_free_bit_outer_spec (mem : List Nat) (bitmap bitmap_size max_items : Nat)
    (hmax : max_items < 4294967296) (hw : bitmap_size ≤ 536870912) :
    ∀ (fuel byte : Nat), fuel + byte = bitmap_size → byte * 8 < max_items + 8 →
      (∀ p, p < byte * 8 → p < max_items → bitmap_bit mem bitmap p = true) →
      (find_first_free_bit_outer mem bitmap bitmap_size max_items fuel byte = 0 →
        ∀ p, p < max_items → p < 8 * bitmap_size → bitmap_bit mem bitmap p = true) ∧
      (find_first_free_bit_outer mem bitmap bitmap_size max_items fuel byte ≠ 0 →
        find_first_free_bit_outer mem bitmap bitmap_size max_items fuel byte ≤ max_items ∧
        bitmap_bit mem bitmap
          (find_first_free_bit_outer mem bitmap bitmap_size max_items fuel byte - 1) = false ∧
        ∀ p, p < find_first_free_bit_outer mem bitmap bitmap_size max_items fuel byte - 1 →
          bitmap_bit mem bitmap p = true) := by
  intro fuel
  induction fuel with
  | zero =>
    intro byte h _ hinv
    simp only [find_first_free_bit_outer]
    refine ⟨fun _ p h1 h2 => hinv p (by omega) h1, fun h0 => absurd rfl h0⟩
  | succ fuel ih =>
    intro byte h hlt hinv
    have hm1 : byte * 8 % 4294967296 = byte * 8 := Nat.mod_eq_of_lt (by omega)
    simp only [find_first_free_bit_outer, hm1]
    by_cases hc : byte * 8 < max_items
    · rw [if_pos ⟨by omega, hc⟩]
      have hin := find_first_free_bit_inner_spec mem bitmap byte max_items (by omega) hmax
        8 0 rfl
      cases hres : find_first_free_bit_inner mem bitmap byte max_items 8 0 with
      | some r =>
        rw [hres] at hin
        obtain ⟨q, _, h2, h3, h4, h5, h6⟩ := hin
        simp only []
        subst h4
        refine ⟨fun h0 => absurd h0 (Nat.succ_ne_zero _), fun _ => ⟨by omega, ?_, ?_⟩⟩
        · simpa using h5
        · intro p hp
          by_cases hp2 : p < byte * 8
          · exact hinv p hp2 (by omega)
          · have hq := h6 (p - byte * 8) (Nat.zero_le _) (by omega)
            have e : byte * 8 + (p - byte * 8) = p := by omega
            rwa [e] at hq
      | none =>
        rw [hres] at hin
        simp only []
        apply ih (byte + 1) (by omega) (by omega)
        intro p hp hpm
        by_cases hp2 : p < byte * 8
        · exact hinv p hp2 hpm
        · have hq := hin (p - byte * 8) (Nat.zero_le _) (by omega) (by omega)
          have e : byte * 8 + (p - byte * 8) = p := by omega
          rwa [e] at hq
    · rw [if_neg (by intro hh; exact hc hh.2)]
      refine ⟨fun _ p h1 _ => hinv p (by omega) h1, fun h0 => absurd rfl h0⟩

/-- C10: for a capacity `max_items` that does not exceed 8 times the byte length
`bitmap_size` of the bitmap, `find_first_free_bit` returns 0 exactly when every
bit in positions `0 .. max_items - 1` is set, and otherwise returns the 1-based
position of the lowest unset bit among them: bit `r - 1` is unset and every bit
below it is set, bits being ordered byte-major and least-significant bit first.
The parameters are `uint32_t`: the capacity is below `2^32`, and the bitmap has at
most `2^29` bytes, so that `byte * 8` does not wrap. -/
theorem C10_find_first_free_bit_lowest (mem : List Nat) (bitmap bitmap_size max_items : Nat)
    (hcap : max_items ≤ 8 * bitmap_size) (hmax : max_items < 4294967296)
    (hsize : bitmap_size ≤ 536870912) :
    (find_first_free_bit mem bitmap bitmap_size max_items = 0 ↔
      ∀ p, p < max_items → bitmap_bit mem bitmap p = true) ∧
    (find_first_free_bit mem bitmap bitmap_size max_items ≠ 0 →
      1 ≤ find_first_free_bit mem bitmap bitmap_size max_items ∧
      find_first_free_bit mem bitmap bitmap_size max_items ≤ max_items ∧
      bitmap_bit mem bitmap (find_first_free_bit mem bitmap bitmap_size max_items - 1) = false ∧
      ∀ p, p < find_first_free_bit mem bitmap bitmap_size max_items - 1 →
        bitmap_bit mem bitmap p = true) := by
  have hs := find_first_free_bit_outer_spec mem bitmap bitmap_size max_items hmax hsize
    bitmap_size 0 rfl (by omega) (fun p hp _ => absurd hp (by omega))
  unfold find_first_free_bit
  refine ⟨⟨fun h0 p hp => hs.1 h0 p hp (by omega), fun hall => ?_⟩, fun hne => ?_⟩
  · by_contra hne
    obtain ⟨h1, h2, _⟩ := hs.2 hne
    have := hall _ (show find_first_free_bit_outer mem bitmap bitmap_size max_items
      bitmap_size 0 - 1 < max_items by omega)
    rw [h2] at this
    exact Bool.noConfusion this
  · obtain ⟨h1, h2, h3⟩ := hs.2 hne
    exact ⟨Nat.pos_of_ne_zero hne, h1, h2, h3⟩

theorem C10_find_first_free_bit_lowest_witness :
    (16 ≤ 8 * 2 ∧ 16 < 4294967296 ∧ 2 ≤ 536870912) ∧
    find_first_free_bit [255, 7] 0 2 16 = 12 ∧
    bitmap_bit [255, 7] 0 (find_first_free_bit [255, 7] 0 2 16 - 1) = false :=
  ⟨by decide, by decide,
    ((C10_find_first_free_bit_lowest [255, 7] 0 2 16 (by decide) (by decide) (by decide)).2
      (by decide)).2.2.1⟩

theorem getD_replicate_zero (n j : Nat) : (List.replicate n 0).getD j 0 = 0 := by
  by_cases h : j < n
  · rw [List.getD_eq_getElem _ _ (by simpa using h)]; simp
  · rw [List.getD_eq_default _ _ (by simpa using h)]

theorem getD_append_ite (a b : List Nat) (j : Nat) :
    (a ++ b).getD j 0 = if j < a.length then a.getD j 0 else b.getD (j - a.length) 0 := by
  by_cases h : j < a.length
  · rw [if_pos h, List.getD_append _ _ _ _ h]
  · rw [if_neg h, List.getD_append_right _ _ _ _ (by omega)]

theorem getD_take (l : List Nat) (n j : Nat) :
    (l.take n).getD j 0 = if j < n then l.getD j 0 else 0 := by
  simp only [List.getD_eq_getElem?_getD, List.getElem?_take]
  by_cases h : j < n
  · simp [h]
  · simp [h]

theorem getD_drop (l : List Nat) (n j : Nat) : (l.drop n).getD j 0 = l.getD (n + j) 0 := by
  simp only [List.getD_eq_getElem?_getD, List.getElem?_drop]

theorem length_write_blocks (blk : Nat → List Nat) (h : ∀ i, (blk i).length = BS) :
    ∀ (n i : Nat), (write_blocks blk n i).length = n * BS := by
  intro n
  induction n with
  | zero => intro i; simp [write_blocks]
  | succ n ih => intro i; simp only [write_blocks, List.length_append, h, ih]; ring

theorem getD_write_blocks (blk : Nat → List Nat) (h : ∀ i, (blk i).length = BS) :
    ∀ (n i j : Nat), (write_blocks blk n i).getD j 0 =
      if j < n * BS then (blk (i + j / BS)).getD (j % BS) 0 else 0 := by
  intro n
  induction n with
  | zero => intro i j; simp [write_blocks]
  | succ n ih =>
    intro i j
    simp only [write_blocks, getD_append_ite, h, ih]
    have hBS : BS = 4096 := rfl
    by_cases h1 : j < BS
    · have e1 : j / BS = 0 := Nat.div_eq_of_lt h1
      have e2 : j % BS = j := Nat.mod_eq_of_lt h1
      rw [if_pos h1, if_pos (by rw [hBS] at *; omega), e1, e2, Nat.add_zero]
    · have e1 : (j - BS) / BS + 1 = j / BS := by rw [hBS] at *; omega
      have e2 : (j - BS) % BS = j % BS := by rw [hBS] at *; omega
      rw [if_neg h1, e2, Nat.add_assoc, Nat.add_comm 1, e1]
      by_cases h2 : j - BS < n * BS
      · rw [if_pos h2, if_pos (by rw [hBS] at *; omega)]
      · rw [if_neg h2, if_neg (by rw [hBS] at *; omega)]

theorem length_inode_crc_finalize (mem : List Nat) (ino : Nat) :
    (inode_crc_finalize mem ino).length = mem.length := by
  simp [inode_crc_finalize, length_memcpy]

theorem length_dirent_checksum_finalize (mem : List Nat) (de : Nat) :
    (dirent_checksum_finalize mem de).length = mem.length := by
  simp [dirent_checksum_finalize]

theorem length_superblock_crc_finalize (mem : List Nat) (sb : Nat) :
    (superblock_crc_finalize mem sb).length = mem.length := by
  simp [superblock_crc_finalize, length_memcpy]

theorem length_superblock_bytes (sb : superblock_t) : sb.bytes.length = 116 := by
  simp [superblock_t.bytes, length_le_bytes]

theorem length_direct_bytes (direct : List Nat) :
    ∀ (n k : Nat), (direct_bytes direct n k).length = 4 * n := by
  intro n
  induction n with
  | zero => intro k; rfl
  | succ n ih => intro k; simp only [direct_bytes, List.length_append, length_le_bytes, ih]; ring

theorem length_inode_bytes (ino : inode_t) : ino.bytes.length = 128 := by
  simp [inode_t.bytes, length_le_bytes, length_direct_bytes, DIRECT_MAX]

theorem length_name_field (s : List Nat) (h : s.length ≤ 58) : (name_field s).length = 58 := by
  simp only [name_field, List.length_append, List.length_replicate]; omega

theorem length_dirent_bytes (de : dirent64_t) (h : de.name.length = 58) :
    de.bytes.length = 64 := by
  simp [dirent64_t.bytes, length_le_bytes, h]

theorem builder_main_ok (size_kib inode_count now : Nat) (adj : List Nat)
    (hv : valid_params size_kib inode_count) :
    mkfs_builder.main size_kib inode_count now adj
      = .ok (builder_write size_kib inode_count now adj) := by
  obtain ⟨h1, h2, h3, h4, h5⟩ := hv
  unfold mkfs_builder.main
  rw [if_neg (by omega), if_neg (by omega), if_neg (by omega)]
  simp only [BS, INODE_SIZE]
  rw [if_neg (by omega)]

theorem length_builder_inode_block (root : inode_t) (i : Nat) :
    (builder_inode_block root i).length = BS := by
  unfold builder_inode_block
  split <;> simp [length_memcpy]

theorem length_builder_data_block (i : Nat) : (builder_data_block i).length = BS := by
  unfold builder_data_block
  split <;> simp [length_memcpy]

theorem getD_builder_inode_block (root : inode_t) (i k : Nat) :
    (builder_inode_block root i).getD k 0 =
      if i = 0 ∧ k < 128 then (inode_crc_finalize root.bytes 0).getD k 0 else 0 := by
  unfold builder_inode_block
  by_cases hi : i = 0
  · simp only [hi, if_true, true_and, getD_memcpy, getD_replicate_zero,
      length_inode_crc_finalize, length_inode_bytes, List.length_replicate, BS]
    by_cases hk : k < 128
    · rw [if_pos (by omega), if_pos hk]; rfl
    · rw [if_neg (by omega), if_neg hk]
  · simp [hi, getD_replicate_zero]

theorem getD_builder_data_block (i k : Nat) :
    (builder_data_block i).getD k 0 =
      if i = 0 ∧ k < 64 then
        (dirent_checksum_finalize (builder_dir_entry [46]).bytes 0).getD k 0
      else if i = 0 ∧ k < 128 then
        (dirent_checksum_finalize (builder_dir_entry [46, 46]).bytes 0).getD (k - 64) 0
      else 0 := by
  unfold builder_data_block
  have hl1 : (dirent_checksum_finalize (builder_dir_entry [46]).bytes 0).length = 64 := by
    rw [length_dirent_checksum_finalize, length_dirent_bytes]; rfl
  have hl2 : (dirent_checksum_finalize (builder_dir_entry [46, 46]).bytes 0).length = 64 := by
    rw [length_dirent_checksum_finalize, length_dirent_bytes]; rfl
  by_cases hi : i = 0
  · simp only [hi, if_true, true_and, getD_memcpy, getD_replicate_zero, length_memcpy,
      hl1, hl2, List.length_replicate, BS]
    by_cases hk : k < 64
    · rw [if_neg (by omega), if_pos (by omega), if_pos hk]; rfl
    · rw [if_neg hk]
      by_cases hk2 : k < 128
      · rw [if_pos (by omega), if_pos hk2]
      · rw [if_neg (by omega), if_neg (by omega), if_neg hk2]
  · simp [hi, getD_replicate_zero]

theorem length_write_inode_blocks (root : inode_t) (n i : Nat) :
    (write_blocks (builder_inode_block root) n i).length = n * BS :=
  length_write_blocks _ (length_builder_inode_block root) n i

theorem length_write_data_blocks (n i : Nat) :
    (write_blocks builder_data_block n i).length = n * BS :=
  length_write_blocks _ length_builder_data_block n i

theorem getD_write_inode_blocks (root : inode_t) (n j : Nat) :
    (write_blocks (builder_inode_block root) n 0).getD j 0 =
      if j < n * BS ∧ j < 128 then (inode_crc_finalize root.bytes 0).getD j 0 else 0 := by
  rw [getD_write_blocks _ (length_builder_inode_block root), getD_builder_inode_block]
  have hBS : BS = 4096 := rfl
  rw [hBS]
  by_cases h1 : j < 128
  · have e2 : j % 4096 = j := by omega
    have e1 : 0 + j / 4096 = 0 := by omega
    rw [e1, e2]
    by_cases h2 : j < n * 4096
    · rw [if_pos h2, if_pos ⟨rfl, h1⟩, if_pos ⟨h2, h1⟩]
    · rw [if_neg h2, if_neg (fun h => h2 h.1)]
  · by_cases h2 : j < n * 4096
    · rw [if_pos h2, if_neg (by omega), if_neg (fun h => h1 h.2)]
    · rw [if_neg h2, if_neg (fun h => h2 h.1)]

theorem getD_write_data_blocks (n j : Nat) :
    (write_blocks builder_data_block n 0).getD j 0 =
      if j < n * BS ∧ j < 64 then
        (dirent_checksum_finalize (builder_dir_entry [46]).bytes 0).getD j 0
      else if j < n * BS ∧ j < 128 then
        (dirent_checksum_finalize (builder_dir_entry [46, 46]).bytes 0).getD (j - 64) 0
      else 0 := by
  rw [getD_write_blocks _ length_builder_data_block, getD_builder_data_block]
  have hBS : BS = 4096 := rfl
  rw [hBS]
  by_cases h2 : j < n * 4096
  · rw [if_pos h2]
    by_cases h1 : j < 128
    · have e2 : j % 4096 = j := by omega
      have e1 : 0 + j / 4096 = 0 := by omega
      rw [e1, e2]
      simp only [h2, true_and]
    · rw [if_neg (by omega), if_neg (by omega), if_neg (by omega), if_neg (by omega)]
  · rw [if_neg h2, if_neg (fun h => h2 h.1), if_neg (fun h => h2 h.1)]

theorem length_builder_write (size_kib inode_count now : Nat) (adj : List Nat)
    (hv : valid_params size_kib inode_count) :
    (builder_write size_kib inode_count now adj).length = size_kib * 1024 := by
  obtain ⟨h1, h2, h3, h4, h5⟩ := hv
  unfold builder_write
  simp only [List.length_append, length_memcpy, List.length_replicate, List.length_set,
    length_write_inode_blocks, length_write_data_blocks, BS, INODE_SIZE]
  omega

/-- Byte `j` of a freshly built image, region by region. -/
theorem getD_builder_write (size_kib inode_count now : Nat) (adj : List Nat) (j : Nat) :
    (builder_write size_kib inode_count now adj).getD j 0 =
      if j < 4096 then
        if j < 116 then
          (superblock_crc_finalize
            ((builder_superblock size_kib inode_count now).bytes ++ adj) 0).getD j 0
        else 0
      else if j < 8192 then (if j = 4096 then 1 else 0)
      else if j < 12288 then (if j = 8192 then 1 else 0)
      else if j < 12288 + (inode_count * 128 + 4096 - 1) / 4096 * 4096 then
        if j < 12288 + 128 then
          (inode_crc_finalize
            (builder_root_inode (builder_superblock size_kib inode_count now)).bytes 0).getD
              (j - 12288) 0
        else 0
      else
        (write_blocks builder_data_block
          (size_kib * 1024 / 4096 - (1 + 1 + 1 + (inode_count * 128 + 4096 - 1) / 4096)) 0).getD
            (j - (12288 + (inode_count * 128 + 4096 - 1) / 4096 * 4096)) 0 := by
  unfold builder_write
  simp only [getD_append_ite, List.length_append, length_memcpy, List.length_replicate,
    List.length_set, length_write_inode_blocks, getD_memcpy, getD_set, getD_replicate_zero,
    getD_write_inode_blocks, getD_take, List.length_take, length_superblock_crc_finalize,
    length_superblock_bytes, BS, INODE_SIZE, Nat.sub_zero, Nat.zero_add, Nat.zero_le, true_and]
  split_ifs <;> first | omega | with_reducible rfl

/-- Bytes of a buffer after `superblock_crc_finalize` at offset 0: only the
checksum field changes. -/
theorem getD_superblock_crc_finalize (mem : List Nat) (j : Nat) (h : 116 ≤ mem.length) :
    (superblock_crc_finalize mem 0).getD j 0 =
      if 112 ≤ j ∧ j < 116 then
        (le_bytes 4 (crc32 ((memcpy mem (0 + 112) (le_bytes 4 0)).drop 0) (BS - 4))).getD
          (j - 112) 0
      else mem.getD j 0 := by
  unfold superblock_crc_finalize
  simp only [getD_memcpy, length_memcpy, length_le_bytes, Nat.zero_add]
  by_cases h1 : 112 ≤ j ∧ j < 116
  · rw [if_pos (by omega), if_pos h1]
  · rw [if_neg (by omega), if_neg (by omega), if_neg h1]

theorem getD_superblock_crc_finalize_of_lt (mem : List Nat) (j : Nat) (h : 116 ≤ mem.length)
    (hj : j < 112) : (superblock_crc_finalize mem 0).getD j 0 = mem.getD j 0 := by
  rw [getD_superblock_crc_finalize mem j h, if_neg (by omega)]

theorem getD_superblock_crc_finalize_of_ge (mem : List Nat) (j : Nat) (h : 116 ≤ mem.length)
    (hj : 116 ≤ j) : (superblock_crc_finalize mem 0).getD j 0 = mem.getD j 0 := by
  rw [getD_superblock_crc_finalize mem j h, if_neg (by omega)]

/-- The fields of a fresh image before the checksum read back as the builder set
them. -/
theorem le_read_builder_write_superblock (size_kib inode_count now : Nat) (adj : List Nat)
    (p w : Nat) (h : p + w ≤ 112) :
    le_read (builder_write size_kib inode_count now adj) p w
      = le_read (builder_superblock size_kib inode_count now).bytes p w := by
  apply le_read_congr
  intro k hk
  rw [getD_builder_write, if_pos (by omega), if_pos (by omega),
    getD_superblock_crc_finalize_of_lt _ _ (by simp [length_superblock_bytes]) (by omega),
    List.getD_append _ _ _ _ (by rw [length_superblock_bytes]; omega)]

theorem read_superblock_builder_write (size_kib inode_count now : Nat) (adj : List Nat)
    (hv : valid_params size_kib inode_count) :
    read_superblock (builder_write size_kib inode_count now adj) 0 =
      { builder_superblock size_kib inode_count (now % 18446744073709551616) with
        checksum := le_read (builder_write size_kib inode_count now adj) 112 4 } := by
  obtain ⟨h1, h2, h3, h4, h5⟩ := hv
  simp only [read_superblock, Nat.zero_add]
  rw [le_read_builder_write_superblock _ _ _ _ 0 4 (by omega),
    le_read_builder_write_superblock _ _ _ _ 4 4 (by omega),
    le_read_builder_write_superblock _ _ _ _ 8 4 (by omega),
    le_read_builder_write_superblock _ _ _ _ 12 8 (by omega),
    le_read_builder_write_superblock _ _ _ _ 20 8 (by omega),
    le_read_builder_write_superblock _ _ _ _ 28 8 (by omega),
    le_read_builder_write_superblock _ _ _ _ 36 8 (by omega),
    le_read_builder_write_superblock _ _ _ _ 44 8 (by omega),
    le_read_builder_write_superblock _ _ _ _ 52 8 (by omega),
    le_read_builder_write_superblock _ _ _ _ 60 8 (by omega),
    le_read_builder_write_superblock _ _ _ _ 68 8 (by omega),
    le_read_builder_write_superblock _ _ _ _ 76 8 (by omega),
    le_read_builder_write_superblock _ _ _ _ 84 8 (by omega),
    le_read_builder_write_superblock _ _ _ _ 92 8 (by omega),
    le_read_builder_write_superblock _ _ _ _ 100 8 (by omega),
    le_read_builder_write_superblock _ _ _ _ 108 4 (by omega)]
  simp [superblock_t.bytes, le_read_append_left, le_read_append_right, le_read_le_bytes,
    length_le_bytes, builder_superblock, BS, INODE_SIZE, ROOT_INO]
  refine ⟨?_, ?_, ?_, ?_, ?_⟩ <;> omega

theorem testBit_or_one_shiftLeft (x k t : Nat) :
    (x ||| (1 <<< k)).testBit t = (x.testBit t || decide (t = k)) := by
  rw [Nat.testBit_or, Nat.one_shiftLeft, Nat.testBit_two_pow]
  by_cases h : k = t
  · subst h; simp
  · have h2 : ¬ t = k := fun e => h e.symm
    simp [h, h2]

theorem getD_set_bit (mem : List Nat) (bitmap bit_index a : Nat) :
    (set_bit mem bitmap bit_index).getD a 0 =
      if bitmap + (bit_index + 4294967296 - 1) % 4294967296 / 8 = a ∧ a < mem.length then
        mem.getD a 0 ||| (1 <<< ((bit_index + 4294967296 - 1) % 4294967296 % 8))
      else mem.getD a 0 := by
  unfold set_bit
  simp only [getD_set]
  by_cases h : bitmap + (bit_index + 4294967296 - 1) % 4294967296 / 8 = a ∧ a < mem.length
  · rw [if_pos h, if_pos h, h.1]
  · rw [if_neg h, if_neg h]

theorem length_set_bit (mem : List Nat) (bitmap bit_index : Nat) :
    (set_bit mem bitmap bit_index).length = mem.length := by
  simp [set_bit]

/-- Setting bit `bit_index` (1-based) sets exactly bit `bit_index - 1` of the
bitmap and keeps every other bit, when the byte lies in the buffer. -/
theorem bitmap_bit_set_bit (mem : List Nat) (bitmap bit_index pos : Nat)
    (h1 : 1 ≤ bit_index) (h2 : bit_index < 4294967296)
    (hin : bitmap + (bit_index - 1) / 8 < mem.length) :
    bitmap_bit (set_bit mem bitmap bit_index) bitmap pos
      = (bitmap_bit mem bitmap pos || decide (pos = bit_index - 1)) := by
  have e : (bit_index + 4294967296 - 1) % 4294967296 = bit_index - 1 := by omega
  simp only [bitmap_bit, getD_set_bit, e]
  by_cases hb : (bit_index - 1) / 8 = pos / 8
  · rw [if_pos ⟨by omega, by omega⟩, testBit_or_one_shiftLeft]
    by_cases hp : pos = bit_index - 1
    · subst hp; simp
    · have : ¬ pos % 8 = (bit_index - 1) % 8 := by omega
      simp [hp, this]
  · rw [if_neg (by omega)]
    have hp : ¬ pos = bit_index - 1 := fun e => hb (by rw [e])
    simp [hp]

/-- Bits of the inode bitmap of a fresh image: only bit 0 is set. -/
theorem bitmap_bit_builder_write_inode (size_kib inode_count now : Nat) (adj : List Nat)
    (pos : Nat) (hp : pos < 32768) :
    bitmap_bit (builder_write size_kib inode_count now adj) 4096 pos = decide (pos = 0) := by
  simp only [bitmap_bit, getD_builder_write]
  rw [if_neg (by omega), if_pos (by omega)]
  by_cases h0 : pos = 0
  · subst h0; simp
  · by_cases h1 : pos / 8 = 0
    · have h2 : pos % 8 ≠ 0 := by omega
      have h3 : pos % 8 < 8 := Nat.mod_lt _ (by decide)
      rw [h1, if_pos rfl]
      simp only [h0, decide_False]
      interval_cases (pos % 8) <;> first | exact absurd rfl h2 | decide
    · rw [if_neg (by omega)]
      simp [h0]

/-- Bits of the data bitmap of a fresh image: only bit 0 is set. -/
theorem bitmap_bit_builder_write_data (size_kib inode_count now : Nat) (adj : List Nat)
    (pos : Nat) (hp : pos < 32768) :
    bitmap_bit (builder_write size_kib inode_count now adj) 8192 pos = decide (pos = 0) := by
  simp only [bitmap_bit, getD_builder_write]
  rw [if_neg (by omega), if_neg (by omega), if_pos (by omega)]
  by_cases h0 : pos = 0
  · subst h0; simp
  · by_cases h1 : pos / 8 = 0
    · have h2 : pos % 8 ≠ 0 := by omega
      have h3 : pos % 8 < 8 := Nat.mod_lt _ (by decide)
      rw [h1, if_pos rfl]
      simp only [h0, decide_False]
      interval_cases (pos % 8) <;> first | exact absurd rfl h2 | decide
    · rw [if_neg (by omega)]
      simp [h0]

/-- When bit `p` is the lowest unset bit of the bitmap and lies below the capacity,
`find_first_free_bit` returns `p + 1`. -/
theorem find_first_free_bit_eq (mem : List Nat) (bitmap bitmap_size max_items p : Nat)
    (hcap : max_items ≤ 8 * bitmap_size) (hmax : max_items < 4294967296)
    (hw : bitmap_size ≤ 536870912) (hp : p < max_items) (hfree : bitmap_bit mem bitmap p = false)
    (hused : ∀ q, q < p → bitmap_bit mem bitmap q = true) :
    find_first_free_bit mem bitmap bitmap_size max_items = p + 1 := by
  have hs := find_first_free_bit_outer_spec mem bitmap bitmap_size max_items hmax hw
    bitmap_size 0 rfl (by omega) (fun q hq _ => absurd hq (by omega))
  unfold find_first_free_bit
  have hne : find_first_free_bit_outer mem bitmap bitmap_size max_items bitmap_size 0 ≠ 0 := by
    intro h0
    have := hs.1 h0 p hp (by omega)
    rw [hfree] at this
    exact Bool.noConfusion this
  obtain ⟨_, h2, h3⟩ := hs.2 hne
  by_contra hcon
  rcases Nat.lt_or_gt_of_ne hcon with hlt | hgt
  · have := hused _ (show find_first_free_bit_outer mem bitmap bitmap_size max_items
      bitmap_size 0 - 1 < p by omega)
    rw [h2] at this
    exact Bool.noConfusion this
  · have := h3 p (by omega)
    rw [hfree] at this
    exact Bool.noConfusion this

theorem find_first_free_bit_builder_write (size_kib inode_count now : Nat) (adj : List Nat)
    (hv : valid_params size_kib inode_count) :
    find_first_free_bit (builder_write size_kib inode_count now adj) 4096 BS
      (inode_count % 4294967296) = 2 := by
  obtain ⟨h1, h2, h3, h4, h5⟩ := hv
  have e : inode_count % 4294967296 = inode_count := by omega
  rw [e]
  apply find_first_free_bit_eq _ _ _ _ 1 (by simp only [BS]; omega) (by omega)
    (by simp only [BS]; omega) (by omega)
  · rw [bitmap_bit_builder_write_inode _ _ _ _ _ (by omega)]; rfl
  · intro q hq
    rw [bitmap_bit_builder_write_inode _ _ _ _ _ (by omega)]
    simp; omega

/-- A run of `m` free units starting at unit `i`: the scan collects them all. -/
theorem alloc_loop_run (mem : List Nat) (data_bitmap drs drb bn : Nat) :
    ∀ (m fuel i : Nat) (found : List Nat), 1 ≤ i → i + m < 4294967296 →
      found.length + m = bn → i + m ≤ drb + 1 → m < fuel →
      (∀ t, t < m → bitmap_bit mem data_bitmap (i - 1 + t) = false) →
      alloc_loop mem data_bitmap drs drb bn fuel i found =
        some (found ++ (List.range' i m).map fun u =>
          (drs + u + 18446744073709551616 - 1) % 18446744073709551616 % 4294967296) := by
  intro m
  induction m with
  | zero =>
    intro fuel i found _ _ hlen _ hfuel _
    obtain ⟨f, rfl⟩ : ∃ f, fuel = f + 1 := ⟨fuel - 1, by omega⟩
    simp only [alloc_loop]
    rw [if_neg (by omega)]
    simp
  | succ m ih =>
    intro fuel i found hi hlt hlen hdrb hfuel hfree
    obtain ⟨f, rfl⟩ : ∃ f, fuel = f + 1 := ⟨fuel - 1, by omega⟩
    have e : (i + 4294967296 - 1) % 4294967296 = i - 1 := by omega
    have e2 : (i + 1) % 4294967296 = i + 1 := by omega
    have hbit : mem.getD (data_bitmap + (i - 1) / 8) 0 &&& (1 <<< ((i - 1) % 8)) = 0 := by
      rw [and_one_shiftLeft_eq_zero]
      have := hfree 0 (Nat.succ_pos m)
      simpa [bitmap_bit] using this
    simp only [alloc_loop, e, e2]
    rw [if_pos ⟨by omega, by omega⟩, if_pos hbit]
    rw [ih f (i + 1) _ (by omega) (by omega) (by simp; omega) (by omega) (by omega)]
    · rw [List.range'_succ, List.map_cons, List.append_assoc]
      rfl
    · intro t ht
      have := hfree (t + 1) (by omega)
      have e3 : i + 1 - 1 + t = i - 1 + (t + 1) := by omega
      rw [e3]; exact this

theorem map_range'_block (drs : Nat) :
    ∀ (m i : Nat), 1 ≤ i → drs + i + m < 4294967296 →
      ((List.range' i m).map fun u =>
        (drs + u + 18446744073709551616 - 1) % 18446744073709551616 % 4294967296)
        = List.range' (drs + i - 1) m := by
  intro m
  induction m with
  | zero => intro i _ _; rfl
  | succ m ih =>
    intro i hi hlt
    rw [List.range'_succ, List.map_cons, ih (i + 1) (by omega) (by omega), List.range'_succ]
    have e1 : (drs + i + 18446744073709551616 - 1) % 18446744073709551616 % 4294967296
        = drs + i - 1 := by omega
    have e2 : drs + (i + 1) - 1 = drs + i - 1 + 1 := by omega
    rw [e1, e2]

theorem alloc_loop_succ (mem : List Nat) (data_bitmap drs drb bn fuel i : Nat)
    (found : List Nat) :
    alloc_loop mem data_bitmap drs drb bn (fuel + 1) i found =
      if i ≤ drb ∧ found.length < bn then
        if mem.getD (data_bitmap + (i + 4294967296 - 1) % 4294967296 / 8) 0
            &&& (1 <<< ((i + 4294967296 - 1) % 4294967296 % 8)) = 0 then
          alloc_loop mem data_bitmap drs drb bn fuel ((i + 1) % 4294967296)
            (found ++ [(drs + i + 18446744073709551616 - 1)
              % 18446744073709551616 % 4294967296])
        else alloc_loop mem data_bitmap drs drb bn fuel ((i + 1) % 4294967296) found
      else some found := by
  simp only [alloc_loop]

/-- On a fresh image the scan of the data bitmap skips unit 1 (the root directory
block) and takes the next `bn` units: blocks `drs + 1, .., drs + bn`. -/
theorem alloc_loop_builder_write (size_kib inode_count now : Nat) (adj : List Nat) (bn : Nat)
    (hv : valid_params size_kib inode_count) (hbn : bn ≤ 12) :
    alloc_loop (builder_write size_kib inode_count now adj) 8192
      (3 + (inode_count * 128 + 4096 - 1) / 4096)
      (size_kib * 1024 / 4096 - (1 + 1 + 1 + (inode_count * 128 + 4096 - 1) / 4096))
      bn alloc_fuel 1 []
      = some (List.range' (3 + (inode_count * 128 + 4096 - 1) / 4096 + 1) bn) := by
  obtain ⟨h1, h2, h3, h4, h5⟩ := hv
  have hf : alloc_fuel = 55834574847 + 1 := by decide
  rw [hf]
  by_cases h0 : bn = 0
  · subst h0
    rw [alloc_loop_succ, if_neg (by simp)]
    rfl
  · have hused : ¬ ((builder_write size_kib inode_count now adj).getD (8192 + 0 / 8) 0
        &&& (1 <<< (0 % 8)) = 0) := by
      rw [and_one_shiftLeft_eq_zero]
      have := bitmap_bit_builder_write_data size_kib inode_count now adj 0 (by omega)
      simp only [bitmap_bit] at this
      rw [this]; simp
    have e : (1 + 4294967296 - 1) % 4294967296 = 0 := by decide
    have e2 : (1 + 1) % 4294967296 = 2 := by decide
    rw [alloc_loop_succ, e, e2, if_pos ⟨by omega, by simp only [List.length_nil]; omega⟩,
      if_neg hused]
    rw [alloc_loop_run _ _ _ _ _ bn 55834574847 2 [] (by omega) (by omega) (by simp)
      (by omega) (by omega)]
    · rw [map_range'_block _ _ _ (by omega) (by omega)]
      simp
    · intro t ht
      rw [bitmap_bit_builder_write_data _ _ _ _ _ (by omega)]
      simp

theorem length_block_data (file : List Nat) (bn i : Nat) :
    (block_data file bn i).length = BS := by
  simp [block_data, length_memcpy]

theorem length_copy_blocks (file : List Nat) (bn : Nat) (dbs : List Nat) :
    ∀ (k : Nat) (mem : List Nat),
      ((List.range k).foldl (copy_block file bn dbs) mem).length = mem.length := by
  intro k
  induction k with
  | zero => intro mem; rfl
  | succ k ih =>
    intro mem
    rw [List.range_succ, List.foldl_append, List.foldl_cons, List.foldl_nil]
    simp only [copy_block, length_memcpy, ih]

/-- A byte outside every block written by the copy loop keeps its value. -/
theorem getD_copy_blocks_of_out (file : List Nat) (bn : Nat) (dbs mem : List Nat) (j : Nat) :
    ∀ (k : Nat), (∀ i, i < k → j < dbs.getD i 0 * BS % 4294967296 ∨
        dbs.getD i 0 * BS % 4294967296 + BS ≤ j) →
      ((List.range k).foldl (copy_block file bn dbs) mem).getD j 0 = mem.getD j 0 := by
  intro k
  induction k with
  | zero => intro _; rfl
  | succ k ih =>
    intro h
    rw [List.range_succ, List.foldl_append, List.foldl_cons, List.foldl_nil]
    simp only [copy_block, getD_memcpy, length_block_data]
    rw [if_neg (by have := h k (Nat.lt_succ_self k); omega)]
    exact ih (fun i hi => h i (Nat.lt_succ_of_lt hi))

/-- A byte of block `i` that no later round overwrites holds the file data. -/
theorem getD_copy_blocks_of_in (file : List Nat) (bn : Nat) (dbs mem : List Nat) (i j : Nat)
    (h1 : dbs.getD i 0 * BS % 4294967296 ≤ j) (h2 : j < dbs.getD i 0 * BS % 4294967296 + BS)
    (h3 : j < mem.length) :
    ∀ (k : Nat), i < k →
      (∀ i', i < i' → i' < k → j < dbs.getD i' 0 * BS % 4294967296 ∨
        dbs.getD i' 0 * BS % 4294967296 + BS ≤ j) →
      ((List.range k).foldl (copy_block file bn dbs) mem).getD j 0
        = (block_data file bn i).getD (j - dbs.getD i 0 * BS % 4294967296) 0 := by
  intro k
  induction k with
  | zero => intro h; omega
  | succ k ih =>
    intro hik h
    rw [List.range_succ, List.foldl_append, List.foldl_cons, List.foldl_nil]
    simp only [copy_block, getD_memcpy, length_block_data, length_copy_blocks]
    by_cases hk : i = k
    · subst hk
      rw [if_pos ⟨h1, h2, h3⟩]
    · have hlt : i < k := by omega
      rw [if_neg (by have := h k hlt (Nat.lt_succ_self k); omega)]
      exact ih hlt (fun i' hi1 hi2 => h i' hi1 (Nat.lt_succ_of_lt hi2))

theorem length_mark_blocks (db drs : Nat) (dbs : List Nat) :
    ∀ (k : Nat) (mem : List Nat),
      ((List.range k).foldl (mark_block db drs dbs) mem).length = mem.length := by
  intro k
  induction k with
  | zero => intro mem; rfl
  | succ k ih =>
    intro mem
    rw [List.range_succ, List.foldl_append, List.foldl_cons, List.foldl_nil]
    simp only [mark_block, length_set_bit, ih]

/-- A byte that holds none of the marked bits keeps its value. -/
theorem getD_mark_blocks_of_out (db drs : Nat) (dbs mem : List Nat) (a : Nat) :
    ∀ (k : Nat), (∀ i, i < k → db + (((dbs.getD i 0 + 18446744073709551616 - drs + 1)
        % 18446744073709551616 % 4294967296) + 4294967296 - 1) % 4294967296 / 8 ≠ a) →
      ((List.range k).foldl (mark_block db drs dbs) mem).getD a 0 = mem.getD a 0 := by
  intro k
  induction k with
  | zero => intro _; rfl
  | succ k ih =>
    intro h
    rw [List.range_succ, List.foldl_append, List.foldl_cons, List.foldl_nil]
    simp only [mark_block, getD_set_bit]
    rw [if_neg (fun hh => h k (Nat.lt_succ_self k) hh.1)]
    exact ih (fun i hi => h i (Nat.lt_succ_of_lt hi))

/-- Bits of the data bitmap after the marking loop: the old ones and the marked
ones. -/
theorem bitmap_bit_mark_blocks (db drs : Nat) (dbs mem : List Nat) (pos : Nat) :
    ∀ (k : Nat), (∀ i, i < k →
        1 ≤ (dbs.getD i 0 + 18446744073709551616 - drs + 1) % 18446744073709551616 % 4294967296 ∧
        db + ((dbs.getD i 0 + 18446744073709551616 - drs + 1)
          % 18446744073709551616 % 4294967296 - 1) / 8 < mem.length) →
      (bitmap_bit ((List.range k).foldl (mark_block db drs dbs) mem) db pos = true ↔
        bitmap_bit mem db pos = true ∨ ∃ i, i < k ∧
          pos = (dbs.getD i 0 + 18446744073709551616 - drs + 1)
            % 18446744073709551616 % 4294967296 - 1) := by
  intro k
  induction k with
  | zero => intro _; simp
  | succ k ih =>
    intro h
    rw [List.range_succ, List.foldl_append, List.foldl_cons, List.foldl_nil]
    simp only [mark_block]
    have hk := h k (Nat.lt_succ_self k)
    rw [bitmap_bit_set_bit _ _ _ _ hk.1 (Nat.mod_lt _ (by decide))
      (by rw [length_mark_blocks]; exact hk.2)]
    rw [Bool.or_eq_true, ih (fun i hi => h i (Nat.lt_succ_of_lt hi)), decide_eq_true_eq]
    constructor
    · rintro (h1 | h1)
      · rcases h1 with h1 | ⟨i, hi, h1⟩
        · exact Or.inl h1
        · exact Or.inr ⟨i, Nat.lt_succ_of_lt hi, h1⟩
      · exact Or.inr ⟨k, Nat.lt_succ_self k, h1⟩
    · rintro (h1 | ⟨i, hi, h1⟩)
      · exact Or.inl (Or.inl h1)
      · by_cases hik : i = k
        · subst hik; exact Or.inr h1
        · exact Or.inl (Or.inr ⟨i, by omega, h1⟩)

theorem length_adder_store (sb : superblock_t) (img file : List Nat) (now bn ino : Nat)
    (dbs : List Nat) : (adder_store sb img file now bn ino dbs).length = img.length := by
  simp only [adder_store, length_memcpy, length_mark_blocks, length_set_bit, length_copy_blocks]

/-- The inode slot after `adder_store`: the finalized bytes of `new_inode`. -/
theorem getD_adder_store_slot (sb : superblock_t) (img file : List Nat) (now bn ino : Nat)
    (dbs : List Nat) (k : Nat) (hit : sb.inode_table_start = 3) (h1 : 1 ≤ ino)
    (h2 : ino ≤ 32768) (hk : k < 128) (hlen : 12288 + ino * 128 ≤ img.length) :
    (adder_store sb img file now bn ino dbs).getD (12288 + (ino - 1) * 128 + k) 0
      = (inode_crc_finalize (adder_new_inode file.length now bn dbs).bytes 0).getD k 0 := by
  have e : (ino + 4294967296 - 1) % 4294967296 * 128 % 4294967296 = (ino - 1) * 128 := by omega
  simp only [adder_store, hit, getD_memcpy, length_mark_blocks, length_set_bit,
    length_copy_blocks, length_inode_crc_finalize, length_inode_bytes, BS, INODE_SIZE, e]
  have hc : 3 * 4096 % 18446744073709551616 + (ino - 1) * 128 ≤ 12288 + (ino - 1) * 128 + k ∧
      12288 + (ino - 1) * 128 + k < 3 * 4096 % 18446744073709551616 + (ino - 1) * 128 + 128 ∧
      12288 + (ino - 1) * 128 + k < img.length := by omega
  have e5 : 12288 + (ino - 1) * 128 + k
      - (3 * 4096 % 18446744073709551616 + (ino - 1) * 128) = k := by omega
  rw [if_pos hc, e5]

/-- Frame of `adder_store`: a byte outside the inode slot, outside the blocks
written, and outside the bitmap bytes touched keeps its value. -/
theorem getD_adder_store_of_out (sb : superblock_t) (img file : List Nat) (now bn ino : Nat)
    (dbs : List Nat) (j : Nat)
    (hslot : j < sb.inode_table_start * BS % 18446744073709551616
        + (ino + 4294967296 - 1) % 4294967296 * INODE_SIZE % 4294967296 ∨
      sb.inode_table_start * BS % 18446744073709551616
        + (ino + 4294967296 - 1) % 4294967296 * INODE_SIZE % 4294967296 + 128 ≤ j)
    (hib : sb.inode_bitmap_start * BS % 18446744073709551616
      + (ino + 4294967296 - 1) % 4294967296 / 8 ≠ j)
    (hdb : ∀ i, i < bn → sb.data_bitmap_start * BS % 18446744073709551616
      + (((dbs.getD i 0 + 18446744073709551616 - sb.data_region_start + 1)
        % 18446744073709551616 % 4294967296) + 4294967296 - 1) % 4294967296 / 8 ≠ j)
    (hblk : ∀ i, i < bn → j < dbs.getD i 0 * BS % 4294967296 ∨
        dbs.getD i 0 * BS % 4294967296 + BS ≤ j) :
    (adder_store sb img file now bn ino dbs).getD j 0 = img.getD j 0 := by
  simp only [adder_store, getD_memcpy, length_inode_crc_finalize, length_inode_bytes]
  rw [if_neg (by omega), getD_mark_blocks_of_out _ _ _ _ _ _ hdb, getD_set_bit,
    if_neg (fun h => hib h.1), getD_copy_blocks_of_out _ _ _ _ _ _ hblk]

/-- Frame of `adder_store` for the layout of the builder (bitmaps in blocks 1 and
2, inode table from block 3): bytes outside the bitmaps, the inode slot and the
blocks written keep their value. -/
theorem getD_adder_store_layout (sb : superblock_t) (img file : List Nat) (now bn ino : Nat)
    (dbs : List Nat) (j : Nat)
    (hib : sb.inode_bitmap_start = 1) (hdb : sb.data_bitmap_start = 2)
    (hit : sb.inode_table_start = 3)
    (h1 : 1 ≤ ino) (h2 : ino ≤ 32768)
    (hd : ∀ i, i < bn → sb.data_region_start ≤ dbs.getD i 0 ∧
      dbs.getD i 0 < sb.data_region_start + 32768)
    (hdrs : sb.data_region_start + 32768 ≤ 1048576)
    (hj : j < 4096 ∨ 12288 ≤ j)
    (hslot : j < 12288 + (ino - 1) * 128 ∨ 12288 + (ino - 1) * 128 + 128 ≤ j)
    (hblk : ∀ i, i < bn → j < dbs.getD i 0 * 4096 ∨ dbs.getD i 0 * 4096 + 4096 ≤ j) :
    (adder_store sb img file now bn ino dbs).getD j 0 = img.getD j 0 := by
  apply getD_adder_store_of_out
  · rw [hit]; simp only [BS, INODE_SIZE]; omega
  · rw [hib]; simp only [BS]; omega
  · intro i hi
    have := hd i hi
    rw [hdb]; simp only [BS]; omega
  · intro i hi
    have := hd i hi
    have := hblk i hi
    simp only [BS]; omega

/-- Bits of the inode bitmap after `adder_store`: the old ones and bit `ino - 1`. -/
theorem bitmap_bit_adder_store_inode (sb : superblock_t) (img file : List Nat)
    (now bn ino : Nat) (dbs : List Nat) (pos : Nat)
    (hib : sb.inode_bitmap_start = 1) (hdb : sb.data_bitmap_start = 2)
    (hit : sb.inode_table_start = 3)
    (h1 : 1 ≤ ino) (h2 : ino ≤ 32768) (hpos : pos < 32768)
    (hd : ∀ i, i < bn → sb.data_region_start ≤ dbs.getD i 0 ∧
      dbs.getD i 0 < sb.data_region_start + 32768)
    (hdrs : 3 ≤ sb.data_region_start) (hdrs2 : sb.data_region_start + 32768 ≤ 1048576)
    (hlen : 8192 ≤ img.length) :
    bitmap_bit (adder_store sb img file now bn ino dbs) 4096 pos
      = (bitmap_bit img 4096 pos || decide (pos = ino - 1)) := by
  have hcopy : ∀ a, a < 12288 →
      ((List.range bn).foldl (copy_block file bn dbs) img).getD a 0 = img.getD a 0 := by
    intro a ha
    apply getD_copy_blocks_of_out
    intro i hi
    have := hd i hi
    simp only [BS]; omega
  have hstore : ∀ a, 4096 ≤ a → a < 8192 → (adder_store sb img file now bn ino dbs).getD a 0
      = (set_bit ((List.range bn).foldl (copy_block file bn dbs) img) 4096 ino).getD a 0 := by
    intro a ha1 ha2
    simp only [adder_store, getD_memcpy, length_inode_crc_finalize, length_inode_bytes, hit,
      hdb, hib, BS, INODE_SIZE]
    rw [if_neg (by omega), getD_mark_blocks_of_out]
    · intro i hi
      have := hd i hi
      omega
  have hbs := bitmap_bit_set_bit ((List.range bn).foldl (copy_block file bn dbs) img)
    4096 ino pos h1 (by omega) (by rw [length_copy_blocks]; omega)
  simp only [bitmap_bit] at hbs ⊢
  rw [hstore _ (by omega) (by omega), hbs, hcopy _ (by omega)]

/-- Bits of the data bitmap after `adder_store`: the old ones and those of the
blocks `dbs`. -/
theorem bitmap_bit_adder_store_data (sb : superblock_t) (img file : List Nat)
    (now bn ino : Nat) (dbs : List Nat) (pos : Nat)
    (hib : sb.inode_bitmap_start = 1) (hdb : sb.data_bitmap_start = 2)
    (hit : sb.inode_table_start = 3)
    (h1 : 1 ≤ ino) (h2 : ino ≤ 32768) (hpos : pos < 32768)
    (hd : ∀ i, i < bn → sb.data_region_start ≤ dbs.getD i 0 ∧
      dbs.getD i 0 < sb.data_region_start + 32768)
    (hdrs : 3 ≤ sb.data_region_start) (hdrs2 : sb.data_region_start + 32768 ≤ 1048576)
    (hlen : 12288 ≤ img.length) :
    (bitmap_bit (adder_store sb img file now bn ino dbs) 8192 pos = true ↔
      bitmap_bit img 8192 pos = true ∨
        ∃ i, i < bn ∧ pos = dbs.getD i 0 - sb.data_region_start) := by
  have hcopy : ∀ a, a < 12288 →
      ((List.range bn).foldl (copy_block file bn dbs) img).getD a 0 = img.getD a 0 := by
    intro a ha
    apply getD_copy_blocks_of_out
    intro i hi
    have := hd i hi
    simp only [BS]; omega
  have hstore : ∀ a, 8192 ≤ a → a < 12288 → (adder_store sb img file now bn ino dbs).getD a 0
      = ((List.range bn).foldl (mark_block 8192 sb.data_region_start dbs)
          (set_bit ((List.range bn).foldl (copy_block file bn dbs) img) 4096 ino)).getD a 0 := by
    intro a ha1 ha2
    simp only [adder_store, getD_memcpy, length_inode_crc_finalize, length_inode_bytes, hit,
      hdb, hib, BS, INODE_SIZE]
    rw [if_neg (by omega)]
  have hm := bitmap_bit_mark_blocks 8192 sb.data_region_start dbs
    (set_bit ((List.range bn).foldl (copy_block file bn dbs) img) 4096 ino) pos bn
    (by
      intro i hi
      have := hd i hi
      rw [length_set_bit, length_copy_blocks]
      omega)
  have hold : bitmap_bit (set_bit ((List.range bn).foldl (copy_block file bn dbs) img) 4096 ino)
      8192 pos = bitmap_bit img 8192 pos := by
    simp only [bitmap_bit, getD_set_bit]
    rw [if_neg (by omega), hcopy _ (by omega)]
  rw [hold] at hm
  have hstore2 : bitmap_bit (adder_store sb img file now bn ino dbs) 8192 pos
      = bitmap_bit ((List.range bn).foldl (mark_block 8192 sb.data_region_start dbs)
          (set_bit ((List.range bn).foldl (copy_block file bn dbs) img) 4096 ino)) 8192 pos := by
    simp only [bitmap_bit]
    rw [hstore _ (by omega) (by omega)]
  rw [hstore2, hm]
  constructor
  · rintro (h | ⟨i, hi, h⟩)
    · exact Or.inl h
    · refine Or.inr ⟨i, hi, ?_⟩
      have := hd i hi
      omega
  · rintro (h | ⟨i, hi, h⟩)
    · exact Or.inl h
    · refine Or.inr ⟨i, hi, ?_⟩
      have := hd i hi
      omega

/-- Contents of `block_data` for round `i` of the copy loop: the bytes of the file
from offset `i * BS`, then zeroes. -/
theorem getD_block_data (file : List Nat) (i t : Nat) (hi : i < (file.length + BS - 1) / BS)
    (ht : t < BS) :
    (block_data file ((file.length + BS - 1) / BS) i).getD t 0
      = if i * BS + t < file.length then file.getD (i * BS + t) 0 else 0 := by
  have hBS : BS = 4096 := rfl
  rw [hBS] at hi ht ⊢
  simp only [block_data, hBS, getD_memcpy, getD_replicate_zero, List.length_replicate,
    List.length_take, List.length_drop, getD_take, getD_drop, Nat.zero_le, true_and,
    Nat.zero_add, Nat.sub_zero]
  by_cases hlast : i = (file.length + 4096 - 1) / 4096 - 1
  · rw [if_pos hlast]
    by_cases hin : i * 4096 + t < file.length
    · rw [if_pos hin, if_pos (by omega), if_pos (by omega)]
    · rw [if_neg hin, if_neg (by omega)]
  · rw [if_neg hlast]
    rw [if_pos (by omega), if_pos (by omega), if_pos (by omega)]

theorem getD_inode_crc_finalize_of_lt (mem : List Nat) (ino j : Nat) (h : j < ino + 120) :
    (inode_crc_finalize mem ino).getD j 0 = mem.getD j 0 := by
  simp only [inode_crc_finalize, getD_memcpy, length_le_bytes]
  rw [if_neg (by omega)]

theorem getD_inode_crc_finalize_of_ge (mem : List Nat) (ino j : Nat) (h : ino + 128 ≤ j) :
    (inode_crc_finalize mem ino).getD j 0 = mem.getD j 0 := by
  simp only [inode_crc_finalize, getD_memcpy, length_le_bytes]
  rw [if_neg (by omega)]

theorem length_update_root_inode (mem : List Nat) (r now : Nat) :
    (update_root_inode mem r now).length = mem.length := by
  simp only [update_root_inode, length_inode_crc_finalize, length_memcpy]

/-- Frame of the update of the root inode: bytes outside its record are kept. -/
theorem getD_update_root_inode_of_out (mem : List Nat) (r now j : Nat)
    (h : j < r ∨ r + 128 ≤ j) :
    (update_root_inode mem r now).getD j 0 = mem.getD j 0 := by
  unfold update_root_inode
  rcases h with h | h
  · rw [getD_inode_crc_finalize_of_lt _ _ _ (by omega)]
    simp only [getD_memcpy, length_le_bytes]
    rw [if_neg (by omega), if_neg (by omega), if_neg (by omega)]
  · rw [getD_inode_crc_finalize_of_ge _ _ _ h]
    simp only [getD_memcpy, length_le_bytes]
    rw [if_neg (by omega), if_neg (by omega), if_neg (by omega)]

theorem length_adder_link (sb : superblock_t) (mem : List Nat) (rdd e ino : Nat)
    (name : List Nat) (now : Nat) :
    (adder_link sb mem rdd e ino name now).length = mem.length := by
  simp only [adder_link, length_superblock_crc_finalize, length_update_root_inode,
    length_memcpy]

/-- Frame of `adder_link`: bytes outside the superblock checksum, the root inode
record and the directory slot written are kept. -/
theorem getD_adder_link_of_out (sb : superblock_t) (mem : List Nat) (rdd e ino : Nat)
    (name : List Nat) (now j : Nat) (hit : sb.inode_table_start = 3)
    (hlen : 116 ≤ mem.length) (hname : name.length ≤ 58)
    (hsb : j < 112 ∨ 116 ≤ j) (hroot : j < 12288 ∨ 12288 + 128 ≤ j)
    (hde : j < rdd + e * 64 ∨ rdd + e * 64 + 64 ≤ j) :
    (adder_link sb mem rdd e ino name now).getD j 0 = mem.getD j 0 := by
  have hl : (dirent_checksum_finalize (adder_new_entry ino name).bytes 0).length = 64 := by
    rw [length_dirent_checksum_finalize, length_dirent_bytes]
    exact length_name_field name hname
  unfold adder_link
  simp only [hit, BS]
  rw [getD_superblock_crc_finalize _ _ (by
      rw [length_update_root_inode, length_memcpy]; exact hlen),
    if_neg (by omega), getD_update_root_inode_of_out _ _ _ _ (by omega), getD_memcpy,
    if_neg (by rw [hl]; omega)]

/-- The directory slot written by `adder_link` holds the finalized entry. -/
theorem getD_adder_link_slot (sb : superblock_t) (mem : List Nat) (rdd e ino : Nat)
    (name : List Nat) (now k : Nat) (hit : sb.inode_table_start = 3)
    (hname : name.length ≤ 58) (hk : k < 64)
    (hrdd : 12288 + 128 ≤ rdd + e * 64) (hlen : rdd + e * 64 + 64 ≤ mem.length) :
    (adder_link sb mem rdd e ino name now).getD (rdd + e * 64 + k) 0
      = (dirent_checksum_finalize (adder_new_entry ino name).bytes 0).getD k 0 := by
  have hl : (dirent_checksum_finalize (adder_new_entry ino name).bytes 0).length = 64 := by
    rw [length_dirent_checksum_finalize, length_dirent_bytes]
    exact length_name_field name hname
  unfold adder_link
  simp only [hit, BS]
  rw [getD_superblock_crc_finalize _ _ (by
      rw [length_update_root_inode, length_memcpy]; omega),
    if_neg (by omega), getD_update_root_inode_of_out _ _ _ _ (by omega), getD_memcpy,
    if_pos (by rw [hl]; omega)]
  have e5 : rdd + e * 64 + k - (rdd + e * 64) = k := by omega
  rw [e5]

/-- A block written by the copy loop holds its `block_data` after `adder_store`,
when no later round writes the same block. -/
theorem getD_adder_store_block (sb : superblock_t) (img file : List Nat) (now bn ino : Nat)
    (dbs : List Nat) (i t : Nat)
    (hib : sb.inode_bitmap_start = 1) (hdb : sb.data_bitmap_start = 2)
    (hit : sb.inode_table_start = 3)
    (h1 : 1 ≤ ino) (h2 : ino ≤ 32768)
    (hd : ∀ i, i < bn → sb.data_region_start ≤ dbs.getD i 0 ∧
      dbs.getD i 0 < sb.data_region_start + 32768)
    (hdrs : sb.data_region_start + 32768 ≤ 1048576)
    (hslot : 12288 + ino * 128 ≤ sb.data_region_start * 4096)
    (hi : i < bn) (ht : t < 4096)
    (hdist : ∀ i', i < i' → i' < bn → dbs.getD i' 0 ≠ dbs.getD i 0)
    (hlen : dbs.getD i 0 * 4096 + 4096 ≤ img.length) :
    (adder_store sb img file now bn ino dbs).getD (dbs.getD i 0 * 4096 + t) 0
      = (block_data file bn i).getD t 0 := by
  have hdi := hd i hi
  simp only [adder_store, getD_memcpy, length_inode_crc_finalize, length_inode_bytes, hit, hdb,
    hib, BS, INODE_SIZE]
  rw [if_neg (by omega), getD_mark_blocks_of_out, getD_set_bit, if_neg (by omega)]
  · have hoff : dbs.getD i 0 * BS % 4294967296 = dbs.getD i 0 * 4096 := by
      simp only [BS]; omega
    have := getD_copy_blocks_of_in file bn dbs img i (dbs.getD i 0 * 4096 + t)
      (by rw [hoff]; omega) (by rw [hoff]; simp only [BS]; omega) (by omega) bn hi
      (by
        intro i' hi1 hi2
        have := hd i' hi2
        have := hdist i' hi1 hi2
        simp only [BS]; omega)
    rw [hoff] at this
    rw [this]
    have e5 : dbs.getD i 0 * 4096 + t - dbs.getD i 0 * 4096 = t := by omega
    rw [e5]
  · intro i' hi'
    have := hd i' hi'
    omega

theorem getD_range'_append (a n i : Nat) (rest : List Nat) (hi : i < n) :
    (List.range' a n ++ rest).getD i 0 = a + i := by
  rw [List.getD_append _ _ _ _ (by simpa using hi),
    List.getD_eq_getElem _ _ (by simpa using hi), List.getElem_range']
  omega

/-- Geometry fields of the superblock of a fresh image. -/
theorem superblock_fields_builder_write (size_kib inode_count now : Nat) (adj : List Nat)
    (hv : valid_params size_kib inode_count) :
    (read_superblock (builder_write size_kib inode_count now adj) 0).magic = 0x4D565346 ∧
    (read_superblock (builder_write size_kib inode_count now adj) 0).inode_count
      = inode_count ∧
    (read_superblock (builder_write size_kib inode_count now adj) 0).inode_bitmap_start = 1 ∧
    (read_superblock (builder_write size_kib inode_count now adj) 0).data_bitmap_start = 2 ∧
    (read_superblock (builder_write size_kib inode_count now adj) 0).inode_table_start = 3 ∧
    (read_superblock (builder_write size_kib inode_count now adj) 0).data_region_start
      = 3 + (inode_count * 128 + 4096 - 1) / 4096 ∧
    (read_superblock (builder_write size_kib inode_count now adj) 0).data_region_blocks
      = size_kib * 1024 / 4096 - (1 + 1 + 1 + (inode_count * 128 + 4096 - 1) / 4096) := by
  rw [read_superblock_builder_write _ _ _ _ hv]
  exact ⟨rfl, rfl, rfl, rfl, rfl, rfl, rfl⟩

/-- Bytes of the root inode record of a fresh image below its checksum. -/
theorem getD_builder_write_root_inode (size_kib inode_count now : Nat) (adj : List Nat)
    (hv : valid_params size_kib inode_count) (k : Nat) (hk : k < 120) :
    (builder_write size_kib inode_count now adj).getD (12288 + k) 0
      = (builder_root_inode (builder_superblock size_kib inode_count now)).bytes.getD k 0 := by
  obtain ⟨h1, h2, h3, h4, h5⟩ := hv
  rw [getD_builder_write, if_neg (by omega), if_neg (by omega), if_neg (by omega),
    if_pos (by omega), if_pos (by omega),
    getD_inode_crc_finalize_of_lt _ _ _ (by omega)]
  have e : 12288 + k - 12288 = k := by omega
  rw [e]

theorem le_read_builder_write_direct0 (size_kib inode_count now : Nat) (adj : List Nat)
    (hv : valid_params size_kib inode_count) :
    le_read (builder_write size_kib inode_count now adj) (12288 + 44) 4
      = 3 + (inode_count * 128 + 4096 - 1) / 4096 := by
  have h : le_read (builder_write size_kib inode_count now adj) (12288 + 44) 4
      = le_read (builder_root_inode (builder_superblock size_kib inode_count now)).bytes
          (0 + 44) 4 := by
    apply le_read_congr
    intro k hk
    rw [Nat.add_assoc, getD_builder_write_root_inode _ _ _ _ hv _ (by omega), Nat.zero_add]
  obtain ⟨h1, h2, h3, h4, h5⟩ := hv
  rw [h]
  simp [inode_t.bytes, direct_bytes, DIRECT_MAX, le_read_append_left, le_read_append_right,
    le_read_le_bytes, length_le_bytes, builder_root_inode, builder_superblock, BS, INODE_SIZE]
  omega

/-- The root directory block of a fresh image: slots 0 and 1 carry inode number 1,
the other slots are free. -/
theorem le_read_builder_write_dir_slot (size_kib inode_count now : Nat) (adj : List Nat)
    (hv : valid_params size_kib inode_count) (i : Nat) (hi : i < 64) :
    le_read (builder_write size_kib inode_count now adj)
      ((3 + (inode_count * 128 + 4096 - 1) / 4096) * 4096 + i * 64) 4
      = if i < 2 then 1 else 0 := by
  obtain ⟨h1, h2, h3, h4, h5⟩ := hv
  have hg : ∀ k, k < 4 → (builder_write size_kib inode_count now adj).getD
      ((3 + (inode_count * 128 + 4096 - 1) / 4096) * 4096 + i * 64 + k) 0
      = (write_blocks builder_data_block
          (size_kib * 1024 / 4096 - (1 + 1 + 1 + (inode_count * 128 + 4096 - 1) / 4096)) 0).getD
            (i * 64 + k) 0 := by
    intro k hk
    rw [getD_builder_write, if_neg (by omega), if_neg (by omega), if_neg (by omega),
      if_neg (by omega)]
    have e : (3 + (inode_count * 128 + 4096 - 1) / 4096) * 4096 + i * 64 + k
        - (12288 + (inode_count * 128 + 4096 - 1) / 4096 * 4096) = i * 64 + k := by omega
    rw [e]
  have hn : i * 64 + 4 < (size_kib * 1024 / 4096
      - (1 + 1 + 1 + (inode_count * 128 + 4096 - 1) / 4096)) * BS := by
    simp only [BS]; omega
  by_cases h0 : i = 0
  · subst h0
    rw [if_pos (by omega)]
    have : le_read (builder_write size_kib inode_count now adj)
        ((3 + (inode_count * 128 + 4096 - 1) / 4096) * 4096 + 0 * 64) 4
        = le_read (dirent_checksum_finalize (builder_dir_entry [46]).bytes 0) 0 4 := by
      apply le_read_congr
      intro k hk
      rw [hg k hk, getD_write_data_blocks, if_pos ⟨by omega, by omega⟩]
    rw [this]
    decide
  · by_cases h1' : i = 1
    · subst h1'
      rw [if_pos (by omega)]
      have : le_read (builder_write size_kib inode_count now adj)
          ((3 + (inode_count * 128 + 4096 - 1) / 4096) * 4096 + 1 * 64) 4
          = le_read (dirent_checksum_finalize (builder_dir_entry [46, 46]).bytes 0) 0 4 := by
        apply le_read_congr
        intro k hk
        rw [hg k hk, getD_write_data_blocks, if_neg (by omega), if_pos ⟨by omega, by omega⟩]
        have e : 1 * 64 + k - 64 = 0 + k := by omega
        rw [e]
      rw [this]
      decide
    · rw [if_neg (by omega)]
      have : le_read (builder_write size_kib inode_count now adj)
          ((3 + (inode_count * 128 + 4096 - 1) / 4096) * 4096 + i * 64) 4
          = le_read ([] : List Nat) 0 4 := by
        apply le_read_congr
        intro k hk
        rw [hg k hk, getD_write_data_blocks, if_neg (by omega), if_neg (by omega)]
        rfl
      rw [this]
      rfl

/-- The run of `adder_insert` when every search succeeds. -/
theorem adder_insert_ok (sb : superblock_t) (img file file_name : List Nat) (now bn : Nat)
    (ino : Nat) (found : List Nat) (e : Nat)
    (h1 : find_first_free_bit img (sb.inode_bitmap_start * BS % 18446744073709551616) BS
      (sb.inode_count % 4294967296) = ino) (hino : ino ≠ 0)
    (h2 : alloc_loop img (sb.data_bitmap_start * BS % 18446744073709551616)
      sb.data_region_start sb.data_region_blocks bn alloc_fuel 1 [] = some found)
    (h3 : ¬ found.length < bn)
    (h4 : (List.range (BS / 64)).find? (fun i => decide (le_read
        (adder_store sb img file now bn ino (found ++ List.replicate (DIRECT_MAX - found.length) 0))
        (adder_root_dir_data sb (adder_store sb img file now bn ino
          (found ++ List.replicate (DIRECT_MAX - found.length) 0)) + i * 64) 4 = 0)) = some e)
    (h5 : (basename file_name).length < 58) :
    adder_insert sb img file file_name now bn = ⟨.Ok, adder_link sb
      (adder_store sb img file now bn ino (found ++ List.replicate (DIRECT_MAX - found.length) 0))
      (adder_root_dir_data sb (adder_store sb img file now bn ino
        (found ++ List.replicate (DIRECT_MAX - found.length) 0))) e ino (basename file_name) now⟩ := by
  unfold adder_insert
  dsimp only
  rw [h1, if_neg hino, h2]
  dsimp only
  rw [if_neg h3, h4]
  dsimp only
  rw [if_neg (by omega)]
theorem find?_range_eq_some (p : Nat → Bool) (i : Nat) (hp : p i = true)
    (hlt : ∀ j, j < i → p j = false) : ∀ (n : Nat), i < n → (List.range n).find? p = some i := by
  intro n
  induction n with
  | zero => intro h; omega
  | succ n ih =>
    intro h
    rw [List.range_succ, List.find?_append]
    by_cases hin : i < n
    · rw [ih hin]; rfl
    · have e : i = n := by omega
      subst e
      have hnone : (List.range i).find? p = none := by
        rw [List.find?_eq_none]
        intro x hx
        rw [List.mem_range] at hx
        rw [hlt x hx]
        exact Bool.false_ne_true
      rw [hnone]
      simp [hp]

/-- Adding a file of at most 12 blocks, under a name of at most 57 characters, to
a fresh image: the run reaches `return 0` with inode number 2, the blocks
`drs + 1, .., drs + bn` and directory slot 2. -/
theorem adder_main_builder_write (size_kib inode_count now : Nat) (adj file file_name : List Nat)
    (now2 drs bn : Nat) (hv : valid_params size_kib inode_count)
    (hdrs : drs = 3 + (inode_count * 128 + 4096 - 1) / 4096)
    (hbn : bn = (file.length + BS - 1) / BS) (hbn12 : bn ≤ 12)
    (hname : (basename file_name).length < 58) :
    mkfs_adder.main (builder_write size_kib inode_count now adj) file file_name now2 =
      ⟨.Ok, adder_link (read_superblock (builder_write size_kib inode_count now adj) 0)
        (adder_store (read_superblock (builder_write size_kib inode_count now adj) 0)
          (builder_write size_kib inode_count now adj) file now2 bn 2
          (List.range' (drs + 1) bn ++ List.replicate (DIRECT_MAX - bn) 0))
        (drs * 4096) 2 2 (basename file_name) now2⟩ := by
  have hlen := length_builder_write size_kib inode_count now adj hv
  obtain ⟨hmagic, hic, hib, hdb, hit, hdr, hdrb⟩ :=
    superblock_fields_builder_write size_kib inode_count now adj hv
  have hff := find_first_free_bit_builder_write size_kib inode_count now adj hv
  have hal := alloc_loop_builder_write size_kib inode_count now adj bn hv hbn12
  have hv' := hv
  obtain ⟨h1, h2, h3, h4, h5⟩ := hv
  have hdbs : ∀ i, i < bn →
      (List.range' (drs + 1) bn ++ List.replicate (DIRECT_MAX - bn) 0).getD i 0 = drs + 1 + i :=
    fun i hi => getD_range'_append _ _ _ _ hi
  -- the root inode and the root directory block are untouched by `adder_store`
  have hframe : ∀ j, (12288 ≤ j ∧ j < 12288 + 128) ∨ (drs * 4096 ≤ j ∧ j < drs * 4096 + 4096) →
      (adder_store (read_superblock (builder_write size_kib inode_count now adj) 0)
          (builder_write size_kib inode_count now adj) file now2 bn 2
          (List.range' (drs + 1) bn ++ List.replicate (DIRECT_MAX - bn) 0)).getD j 0
        = (builder_write size_kib inode_count now adj).getD j 0 := by
    intro j hj
    apply getD_adder_store_layout _ _ _ _ _ _ _ _ hib hdb hit (by omega) (by omega)
    · intro i hi; rw [hdbs i hi, hdr]; omega
    · rw [hdr]; omega
    · omega
    · omega
    · intro i hi; rw [hdbs i hi]; omega
  have hd0 : le_read (adder_store (read_superblock (builder_write size_kib inode_count now adj) 0)
          (builder_write size_kib inode_count now adj) file now2 bn 2
          (List.range' (drs + 1) bn ++ List.replicate (DIRECT_MAX - bn) 0)) (12288 + 44) 4
      = drs := by
    refine Eq.trans ?_ ((le_read_builder_write_direct0 size_kib inode_count now adj hv').trans
      hdrs.symm)
    apply le_read_congr
    intro k hk
    exact hframe _ (Or.inl (by omega))
  have hrdd : adder_root_dir_data (read_superblock (builder_write size_kib inode_count now adj) 0)
      (adder_store (read_superblock (builder_write size_kib inode_count now adj) 0)
          (builder_write size_kib inode_count now adj) file now2 bn 2
          (List.range' (drs + 1) bn ++ List.replicate (DIRECT_MAX - bn) 0)) = drs * 4096 := by
    simp only [adder_root_dir_data, hit, hdr, BS]
    rw [show 3 * 4096 % 18446744073709551616 + 44 = 12288 + 44 by decide, hd0]
    omega
  have hslots : ∀ i, i < 64 →
      le_read (adder_store (read_superblock (builder_write size_kib inode_count now adj) 0)
          (builder_write size_kib inode_count now adj) file now2 bn 2
          (List.range' (drs + 1) bn ++ List.replicate (DIRECT_MAX - bn) 0))
        (drs * 4096 + i * 64) 4 = if i < 2 then 1 else 0 := by
    intro i hi
    have hfresh := le_read_builder_write_dir_slot size_kib inode_count now adj hv' i hi
    rw [← hdrs] at hfresh
    refine Eq.trans ?_ hfresh
    apply le_read_congr
    intro k hk
    exact hframe _ (Or.inr (by omega))
  have hfind : (List.range (BS / 64)).find? (fun i =>
      decide (le_read (adder_store (read_superblock (builder_write size_kib inode_count now adj) 0)
          (builder_write size_kib inode_count now adj) file now2 bn 2
          (List.range' (drs + 1) bn ++ List.replicate (DIRECT_MAX - bn) 0))
        (drs * 4096 + i * 64) 4 = 0)) = some 2 := by
    apply find?_range_eq_some _ 2
    · rw [hslots 2 (by omega)]; rfl
    · intro j hj
      rw [hslots j (by omega), if_pos hj]; rfl
    · decide
  unfold mkfs_adder.main
  dsimp only
  rw [← hbn, if_neg (by simp only [DIRECT_MAX]; omega), if_neg (by omega),
    if_neg (by rw [hmagic]; simp), if_neg (by rw [hdrb]; omega)]
  have hr := adder_insert_ok (read_superblock (builder_write size_kib inode_count now adj) 0)
    (builder_write size_kib inode_count now adj) file file_name now2 bn 2
    (List.range' (drs + 1) bn) 2
    (by rw [hib, hic, show 1 * BS % 18446744073709551616 = 4096 by decide]; exact hff)
    (by decide)
    (by rw [hdb, hdr, hdrb, show 2 * BS % 18446744073709551616 = 8192 by decide, hdrs]; exact hal)
    (by simp)
    (by rw [List.length_range', hrdd]; exact hfind)
    hname
  rw [List.length_range', hrdd] at hr
  exact hr

set_option maxRecDepth 100000 in
theorem CRC32_TAB_lt : ∀ x, x < 256 → CRC32_TAB.getD x 0 < 4294967296 := by
  decide

set_option maxRecDepth 100000 in
theorem CRC32_TAB_xor_one_ne :
    ∀ x, x < 256 → CRC32_TAB.getD (x ^^^ 1) 0 ≠ CRC32_TAB.getD x 0 := by
  decide

theorem and_255_lt (x : Nat) : x &&& 0xFF < 256 :=
  Nat.lt_of_le_of_lt Nat.and_le_right (by decide)

theorem crc32_step_lt (c b : Nat) (hc : c < 4294967296) : crc32_step c b < 4294967296 := by
  unfold crc32_step
  have h1 := CRC32_TAB_lt _ (and_255_lt (c ^^^ b))
  have h2 : c >>> 8 < 2 ^ 32 := by
    rw [Nat.shiftRight_eq_div_pow]
    exact Nat.lt_of_le_of_lt (Nat.div_le_self _ _) hc
  exact Nat.xor_lt_two_pow (n := 32) h1 h2

theorem crc32_loop_lt : ∀ (n : Nat) (p : List Nat) (c : Nat), c < 4294967296 →
    crc32_loop p n c < 4294967296 := by
  intro n
  induction n with
  | zero => intro p c hc; cases p <;> simpa [crc32_loop] using hc
  | succ n ih =>
    intro p c hc
    cases p with
    | nil => simp only [crc32_loop]; exact ih _ _ (crc32_step_lt _ _ hc)
    | cons b bs => simp only [crc32_loop]; exact ih _ _ (crc32_step_lt _ _ hc)

/-- The result of `crc32` fits 32 bits. -/
theorem crc32_lt (data : List Nat) (n : Nat) : crc32 data n < 4294967296 := by
  unfold crc32
  exact Nat.xor_lt_two_pow (n := 32) (crc32_loop_lt n data _ (by decide)) (by decide)

/-- The loop of `crc32` reads the first `n` bytes only. -/
theorem crc32_loop_congr : ∀ (n : Nat) (p q : List Nat) (c : Nat),
    (∀ k, k < n → p.getD k 0 = q.getD k 0) → crc32_loop p n c = crc32_loop q n c := by
  intro n
  induction n with
  | zero => intro p q c _; cases p <;> cases q <;> rfl
  | succ n ih =>
    intro p q c h
    have h0 := h 0 (Nat.succ_pos n)
    have hrest : ∀ k, k < n → (p.drop 1).getD k 0 = (q.drop 1).getD k 0 := by
      intro k hk
      rw [getD_drop, getD_drop]
      exact h (1 + k) (by omega)
    have hstep : ∀ (l : List Nat), crc32_loop l (n + 1) c
        = crc32_loop (l.drop 1) n (crc32_step c (l.getD 0 0)) := by
      intro l
      cases l with
      | nil => rfl
      | cons b bs => rfl
    rw [hstep p, hstep q, h0]
    exact ih _ _ _ hrest

/-- The last round of the loop of `crc32`. -/
theorem crc32_loop_succ : ∀ (n : Nat) (p : List Nat) (c : Nat),
    crc32_loop p (n + 1) c = crc32_step (crc32_loop p n c) (p.getD n 0) := by
  intro n
  induction n with
  | zero => intro p c; cases p <;> simp [crc32_loop]
  | succ n ih =>
    intro p c
    cases p with
    | nil =>
      have h := ih [] (crc32_step c 0)
      simp only [crc32_loop] at h ⊢
      rw [h]; rfl
    | cons b bs =>
      have h := ih bs (crc32_step c b)
      simp only [crc32_loop] at h ⊢
      rw [h]; rfl

/-- Two buffers that agree on their first `n` bytes and hold 1 and 0 at index `n`
have different checksums over `n + 1` bytes. -/
theorem crc32_ne_of_last (p q : List Nat) (n : Nat)
    (h : ∀ k, k < n → p.getD k 0 = q.getD k 0) (hp : p.getD n 0 = 1) (hq : q.getD n 0 = 0) :
    crc32 p (n + 1) ≠ crc32 q (n + 1) := by
  unfold crc32
  rw [crc32_loop_succ, crc32_loop_succ, hp, hq, crc32_loop_congr n p q _ h]
  intro heq
  have h1 := Nat.xor_left_injective heq
  unfold crc32_step at h1
  have h2 := Nat.xor_left_injective h1
  rw [Nat.xor_zero, Nat.and_xor_distrib_right] at h2
  have h3 : (1 : Nat) &&& 0xFF = 1 := by decide
  rw [h3] at h2
  exact CRC32_TAB_xor_one_ne _ (and_255_lt _) h2

/-- The checksum stored by the builder: CRC32 over the local `sb` (checksum field
zero) followed by the bytes `adj` next to it in memory. -/
theorem le_read_builder_write_checksum (size_kib inode_count now : Nat) (adj : List Nat) :
    le_read (builder_write size_kib inode_count now adj) 112 4
      = crc32 ((memcpy ((builder_superblock size_kib inode_count now).bytes ++ adj)
          (0 + 112) (le_bytes 4 0)).drop 0) (BS - 4) := by
  have h : le_read (builder_write size_kib inode_count now adj) 112 4
      = le_read (le_bytes 4 (crc32 ((memcpy ((builder_superblock size_kib inode_count now).bytes
          ++ adj) (0 + 112) (le_bytes 4 0)).drop 0) (BS - 4))) 0 4 := by
    apply le_read_congr
    intro k hk
    rw [getD_builder_write, if_pos (by omega), if_pos (by omega),
      getD_superblock_crc_finalize _ _ (by simp [length_superblock_bytes]),
      if_pos (by omega)]
    have e : 112 + k - 112 = 0 + k := by omega
    rw [e]
  rw [h, le_read_le_bytes]
  exact Nat.mod_eq_of_lt (crc32_lt _ _)

theorem getD_le_bytes_zero (i : Nat) : (le_bytes 4 0).getD i 0 = 0 :=
  getD_replicate_zero 4 i

/-- Block 0 of a fresh image with the checksum field zeroed: the fields of the
superblock, then zeroes. -/
theorem getD_builder_write_block0_zeroed (size_kib inode_count now : Nat) (adj : List Nat)
    (hv : valid_params size_kib inode_count) (k : Nat) (hk : k < 4096) :
    (memcpy (builder_write size_kib inode_count now adj) 112 (le_bytes 4 0)).getD k 0
      = if k < 112 then (builder_superblock size_kib inode_count now).bytes.getD k 0
        else 0 := by
  have hlen := length_builder_write size_kib inode_count now adj hv
  obtain ⟨h1, h2, h3, h4, h5⟩ := hv
  rw [getD_memcpy, length_le_bytes]
  by_cases hz : 112 ≤ k ∧ k < 116
  · rw [if_pos (by omega), if_neg (by omega), getD_le_bytes_zero]
  · rw [if_neg (by omega), getD_builder_write, if_pos hk]
    by_cases hf : k < 112
    · rw [if_pos (by omega), if_pos hf,
        getD_superblock_crc_finalize_of_lt _ _ (by simp [length_superblock_bytes]) hf,
        List.getD_append _ _ _ _ (by rw [length_superblock_bytes]; omega)]
    · rw [if_neg (by omega), if_neg hf]

/-- C1 (the code departs from the claim): for `size_kib = 180`, `inode_count = 128`,
when the 3976 bytes that follow the local `sb` in memory are not all zero (here
the last of them is 1), the builder writes an image whose stored superblock
checksum differs from the CRC32 over bytes `[0, 4092)` of block 0 with the
checksum field taken as zero. -/
theorem C1_builder_checksum_reads_past_superblock :
    mkfs_builder.main 180 128 0 (List.replicate 3975 0 ++ [1])
      = .ok (builder_write 180 128 0 (List.replicate 3975 0 ++ [1])) ∧
    ¬ superblock_checksum_ok (builder_write 180 128 0 (List.replicate 3975 0 ++ [1])) := by
  have hv : valid_params 180 128 := by decide
  refine ⟨builder_main_ok _ _ _ _ hv, ?_⟩
  unfold superblock_checksum_ok
  rw [le_read_builder_write_checksum]
  have hBS : BS - 4 = 4091 + 1 := by decide
  rw [hBS]
  apply crc32_ne_of_last
  · intro k hk
    rw [getD_builder_write_block0_zeroed _ _ _ _ hv k (by omega), getD_drop, getD_memcpy,
      length_le_bytes]
    simp only [Nat.zero_add]
    by_cases hz : 112 ≤ k ∧ k < 116
    · rw [if_pos ⟨hz.1, hz.2, by
        rw [List.length_append, length_superblock_bytes]; omega⟩, if_neg (by omega),
        getD_le_bytes_zero]
    · rw [if_neg (by omega)]
      by_cases hf : k < 112
      · rw [if_pos hf, List.getD_append _ _ _ _ (by rw [length_superblock_bytes]; omega)]
      · rw [if_neg hf, List.getD_append_right _ _ _ _ (by rw [length_superblock_bytes]; omega),
          List.getD_append _ _ _ _ (by rw [length_superblock_bytes, List.length_replicate]; omega),
          getD_replicate_zero]
  · rw [getD_drop, getD_memcpy, length_le_bytes]
    simp only [Nat.zero_add]
    rw [if_neg (by omega),
      List.getD_append_right _ _ _ _ (by rw [length_superblock_bytes]; omega),
      List.getD_append_right _ _ _ _ (by
        rw [length_superblock_bytes, List.length_replicate]),
      length_superblock_bytes, List.length_replicate]
    decide
  · rw [getD_builder_write_block0_zeroed _ _ _ _ hv _ (by omega), if_neg (by omega)]

/-- The scan of the data bitmap from unit `i` on, when the 32-bit counter cannot
wrap: it appends the blocks of the first free units until `bn` blocks are found. -/
theorem alloc_loop_filter (mem : List Nat) (data_bitmap drs drb bn : Nat)
    (hdrb : drb + 1 < 4294967296) :
    ∀ (m fuel i : Nat) (found : List Nat), 1 ≤ i → i + m = drb + 1 → m < fuel →
      found.length ≤ bn →
      alloc_loop mem data_bitmap drs drb bn fuel i found =
        some (found ++ ((((List.range' i m).filter
          fun u => !bitmap_bit mem data_bitmap (u - 1)).take (bn - found.length)).map
            fun u => (drs + u + 18446744073709551616 - 1) % 18446744073709551616
              % 4294967296)) := by
  intro m
  induction m with
  | zero =>
    intro fuel i found _ him hfuel _
    obtain ⟨f, rfl⟩ : ∃ f, fuel = f + 1 := ⟨fuel - 1, by omega⟩
    rw [alloc_loop_succ, if_neg (by omega)]
    simp
  | succ m ih =>
    intro fuel i found hi him hfuel hlen
    obtain ⟨f, rfl⟩ : ∃ f, fuel = f + 1 := ⟨fuel - 1, by omega⟩
    have e : (i + 4294967296 - 1) % 4294967296 = i - 1 := by omega
    have e2 : (i + 1) % 4294967296 = i + 1 := by omega
    rw [alloc_loop_succ, e, e2, List.range'_succ]
    by_cases hfull : found.length < bn
    · rw [if_pos ⟨by omega, hfull⟩]
      by_cases hbit : mem.getD (data_bitmap + (i - 1) / 8) 0 &&& (1 <<< ((i - 1) % 8)) = 0
      · have hfree : bitmap_bit mem data_bitmap (i - 1) = false :=
          (and_one_shiftLeft_eq_zero _ _).mp hbit
        rw [if_pos hbit, ih f (i + 1) _ (by omega) (by omega) (by omega)
          (by rw [List.length_append, List.length_singleton]; omega)]
        rw [List.filter_cons_of_pos (by rw [hfree]; rfl)]
        have e3 : bn - found.length = (bn - (found ++ [(drs + i + 18446744073709551616 - 1)
            % 18446744073709551616 % 4294967296]).length) + 1 := by
          rw [List.length_append, List.length_singleton]; omega
        rw [e3, List.take_succ_cons, List.map_cons, List.append_assoc]
        rfl
      · have hused : bitmap_bit mem data_bitmap (i - 1) = true := by
          cases hx : bitmap_bit mem data_bitmap (i - 1)
          · exact absurd ((and_one_shiftLeft_eq_zero _ _).mpr hx) hbit
          · rfl
        rw [if_neg hbit, ih f (i + 1) _ (by omega) (by omega) (by omega) hlen]
        rw [List.filter_cons_of_neg (by rw [hused]; simp)]
    · rw [if_neg (fun h => hfull h.2)]
      have e3 : bn - found.length = 0 := by omega
      rw [e3, List.take_zero]
      simp

/-- The scan of the data bitmap in `main`: the blocks of the first `bn` free
units. -/
theorem alloc_loop_eq (mem : List Nat) (data_bitmap drs drb bn : Nat)
    (hdrb : drb + 1 < 4294967296) :
    alloc_loop mem data_bitmap drs drb bn alloc_fuel 1 [] =
      some (((free_units mem data_bitmap drb).take bn).map
        fun u => (drs + u + 18446744073709551616 - 1) % 18446744073709551616 % 4294967296) := by
  have hf : drb < alloc_fuel := by
    have : alloc_fuel = 55834574848 := by decide
    omega
  have h := alloc_loop_filter mem data_bitmap drs drb bn hdrb drb alloc_fuel 1 []
    (Nat.le_refl 1) (by omega) hf (Nat.zero_le _)
  rw [h]
  rfl

theorem mem_free_units (mem : List Nat) (data_bitmap drb u : Nat) :
    u ∈ free_units mem data_bitmap drb ↔
      (1 ≤ u ∧ u ≤ drb) ∧ bitmap_bit mem data_bitmap (u - 1) = false := by
  unfold free_units
  rw [List.mem_filter, List.mem_range'_1]
  constructor
  · rintro ⟨⟨h1, h2⟩, h3⟩
    refine ⟨⟨h1, by omega⟩, ?_⟩
    simpa using h3
  · rintro ⟨⟨h1, h2⟩, h3⟩
    refine ⟨⟨h1, by omega⟩, ?_⟩
    simpa using h3

theorem pairwise_free_units (mem : List Nat) (data_bitmap drb : Nat) :
    (free_units mem data_bitmap drb).Pairwise (· < ·) := by
  unfold free_units
  exact List.Pairwise.filter _ (List.pairwise_lt_range' 1 drb)

/-- Geometry fields of the superblock of a valid image. -/
theorem superblock_fields_valid_image (size_kib inode_count : Nat) (img : List Nat)
    (hvi : valid_image size_kib inode_count img) :
    (read_superblock img 0).magic = 0x4D565346 ∧
    (read_superblock img 0).inode_count = inode_count ∧
    (read_superblock img 0).inode_bitmap_start = 1 ∧
    (read_superblock img 0).data_bitmap_start = 2 ∧
    (read_superblock img 0).inode_table_start = 3 ∧
    (read_superblock img 0).data_region_start = 3 + (inode_count * 128 + 4096 - 1) / 4096 ∧
    (read_superblock img 0).data_region_blocks
      = size_kib * 1024 / 4096 - (1 + 1 + 1 + (inode_count * 128 + 4096 - 1) / 4096) := by
  obtain ⟨_, _, hg, _⟩ := hvi
  refine ⟨?_, ?_, ?_, ?_, ?_, ?_, ?_⟩
  · exact congrArg superblock_t.magic hg
  · exact congrArg superblock_t.inode_count hg
  · exact congrArg superblock_t.inode_bitmap_start hg
  · exact congrArg superblock_t.data_bitmap_start hg
  · exact congrArg superblock_t.inode_table_start hg
  · exact congrArg superblock_t.data_region_start hg
  · exact congrArg superblock_t.data_region_blocks hg

/-- A fresh image is a valid image. -/
theorem valid_image_builder_write (size_kib inode_count now : Nat) (adj : List Nat)
    (hv : valid_params size_kib inode_count) :
    valid_image size_kib inode_count (builder_write size_kib inode_count now adj) := by
  refine ⟨hv, length_builder_write _ _ _ _ hv, ?_, ?_, ?_, ?_⟩
  · rw [read_superblock_builder_write _ _ _ _ hv]
    rfl
  · rw [show 1 * BS = 4096 by decide, bitmap_bit_builder_write_inode _ _ _ _ _ (by omega)]
    rfl
  · rw [show 2 * BS = 8192 by decide, bitmap_bit_builder_write_data _ _ _ _ _ (by omega)]
    rfl
  · rw [show 3 * BS + 44 = 12288 + 44 by decide, le_read_builder_write_direct0 _ _ _ _ hv]
    rfl

theorem getD_map_take_free_units (mem : List Nat) (db drb bn i : Nat) (f : Nat → Nat)
    (hi : i < (((free_units mem db drb).take bn).map f).length) :
    ∃ u, u ∈ free_units mem db drb ∧ ((free_units mem db drb).take bn).getD i 0 = u ∧
      (((free_units mem db drb).take bn).map f).getD i 0 = f u := by
  rw [List.length_map] at hi
  refine ⟨((free_units mem db drb).take bn)[i], ?_, ?_, ?_⟩
  · exact List.mem_of_mem_take (List.getElem_mem _)
  · rw [List.getD_eq_getElem _ _ hi]
  · rw [List.getD_eq_getElem _ _ (by rw [List.length_map]; exact hi), List.getElem_map]

/-- The scan of the data bitmap in `main`, for a data region that fits 32 bits:
the blocks of the first `bn` free units. -/
theorem alloc_loop_eq_alloc_blocks (mem : List Nat) (data_bitmap drs drb bn : Nat)
    (h : drs + drb + 1 < 4294967296) :
    alloc_loop mem data_bitmap drs drb bn alloc_fuel 1 []
      = some (alloc_blocks mem data_bitmap drs drb bn) := by
  rw [alloc_loop_eq _ _ _ _ _ (by omega)]
  unfold alloc_blocks
  refine congrArg some (List.map_congr_left ?_)
  intro u hu
  have := (mem_free_units _ _ _ _).mp (List.mem_of_mem_take hu)
  omega

theorem length_alloc_blocks_le (mem : List Nat) (db drs drb bn : Nat) :
    (alloc_blocks mem db drs drb bn).length ≤ bn := by
  unfold alloc_blocks
  rw [List.length_map, List.length_take]
  exact Nat.min_le_left _ _

/-- Every block of `alloc_blocks` is the block of a free unit of the bitmap. -/
theorem getD_alloc_blocks (mem : List Nat) (db drs drb bn i : Nat)
    (hi : i < (alloc_blocks mem db drs drb bn).length) :
    drs ≤ (alloc_blocks mem db drs drb bn).getD i 0 ∧
    (alloc_blocks mem db drs drb bn).getD i 0 < drs + drb ∧
    bitmap_bit mem db ((alloc_blocks mem db drs drb bn).getD i 0 - drs) = false := by
  obtain ⟨u, hu, _, hf⟩ := getD_map_take_free_units mem db drb bn i
    (fun u => drs + u - 1) hi
  have hm := (mem_free_units _ _ _ _).mp hu
  unfold alloc_blocks
  rw [hf]
  have e : drs + u - 1 - drs = u - 1 := by omega
  simp only [e]
  exact ⟨by omega, by omega, hm.2⟩

/-- The blocks of `alloc_blocks` are strictly ascending. -/
theorem alloc_blocks_lt (mem : List Nat) (db drs drb bn i j : Nat) (hij : i < j)
    (hj : j < (alloc_blocks mem db drs drb bn).length) :
    (alloc_blocks mem db drs drb bn).getD i 0 < (alloc_blocks mem db drs drb bn).getD j 0 := by
  have hi : i < (alloc_blocks mem db drs drb bn).length := by omega
  obtain ⟨u, hu, hu2, hfu⟩ := getD_map_take_free_units mem db drb bn i
    (fun u => drs + u - 1) hi
  obtain ⟨w, hw, hw2, hfw⟩ := getD_map_take_free_units mem db drb bn j
    (fun u => drs + u - 1) hj
  have hpw : ((free_units mem db drb).take bn).Pairwise (· < ·) :=
    List.Pairwise.sublist (List.take_sublist _ _) (pairwise_free_units mem db drb)
  have hlen : (alloc_blocks mem db drs drb bn).length
      = ((free_units mem db drb).take bn).length := by
    unfold alloc_blocks; rw [List.length_map]
  have hlt := List.pairwise_iff_getElem.mp hpw i j (by omega) (by omega) hij
  rw [List.getD_eq_getElem _ _ (by omega)] at hu2
  rw [List.getD_eq_getElem _ _ (by omega)] at hw2
  rw [hu2, hw2] at hlt
  have hmu := (mem_free_units _ _ _ _).mp hu
  unfold alloc_blocks
  rw [hfu, hfw]
  omega

/-- The inode number handed out on a bitmap of one block: 0, or the 1-based
position of the lowest unset bit, which lies below the capacity. -/
theorem find_first_free_bit_block (mem : List Nat) (bitmap max_items : Nat)
    (hmax : max_items < 4294967296) :
    find_first_free_bit mem bitmap BS max_items = 0 ∨
    (1 ≤ find_first_free_bit mem bitmap BS max_items ∧
      find_first_free_bit mem bitmap BS max_items ≤ max_items ∧
      bitmap_bit mem bitmap (find_first_free_bit mem bitmap BS max_items - 1) = false ∧
      ∀ p, p < find_first_free_bit mem bitmap BS max_items - 1 →
        bitmap_bit mem bitmap p = true) := by
  have hs := find_first_free_bit_outer_spec mem bitmap BS max_items hmax (by decide)
    BS 0 rfl (by omega) (fun p hp _ => absurd hp (by omega))
  unfold find_first_free_bit
  by_cases h0 : find_first_free_bit_outer mem bitmap BS max_items BS 0 = 0
  · exact Or.inl h0
  · obtain ⟨h1, h2, h3⟩ := hs.2 h0
    exact Or.inr ⟨Nat.pos_of_ne_zero h0, h1, h2, h3⟩

/-- On a valid image the inode number handed out is 0 or lies in
`2 .. inode_count`, and its bit is unset. -/
theorem find_first_free_bit_valid_image (size_kib inode_count : Nat) (img : List Nat)
    (hvi : valid_image size_kib inode_count img) :
    find_first_free_bit img 4096 BS inode_count = 0 ∨
    (2 ≤ find_first_free_bit img 4096 BS inode_count ∧
      find_first_free_bit img 4096 BS inode_count ≤ inode_count ∧
      bitmap_bit img 4096 (find_first_free_bit img 4096 BS inode_count - 1) = false) := by
  obtain ⟨⟨_, _, _, _, h5⟩, _, _, hb, _, _⟩ := hvi
  rcases find_first_free_bit_block img 4096 inode_count (by omega) with h | ⟨h1, h2, h3, _⟩
  · exact Or.inl h
  · refine Or.inr ⟨?_, h2, h3⟩
    by_contra hlt
    have e : find_first_free_bit img 4096 BS inode_count - 1 = 0 := by omega
    rw [e] at h3
    rw [show 1 * BS = 4096 by decide] at hb
    rw [hb] at h3
    exact Bool.noConfusion h3

/-- On a valid image the blocks handed out lie in the data region after its first
block, and their bits are unset. -/
theorem getD_alloc_blocks_valid_image (size_kib inode_count : Nat) (img : List Nat)
    (drs drb bn i : Nat) (hvi : valid_image size_kib inode_count img)
    (hi : i < (alloc_blocks img 8192 drs drb bn).length) :
    drs + 1 ≤ (alloc_blocks img 8192 drs drb bn).getD i 0 ∧
    (alloc_blocks img 8192 drs drb bn).getD i 0 < drs + drb ∧
    bitmap_bit img 8192 ((alloc_blocks img 8192 drs drb bn).getD i 0 - drs) = false := by
  obtain ⟨_, _, _, _, hb, _⟩ := hvi
  obtain ⟨h1, h2, h3⟩ := getD_alloc_blocks img 8192 drs drb bn i hi
  refine ⟨?_, h2, h3⟩
  by_contra hlt
  have e : (alloc_blocks img 8192 drs drb bn).getD i 0 - drs = 0 := by omega
  rw [e] at h3
  rw [show 2 * BS = 8192 by decide] at hb
  rw [hb] at h3
  exact Bool.noConfusion h3

theorem getD_append_replicate_zero (l : List Nat) (n i : Nat) :
    (l ++ List.replicate n 0).getD i 0 = l.getD i 0 := by
  rw [getD_append_ite]
  by_cases h : i < l.length
  · rw [if_pos h]
  · rw [if_neg h, getD_replicate_zero, List.getD_eq_default _ _ (by omega)]

/-- Frame of `adder_store` on a valid image: the superblock, the root inode record
and the root directory block are not touched, when the inode number is at least 2
and the blocks lie in the data region after its first block. -/
theorem getD_adder_store_valid_image (size_kib inode_count : Nat) (img file : List Nat)
    (now bn ino : Nat) (dbs : List Nat) (drs drb : Nat)
    (hvi : valid_image size_kib inode_count img)
    (hdrs : drs = 3 + (inode_count * 128 + 4096 - 1) / 4096)
    (hdrb : drb = size_kib * 1024 / 4096 - (1 + 1 + 1 + (inode_count * 128 + 4096 - 1) / 4096))
    (h2 : 2 ≤ ino) (hn : ino ≤ inode_count)
    (hd : ∀ i, i < bn → drs + 1 ≤ dbs.getD i 0 ∧ dbs.getD i 0 < drs + drb)
    (j : Nat) (hj : j < 4096 ∨ (12288 ≤ j ∧ j < 12288 + 128) ∨
      (drs * 4096 ≤ j ∧ j < drs * 4096 + 4096)) :
    (adder_store (read_superblock img 0) img file now bn ino dbs).getD j 0 = img.getD j 0 := by
  obtain ⟨_, _, hib, hdb, hit, hdr, _⟩ := superblock_fields_valid_image _ _ _ hvi
  obtain ⟨⟨h1, h2', h3, h4, h5⟩, _⟩ := hvi
  apply getD_adder_store_layout _ _ _ _ _ _ _ _ hib hdb hit (by omega) (by omega)
  · intro i hi
    have := hd i hi
    rw [hdr]; omega
  · rw [hdr]; omega
  · omega
  · omega
  · intro i hi
    have := hd i hi
    omega

/-- On a valid image `root_dir_data` points to the first block of the data
region. -/
theorem adder_root_dir_data_valid_image (size_kib inode_count : Nat) (img file : List Nat)
    (now bn ino : Nat) (dbs : List Nat) (drs drb : Nat)
    (hvi : valid_image size_kib inode_count img)
    (hdrs : drs = 3 + (inode_count * 128 + 4096 - 1) / 4096)
    (hdrb : drb = size_kib * 1024 / 4096 - (1 + 1 + 1 + (inode_count * 128 + 4096 - 1) / 4096))
    (h2 : 2 ≤ ino) (hn : ino ≤ inode_count)
    (hd : ∀ i, i < bn → drs + 1 ≤ dbs.getD i 0 ∧ dbs.getD i 0 < drs + drb) :
    adder_root_dir_data (read_superblock img 0)
      (adder_store (read_superblock img 0) img file now bn ino dbs) = drs * 4096 := by
  obtain ⟨_, _, hib, hdb, hit, hdr, _⟩ := superblock_fields_valid_image _ _ _ hvi
  have hroot : le_read (adder_store (read_superblock img 0) img file now bn ino dbs)
      (12288 + 44) 4 = drs := by
    have h0 : le_read img (12288 + 44) 4 = drs := by
      have := hvi.2.2.2.2.2
      rw [show 3 * BS + 44 = 12288 + 44 by decide] at this
      rw [this, hdrs]; rfl
    rw [← h0]
    apply le_read_congr
    intro k hk
    exact getD_adder_store_valid_image _ _ _ _ _ _ _ _ _ _ hvi hdrs hdrb h2 hn hd _
      (Or.inr (Or.inl (by omega)))
  obtain ⟨⟨h1, h2', h3, h4, h5⟩, _⟩ := hvi
  simp only [adder_root_dir_data, hit, hdr, BS]
  rw [show 3 * 4096 % 18446744073709551616 + 44 = 12288 + 44 by decide, hroot]
  omega

/-- The run of the adder on a valid image, decision by decision: `ino` is the inode
number found, `dbs` the blocks found, `store` the buffer after line 331. -/
theorem adder_main_valid_image (size_kib inode_count : Nat) (img file file_name : List Nat)
    (now drs drb bn ino : Nat) (dbs store : List Nat)
    (hvi : valid_image size_kib inode_count img)
    (hdrs : drs = 3 + (inode_count * 128 + 4096 - 1) / 4096)
    (hdrb : drb = size_kib * 1024 / 4096 - (1 + 1 + 1 + (inode_count * 128 + 4096 - 1) / 4096))
    (hbn : bn = (file.length + BS - 1) / BS)
    (hino : ino = find_first_free_bit img 4096 BS inode_count)
    (hdbs : dbs = alloc_blocks img 8192 drs drb bn)
    (hstore : store = adder_store (read_superblock img 0) img file now bn ino
      (dbs ++ List.replicate (DIRECT_MAX - dbs.length) 0)) :
    mkfs_adder.main img file file_name now =
      if bn > DIRECT_MAX then ⟨.FileTooLarge, img⟩
      else if ino = 0 then ⟨.NoFreeInodes, img⟩
      else if dbs.length < bn then ⟨.OutOfSpace, img⟩
      else
        match (List.range 64).find? (fun i => decide (le_read store (drs * 4096 + i * 64) 4 = 0))
        with
        | none => ⟨.DirectoryFull, store⟩
        | some e =>
          if (basename file_name).length ≥ 58 then ⟨.NameTooLong, store⟩
          else ⟨.Ok, adder_link (read_superblock img 0) store (drs * 4096) e ino
            (basename file_name) now⟩ := by
  obtain ⟨hmagic, hic, hib, hdb, hit, hdr, hdrb'⟩ := superblock_fields_valid_image _ _ _ hvi
  have hlen := hvi.2.1
  have hv := hvi.1
  obtain ⟨h1, h2, h3, h4, h5⟩ := hv
  unfold mkfs_adder.main
  dsimp only
  rw [← hbn]
  by_cases h12 : bn > DIRECT_MAX
  · rw [if_pos h12, if_pos h12]
  · rw [if_neg h12, if_neg h12, if_neg (by omega), if_neg (by rw [hmagic]; simp),
      if_neg (by rw [hdrb']; simp only [DIRECT_MAX] at h12; omega)]
    unfold adder_insert
    dsimp only
    rw [hib, hdb, hic, hdr, hdrb', show 1 * BS % 18446744073709551616 = 4096 by decide,
      show 2 * BS % 18446744073709551616 = 8192 by decide,
      Nat.mod_eq_of_lt (show inode_count < 4294967296 by omega), ← hino, ← hdrb, ← hdrs]
    by_cases h0 : ino = 0
    · rw [if_pos h0, if_pos h0]
    · rw [if_neg h0, if_neg h0, alloc_loop_eq_alloc_blocks _ _ _ _ _ (by omega), ← hdbs]
      dsimp only
      by_cases hl : dbs.length < bn
      · rw [if_pos hl, if_pos hl]
      · rw [if_neg hl, if_neg hl, ← hstore]
        have hino2 : 2 ≤ ino ∧ ino ≤ inode_count := by
          rcases find_first_free_bit_valid_image _ _ _ hvi with h | ⟨ha, hb, _⟩
          · exact absurd (hino.trans h) h0
          · rw [← hino] at ha hb; exact ⟨ha, hb⟩
        have hdl : dbs.length = bn := by
          have := length_alloc_blocks_le img 8192 drs drb bn
          rw [← hdbs] at this
          omega
        have hrdd : adder_root_dir_data (read_superblock img 0) store = drs * 4096 := by
          rw [hstore]
          apply adder_root_dir_data_valid_image _ _ _ _ _ _ _ _ _ _ hvi hdrs hdrb hino2.1 hino2.2
          intro i hi
          rw [getD_append_replicate_zero, hdbs]
          have := getD_alloc_blocks_valid_image _ _ _ drs drb bn i hvi
            (by rw [← hdbs, hdl]; exact hi)
          exact ⟨this.1, this.2.1⟩
        rw [hrdd, show BS / 64 = 64 by decide]

theorem le_read_direct_bytes (d rest : List Nat) :
    ∀ (n k j : Nat), j < n →
      le_read (direct_bytes d n k ++ rest) (4 * j) 4 = d.getD (k + j) 0 % 256 ^ 4 := by
  intro n
  induction n with
  | zero => intro k j h; omega
  | succ n ih =>
    intro k j hj
    simp only [direct_bytes, List.append_assoc]
    cases j with
    | zero => rw [Nat.mul_zero, le_read_le_bytes_append, Nat.add_zero]
    | succ j =>
      rw [le_read_append_right _ _ _ _ (by rw [length_le_bytes]; omega), length_le_bytes]
      have e : 4 * (j + 1) - 4 = 4 * j := by omega
      have e2 : k + (j + 1) = k + 1 + j := by omega
      rw [e, e2]
      exact ih (k + 1) j (by omega)

/-- Entry `j` of `direct` in the memory image of an inode. -/
theorem le_read_inode_bytes_direct (ino : inode_t) (j : Nat) (hj : j < 12) :
    le_read ino.bytes (44 + 4 * j) 4 = ino.direct.getD j 0 % 4294967296 := by
  have hsplit : ino.bytes = (le_bytes 2 ino.mode ++ le_bytes 2 ino.links ++ le_bytes 4 ino.uid
      ++ le_bytes 4 ino.gid ++ le_bytes 8 ino.size_bytes ++ le_bytes 8 ino.atime
      ++ le_bytes 8 ino.mtime ++ le_bytes 8 ino.ctime)
      ++ (direct_bytes ino.direct DIRECT_MAX 0 ++ (le_bytes 4 ino.reserved_0
        ++ le_bytes 4 ino.reserved_1 ++ le_bytes 4 ino.reserved_2 ++ le_bytes 4 ino.proj_id
        ++ le_bytes 4 ino.uid16_gid16 ++ le_bytes 8 ino.xattr_ptr
        ++ le_bytes 8 ino.inode_crc)) := by
    simp only [inode_t.bytes, List.append_assoc]
  rw [hsplit, le_read_append_right _ _ _ _ (by simp [length_le_bytes])]
  have e : 44 + 4 * j - (le_bytes 2 ino.mode ++ le_bytes 2 ino.links ++ le_bytes 4 ino.uid
      ++ le_bytes 4 ino.gid ++ le_bytes 8 ino.size_bytes ++ le_bytes 8 ino.atime
      ++ le_bytes 8 ino.mtime ++ le_bytes 8 ino.ctime).length = 4 * j := by
    simp [length_le_bytes]
  rw [e, le_read_direct_bytes _ _ _ _ _ (by simp only [DIRECT_MAX]; exact hj), Nat.zero_add]
  rfl

/-- The field `size_bytes` in the memory image of an inode. -/
theorem le_read_inode_bytes_size (ino : inode_t) :
    le_read ino.bytes 12 8 = ino.size_bytes % 18446744073709551616 := by
  simp [inode_t.bytes, le_read_append_left, le_read_append_right, le_read_le_bytes,
    length_le_bytes, length_direct_bytes]

theorem getD_read_inode_direct (mem : List Nat) (off j : Nat) (hj : j < 12) :
    (read_inode mem off).direct.getD j 0 = le_read mem (off + 44 + 4 * j) 4 := by
  simp only [read_inode, DIRECT_MAX]
  rw [List.getD_eq_getElem _ _ (by simpa using hj)]
  simp

/-- Reading a field that lies before the checksum of a finalized inode record. -/
theorem le_read_inode_crc_finalize (bytes : List Nat) (p w : Nat) (h : p + w ≤ 120) :
    le_read (inode_crc_finalize bytes 0) p w = le_read bytes p w := by
  apply le_read_congr
  intro k hk
  exact getD_inode_crc_finalize_of_lt _ _ _ (by omega)

/-- After `adder_link` on a valid image, the slot of the new inode holds the
finalized bytes of `new_inode`. -/
theorem getD_final_inode_slot (size_kib inode_count : Nat) (img file name : List Nat)
    (now bn ino e drs : Nat) (dbs : List Nat)
    (hvi : valid_image size_kib inode_count img)
    (hdrs : drs = 3 + (inode_count * 128 + 4096 - 1) / 4096)
    (h2 : 2 ≤ ino) (hn : ino ≤ inode_count) (hname : name.length ≤ 58)
    (k : Nat) (hk : k < 128) :
    (adder_link (read_superblock img 0)
      (adder_store (read_superblock img 0) img file now bn ino dbs)
      (drs * 4096) e ino name now).getD (12288 + (ino - 1) * 128 + k) 0
      = (inode_crc_finalize (adder_new_inode file.length now bn dbs).bytes 0).getD k 0 := by
  obtain ⟨_, _, hib, hdb, hit, hdr, _⟩ := superblock_fields_valid_image _ _ _ hvi
  have hlen := hvi.2.1
  obtain ⟨h1, h2', h3, h4, h5⟩ := hvi.1
  rw [getD_adder_link_of_out _ _ _ _ _ _ _ _ hit (by rw [length_adder_store]; omega) hname
    (by omega) (by omega) (by omega)]
  exact getD_adder_store_slot _ _ _ _ _ _ _ _ hit (by omega) (by omega) hk (by omega)

/-- After `adder_link` on a valid image, block `i` of the file holds its
`block_data`. -/
theorem getD_final_block (size_kib inode_count : Nat) (img file name : List Nat)
    (now bn ino e drs drb : Nat) (dbs : List Nat)
    (hvi : valid_image size_kib inode_count img)
    (hdrs : drs = 3 + (inode_count * 128 + 4096 - 1) / 4096)
    (hdrb : drb = size_kib * 1024 / 4096 - (1 + 1 + 1 + (inode_count * 128 + 4096 - 1) / 4096))
    (h2 : 2 ≤ ino) (hn : ino ≤ inode_count) (he : e < 64) (hname : name.length ≤ 58)
    (hd : ∀ i, i < bn → drs + 1 ≤ dbs.getD i 0 ∧ dbs.getD i 0 < drs + drb)
    (i t : Nat) (hi : i < bn) (ht : t < 4096)
    (hdist : ∀ i', i < i' → i' < bn → dbs.getD i' 0 ≠ dbs.getD i 0) :
    (adder_link (read_superblock img 0)
      (adder_store (read_superblock img 0) img file now bn ino dbs)
      (drs * 4096) e ino name now).getD (dbs.getD i 0 * 4096 + t) 0
      = (block_data file bn i).getD t 0 := by
  obtain ⟨_, _, hib, hdb, hit, hdr, _⟩ := superblock_fields_valid_image _ _ _ hvi
  have hlen := hvi.2.1
  obtain ⟨h1, h2', h3, h4, h5⟩ := hvi.1
  have hdi := hd i hi
  rw [getD_adder_link_of_out _ _ _ _ _ _ _ _ hit (by rw [length_adder_store]; omega) hname
    (by omega) (by omega) (by omega)]
  apply getD_adder_store_block _ _ _ _ _ _ _ _ _ hib hdb hit (by omega) (by omega) _
    (by rw [hdr]; omega) (by rw [hdr]; omega) hi ht hdist (by omega)
  intro i' hi'
  have := hd i' hi'
  rw [hdr]; omega

/-- After `adder_link` on a valid image, the inode bitmap has the old bits and the
bit of the new inode. -/
theorem bitmap_bit_final_inode (size_kib inode_count : Nat) (img file name : List Nat)
    (now bn ino e drs drb : Nat) (dbs : List Nat)
    (hvi : valid_image size_kib inode_count img)
    (hdrs : drs = 3 + (inode_count * 128 + 4096 - 1) / 4096)
    (hdrb : drb = size_kib * 1024 / 4096 - (1 + 1 + 1 + (inode_count * 128 + 4096 - 1) / 4096))
    (h2 : 2 ≤ ino) (hn : ino ≤ inode_count) (hname : name.length ≤ 58)
    (hd : ∀ i, i < bn → drs + 1 ≤ dbs.getD i 0 ∧ dbs.getD i 0 < drs + drb)
    (pos : Nat) (hpos : pos < 32768) :
    bitmap_bit (adder_link (read_superblock img 0)
      (adder_store (read_superblock img 0) img file now bn ino dbs)
      (drs * 4096) e ino name now) 4096 pos
      = (bitmap_bit img 4096 pos || decide (pos = ino - 1)) := by
  obtain ⟨_, _, hib, hdb, hit, hdr, _⟩ := superblock_fields_valid_image _ _ _ hvi
  have hlen := hvi.2.1
  obtain ⟨h1, h2', h3, h4, h5⟩ := hvi.1
  rw [← bitmap_bit_adder_store_inode (read_superblock img 0) img file now bn ino dbs pos
    hib hdb hit (by omega) (by omega) hpos
    (by intro i hi; have := hd i hi; rw [hdr]; omega) (by rw [hdr]; omega)
    (by rw [hdr]; omega) (by omega)]
  simp only [bitmap_bit]
  rw [getD_adder_link_of_out _ _ _ _ _ _ _ _ hit (by rw [length_adder_store]; omega) hname
    (by omega) (by omega) (by omega)]

/-- After `adder_link` on a valid image, the data bitmap has the old bits and the
bits of the blocks of the file. -/
theorem bitmap_bit_final_data (size_kib inode_count : Nat) (img file name : List Nat)
    (now bn ino e drs drb : Nat) (dbs : List Nat)
    (hvi : valid_image size_kib inode_count img)
    (hdrs : drs = 3 + (inode_count * 128 + 4096 - 1) / 4096)
    (hdrb : drb = size_kib * 1024 / 4096 - (1 + 1 + 1 + (inode_count * 128 + 4096 - 1) / 4096))
    (h2 : 2 ≤ ino) (hn : ino ≤ inode_count) (hname : name.length ≤ 58)
    (hd : ∀ i, i < bn → drs + 1 ≤ dbs.getD i 0 ∧ dbs.getD i 0 < drs + drb)
    (pos : Nat) (hpos : pos < 32768) :
    (bitmap_bit (adder_link (read_superblock img 0)
      (adder_store (read_superblock img 0) img file now bn ino dbs)
      (drs * 4096) e ino name now) 8192 pos = true ↔
      bitmap_bit img 8192 pos = true ∨ ∃ i, i < bn ∧ pos = dbs.getD i 0 - drs) := by
  obtain ⟨_, _, hib, hdb, hit, hdr, _⟩ := superblock_fields_valid_image _ _ _ hvi
  have hlen := hvi.2.1
  obtain ⟨h1, h2', h3, h4, h5⟩ := hvi.1
  have hs := bitmap_bit_adder_store_data (read_superblock img 0) img file now bn ino dbs pos
    hib hdb hit (by omega) (by omega) hpos
    (by intro i hi; have := hd i hi; rw [hdr]; omega) (by rw [hdr]; omega)
    (by rw [hdr]; omega) (by omega)
  rw [hdr, ← hdrs] at hs
  rw [← hs]
  simp only [bitmap_bit]
  rw [getD_adder_link_of_out _ _ _ _ _ _ _ _ hit (by rw [length_adder_store]; omega) hname
    (by omega) (by omega) (by omega)]

/-- After `adder_link` on a valid image, directory slot `e` holds the finalized
entry. -/
theorem getD_final_dir_slot (size_kib inode_count : Nat) (img file name : List Nat)
    (now bn ino e drs : Nat) (dbs : List Nat)
    (hvi : valid_image size_kib inode_count img)
    (hdrs : drs = 3 + (inode_count * 128 + 4096 - 1) / 4096)
    (he : e < 64) (hname : name.length ≤ 58) (k : Nat) (hk : k < 64) :
    (adder_link (read_superblock img 0)
      (adder_store (read_superblock img 0) img file now bn ino dbs)
      (drs * 4096) e ino name now).getD (drs * 4096 + e * 64 + k) 0
      = (dirent_checksum_finalize (adder_new_entry ino name).bytes 0).getD k 0 := by
  obtain ⟨_, _, hib, hdb, hit, hdr, hdrb'⟩ := superblock_fields_valid_image _ _ _ hvi
  have hlen := hvi.2.1
  obtain ⟨h1, h2', h3, h4, h5⟩ := hvi.1
  exact getD_adder_link_slot _ _ _ _ _ _ _ _ hit hname hk (by omega)
    (by rw [length_adder_store]; omega)

/-- After `adder_link` on a valid image, the direct pointers of the new inode are
the blocks `dbs` found, then zeroes. -/
theorem direct_final_inode (size_kib inode_count : Nat) (img file name : List Nat)
    (now bn ino e drs : Nat) (dbs : List Nat)
    (hvi : valid_image size_kib inode_count img)
    (hdrs : drs = 3 + (inode_count * 128 + 4096 - 1) / 4096)
    (h2 : 2 ≤ ino) (hn : ino ≤ inode_count) (hname : name.length ≤ 58)
    (j : Nat) (hj : j < 12) :
    (read_inode (adder_link (read_superblock img 0)
      (adder_store (read_superblock img 0) img file now bn ino dbs)
      (drs * 4096) e ino name now) (12288 + (ino - 1) * 128)).direct.getD j 0
      = if j < bn then dbs.getD j 0 % 4294967296 else 0 := by
  rw [getD_read_inode_direct _ _ _ hj]
  have h : le_read (adder_link (read_superblock img 0)
      (adder_store (read_superblock img 0) img file now bn ino dbs)
      (drs * 4096) e ino name now) (12288 + (ino - 1) * 128 + 44 + 4 * j) 4
      = le_read (inode_crc_finalize (adder_new_inode file.length now bn dbs).bytes 0)
          (44 + 4 * j) 4 := by
    apply le_read_congr
    intro k hk
    have e1 : 12288 + (ino - 1) * 128 + 44 + 4 * j + k
        = 12288 + (ino - 1) * 128 + (44 + 4 * j + k) := by omega
    rw [e1]
    exact getD_final_inode_slot _ _ _ _ _ _ _ _ _ _ _ hvi hdrs h2 hn hname _ (by omega)
  rw [h, le_read_inode_crc_finalize _ _ _ (by omega), le_read_inode_bytes_direct _ _ hj]
  simp only [adder_new_inode, DIRECT_MAX]
  rw [List.getD_eq_getElem _ _ (by simpa using hj)]
  simp only [List.getElem_map, List.getElem_range]
  by_cases hb : j < bn
  · rw [if_pos hb, if_pos hb]
  · rw [if_neg hb, if_neg hb]

/-- After `adder_link` on a valid image, the new inode records the length of the
file. -/
theorem size_final_inode (size_kib inode_count : Nat) (img file name : List Nat)
    (now bn ino e drs : Nat) (dbs : List Nat)
    (hvi : valid_image size_kib inode_count img)
    (hdrs : drs = 3 + (inode_count * 128 + 4096 - 1) / 4096)
    (h2 : 2 ≤ ino) (hn : ino ≤ inode_count) (hname : name.length ≤ 58) :
    (read_inode (adder_link (read_superblock img 0)
      (adder_store (read_superblock img 0) img file now bn ino dbs)
      (drs * 4096) e ino name now) (12288 + (ino - 1) * 128)).size_bytes
      = file.length % 18446744073709551616 := by
  have h : le_read (adder_link (read_superblock img 0)
      (adder_store (read_superblock img 0) img file now bn ino dbs)
      (drs * 4096) e ino name now) (12288 + (ino - 1) * 128 + 12) 8
      = le_read (inode_crc_finalize (adder_new_inode file.length now bn dbs).bytes 0)
          (0 + 12) 8 := by
    apply le_read_congr
    intro k hk
    have e1 : 12288 + (ino - 1) * 128 + 12 + k = 12288 + (ino - 1) * 128 + (0 + 12 + k) := by
      omega
    rw [e1]
    exact getD_final_inode_slot _ _ _ _ _ _ _ _ _ _ _ hvi hdrs h2 hn hname _ (by omega)
  show le_read _ (12288 + (ino - 1) * 128 + 12) 8 = _
  rw [h, Nat.zero_add, le_read_inode_crc_finalize _ _ _ (by omega), le_read_inode_bytes_size]
  rfl

/-- The blocks found on a fresh image: `drs + 1, .., drs + bn`. -/
theorem alloc_blocks_builder_write (size_kib inode_count now : Nat) (adj : List Nat) (bn : Nat)
    (hv : valid_params size_kib inode_count) (hbn : bn ≤ 12) :
    alloc_blocks (builder_write size_kib inode_count now adj) 8192
      (3 + (inode_count * 128 + 4096 - 1) / 4096)
      (size_kib * 1024 / 4096 - (1 + 1 + 1 + (inode_count * 128 + 4096 - 1) / 4096)) bn
      = List.range' (3 + (inode_count * 128 + 4096 - 1) / 4096 + 1) bn := by
  have h1 := alloc_loop_builder_write size_kib inode_count now adj bn hv hbn
  obtain ⟨_, h2, _, _, h5⟩ := hv
  rw [alloc_loop_eq_alloc_blocks _ _ _ _ _ (by omega)] at h1
  exact Option.some.inj h1

/-- C2: for valid parameters and a file that needs `k` blocks, `1 ≤ k ≤ 12` (under a
display name of at most 57 characters, the limit of the interface), the builder
followed by the adder succeeds. The new inode is number 2 (slot 1 of the table in
block 3) and its bit in the inode bitmap (block 1) is set afterwards. Its direct
pointers `0 .. k-1` are non-zero, pairwise different blocks of the data region,
each free in the data bitmap (block 2) before the insertion and marked used after
it, and its direct pointers `k .. 11` are zero. -/
theorem C2_create_then_insert (size_kib inode_count now : Nat) (adj file file_name : List Nat)
    (now2 : Nat) (hv : valid_params size_kib inode_count)
    (hk1 : 1 ≤ (file.length + BS - 1) / BS) (hk12 : (file.length + BS - 1) / BS ≤ 12)
    (hname : (basename file_name).length ≤ 57) :
    ∃ img out, mkfs_builder.main size_kib inode_count now adj = .ok img ∧
      mkfs_adder.main img file file_name now2 = ⟨.Ok, out⟩ ∧
      find_first_free_bit img (1 * BS) BS inode_count = 2 ∧
      bitmap_bit out (1 * BS) (2 - 1) = true ∧
      ∀ j, j < DIRECT_MAX →
        (j < (file.length + BS - 1) / BS →
          (read_inode out (3 * BS + (2 - 1) * INODE_SIZE)).direct.getD j 0 ≠ 0 ∧
          (read_superblock img 0).data_region_start
            ≤ (read_inode out (3 * BS + (2 - 1) * INODE_SIZE)).direct.getD j 0 ∧
          (read_inode out (3 * BS + (2 - 1) * INODE_SIZE)).direct.getD j 0
            < (read_superblock img 0).data_region_start
              + (read_superblock img 0).data_region_blocks ∧
          bitmap_bit img (2 * BS)
            ((read_inode out (3 * BS + (2 - 1) * INODE_SIZE)).direct.getD j 0
              - (read_superblock img 0).data_region_start) = false ∧
          bitmap_bit out (2 * BS)
            ((read_inode out (3 * BS + (2 - 1) * INODE_SIZE)).direct.getD j 0
              - (read_superblock img 0).data_region_start) = true ∧
          ∀ i, i < j →
            (read_inode out (3 * BS + (2 - 1) * INODE_SIZE)).direct.getD i 0
              ≠ (read_inode out (3 * BS + (2 - 1) * INODE_SIZE)).direct.getD j 0) ∧
        ((file.length + BS - 1) / BS ≤ j →
          (read_inode out (3 * BS + (2 - 1) * INODE_SIZE)).direct.getD j 0 = 0) := by
  have hvi := valid_image_builder_write size_kib inode_count now adj hv
  obtain ⟨_, hic, _, _, _, hdr, hdrb⟩ :=
    superblock_fields_builder_write size_kib inode_count now adj hv
  have hrun := adder_main_builder_write size_kib inode_count now adj file file_name now2
    (3 + (inode_count * 128 + 4096 - 1) / 4096) ((file.length + BS - 1) / BS) hv rfl rfl hk12
    (by omega)
  have hv' := hv
  obtain ⟨h1, h2, h3, h4, h5⟩ := hv
  have hdbs : ∀ i, i < (file.length + BS - 1) / BS →
      (List.range' (3 + (inode_count * 128 + 4096 - 1) / 4096 + 1) ((file.length + BS - 1) / BS)
        ++ List.replicate (DIRECT_MAX - (file.length + BS - 1) / BS) 0).getD i 0
        = 3 + (inode_count * 128 + 4096 - 1) / 4096 + 1 + i :=
    fun i hi => getD_range'_append _ _ _ _ hi
  have hdirect : ∀ j, j < 12 → (read_inode (adder_link
      (read_superblock (builder_write size_kib inode_count now adj) 0)
      (adder_store (read_superblock (builder_write size_kib inode_count now adj) 0)
        (builder_write size_kib inode_count now adj) file now2 ((file.length + BS - 1) / BS) 2
        (List.range' (3 + (inode_count * 128 + 4096 - 1) / 4096 + 1)
          ((file.length + BS - 1) / BS)
          ++ List.replicate (DIRECT_MAX - (file.length + BS - 1) / BS) 0))
      ((3 + (inode_count * 128 + 4096 - 1) / 4096) * 4096) 2 2 (basename file_name) now2)
      (3 * BS + (2 - 1) * INODE_SIZE)).direct.getD j 0
      = if j < (file.length + BS - 1) / BS then
          3 + (inode_count * 128 + 4096 - 1) / 4096 + 1 + j else 0 := by
    intro j hj
    have := direct_final_inode size_kib inode_count (builder_write size_kib inode_count now adj)
      file (basename file_name) now2 ((file.length + BS - 1) / BS) 2 2
      (3 + (inode_count * 128 + 4096 - 1) / 4096)
      (List.range' (3 + (inode_count * 128 + 4096 - 1) / 4096 + 1)
          ((file.length + BS - 1) / BS)
          ++ List.replicate (DIRECT_MAX - (file.length + BS - 1) / BS) 0)
      hvi rfl (by omega) (by omega) (by omega) j hj
    rw [show 3 * BS + (2 - 1) * INODE_SIZE = 12288 + (2 - 1) * 128 by decide, this]
    by_cases hb : j < (file.length + BS - 1) / BS
    · rw [if_pos hb, if_pos hb, hdbs j hb]
      exact Nat.mod_eq_of_lt (by omega)
    · rw [if_neg hb, if_neg hb]
  have hd : ∀ i, i < (file.length + BS - 1) / BS →
      3 + (inode_count * 128 + 4096 - 1) / 4096 + 1 ≤
        (List.range' (3 + (inode_count * 128 + 4096 - 1) / 4096 + 1)
          ((file.length + BS - 1) / BS)
          ++ List.replicate (DIRECT_MAX - (file.length + BS - 1) / BS) 0).getD i 0 ∧
      (List.range' (3 + (inode_count * 128 + 4096 - 1) / 4096 + 1)
          ((file.length + BS - 1) / BS)
          ++ List.replicate (DIRECT_MAX - (file.length + BS - 1) / BS) 0).getD i 0
        < 3 + (inode_count * 128 + 4096 - 1) / 4096
          + (size_kib * 1024 / 4096 - (1 + 1 + 1 + (inode_count * 128 + 4096 - 1) / 4096)) := by
    intro i hi
    rw [hdbs i hi]
    omega
  refine ⟨_, _, builder_main_ok _ _ _ _ hv', hrun, ?_, ?_, ?_⟩
  · have := find_first_free_bit_builder_write size_kib inode_count now adj hv'
    rw [Nat.mod_eq_of_lt (show inode_count < 4294967296 by omega)] at this
    exact this
  · rw [show 1 * BS = 4096 by decide,
      bitmap_bit_final_inode size_kib inode_count _ file (basename file_name) now2 _ 2 2 _ _ _
        hvi rfl rfl (by omega) (by omega) (by omega) hd _ (by omega)]
    simp
  · intro j hj
    rw [hdirect j hj, hdr, hdrb]
    refine ⟨fun hb => ?_, fun hb => ?_⟩
    · rw [if_pos hb]
      refine ⟨by omega, by omega, by omega, ?_, ?_, ?_⟩
      · rw [show 2 * BS = 8192 by decide,
          bitmap_bit_builder_write_data _ _ _ _ _ (by omega)]
        simp
        omega
      · rw [show 2 * BS = 8192 by decide,
          bitmap_bit_final_data size_kib inode_count _ file (basename file_name) now2 _ 2 2 _ _ _
            hvi rfl rfl (by omega) (by omega) (by omega) hd _ (by omega)]
        exact Or.inr ⟨j, hb, by rw [hdbs j hb]⟩
      · intro i hi
        rw [hdirect i (by omega), if_pos (by omega)]
        omega
    · rw [if_neg (by omega)]

theorem C2_create_then_insert_witness :
    valid_params 180 128 ∧
    ∃ img out, mkfs_builder.main 180 128 0 [] = .ok img ∧
      mkfs_adder.main img (List.replicate 5000 7) [97] 1 = ⟨.Ok, out⟩ ∧
      find_first_free_bit img (1 * BS) BS 128 = 2 ∧
      bitmap_bit out (1 * BS) (2 - 1) = true :=
  ⟨by decide,
    (C2_create_then_insert 180 128 0 [] (List.replicate 5000 7) [97] 1 (by decide)
      (by rw [List.length_replicate]; decide) (by rw [List.length_replicate]; decide)
      (by decide)).imp fun _ h =>
        h.imp fun _ h => ⟨h.1, h.2.1, h.2.2.1, h.2.2.2.1⟩⟩

theorem find?_range_lt (p : Nat → Bool) (n e : Nat) (h : (List.range n).find? p = some e) :
    e < n ∧ p e = true := by
  have h1 := List.mem_of_find?_eq_some h
  have h2 := List.find?_some h
  exact ⟨List.mem_range.mp h1, h2⟩

theorem run_status_eq {s s' : Status} {b b' : List Nat} (h : (⟨s, b⟩ : Run) = ⟨s', b'⟩) :
    s = s' :=
  congrArg Run.status h

theorem run_fs_image_eq {s s' : Status} {b b' : List Nat} (h : (⟨s, b⟩ : Run) = ⟨s', b'⟩) :
    b = b' :=
  congrArg Run.fs_image h

/-- What a successful run of the adder on a valid image did: the inode number and
the blocks found, the directory slot used, and the buffer written. -/
theorem adder_main_ok_inv (size_kib inode_count : Nat) (img file file_name : List Nat)
    (now drs drb bn ino : Nat) (dbs store out : List Nat)
    (hvi : valid_image size_kib inode_count img)
    (hdrs : drs = 3 + (inode_count * 128 + 4096 - 1) / 4096)
    (hdrb : drb = size_kib * 1024 / 4096 - (1 + 1 + 1 + (inode_count * 128 + 4096 - 1) / 4096))
    (hbn : bn = (file.length + BS - 1) / BS)
    (hino : ino = find_first_free_bit img 4096 BS inode_count)
    (hdbs : dbs = alloc_blocks img 8192 drs drb bn)
    (hstore : store = adder_store (read_superblock img 0) img file now bn ino
      (dbs ++ List.replicate (DIRECT_MAX - dbs.length) 0))
    (hok : mkfs_adder.main img file file_name now = ⟨.Ok, out⟩) :
    bn ≤ 12 ∧ 2 ≤ ino ∧ ino ≤ inode_count ∧ dbs.length = bn ∧
    (basename file_name).length < 58 ∧
    ∃ e, e < 64 ∧
      (List.range 64).find? (fun i => decide (le_read store (drs * 4096 + i * 64) 4 = 0))
        = some e ∧
      out = adder_link (read_superblock img 0) store (drs * 4096) e ino
        (basename file_name) now := by
  rw [adder_main_valid_image size_kib inode_count img file file_name now drs drb bn ino dbs
    store hvi hdrs hdrb hbn hino hdbs hstore] at hok
  by_cases h12 : bn > DIRECT_MAX
  · rw [if_pos h12] at hok
    exact absurd (run_status_eq hok) (by decide)
  · rw [if_neg h12] at hok
    by_cases h0 : ino = 0
    · rw [if_pos h0] at hok
      exact absurd (run_status_eq hok) (by decide)
    · rw [if_neg h0] at hok
      by_cases hl : dbs.length < bn
      · rw [if_pos hl] at hok
        exact absurd (run_status_eq hok) (by decide)
      · rw [if_neg hl] at hok
        have hino2 : 2 ≤ ino ∧ ino ≤ inode_count := by
          rcases find_first_free_bit_valid_image _ _ _ hvi with h | ⟨ha, hb, _⟩
          · exact absurd (hino.trans h) h0
          · rw [← hino] at ha hb; exact ⟨ha, hb⟩
        have hdl : dbs.length = bn := by
          have := length_alloc_blocks_le img 8192 drs drb bn
          rw [← hdbs] at this
          omega
        cases hfind : (List.range 64).find?
            (fun i => decide (le_read store (drs * 4096 + i * 64) 4 = 0)) with
        | none =>
          rw [hfind] at hok
          exact absurd (run_status_eq hok) (by decide)
        | some e =>
          rw [hfind] at hok
          dsimp only at hok
          by_cases hname : (basename file_name).length ≥ 58
          · rw [if_pos hname] at hok
            exact absurd (run_status_eq hok) (by decide)
          · rw [if_neg hname] at hok
            have hb12 : bn ≤ 12 := by simp only [DIRECT_MAX] at h12; omega
            have hnm : (basename file_name).length < 58 := by omega
            have he := (find?_range_lt _ _ _ hfind).1
            have hout := (run_fs_image_eq hok).symm
            exact ⟨hb12, hino2.1, hino2.2, hdl, hnm, e, he, rfl, hout⟩

/-- C3: after every successful run of the adder on a valid image, the new inode
(the number handed out by `find_first_free_bit`, in its slot of the table) records
the length of the file, and the blocks named by its direct pointers, read in order,
hold the bytes of the file followed by zeroes only: byte `j` of their concatenation
is byte `j` of the file for `j` below the file length and 0 from there to the end of
the last block. -/
theorem C3_direct_blocks_hold_file (size_kib inode_count : Nat) (img file file_name : List Nat)
    (now : Nat) (out : List Nat) (hvi : valid_image size_kib inode_count img)
    (hok : mkfs_adder.main img file file_name now = ⟨.Ok, out⟩) :
    (read_inode out (3 * BS + (find_first_free_bit img (1 * BS) BS inode_count - 1)
      * INODE_SIZE)).size_bytes = file.length ∧
    ∀ j, j < (file.length + BS - 1) / BS * BS →
      out.getD ((read_inode out (3 * BS + (find_first_free_bit img (1 * BS) BS inode_count - 1)
        * INODE_SIZE)).direct.getD (j / BS) 0 * BS + j % BS) 0
        = if j < file.length then file.getD j 0 else 0 := by
  obtain ⟨hb12, hi2, hin, hdl, hnm, e, he, _, hout⟩ := adder_main_ok_inv size_kib inode_count
    img file file_name now _ _ _ _ _ _ out hvi rfl rfl rfl rfl rfl rfl hok
  have hBS : BS = 4096 := rfl
  have hslot : ∀ x, 3 * BS + (x - 1) * INODE_SIZE = 12288 + (x - 1) * 128 := by
    intro x; simp only [BS, INODE_SIZE]
  rw [show 1 * BS = 4096 by decide, hslot, hout]
  have hd : ∀ i, i < (file.length + BS - 1) / BS →
      3 + (inode_count * 128 + 4096 - 1) / 4096 + 1 ≤
        (alloc_blocks img 8192 (3 + (inode_count * 128 + 4096 - 1) / 4096)
          (size_kib * 1024 / 4096 - (1 + 1 + 1 + (inode_count * 128 + 4096 - 1) / 4096))
          ((file.length + BS - 1) / BS) ++ List.replicate (DIRECT_MAX -
            (alloc_blocks img 8192 (3 + (inode_count * 128 + 4096 - 1) / 4096)
              (size_kib * 1024 / 4096 - (1 + 1 + 1 + (inode_count * 128 + 4096 - 1) / 4096))
              ((file.length + BS - 1) / BS)).length) 0).getD i 0 ∧
      (alloc_blocks img 8192 (3 + (inode_count * 128 + 4096 - 1) / 4096)
          (size_kib * 1024 / 4096 - (1 + 1 + 1 + (inode_count * 128 + 4096 - 1) / 4096))
          ((file.length + BS - 1) / BS) ++ List.replicate (DIRECT_MAX -
            (alloc_blocks img 8192 (3 + (inode_count * 128 + 4096 - 1) / 4096)
              (size_kib * 1024 / 4096 - (1 + 1 + 1 + (inode_count * 128 + 4096 - 1) / 4096))
              ((file.length + BS - 1) / BS)).length) 0).getD i 0
        < 3 + (inode_count * 128 + 4096 - 1) / 4096
          + (size_kib * 1024 / 4096 - (1 + 1 + 1 + (inode_count * 128 + 4096 - 1) / 4096)) := by
    intro i hi
    rw [getD_append_replicate_zero]
    have := getD_alloc_blocks_valid_image _ _ _ _ _ _ i hvi (by rw [hdl]; exact hi)
    exact ⟨this.1, this.2.1⟩
  refine ⟨?_, ?_⟩
  · rw [size_final_inode size_kib inode_count img file (basename file_name) now _ _ e _ _ hvi rfl
      hi2 hin (by omega)]
    apply Nat.mod_eq_of_lt
    rw [hBS] at hb12
    omega
  · intro j hj
    have hjb : j / BS < (file.length + BS - 1) / BS := by
      rw [Nat.div_lt_iff_lt_mul (by decide)]; exact hj
    rw [direct_final_inode size_kib inode_count img file (basename file_name) now _ _ e _ _ hvi
      rfl hi2 hin (by omega) (j / BS) (by omega), if_pos hjb,
      Nat.mod_eq_of_lt (by have := hd _ hjb; obtain ⟨_, h2, _, _, h5⟩ := hvi.1; omega)]
    rw [hBS] at hjb ⊢
    have hblk := getD_final_block size_kib inode_count img file (basename file_name) now
      ((file.length + 4096 - 1) / 4096) _ e _ _ _ hvi rfl rfl hi2 hin he (by omega) hd
      (j / 4096) (j % 4096) hjb (Nat.mod_lt _ (by decide))
      (by
        intro i' h1 h2
        rw [getD_append_replicate_zero, getD_append_replicate_zero]
        have := alloc_blocks_lt img 8192 (3 + (inode_count * 128 + 4096 - 1) / 4096)
          (size_kib * 1024 / 4096 - (1 + 1 + 1 + (inode_count * 128 + 4096 - 1) / 4096))
          ((file.length + BS - 1) / BS) (j / 4096) i' h1 (by rw [hdl]; exact h2)
        omega)
    rw [hBS] at hblk
    rw [hblk]
    have hbd := getD_block_data file (j / 4096) (j % 4096) hjb (Nat.mod_lt _ (by decide))
    rw [hBS] at hbd
    rw [hbd, Nat.div_add_mod' j 4096]

theorem C3_direct_blocks_hold_file_witness :
    valid_image 180 128 (builder_write 180 128 0 []) ∧
    ∃ out, mkfs_adder.main (builder_write 180 128 0 []) (List.replicate 5000 7) [97] 1
        = ⟨.Ok, out⟩ ∧
      (read_inode out (3 * BS + (find_first_free_bit (builder_write 180 128 0 []) (1 * BS) BS 128
        - 1) * INODE_SIZE)).size_bytes = (List.replicate 5000 7).length :=
  ⟨valid_image_builder_write 180 128 0 [] (by decide), _,
    adder_main_builder_write 180 128 0 [] (List.replicate 5000 7) [97] 1 _ _ (by decide) rfl rfl
      (by rw [List.length_replicate]; decide) (by decide),
    (C3_direct_blocks_hold_file 180 128 (builder_write 180 128 0 []) (List.replicate 5000 7) [97]
      1 _ (valid_image_builder_write 180 128 0 [] (by decide))
      (adder_main_builder_write 180 128 0 [] (List.replicate 5000 7) [97] 1 _ _ (by decide)
        rfl rfl (by rw [List.length_replicate]; decide) (by decide))).1⟩

/-- C4: the number of blocks a file needs is `ceil(file_size / 4096)`; on a fresh
image (valid parameters, display name of at most 57 characters) the adder succeeds
for every file that needs exactly 12 blocks, which are the sizes 45057 to 49152,
and ends with `FileTooLarge`, the image untouched, for every file that needs 13
blocks or more, which are the sizes from 49153 on. -/
theorem C4_twelve_blocks_boundary (size_kib inode_count now : Nat)
    (adj file file_name : List Nat) (now2 : Nat) (hv : valid_params size_kib inode_count)
    (hname : (basename file_name).length ≤ 57) :
    (file.length ≤ (file.length + BS - 1) / BS * BS ∧
      ∀ k, file.length ≤ k * BS → (file.length + BS - 1) / BS ≤ k) ∧
    ((file.length + BS - 1) / BS = 12 ↔ 45057 ≤ file.length ∧ file.length ≤ 49152) ∧
    (13 ≤ (file.length + BS - 1) / BS ↔ 49153 ≤ file.length) ∧
    ∃ img, mkfs_builder.main size_kib inode_count now adj = .ok img ∧
      ((file.length + BS - 1) / BS = 12 →
        (mkfs_adder.main img file file_name now2).status = .Ok) ∧
      (13 ≤ (file.length + BS - 1) / BS →
        mkfs_adder.main img file file_name now2 = ⟨.FileTooLarge, img⟩) := by
  have hBS : BS = 4096 := rfl
  refine ⟨⟨?_, ?_⟩, ?_, ?_, _, builder_main_ok _ _ _ _ hv, ?_, ?_⟩
  · rw [hBS]; omega
  · intro k hk; rw [hBS] at hk ⊢; omega
  · rw [hBS]; omega
  · rw [hBS]; omega
  · intro h12
    rw [adder_main_builder_write size_kib inode_count now adj file file_name now2 _ _ hv rfl rfl
      (by omega) (by omega)]
  · intro h13
    unfold mkfs_adder.main
    dsimp only
    rw [if_pos (by simp only [DIRECT_MAX]; omega)]

theorem C4_twelve_blocks_boundary_witness :
    (valid_params 180 128 ∧ (basename [97]).length ≤ 57) ∧
    ∃ img, mkfs_builder.main 180 128 0 [] = .ok img ∧
      (mkfs_adder.main img (List.replicate 49152 7) [97] 1).status = .Ok :=
  ⟨⟨by decide, by decide⟩,
    (C4_twelve_blocks_boundary 180 128 0 [] (List.replicate 49152 7) [97] 1 (by decide)
      (by decide)).2.2.2.imp fun _ h =>
        ⟨h.1, h.2.1 (by rw [List.length_replicate]; decide)⟩⟩

theorem length_full_inodes_image : full_inodes_image.length = 4097 := by
  simp only [full_inodes_image, List.length_append, length_superblock_bytes,
    List.length_replicate, List.length_singleton, BS]

theorem getD_full_inodes_image_bitmap : full_inodes_image.getD 4096 0 = 255 := by
  unfold full_inodes_image
  rw [List.getD_append_right _ _ _ _ (by
    rw [List.length_append, length_superblock_bytes, List.length_replicate]; decide)]
  rw [List.length_append, length_superblock_bytes, List.length_replicate]
  decide

theorem read_superblock_full_inodes_image :
    (read_superblock full_inodes_image 0).magic = 0x4D565346 ∧
    (read_superblock full_inodes_image 0).inode_count = 8 ∧
    (read_superblock full_inodes_image 0).inode_bitmap_start = 1 ∧
    (read_superblock full_inodes_image 0).data_region_blocks = 0 := by
  unfold full_inodes_image
  rw [List.append_assoc]
  simp [read_superblock, superblock_t.bytes, le_read_append_left, le_read_append_right,
    le_read_le_bytes, length_le_bytes]

/-- C5 (as stated, refuted): `full_inodes_image` has the magic number and all bits
`0 .. inode_count - 1` of its inode bitmap set, the file has one block, and the run
ends with `OutOfSpace`, not with `NoFreeInodes`: the check of the file against
`data_region_blocks` comes before the search for an inode. -/
theorem C5_out_of_space_comes_first :
    (read_superblock full_inodes_image 0).magic = 0x4D565346 ∧
    (∀ p, p < (read_superblock full_inodes_image 0).inode_count →
      bitmap_bit full_inodes_image
        ((read_superblock full_inodes_image 0).inode_bitmap_start * BS) p = true) ∧
    (([7] : List Nat).length + BS - 1) / BS ≤ DIRECT_MAX ∧
    (mkfs_adder.main full_inodes_image [7] [97] 0).status = .OutOfSpace ∧
    (mkfs_adder.main full_inodes_image [7] [97] 0).status ≠ .NoFreeInodes := by
  obtain ⟨hm, hic, hib, hdrb⟩ := read_superblock_full_inodes_image
  have hrun : mkfs_adder.main full_inodes_image [7] [97] 0
      = ⟨.OutOfSpace, full_inodes_image⟩ := by
    unfold mkfs_adder.main
    dsimp only
    rw [if_neg (by decide), if_neg (by rw [length_full_inodes_image]; decide),
      if_neg (by rw [hm]; decide), if_pos (by rw [hdrb]; decide)]
  refine ⟨hm, ?_, by decide, ?_, ?_⟩
  · intro p hp
    rw [hic] at hp
    rw [hib]
    have e : p / 8 = 0 := by omega
    simp only [bitmap_bit, e]
    rw [show 1 * BS + 0 = 4096 by decide, getD_full_inodes_image_bitmap]
    have h8 : p % 8 < 8 := Nat.mod_lt _ (by decide)
    interval_cases (p % 8) <;> decide
  · rw [hrun]
  · rw [hrun]; decide

/-- C5 (amended): on every image of at least 116 bytes with the magic number in
which all bits `0 .. inode_count - 1` of the inode bitmap are set, and for every
file of at most 12 blocks, the run ends with `NoFreeInodes` when the file needs no
more blocks than `data_region_blocks`, and with `OutOfSpace` otherwise; in both
cases the buffer, hence its inode bitmap, data bitmap and inode table, is the
input image unchanged. -/
theorem C5_no_free_inodes (img file file_name : List Nat) (now : Nat)
    (hlen : 116 ≤ img.length) (hmagic : (read_superblock img 0).magic = 0x4D565346)
    (hbn : (file.length + BS - 1) / BS ≤ DIRECT_MAX)
    (hfull : ∀ p, p < (read_superblock img 0).inode_count →
      bitmap_bit img ((read_superblock img 0).inode_bitmap_start * BS % 18446744073709551616) p
        = true) :
    ((file.length + BS - 1) / BS ≤ (read_superblock img 0).data_region_blocks →
      mkfs_adder.main img file file_name now = ⟨.NoFreeInodes, img⟩) ∧
    ((read_superblock img 0).data_region_blocks < (file.length + BS - 1) / BS →
      mkfs_adder.main img file file_name now = ⟨.OutOfSpace, img⟩) := by
  have hzero : find_first_free_bit img
      ((read_superblock img 0).inode_bitmap_start * BS % 18446744073709551616) BS
      ((read_superblock img 0).inode_count % 4294967296) = 0 := by
    rcases find_first_free_bit_block img
      ((read_superblock img 0).inode_bitmap_start * BS % 18446744073709551616)
      ((read_superblock img 0).inode_count % 4294967296)
      (Nat.mod_lt _ (by decide)) with h | ⟨h1, h2, h3, _⟩
    · exact h
    · have hle : (read_superblock img 0).inode_count % 4294967296
          ≤ (read_superblock img 0).inode_count := Nat.mod_le _ _
      have := hfull _ (show find_first_free_bit img
        ((read_superblock img 0).inode_bitmap_start * BS % 18446744073709551616) BS
        ((read_superblock img 0).inode_count % 4294967296) - 1
          < (read_superblock img 0).inode_count by omega)
      rw [this] at h3
      exact Bool.noConfusion h3
  refine ⟨fun hfit => ?_, fun hbig => ?_⟩
  · unfold mkfs_adder.main
    dsimp only
    rw [if_neg (by omega), if_neg (by omega), if_neg (by rw [hmagic]; decide),
      if_neg (by omega)]
    unfold adder_insert
    dsimp only
    rw [hzero, if_pos rfl]
  · unfold mkfs_adder.main
    dsimp only
    rw [if_neg (by omega), if_neg (by omega), if_neg (by rw [hmagic]; decide),
      if_pos (by omega)]

theorem C5_no_free_inodes_witness :
    (116 ≤ full_inodes_image.length ∧
      (read_superblock full_inodes_image 0).magic = 0x4D565346 ∧
      (([] : List Nat).length + BS - 1) / BS ≤ DIRECT_MAX ∧
      (([] : List Nat).length + BS - 1) / BS
        ≤ (read_superblock full_inodes_image 0).data_region_blocks) ∧
    mkfs_adder.main full_inodes_image [] [97] 0 = ⟨.NoFreeInodes, full_inodes_image⟩ :=
  ⟨⟨by rw [length_full_inodes_image]; decide, read_superblock_full_inodes_image.1, by decide,
      by rw [read_superblock_full_inodes_image.2.2.2]; decide⟩,
    (C5_no_free_inodes full_inodes_image [] [97] 0
      (by rw [length_full_inodes_image]; decide) read_superblock_full_inodes_image.1
      (by decide)
      (by
        intro p hp
        rw [read_superblock_full_inodes_image.2.1] at hp
        rw [read_superblock_full_inodes_image.2.2.1]
        have e : p / 8 = 0 := by omega
        simp only [bitmap_bit, e]
        rw [show 1 * BS % 18446744073709551616 + 0 = 4096 by decide,
          getD_full_inodes_image_bitmap]
        have h8 : p % 8 < 8 := Nat.mod_lt _ (by decide)
        interval_cases (p % 8) <;> decide)).1
      (by rw [read_superblock_full_inodes_image.2.2.2]; decide)⟩

theorem find?_congr_range (p q : Nat → Bool) (n : Nat) (h : ∀ i, i < n → p i = q i) :
    (List.range n).find? p = (List.range n).find? q := by
  induction n with
  | zero => rfl
  | succ n ih =>
    rw [List.range_succ, List.find?_append, List.find?_append,
      ih (fun i hi => h i (Nat.lt_succ_of_lt hi))]
    simp only [List.find?_cons, List.find?_nil, h n (Nat.lt_succ_self n)]

theorem find?_range_isSome (p : Nat → Bool) (n e : Nat) (he : e < n) (hp : p e = true) :
    ∃ e', (List.range n).find? p = some e' := by
  cases h : (List.range n).find? p with
  | some e' => exact ⟨e', rfl⟩
  | none =>
    rw [List.find?_eq_none] at h
    exact absurd hp (h e (List.mem_range.mpr he))

theorem length_alloc_blocks (mem : List Nat) (db drs drb bn : Nat) :
    (alloc_blocks mem db drs drb bn).length = min bn (free_units mem db drb).length := by
  unfold alloc_blocks
  rw [List.length_map, List.length_take]

/-- On a valid image the directory slots read after `adder_store` as before. -/
theorem le_read_store_dir_slot (size_kib inode_count : Nat) (img file : List Nat)
    (now bn ino : Nat) (dbs : List Nat) (drs drb : Nat)
    (hvi : valid_image size_kib inode_count img)
    (hdrs : drs = 3 + (inode_count * 128 + 4096 - 1) / 4096)
    (hdrb : drb = size_kib * 1024 / 4096 - (1 + 1 + 1 + (inode_count * 128 + 4096 - 1) / 4096))
    (h2 : 2 ≤ ino) (hn : ino ≤ inode_count)
    (hd : ∀ i, i < bn → drs + 1 ≤ dbs.getD i 0 ∧ dbs.getD i 0 < drs + drb)
    (i : Nat) (hi : i < 64) :
    le_read (adder_store (read_superblock img 0) img file now bn ino dbs)
      (drs * 4096 + i * 64) 4 = le_read img (drs * 4096 + i * 64) 4 := by
  apply le_read_congr
  intro k hk
  exact getD_adder_store_valid_image _ _ _ _ _ _ _ _ _ _ hvi hdrs hdrb h2 hn hd _
    (Or.inr (Or.inr (by omega)))

/-- The outcome of the adder on a valid image that has a free inode, enough free
blocks and a free directory slot, for a file of at most 12 blocks: it depends on
the length of the name only, and a name that is too long is found out after
`adder_store` has changed the buffer. -/
theorem adder_main_with_resources (size_kib inode_count : Nat)
    (img file file_name : List Nat) (now drs drb bn : Nat)
    (hvi : valid_image size_kib inode_count img)
    (hdrs : drs = 3 + (inode_count * 128 + 4096 - 1) / 4096)
    (hdrb : drb = size_kib * 1024 / 4096 - (1 + 1 + 1 + (inode_count * 128 + 4096 - 1) / 4096))
    (hbn : bn = (file.length + BS - 1) / BS) (hbn12 : bn ≤ 12)
    (hinode : ∃ p, p < inode_count ∧ bitmap_bit img 4096 p = false)
    (hblocks : bn ≤ (free_units img 8192 drb).length)
    (hslot : ∃ e, e < 64 ∧ le_read img (drs * 4096 + e * 64) 4 = 0) :
    ((basename file_name).length < 58 →
      (mkfs_adder.main img file file_name now).status = .Ok) ∧
    (58 ≤ (basename file_name).length →
      mkfs_adder.main img file file_name now = ⟨.NameTooLong,
        adder_store (read_superblock img 0) img file now bn
          (find_first_free_bit img 4096 BS inode_count)
          (alloc_blocks img 8192 drs drb bn ++ List.replicate
            (DIRECT_MAX - (alloc_blocks img 8192 drs drb bn).length) 0)⟩) := by
  have hnf := adder_main_valid_image size_kib inode_count img file file_name now drs drb bn
    _ _ _ hvi hdrs hdrb hbn rfl rfl rfl
  have hino0 : find_first_free_bit img 4096 BS inode_count ≠ 0 := by
    intro h0
    obtain ⟨p, hp, hfree⟩ := hinode
    obtain ⟨_, _, _, _, h5⟩ := hvi.1
    have hs := find_first_free_bit_outer_spec img 4096 BS inode_count (by omega) (by decide)
      BS 0 rfl (by omega) (fun q hq _ => absurd hq (by omega))
    have := hs.1 h0 p hp (by simp only [BS]; omega)
    rw [hfree] at this
    exact Bool.noConfusion this
  have hino2 : 2 ≤ find_first_free_bit img 4096 BS inode_count ∧
      find_first_free_bit img 4096 BS inode_count ≤ inode_count := by
    rcases find_first_free_bit_valid_image _ _ _ hvi with h | ⟨ha, hb, _⟩
    · exact absurd h hino0
    · exact ⟨ha, hb⟩
  have hdl : (alloc_blocks img 8192 drs drb bn).length = bn := by
    rw [length_alloc_blocks]; omega
  have hd : ∀ i, i < bn → drs + 1 ≤ (alloc_blocks img 8192 drs drb bn ++ List.replicate
      (DIRECT_MAX - (alloc_blocks img 8192 drs drb bn).length) 0).getD i 0 ∧
      (alloc_blocks img 8192 drs drb bn ++ List.replicate
        (DIRECT_MAX - (alloc_blocks img 8192 drs drb bn).length) 0).getD i 0 < drs + drb := by
    intro i hi
    rw [getD_append_replicate_zero]
    have := getD_alloc_blocks_valid_image _ _ _ drs drb bn i hvi (by rw [hdl]; exact hi)
    exact ⟨this.1, this.2.1⟩
  obtain ⟨e, he, hfree⟩ := hslot
  obtain ⟨e', hfind⟩ := find?_range_isSome
    (fun i => decide (le_read (adder_store (read_superblock img 0) img file now bn
      (find_first_free_bit img 4096 BS inode_count)
      (alloc_blocks img 8192 drs drb bn ++ List.replicate
        (DIRECT_MAX - (alloc_blocks img 8192 drs drb bn).length) 0))
      (drs * 4096 + i * 64) 4 = 0)) 64 e he
    (by
      dsimp only
      rw [le_read_store_dir_slot _ _ _ _ _ _ _ _ _ _ hvi hdrs hdrb hino2.1 hino2.2 hd e he,
        hfree]
      rfl)
  rw [if_neg (by simp only [DIRECT_MAX]; omega), if_neg hino0, if_neg (by omega), hfind] at hnf
  dsimp only at hnf
  refine ⟨fun hshort => ?_, fun hlong => ?_⟩
  · rw [if_neg (by omega)] at hnf
    rw [hnf]
  · rw [if_pos hlong] at hnf
    exact hnf

/-- A fresh image has a free inode, at least 12 free blocks and a free directory
slot. -/
theorem resources_builder_write (size_kib inode_count now : Nat) (adj : List Nat) (bn : Nat)
    (hv : valid_params size_kib inode_count) (hbn : bn ≤ 12) :
    (∃ p, p < inode_count ∧ bitmap_bit (builder_write size_kib inode_count now adj) 4096 p
      = false) ∧
    bn ≤ (free_units (builder_write size_kib inode_count now adj) 8192
      (size_kib * 1024 / 4096 - (1 + 1 + 1 + (inode_count * 128 + 4096 - 1) / 4096))).length ∧
    (∃ e, e < 64 ∧ le_read (builder_write size_kib inode_count now adj)
      ((3 + (inode_count * 128 + 4096 - 1) / 4096) * 4096 + e * 64) 4 = 0) := by
  refine ⟨⟨1, by have := hv.2.2.2.1; omega, ?_⟩, ?_, ⟨2, by decide, ?_⟩⟩
  · rw [bitmap_bit_builder_write_inode _ _ _ _ _ (by decide)]; rfl
  · have h := congrArg List.length (alloc_blocks_builder_write size_kib inode_count now adj bn
      hv hbn)
    rw [length_alloc_blocks, List.length_range'] at h
    omega
  · rw [le_read_builder_write_dir_slot _ _ _ _ hv 2 (by decide)]; rfl

/-- C6 (as stated, refuted): on the fresh image for `size_kib = 180`,
`inode_count = 128`, adding a one-byte file under a name of 58 characters ends with
`NameTooLong`, and at that point bit 1 of the inode bitmap of the buffer, unset in
the input image, is set: the name is checked after the allocation. -/
theorem C6_name_checked_after_allocation :
    (basename (List.replicate 58 97)).length = 58 ∧
    ∃ img, mkfs_builder.main 180 128 0 [] = .ok img ∧
      (mkfs_adder.main img [7] (List.replicate 58 97) 1).status = .NameTooLong ∧
      bitmap_bit img (1 * BS) 1 = false ∧
      bitmap_bit (mkfs_adder.main img [7] (List.replicate 58 97) 1).fs_image (1 * BS) 1
        = true := by
  have hv : valid_params 180 128 := by decide
  have hvi := valid_image_builder_write 180 128 0 [] hv
  obtain ⟨hi, hb, hs⟩ := resources_builder_write 180 128 0 [] 1 hv (by decide)
  have hlong : (basename (List.replicate 58 97)).length = 58 := by decide
  have hrun := (adder_main_with_resources 180 128 (builder_write 180 128 0 []) [7]
    (List.replicate 58 97) 1 _ _ 1 hvi rfl rfl (by decide) (by decide) hi hb hs).2
    (by rw [hlong])
  have hff := find_first_free_bit_builder_write 180 128 0 [] hv
  rw [show (128 : Nat) % 4294967296 = 128 by decide] at hff
  obtain ⟨_, _, hib, hdb, hit, hdr, _⟩ := superblock_fields_valid_image _ _ _ hvi
  refine ⟨hlong, _, builder_main_ok _ _ _ _ hv, ?_, ?_, ?_⟩
  · rw [hrun]
  · rw [show 1 * BS = 4096 by decide, bitmap_bit_builder_write_inode _ _ _ _ _ (by decide)]
    rfl
  · rw [hrun, show 1 * BS = 4096 by decide, hff]
    dsimp only
    rw [bitmap_bit_adder_store_inode _ _ _ _ _ _ _ _ hib hdb hit (by decide) (by decide)
      (by decide) _ (by rw [hdr]; decide) (by rw [hdr]; decide)
      (by rw [length_builder_write _ _ _ _ hv]; decide)]
    · simp
    · intro i hi1
      rw [getD_append_replicate_zero]
      have := getD_alloc_blocks_valid_image 180 128 _ (3 + (128 * 128 + 4096 - 1) / 4096)
        (180 * 1024 / 4096 - (1 + 1 + 1 + (128 * 128 + 4096 - 1) / 4096)) 1 i hvi
        (by
          rw [length_alloc_blocks]
          have : (1 : Nat) ≤ (free_units (builder_write 180 128 0 []) 8192
            (180 * 1024 / 4096 - (1 + 1 + 1 + (128 * 128 + 4096 - 1) / 4096))).length := hb
          omega)
      rw [hdr]
      omega

/-- C6 (amended): on a valid image with a free inode, enough free blocks for the
file (at most 12) and a free slot in the root directory, a display name of
exactly 57 characters (or fewer) makes the run succeed, and a name of 58 characters
or more ends it with `NameTooLong`; nothing is written out then, but the check
comes after the allocation: the buffer at that point is the one `adder_store`
left, with the inode and the blocks marked and written. -/
theorem C6_name_length_boundary (size_kib inode_count : Nat) (img file file_name : List Nat)
    (now : Nat) (hvi : valid_image size_kib inode_count img)
    (hbn12 : (file.length + BS - 1) / BS ≤ 12)
    (hinode : ∃ p, p < inode_count ∧ bitmap_bit img (1 * BS) p = false)
    (hblocks : (file.length + BS - 1) / BS ≤
      (free_units img (2 * BS) (read_superblock img 0).data_region_blocks).length)
    (hslot : ∃ e, e < 64 ∧
      le_read img ((read_superblock img 0).data_region_start * BS + e * 64) 4 = 0) :
    ((basename file_name).length ≤ 57 →
      (mkfs_adder.main img file file_name now).status = .Ok) ∧
    (58 ≤ (basename file_name).length →
      mkfs_adder.main img file file_name now = ⟨.NameTooLong,
        adder_store (read_superblock img 0) img file now ((file.length + BS - 1) / BS)
          (find_first_free_bit img (1 * BS) BS inode_count)
          (alloc_blocks img (2 * BS) (read_superblock img 0).data_region_start
            (read_superblock img 0).data_region_blocks ((file.length + BS - 1) / BS)
            ++ List.replicate (DIRECT_MAX - (alloc_blocks img (2 * BS)
              (read_superblock img 0).data_region_start
              (read_superblock img 0).data_region_blocks
              ((file.length + BS - 1) / BS)).length) 0)⟩) := by
  obtain ⟨_, _, _, _, _, hdr, hdrb⟩ := superblock_fields_valid_image _ _ _ hvi
  rw [hdr, show (3 + (inode_count * 128 + 4096 - 1) / 4096) * BS
    = (3 + (inode_count * 128 + 4096 - 1) / 4096) * 4096 by rfl] at hslot
  rw [hdrb, show 2 * BS = 8192 by decide] at hblocks
  rw [show 1 * BS = 4096 by decide] at hinode
  have h := adder_main_with_resources size_kib inode_count img file file_name now _ _ _ hvi
    rfl rfl rfl hbn12 hinode hblocks hslot
  rw [hdr, hdrb, show 1 * BS = 4096 by decide, show 2 * BS = 8192 by decide]
  exact ⟨fun hs => h.1 (by omega), h.2⟩

theorem C6_name_length_boundary_witness :
    (valid_image 180 128 (builder_write 180 128 0 []) ∧
      (([7] : List Nat).length + BS - 1) / BS ≤ 12 ∧
      (basename (List.replicate 57 97)).length ≤ 57) ∧
    (mkfs_adder.main (builder_write 180 128 0 []) [7] (List.replicate 57 97) 1).status = .Ok :=
  ⟨⟨valid_image_builder_write 180 128 0 [] (by decide), by decide, by decide⟩,
    (C6_name_length_boundary 180 128 (builder_write 180 128 0 []) [7] (List.replicate 57 97) 1
      (valid_image_builder_write 180 128 0 [] (by decide)) (by decide)
      (resources_builder_write 180 128 0 [] 1 (by decide) (by decide)).1
      (by
        rw [(superblock_fields_builder_write 180 128 0 [] (by decide)).2.2.2.2.2.2]
        exact (resources_builder_write 180 128 0 [] 1 (by decide) (by decide)).2.1)
      (by
        rw [(superblock_fields_builder_write 180 128 0 [] (by decide)).2.2.2.2.2.1]
        exact (resources_builder_write 180 128 0 [] 1 (by decide) (by decide)).2.2)).1
      (by decide)⟩

/-- C7: the builder writes an image exactly when the parameters are valid
(`180 ≤ size_kib ≤ 4096`, `size_kib` a multiple of 4, `128 ≤ inode_count ≤ 512`) and
ends with `InvalidParameters` for every other pair; it never ends with
`InsufficientCapacity`, because for valid parameters the test
`total_blocks ≤ 3 + inode_table_blocks` is false; and the image written is exactly
`size_kib * 1024` bytes long. -/
theorem C7_builder_accepts_exactly_valid_parameters (size_kib inode_count now : Nat)
    (adj : List Nat) :
    ((∃ img, mkfs_builder.main size_kib inode_count now adj = .ok img) ↔
      (180 ≤ size_kib ∧ size_kib ≤ 4096 ∧ size_kib % 4 = 0 ∧
        128 ≤ inode_count ∧ inode_count ≤ 512)) ∧
    (¬ (180 ≤ size_kib ∧ size_kib ≤ 4096 ∧ size_kib % 4 = 0 ∧
        128 ≤ inode_count ∧ inode_count ≤ 512) →
      mkfs_builder.main size_kib inode_count now adj = .error .InvalidParameters) ∧
    mkfs_builder.main size_kib inode_count now adj ≠ .error .InsufficientCapacity ∧
    ((180 ≤ size_kib ∧ size_kib ≤ 4096 ∧ size_kib % 4 = 0 ∧
        128 ≤ inode_count ∧ inode_count ≤ 512) →
      ¬ (size_kib * 1024 / BS ≤ 1 + 1 + 1 + (inode_count * INODE_SIZE + BS - 1) / BS) ∧
      ∃ img, mkfs_builder.main size_kib inode_count now adj = .ok img ∧
        img.length = size_kib * 1024) := by
  have hinv : ¬ valid_params size_kib inode_count →
      mkfs_builder.main size_kib inode_count now adj = .error .InvalidParameters := by
    intro hnv
    unfold valid_params at hnv
    unfold mkfs_builder.main
    by_cases h0 : size_kib = 0 ∨ inode_count = 0
    · rw [if_pos h0]
    · rw [if_neg h0]
      by_cases h1 : size_kib < 180 ∨ size_kib > 4096 ∨ size_kib % 4 ≠ 0
      · rw [if_pos h1]
      · rw [if_neg h1]
        rw [if_pos (by omega)]
  refine ⟨⟨?_, fun hv => ⟨_, builder_main_ok _ _ _ _ hv⟩⟩, hinv, ?_, ?_⟩
  · rintro ⟨img, himg⟩
    by_contra hnv
    rw [hinv hnv] at himg
    exact Except.noConfusion himg
  · by_cases hv : valid_params size_kib inode_count
    · rw [builder_main_ok _ _ _ _ hv]
      exact fun h => Except.noConfusion h
    · rw [hinv hv]
      exact fun h => BuildError.noConfusion (Except.error.inj h)
  · intro hv
    refine ⟨?_, _, builder_main_ok _ _ _ _ hv, length_builder_write _ _ _ _ hv⟩
    obtain ⟨h1, h2, h3, h4, h5⟩ := hv
    simp only [BS, INODE_SIZE]
    omega

/-- C8: for valid parameters the superblock of the image written records
`total_blocks = size_kib * 1024 / 4096`,
`inode_table_blocks = ceil(inode_count * 128 / 4096)`,
`data_region_blocks = total_blocks - (3 + inode_table_blocks)`, the inode bitmap in
block 1, the data bitmap in block 2, the inode table from block 3 and the data
region from block `3 + inode_table_blocks`; the root inode, in slot 0 of the table,
has `direct[0] = data_region_start`. For `size_kib = 180`, `inode_count = 128` the
numbers are 45, 4, 38 and `direct[0] = 7`. -/
theorem C8_builder_geometry (size_kib inode_count now : Nat) (adj : List Nat)
    (hv : valid_params size_kib inode_count) :
    ∃ img, mkfs_builder.main size_kib inode_count now adj = .ok img ∧
      (read_superblock img 0).total_blocks = size_kib * 1024 / 4096 ∧
      (read_superblock img 0).inode_table_blocks = (inode_count * 128 + 4095) / 4096 ∧
      (inode_count * 128 ≤ (read_superblock img 0).inode_table_blocks * 4096 ∧
        (read_superblock img 0).inode_table_blocks * 4096 < inode_count * 128 + 4096) ∧
      (read_superblock img 0).data_region_blocks
        = (read_superblock img 0).total_blocks
          - (3 + (read_superblock img 0).inode_table_blocks) ∧
      (read_superblock img 0).inode_bitmap_start = 1 ∧
      (read_superblock img 0).data_bitmap_start = 2 ∧
      (read_superblock img 0).inode_table_start = 3 ∧
      (read_superblock img 0).data_region_start
        = 3 + (read_superblock img 0).inode_table_blocks ∧
      (read_inode img (3 * BS + 0 * INODE_SIZE)).direct.getD 0 0
        = (read_superblock img 0).data_region_start ∧
      (size_kib = 180 → inode_count = 128 →
        (read_superblock img 0).total_blocks = 45 ∧
        (read_superblock img 0).inode_table_blocks = 4 ∧
        (read_superblock img 0).data_region_blocks = 38 ∧
        (read_inode img (3 * BS + 0 * INODE_SIZE)).direct.getD 0 0 = 7) := by
  have hsb := read_superblock_builder_write size_kib inode_count now adj hv
  have hd0 := le_read_builder_write_direct0 size_kib inode_count now adj hv
  have hdir : (read_inode (builder_write size_kib inode_count now adj)
      (3 * BS + 0 * INODE_SIZE)).direct.getD 0 0
      = 3 + (inode_count * 128 + 4096 - 1) / 4096 := by
    rw [getD_read_inode_direct _ _ _ (by decide)]
    exact hd0
  obtain ⟨h1, h2, h3, h4, h5⟩ := hv
  refine ⟨_, builder_main_ok _ _ _ _ ⟨h1, h2, h3, h4, h5⟩, ?_⟩
  rw [hdir, hsb]
  simp only [builder_superblock, BS, INODE_SIZE]
  refine ⟨trivial, by omega, by omega, trivial, trivial, trivial, trivial, trivial,
    trivial, ?_⟩
  intro hs hn
  omega

theorem C8_builder_geometry_witness :
    valid_params 180 128 ∧
    ∃ img, mkfs_builder.main 180 128 0 [] = .ok img ∧
      (read_superblock img 0).total_blocks = 45 ∧
      (read_superblock img 0).inode_table_blocks = 4 ∧
      (read_superblock img 0).data_region_blocks = 38 ∧
      (read_inode img (3 * BS + 0 * INODE_SIZE)).direct.getD 0 0 = 7 :=
  ⟨by decide, (C8_builder_geometry 180 128 0 [] (by decide)).imp fun _ h =>
    ⟨h.1, h.2.2.2.2.2.2.2.2.2.2 rfl rfl⟩⟩

theorem mem_read_congr (a b : List Nat) (o1 o2 n : Nat)
    (h : ∀ k, k < n → a.getD (o1 + k) 0 = b.getD (o2 + k) 0) :
    mem_read a o1 n = mem_read b o2 n := by
  unfold mem_read
  exact List.map_congr_left fun k hk => h k (List.mem_range.mp hk)

theorem length_mem_read (mem : List Nat) (off n : Nat) : (mem_read mem off n).length = n := by
  simp [mem_read]

theorem getD_mem_read (mem : List Nat) (off n k : Nat) (hk : k < n) :
    (mem_read mem off n).getD k 0 = mem.getD (off + k) 0 := by
  unfold mem_read
  rw [List.getD_eq_getElem _ _ (by simpa using hk)]
  simp

theorem mem_read_eq (mem l : List Nat) (off : Nat)
    (h : ∀ k, k < l.length → mem.getD (off + k) 0 = l.getD k 0) :
    mem_read mem off l.length = l := by
  apply List.ext_getElem (length_mem_read _ _ _)
  intro k h1 h2
  have := getD_mem_read mem off l.length k h2
  rw [List.getD_eq_getElem _ _ h1, h _ h2, List.getD_eq_getElem _ _ h2] at this
  exact this

theorem mem_read_succ (mem : List Nat) (off n : Nat) :
    mem_read mem off (n + 1) = mem.getD off 0 :: mem_read mem (off + 1) n := by
  apply List.ext_getElem (by simp [length_mem_read])
  intro k h1 h2
  have hk : k < n + 1 := by simpa [length_mem_read] using h1
  have e1 := getD_mem_read mem off (n + 1) k hk
  rw [List.getD_eq_getElem _ _ h1] at e1
  rw [e1]
  cases k with
  | zero => simp
  | succ k =>
    have e2 := getD_mem_read mem (off + 1) n k (by omega)
    rw [List.getD_eq_getElem _ _ (by simp [length_mem_read]; omega)] at e2
    simp only [List.getElem_cons_succ]
    rw [e2]
    congr 1
    omega

/-- The XOR loop of `dirent_checksum_finalize` folds XOR over the bytes it
visits. -/
theorem dirent_xor_eq_foldl (mem : List Nat) :
    ∀ (k de x : Nat), dirent_xor mem de k x = (mem_read mem de k).foldl (· ^^^ ·) x := by
  intro k
  induction k with
  | zero => intro de x; rfl
  | succ k ih =>
    intro de x
    rw [mem_read_succ, List.foldl_cons, dirent_xor, ih]

/-- The bytes of a finalized directory entry, below the checksum byte. -/
theorem getD_dirent_checksum_finalize_of_lt (mem : List Nat) (k : Nat) (hk : k < 63) :
    (dirent_checksum_finalize mem 0).getD k 0 = mem.getD k 0 := by
  unfold dirent_checksum_finalize
  rw [getD_set, if_neg (by omega)]

/-- A finalized directory entry read back: the fields written, and a checksum byte
that is the XOR of the first 63 bytes. -/
theorem read_dirent_finalized (de : dirent64_t) (hino : de.inode_no < 4294967296)
    (hname : de.name.length = 58) :
    read_dirent (dirent_checksum_finalize de.bytes 0) 0
      = { inode_no := de.inode_no, type := de.type, name := de.name,
          checksum := xor_bytes (mem_read (dirent_checksum_finalize de.bytes 0) 0 63) } := by
  have hlen : de.bytes.length = 64 := length_dirent_bytes de hname
  have h1 : le_read (dirent_checksum_finalize de.bytes 0) 0 4 = de.inode_no := by
    rw [le_read_congr _ de.bytes 4 0 0 (fun k hk => by
      rw [Nat.zero_add, getD_dirent_checksum_finalize_of_lt _ _ (by omega)])]
    unfold dirent64_t.bytes
    rw [List.append_assoc, List.append_assoc, le_read_le_bytes_append]
    exact Nat.mod_eq_of_lt hino
  have h2 : (dirent_checksum_finalize de.bytes 0).getD (0 + 4) 0 = de.type := by
    rw [Nat.zero_add, getD_dirent_checksum_finalize_of_lt _ _ (by omega)]
    unfold dirent64_t.bytes
    simp only [getD_append_ite, length_le_bytes, List.length_append, List.length_singleton]
    rw [if_pos (by omega), if_pos (by omega), if_neg (by omega)]
    rfl
  have h3 : mem_read (dirent_checksum_finalize de.bytes 0) (0 + 5) 58 = de.name := by
    rw [← hname]
    apply mem_read_eq
    intro k hk
    rw [getD_dirent_checksum_finalize_of_lt _ _ (by omega)]
    unfold dirent64_t.bytes
    simp only [getD_append_ite, length_le_bytes, List.length_append, List.length_singleton]
    rw [if_pos (by omega), if_neg (by omega)]
    congr 1
    omega
  have h4 : (dirent_checksum_finalize de.bytes 0).getD (0 + 63) 0
      = xor_bytes (mem_read (dirent_checksum_finalize de.bytes 0) 0 63) := by
    rw [mem_read_congr _ de.bytes 0 0 63 (fun k hk => by
      rw [Nat.zero_add, getD_dirent_checksum_finalize_of_lt _ _ hk])]
    unfold dirent_checksum_finalize xor_bytes
    rw [getD_set, if_pos (by omega), dirent_xor_eq_foldl]
  unfold read_dirent
  rw [h1, h2, h3, h4]

theorem read_dirent_congr (a b : List Nat) (o1 o2 : Nat)
    (h : ∀ k, k < 64 → a.getD (o1 + k) 0 = b.getD (o2 + k) 0) :
    read_dirent a o1 = read_dirent b o2 := by
  unfold read_dirent
  rw [le_read_congr a b 4 o1 o2 (fun k hk => h k (by omega)), h 4 (by omega), h 63 (by omega),
    mem_read_congr a b (o1 + 5) (o2 + 5) 58 (fun k hk => by
      rw [Nat.add_assoc, Nat.add_assoc]; exact h (5 + k) (by omega))]

/-- A C string without `'/'` is its own `basename`. -/
theorem basename_eq_self (s : List Nat) (h0 : 0 ∉ s) (h47 : 47 ∉ s) : basename s = s := by
  unfold basename c_string
  have hc : s.takeWhile (· ≠ 0) = s := by
    rw [List.takeWhile_eq_self_iff]
    intro x hx
    have : x ≠ 0 := fun e => h0 (e ▸ hx)
    simpa using this
  rw [hc]
  clear hc h0
  induction s with
  | nil => rfl
  | cons c cs ih =>
    have hcs : 47 ∉ cs := fun h => h47 (List.mem_cons_of_mem _ h)
    have hc : c ≠ 47 := fun e => h47 (e ▸ List.mem_cons_self _ _)
    rw [after_last_slash, if_neg hcs, if_neg hc]

/-- The root directory block of a fresh image: the entries `"."` and `".."` in
slots 0 and 1. -/
theorem getD_builder_write_dir_block (size_kib inode_count now : Nat) (adj : List Nat)
    (hv : valid_params size_kib inode_count) (k : Nat) (hk : k < 128) :
    (builder_write size_kib inode_count now adj).getD
      ((3 + (inode_count * 128 + 4096 - 1) / 4096) * 4096 + k) 0
      = if k < 64 then (dirent_checksum_finalize (builder_dir_entry [46]).bytes 0).getD k 0
        else (dirent_checksum_finalize (builder_dir_entry [46, 46]).bytes 0).getD (k - 64) 0 := by
  obtain ⟨h1, h2, h3, h4, h5⟩ := hv
  rw [getD_builder_write, if_neg (by omega), if_neg (by omega), if_neg (by omega),
    if_neg (by omega)]
  have e : (3 + (inode_count * 128 + 4096 - 1) / 4096) * 4096 + k
      - (12288 + (inode_count * 128 + 4096 - 1) / 4096 * 4096) = k := by omega
  have hn : k < (size_kib * 1024 / 4096
      - (1 + 1 + 1 + (inode_count * 128 + 4096 - 1) / 4096)) * BS := by
    simp only [BS]; omega
  rw [e, getD_write_data_blocks]
  by_cases h : k < 64
  · rw [if_pos ⟨hn, h⟩, if_pos h]
  · rw [if_neg (fun hh => h hh.2), if_pos ⟨hn, hk⟩, if_neg h]

/-- Slots 0 and 1 of the root directory of a fresh image read back as the entries
the builder made for `"."` and `".."`. -/
theorem read_dirent_builder_write (size_kib inode_count now : Nat) (adj : List Nat)
    (hv : valid_params size_kib inode_count) :
    (read_dirent (builder_write size_kib inode_count now adj)
        ((3 + (inode_count * 128 + 4096 - 1) / 4096) * 4096 + 0 * 64)
      = read_dirent (dirent_checksum_finalize (builder_dir_entry [46]).bytes 0) 0) ∧
    (read_dirent (builder_write size_kib inode_count now adj)
        ((3 + (inode_count * 128 + 4096 - 1) / 4096) * 4096 + 1 * 64)
      = read_dirent (dirent_checksum_finalize (builder_dir_entry [46, 46]).bytes 0) 0) := by
  constructor
  · apply read_dirent_congr
    intro k hk
    rw [show (3 + (inode_count * 128 + 4096 - 1) / 4096) * 4096 + 0 * 64 + k
      = (3 + (inode_count * 128 + 4096 - 1) / 4096) * 4096 + k by omega,
      getD_builder_write_dir_block _ _ _ _ hv _ (by omega), if_pos hk, Nat.zero_add]
  · apply read_dirent_congr
    intro k hk
    rw [show (3 + (inode_count * 128 + 4096 - 1) / 4096) * 4096 + 1 * 64 + k
      = (3 + (inode_count * 128 + 4096 - 1) / 4096) * 4096 + (64 + k) by omega,
      getD_builder_write_dir_block _ _ _ _ hv _ (by omega), if_neg (by omega), Nat.zero_add,
      show 64 + k - 64 = k by omega]

/-- C9: on the fresh image for valid parameters, adding a file of 5000 bytes
(`blocks_needed = 2`) under a display name of at most 57 characters (the name the
adder derives from its argument: the part after the last `'/'`, the argument
itself when it has none) succeeds. The inode number assigned is 2. The two direct
pointers are `data_region_start + 1` and `data_region_start + 2`, the blocks of the
two lowest free units of the data bitmap (bit 0 is set, bits 1 and 2 are unset
before and set afterwards); the other ten pointers are 0. In the root directory,
whose slots 0 and 1 hold `"."` and `".."` and whose other slots are free, slot 2
now holds an entry with inode number 2, type 1, the display name padded with NUL
bytes to 58 bytes, and a checksum byte equal to the XOR of the first 63 bytes of
the entry; every other slot is unchanged. -/
theorem C9_insert_5000_byte_file (size_kib inode_count now : Nat)
    (adj file file_name : List Nat) (now2 : Nat)
    (hv : valid_params size_kib inode_count) (hfile : file.length = 5000)
    (hname : (basename file_name).length ≤ 57) :
    (file.length + BS - 1) / BS = 2 ∧
    ∃ img out, mkfs_builder.main size_kib inode_count now adj = .ok img ∧
      mkfs_adder.main img file file_name now2 = ⟨.Ok, out⟩ ∧
      find_first_free_bit img (1 * BS) BS inode_count = 2 ∧
      alloc_blocks img (2 * BS) (read_superblock img 0).data_region_start
          (read_superblock img 0).data_region_blocks 2
        = [(read_superblock img 0).data_region_start + 1,
           (read_superblock img 0).data_region_start + 2] ∧
      (bitmap_bit img (2 * BS) 0 = true ∧ bitmap_bit img (2 * BS) 1 = false ∧
        bitmap_bit img (2 * BS) 2 = false) ∧
      (bitmap_bit out (2 * BS) 1 = true ∧ bitmap_bit out (2 * BS) 2 = true) ∧
      (read_inode out (3 * BS + (2 - 1) * INODE_SIZE)).direct.getD 0 0
        = (read_superblock img 0).data_region_start + 1 ∧
      (read_inode out (3 * BS + (2 - 1) * INODE_SIZE)).direct.getD 1 0
        = (read_superblock img 0).data_region_start + 2 ∧
      (∀ j, 2 ≤ j → j < DIRECT_MAX →
        (read_inode out (3 * BS + (2 - 1) * INODE_SIZE)).direct.getD j 0 = 0) ∧
      ((read_dirent img ((read_superblock img 0).data_region_start * BS + 0 * 64)).inode_no = 1 ∧
        (read_dirent img ((read_superblock img 0).data_region_start * BS + 0 * 64)).name
          = name_field [46]) ∧
      ((read_dirent img ((read_superblock img 0).data_region_start * BS + 1 * 64)).inode_no = 1 ∧
        (read_dirent img ((read_superblock img 0).data_region_start * BS + 1 * 64)).name
          = name_field [46, 46]) ∧
      (∀ i, 2 ≤ i → i < 64 →
        (read_dirent img ((read_superblock img 0).data_region_start * BS + i * 64)).inode_no
          = 0) ∧
      read_dirent out ((read_superblock img 0).data_region_start * BS + 2 * 64)
        = { inode_no := 2, type := 1, name := name_field (basename file_name),
            checksum := xor_bytes
              (mem_read out ((read_superblock img 0).data_region_start * BS + 2 * 64) 63) } ∧
      (0 ∉ file_name → 47 ∉ file_name →
        (read_dirent out ((read_superblock img 0).data_region_start * BS + 2 * 64)).name
          = name_field file_name) ∧
      (∀ i, i < 64 → i ≠ 2 →
        read_dirent out ((read_superblock img 0).data_region_start * BS + i * 64)
          = read_dirent img ((read_superblock img 0).data_region_start * BS + i * 64)) := by
  have hbn : (file.length + BS - 1) / BS = 2 := by rw [hfile]; rfl
  refine ⟨hbn, ?_⟩
  have hvi := valid_image_builder_write size_kib inode_count now adj hv
  obtain ⟨_, hic, _, _, _, hdr, hdrb⟩ :=
    superblock_fields_builder_write size_kib inode_count now adj hv
  have hrun := adder_main_builder_write size_kib inode_count now adj file file_name now2
    (3 + (inode_count * 128 + 4096 - 1) / 4096) 2 hv rfl hbn.symm (by omega) (by omega)
  have hv' := hv
  obtain ⟨h1, h2, h3, h4, h5⟩ := hv
  have hdbs : ∀ i, i < 2 →
      (List.range' (3 + (inode_count * 128 + 4096 - 1) / 4096 + 1) 2
        ++ List.replicate (DIRECT_MAX - 2) 0).getD i 0
        = 3 + (inode_count * 128 + 4096 - 1) / 4096 + 1 + i :=
    fun i hi => getD_range'_append _ _ _ _ hi
  have hd : ∀ i, i < 2 →
      3 + (inode_count * 128 + 4096 - 1) / 4096 + 1 ≤
        (List.range' (3 + (inode_count * 128 + 4096 - 1) / 4096 + 1) 2
          ++ List.replicate (DIRECT_MAX - 2) 0).getD i 0 ∧
      (List.range' (3 + (inode_count * 128 + 4096 - 1) / 4096 + 1) 2
          ++ List.replicate (DIRECT_MAX - 2) 0).getD i 0
        < 3 + (inode_count * 128 + 4096 - 1) / 4096
          + (size_kib * 1024 / 4096 - (1 + 1 + 1 + (inode_count * 128 + 4096 - 1) / 4096)) := by
    intro i hi
    rw [hdbs i hi]
    omega
  have hdirect : ∀ j, j < 12 → (read_inode (adder_link
      (read_superblock (builder_write size_kib inode_count now adj) 0)
      (adder_store (read_superblock (builder_write size_kib inode_count now adj) 0)
        (builder_write size_kib inode_count now adj) file now2 2 2
        (List.range' (3 + (inode_count * 128 + 4096 - 1) / 4096 + 1) 2
          ++ List.replicate (DIRECT_MAX - 2) 0))
      ((3 + (inode_count * 128 + 4096 - 1) / 4096) * 4096) 2 2 (basename file_name) now2)
      (3 * BS + (2 - 1) * INODE_SIZE)).direct.getD j 0
      = if j < 2 then 3 + (inode_count * 128 + 4096 - 1) / 4096 + 1 + j else 0 := by
    intro j hj
    have := direct_final_inode size_kib inode_count (builder_write size_kib inode_count now adj)
      file (basename file_name) now2 2 2 2 (3 + (inode_count * 128 + 4096 - 1) / 4096)
      (List.range' (3 + (inode_count * 128 + 4096 - 1) / 4096 + 1) 2
          ++ List.replicate (DIRECT_MAX - 2) 0)
      hvi rfl (by omega) (by omega) (by omega) j hj
    rw [show 3 * BS + (2 - 1) * INODE_SIZE = 12288 + (2 - 1) * 128 by decide, this]
    by_cases hb : j < 2
    · rw [if_pos hb, if_pos hb, hdbs j hb]
      exact Nat.mod_eq_of_lt (by omega)
    · rw [if_neg hb, if_neg hb]
  have hafter : ∀ pos, pos = 1 ∨ pos = 2 → bitmap_bit (adder_link
      (read_superblock (builder_write size_kib inode_count now adj) 0)
      (adder_store (read_superblock (builder_write size_kib inode_count now adj) 0)
        (builder_write size_kib inode_count now adj) file now2 2 2
        (List.range' (3 + (inode_count * 128 + 4096 - 1) / 4096 + 1) 2
          ++ List.replicate (DIRECT_MAX - 2) 0))
      ((3 + (inode_count * 128 + 4096 - 1) / 4096) * 4096) 2 2 (basename file_name) now2)
      (2 * BS) pos = true := by
    intro pos hpos
    rw [show 2 * BS = 8192 by decide,
      bitmap_bit_final_data size_kib inode_count _ file (basename file_name) now2 _ 2 2 _ _ _
        hvi rfl rfl (by omega) (by omega) (by omega) hd _ (by omega)]
    refine Or.inr ⟨pos - 1, by omega, ?_⟩
    rw [hdbs _ (by omega)]
    omega
  have hslot : ∀ k, k < 64 → (adder_link
      (read_superblock (builder_write size_kib inode_count now adj) 0)
      (adder_store (read_superblock (builder_write size_kib inode_count now adj) 0)
        (builder_write size_kib inode_count now adj) file now2 2 2
        (List.range' (3 + (inode_count * 128 + 4096 - 1) / 4096 + 1) 2
          ++ List.replicate (DIRECT_MAX - 2) 0))
      ((3 + (inode_count * 128 + 4096 - 1) / 4096) * 4096) 2 2 (basename file_name) now2).getD
        ((3 + (inode_count * 128 + 4096 - 1) / 4096) * 4096 + 2 * 64 + k) 0
      = (dirent_checksum_finalize (adder_new_entry 2 (basename file_name)).bytes 0).getD
          (0 + k) 0 := by
    intro k hk
    rw [Nat.zero_add]
    exact getD_final_dir_slot size_kib inode_count _ file (basename file_name) now2 2 2 2 _ _
      hvi rfl (by omega) (by omega) k hk
  have hframe : ∀ i, i < 64 → i ≠ 2 → ∀ k, k < 64 → (adder_link
      (read_superblock (builder_write size_kib inode_count now adj) 0)
      (adder_store (read_superblock (builder_write size_kib inode_count now adj) 0)
        (builder_write size_kib inode_count now adj) file now2 2 2
        (List.range' (3 + (inode_count * 128 + 4096 - 1) / 4096 + 1) 2
          ++ List.replicate (DIRECT_MAX - 2) 0))
      ((3 + (inode_count * 128 + 4096 - 1) / 4096) * 4096) 2 2 (basename file_name) now2).getD
        ((3 + (inode_count * 128 + 4096 - 1) / 4096) * 4096 + i * 64 + k) 0
      = (builder_write size_kib inode_count now adj).getD
        ((3 + (inode_count * 128 + 4096 - 1) / 4096) * 4096 + i * 64 + k) 0 := by
    intro i hi hi2 k hk
    obtain ⟨_, _, _, _, hit, _, _⟩ := superblock_fields_valid_image _ _ _ hvi
    rw [getD_adder_link_of_out _ _ _ _ _ _ _ _ hit
      (by rw [length_adder_store, length_builder_write _ _ _ _ hv']; omega) (by omega)
      (by omega) (by omega) (by omega)]
    exact getD_adder_store_valid_image size_kib inode_count _ file now2 2 2 _ _ _ hvi rfl rfl
      (by omega) (by omega) hd _ (by omega)
  have hentry := read_dirent_finalized (adder_new_entry 2 (basename file_name))
    (show (2 : Nat) < 4294967296 by decide) (length_name_field _ (by omega))
  have hdots := read_dirent_builder_write size_kib inode_count now adj hv'
  have hdot := read_dirent_finalized (builder_dir_entry [46]) (by decide) (by decide)
  have hdotdot := read_dirent_finalized (builder_dir_entry [46, 46]) (by decide) (by decide)
  refine ⟨_, _, builder_main_ok _ _ _ _ hv', hrun, ?_, ?_, ⟨?_, ?_, ?_⟩, ⟨hafter 1 (Or.inl rfl),
    hafter 2 (Or.inr rfl)⟩, ?_, ?_, ?_, ?_, ?_, ?_, ?_, ?_, ?_⟩
  · have := find_first_free_bit_builder_write size_kib inode_count now adj hv'
    rw [Nat.mod_eq_of_lt (show inode_count < 4294967296 by omega)] at this
    exact this
  · rw [hdr, hdrb, show 2 * BS = 8192 by decide,
      alloc_blocks_builder_write _ _ _ _ 2 hv' (by omega)]
    rfl
  · rw [show 2 * BS = 8192 by decide, bitmap_bit_builder_write_data _ _ _ _ _ (by omega)]
    rfl
  · rw [show 2 * BS = 8192 by decide, bitmap_bit_builder_write_data _ _ _ _ _ (by omega)]
    rfl
  · rw [show 2 * BS = 8192 by decide, bitmap_bit_builder_write_data _ _ _ _ _ (by omega)]
    rfl
  · rw [hdirect 0 (by omega), hdr, if_pos (by omega)]
  · rw [hdirect 1 (by omega), hdr, if_pos (by omega)]
  · intro j hj2 hj
    rw [hdirect j hj, if_neg (by omega)]
  · rw [hdr, show (3 + (inode_count * 128 + 4096 - 1) / 4096) * BS
      = (3 + (inode_count * 128 + 4096 - 1) / 4096) * 4096 from rfl, hdots.1, hdot]
    exact ⟨rfl, rfl⟩
  · rw [hdr, show (3 + (inode_count * 128 + 4096 - 1) / 4096) * BS
      = (3 + (inode_count * 128 + 4096 - 1) / 4096) * 4096 from rfl, hdots.2, hdotdot]
    exact ⟨rfl, rfl⟩
  · intro i hi2 hi
    rw [hdr]
    show le_read _ ((3 + (inode_count * 128 + 4096 - 1) / 4096) * 4096 + i * 64) 4 = 0
    rw [le_read_builder_write_dir_slot _ _ _ _ hv' i hi, if_neg (by omega)]
  · rw [hdr, show (3 + (inode_count * 128 + 4096 - 1) / 4096) * BS
      = (3 + (inode_count * 128 + 4096 - 1) / 4096) * 4096 from rfl,
      read_dirent_congr _ _ _ 0 hslot, hentry,
      mem_read_congr _ _ _ 0 63 (fun k hk => hslot k (by omega))]
    rfl
  · intro h0 h47
    rw [hdr, show (3 + (inode_count * 128 + 4096 - 1) / 4096) * BS
      = (3 + (inode_count * 128 + 4096 - 1) / 4096) * 4096 from rfl,
      read_dirent_congr _ _ _ 0 hslot, hentry, basename_eq_self _ h0 h47]
    rfl
  · intro i hi hi2
    rw [hdr, show (3 + (inode_count * 128 + 4096 - 1) / 4096) * BS
      = (3 + (inode_count * 128 + 4096 - 1) / 4096) * 4096 from rfl]
    exact read_dirent_congr _ _ _ _ (hframe i hi hi2)

theorem C9_insert_5000_byte_file_witness :
    (valid_params 180 128 ∧ (List.replicate 5000 7).length = 5000 ∧
      (basename [97, 46, 116, 120, 116]).length ≤ 57) ∧
    ∃ img out, mkfs_builder.main 180 128 0 [] = .ok img ∧
      mkfs_adder.main img (List.replicate 5000 7) [97, 46, 116, 120, 116] 1 = ⟨.Ok, out⟩ ∧
      find_first_free_bit img (1 * BS) BS 128 = 2 ∧
      (read_inode out (3 * BS + (2 - 1) * INODE_SIZE)).direct.getD 0 0 = 8 ∧
      (read_inode out (3 * BS + (2 - 1) * INODE_SIZE)).direct.getD 1 0 = 9 ∧
      (read_dirent out (7 * BS + 2 * 64)).inode_no = 2 ∧
      (read_dirent out (7 * BS + 2 * 64)).type = 1 ∧
      (read_dirent out (7 * BS + 2 * 64)).name
        = [97, 46, 116, 120, 116] ++ List.replicate 53 0 := by
  have hlen : (List.replicate 5000 7).length = 5000 := List.length_replicate _ _
  refine ⟨⟨by decide, hlen, by decide⟩, ?_⟩
  obtain ⟨_, img, out, hb, ha, hino, _, _, _, hd0, hd1, _, _, _, _, hent, _, _⟩ :=
    C9_insert_5000_byte_file 180 128 0 [] (List.replicate 5000 7) [97, 46, 116, 120, 116] 1
      (by decide) hlen (by decide)
  have hdrs : (read_superblock img 0).data_region_start = 7 := by
    have h := builder_main_ok 180 128 0 [] (by decide)
    rw [hb] at h
    have e : img = builder_write 180 128 0 [] := Except.ok.inj h
    rw [e, (superblock_fields_builder_write 180 128 0 [] (by decide)).2.2.2.2.2.1]
  rw [hdrs] at hd0 hd1 hent
  refine ⟨img, out, hb, ha, hino, hd0, hd1, ?_, ?_, ?_⟩
  · rw [hent]
  · rw [hent]
  · rw [hent]
    rfl

theorem crc32_init_round_eq (c : Nat) : crc32_init_round c = crc32_bitwise_shift c := by
  unfold crc32_init_round crc32_bitwise_shift
  rw [Nat.and_one_is_mod, Nat.shiftRight_one]
  by_cases h : c % 2 = 1
  · rw [if_pos (by omega), if_pos h, Nat.xor_comm]
  · rw [if_neg (by omega), if_neg h]

theorem xor_mod_two (u v : Nat) : (u ^^^ v) % 2 = (u % 2 + v % 2) % 2 := by
  have h := Nat.testBit_xor u v 0
  simp only [Nat.testBit_zero] at h
  rcases Nat.mod_two_eq_zero_or_one u with hu | hu <;>
    rcases Nat.mod_two_eq_zero_or_one v with hv | hv <;>
    rcases Nat.mod_two_eq_zero_or_one (u ^^^ v) with hx | hx <;>
    simp [hu, hv, hx] at h ⊢

theorem xor_div_two (u v : Nat) : (u ^^^ v) / 2 = u / 2 ^^^ v / 2 := by
  apply Nat.eq_of_testBit_eq
  intro i
  rw [Nat.testBit_xor, ← Nat.testBit_succ, ← Nat.testBit_succ, ← Nat.testBit_succ,
    Nat.testBit_xor]

theorem xor_xor_cancel (a b p : Nat) : a ^^^ p ^^^ (b ^^^ p) = a ^^^ b := by
  apply Nat.eq_of_testBit_eq
  intro i
  simp only [Nat.testBit_xor]
  cases a.testBit i <;> cases b.testBit i <;> cases p.testBit i <;> rfl

/-- The shift is linear over XOR. -/
theorem crc32_bitwise_shift_xor (u v : Nat) :
    crc32_bitwise_shift (u ^^^ v) = crc32_bitwise_shift u ^^^ crc32_bitwise_shift v := by
  unfold crc32_bitwise_shift
  rw [xor_mod_two, xor_div_two]
  rcases Nat.mod_two_eq_zero_or_one u with hu | hu <;>
    rcases Nat.mod_two_eq_zero_or_one v with hv | hv
  · rw [hu, hv, if_neg (by decide), if_neg (by decide), if_neg (by decide)]
  · rw [hu, hv, if_pos (by decide), if_neg (by decide), if_pos (by decide), Nat.xor_assoc]
  · rw [hu, hv, if_pos (by decide), if_pos (by decide), if_neg (by decide), Nat.xor_assoc,
      Nat.xor_comm (v / 2), ← Nat.xor_assoc]
  · rw [hu, hv, if_neg (by decide), if_pos (by decide), if_pos (by decide)]
    exact (xor_xor_cancel _ _ _).symm

theorem iterate_crc32_bitwise_shift_xor (k u v : Nat) :
    Nat.iterate crc32_bitwise_shift k (u ^^^ v)
      = Nat.iterate crc32_bitwise_shift k u ^^^ Nat.iterate crc32_bitwise_shift k v := by
  induction k generalizing u v with
  | zero => rfl
  | succ k ih => rw [Function.iterate_succ_apply, Function.iterate_succ_apply,
      Function.iterate_succ_apply, crc32_bitwise_shift_xor, ih]

/-- Shifting a register whose low `k` bits are zero `k` times only moves it. -/
theorem iterate_crc32_bitwise_shift_of_dvd (k h : Nat) :
    Nat.iterate crc32_bitwise_shift k (2 ^ k * h) = h := by
  induction k with
  | zero => simp
  | succ k ih =>
    rw [Function.iterate_succ_apply]
    have e : crc32_bitwise_shift (2 ^ (k + 1) * h) = 2 ^ k * h := by
      unfold crc32_bitwise_shift
      have : 2 ^ (k + 1) * h = 2 * (2 ^ k * h) := by ring
      rw [this, if_neg (by omega)]
      omega
    rw [e, ih]

theorem xor_low_high (x : Nat) : x = x % 256 ^^^ 2 ^ 8 * (x / 256) := by
  apply Nat.eq_of_testBit_eq
  intro i
  have h1 := Nat.testBit_mul_pow_two_add (x / 256) (Nat.mod_lt x (show 0 < 2 ^ 8 by decide)) i
  have h2 := Nat.testBit_mul_pow_two_add (x / 256) (show 0 < 2 ^ 8 by decide) i
  have e : 2 ^ 8 * (x / 256) + x % 2 ^ 8 = x := by
    have := Nat.div_add_mod x 256
    omega
  rw [e] at h1
  rw [Nat.add_zero] at h2
  rw [Nat.testBit_xor, h1, h2]
  by_cases hi : i < 8
  · simp [hi]
  · have : x % 256 < 2 ^ i :=
      Nat.lt_of_lt_of_le (Nat.mod_lt x (by decide))
        (Nat.le_trans (by decide : 256 ≤ 2 ^ 8) (Nat.pow_le_pow_right (by decide) (by omega)))
    simp [hi, Nat.testBit_lt_two_pow this]

theorem xor_shiftRight_8 (c b : Nat) (hb : b < 256) : (c ^^^ b) / 256 = c >>> 8 := by
  rw [show (c ^^^ b) / 256 = (c ^^^ b) >>> 8 by rw [Nat.shiftRight_eq_div_pow]]
  apply Nat.eq_of_testBit_eq
  intro i
  rw [Nat.testBit_shiftRight, Nat.testBit_shiftRight, Nat.testBit_xor]
  have : b < 2 ^ (8 + i) :=
    Nat.lt_of_lt_of_le hb
      (Nat.le_trans (by decide : 256 ≤ 2 ^ 8) (Nat.pow_le_pow_right (by decide) (by omega)))
  simp [Nat.testBit_lt_two_pow this]

theorem CRC32_TAB_getD (i : Nat) (hi : i < 256) :
    CRC32_TAB.getD i 0 = Nat.iterate crc32_bitwise_shift 8 i := by
  unfold CRC32_TAB
  rw [List.getD_eq_getElem _ _ (by simpa using hi), List.getElem_map, List.getElem_range]
  unfold crc32_init_entry
  simp only [crc32_init_round_eq]
  rfl

/-- One table-driven step of `crc32` is the byte step of the bit-by-bit CRC. -/
theorem crc32_step_eq (c b : Nat) (hb : b < 256) : crc32_step c b = crc32_bitwise_byte c b := by
  unfold crc32_step crc32_bitwise_byte
  have hx := xor_low_high (c ^^^ b)
  have hand : (c ^^^ b) &&& 0xFF = (c ^^^ b) % 256 :=
    Nat.and_pow_two_sub_one_eq_mod (c ^^^ b) 8
  rw [hand, CRC32_TAB_getD _ (Nat.mod_lt _ (by decide))]
  conv => rhs; rw [hx]
  rw [iterate_crc32_bitwise_shift_xor, iterate_crc32_bitwise_shift_of_dvd,
    xor_shiftRight_8 c b hb]

/-- The loop of `crc32` over a whole byte sequence folds the byte step of the
bit-by-bit CRC. -/
theorem crc32_loop_eq_foldl : ∀ (data : List Nat) (c : Nat), (∀ b ∈ data, b < 256) →
    crc32_loop data data.length c = data.foldl crc32_bitwise_byte c := by
  intro data
  induction data with
  | nil => intro c _; rfl
  | cons b bs ih =>
    intro c h
    rw [List.length_cons, crc32_loop, List.foldl_cons,
      crc32_step_eq c b (h b (List.mem_cons_self _ _)),
      ih _ (fun x hx => h x (List.mem_cons_of_mem _ hx))]

set_option maxRecDepth 100000 in
/-- The check value of CRC-32. -/
theorem crc32_bitwise_check :
    crc32_bitwise [49, 50, 51, 52, 53, 54, 55, 56, 57] = 0xCBF43926 := by
  decide

/-- C11: on every byte sequence the table-driven `crc32` of the program returns the
standard bit-by-bit CRC-32 (reflected polynomial `0xEDB88320`, initial value
`0xFFFFFFFF`, final complement); the CRC of the empty sequence is 0 and the CRC of
the nine ASCII bytes `"123456789"` is `0xCBF43926`. -/
theorem C11_crc32_is_bitwise_crc32 :
    (∀ data : List Nat, (∀ b ∈ data, b < 256) →
      crc32 data data.length = crc32_bitwise data) ∧
    crc32 [] 0 = 0 ∧
    crc32 [49, 50, 51, 52, 53, 54, 55, 56, 57] 9 = 0xCBF43926 := by
  have h : ∀ data : List Nat, (∀ b ∈ data, b < 256) →
      crc32 data data.length = crc32_bitwise data := by
    intro data hd
    unfold crc32 crc32_bitwise
    rw [crc32_loop_eq_foldl data _ hd]
  refine ⟨h, by decide, ?_⟩
  have h9 := h [49, 50, 51, 52, 53, 54, 55, 56, 57] (by decide)
  rw [show ([49, 50, 51, 52, 53, 54, 55, 56, 57] : List Nat).length = 9 from rfl] at h9
  rw [h9]
  exact crc32_bitwise_check

theorem ext_getD (l1 l2 : List Nat) (hl : l1.length = l2.length)
    (h : ∀ i, l1.getD i 0 = l2.getD i 0) : l1 = l2 := by
  apply List.ext_getElem hl
  intro i h1 h2
  have := h i
  rw [List.getD_eq_getElem _ _ h1, List.getD_eq_getElem _ _ h2] at this
  exact this

/-- A second `memcpy` of as many bytes to the same place replaces the first. -/
theorem memcpy_memcpy (mem a b : List Nat) (off : Nat) (h : a.length = b.length) :
    memcpy (memcpy mem off a) off b = memcpy mem off b := by
  apply ext_getD
  · rw [length_memcpy, length_memcpy, length_memcpy]
  · intro i
    rw [getD_memcpy, getD_memcpy, getD_memcpy, length_memcpy]
    by_cases hi : off ≤ i ∧ i < off + b.length ∧ i < mem.length
    · rw [if_pos hi, if_pos hi]
    · rw [if_neg hi, if_neg hi, if_neg (by rw [h]; exact hi)]

theorem superblock_crc_finalize_eq (m : List Nat) :
    superblock_crc_finalize m 0
      = memcpy (memcpy m 112 (le_bytes 4 0)) 112
          (le_bytes 4 (crc32 (memcpy m 112 (le_bytes 4 0)) (BS - 4))) := rfl

theorem memcpy_zero_superblock_crc_finalize (m : List Nat) :
    memcpy (superblock_crc_finalize m 0) 112 (le_bytes 4 0) = memcpy m 112 (le_bytes 4 0) := by
  rw [superblock_crc_finalize_eq, memcpy_memcpy _ _ _ _ (by simp [length_le_bytes]),
    memcpy_memcpy _ _ _ _ rfl]

/-- Finalizing a superblock twice gives what finalizing it once gives. -/
theorem superblock_crc_finalize_idem (m : List Nat) :
    superblock_crc_finalize (superblock_crc_finalize m 0) 0 = superblock_crc_finalize m 0 := by
  rw [superblock_crc_finalize_eq (superblock_crc_finalize m 0),
    memcpy_zero_superblock_crc_finalize]
  rfl

/-- The checksum a finalized superblock stores is the one recomputed from it. -/
theorem superblock_checksum_ok_finalize (m : List Nat) (h : 116 ≤ m.length) :
    superblock_checksum_ok (superblock_crc_finalize m 0) := by
  unfold superblock_checksum_ok
  rw [memcpy_zero_superblock_crc_finalize, superblock_crc_finalize_eq,
    le_read_memcpy_inside _ _ _ _ _ (Nat.le_refl _) (by simp [length_le_bytes])
      (by simp [length_memcpy, length_le_bytes]; omega),
    Nat.sub_self, le_read_le_bytes]
  exact Nat.mod_eq_of_lt (crc32_lt _ _)

theorem crc32_congr (p q : List Nat) (n : Nat) (h : ∀ k, k < n → p.getD k 0 = q.getD k 0) :
    crc32 p n = crc32 q n := by
  unfold crc32
  rw [crc32_loop_congr n p q _ h]

/-- The CRC `inode_crc_finalize` stores is the CRC of the first 120 bytes of the
record. -/
theorem inode_crc_finalize_eq (r : List Nat) :
    inode_crc_finalize r 0 = memcpy r 120 (le_bytes 8 (crc32 r 120)) := by
  unfold inode_crc_finalize
  dsimp only
  rw [Nat.zero_add, crc32_congr _ r 120 (fun k hk => by
    rw [getD_memcpy, if_neg (by omega)]
    by_cases hk2 : k < INODE_SIZE
    · rw [getD_mem_read _ _ _ _ hk2, Nat.zero_add]
    · exact absurd (show k < INODE_SIZE by simp only [INODE_SIZE]; omega) hk2)]

theorem inode_crc_finalize_idem (r : List Nat) :
    inode_crc_finalize (inode_crc_finalize r 0) 0 = inode_crc_finalize r 0 := by
  rw [inode_crc_finalize_eq (inode_crc_finalize r 0),
    crc32_congr (inode_crc_finalize r 0) r 120
      (fun k hk => getD_inode_crc_finalize_of_lt _ _ _ (by omega)),
    inode_crc_finalize_eq, memcpy_memcpy _ _ _ _ rfl]

theorem getD_le_bytes : ∀ (w v k : Nat), k < w → (le_bytes w v).getD k 0 = v / 256 ^ k % 256 := by
  intro w
  induction w with
  | zero => intro v k hk; omega
  | succ w ih =>
    intro v k hk
    cases k with
    | zero => simp [le_bytes]
    | succ k =>
      simp only [le_bytes, List.getD_cons_succ]
      rw [ih _ _ (by omega), Nat.div_div_eq_div_mul, Nat.pow_succ, Nat.mul_comm]

theorem dirent_checksum_finalize_idem (e : List Nat) :
    dirent_checksum_finalize (dirent_checksum_finalize e 0) 0 = dirent_checksum_finalize e 0 := by
  have hx : dirent_xor (dirent_checksum_finalize e 0) 0 63 0 = dirent_xor e 0 63 0 := by
    rw [dirent_xor_eq_foldl, dirent_xor_eq_foldl,
      mem_read_congr _ e 0 0 63 (fun k hk => by
        rw [Nat.zero_add, getD_dirent_checksum_finalize_of_lt _ _ hk])]
  unfold dirent_checksum_finalize at hx ⊢
  rw [hx, List.set_set]

/-- C12: each of the three checksum finalizers is idempotent, on every 4096-byte
superblock block, every 128-byte inode record and every 64-byte directory entry:
finalizing a finalized structure gives the same bytes, and the value stored is the
value recomputed from the finalized structure (the CRC32 over bytes `[0, 4092)` of
the block with the checksum field zeroed, the CRC32 of the first 120 bytes of the
inode, the XOR of the first 63 bytes of the entry). The inode finalizer leaves the
high 4 bytes of the 8-byte checksum field zero. -/
theorem C12_finalizers_idempotent (sb ino de : List Nat)
    (hsb : sb.length = 4096) (hino : ino.length = 128) (hde : de.length = 64) :
    (superblock_crc_finalize (superblock_crc_finalize sb 0) 0 = superblock_crc_finalize sb 0 ∧
      superblock_checksum_ok (superblock_crc_finalize sb 0)) ∧
    (inode_crc_finalize (inode_crc_finalize ino 0) 0 = inode_crc_finalize ino 0 ∧
      le_read (inode_crc_finalize ino 0) 120 4 = crc32 (inode_crc_finalize ino 0) 120 ∧
      (∀ k, k < 4 → (inode_crc_finalize ino 0).getD (124 + k) 0 = 0) ∧
      le_read (inode_crc_finalize ino 0) 120 8 < 4294967296) ∧
    (dirent_checksum_finalize (dirent_checksum_finalize de 0) 0
        = dirent_checksum_finalize de 0 ∧
      (dirent_checksum_finalize de 0).getD 63 0
        = xor_bytes (mem_read (dirent_checksum_finalize de 0) 0 63)) := by
  have hcrc : crc32 (inode_crc_finalize ino 0) 120 = crc32 ino 120 :=
    crc32_congr _ _ _ (fun k hk => getD_inode_crc_finalize_of_lt _ _ _ (by omega))
  have h8 : le_read (inode_crc_finalize ino 0) 120 8 = crc32 ino 120 := by
    rw [inode_crc_finalize_eq,
      le_read_memcpy_inside _ _ _ _ _ (Nat.le_refl _) (by simp [length_le_bytes])
        (by simp [length_le_bytes]; omega),
      Nat.sub_self, le_read_le_bytes]
    exact Nat.mod_eq_of_lt (Nat.lt_trans (crc32_lt _ _) (by decide))
  have hhigh : ∀ k, k < 4 → (inode_crc_finalize ino 0).getD (124 + k) 0 = 0 := by
    intro k hk
    rw [inode_crc_finalize_eq, getD_memcpy,
      if_pos ⟨by omega, by simp [length_le_bytes]; omega, by omega⟩,
      getD_le_bytes _ _ _ (by omega)]
    have hc := crc32_lt ino 120
    have e : 124 + k - 120 = 4 + k := by omega
    rw [e, Nat.pow_add, ← Nat.div_div_eq_div_mul,
      Nat.div_eq_of_lt (show crc32 ino 120 < 256 ^ 4 from hc), Nat.zero_div]
  refine ⟨⟨superblock_crc_finalize_idem sb, superblock_checksum_ok_finalize sb (by omega)⟩,
    ⟨inode_crc_finalize_idem ino, ?_, hhigh, ?_⟩, ⟨dirent_checksum_finalize_idem de, ?_⟩⟩
  · rw [hcrc, inode_crc_finalize_eq,
      le_read_memcpy_inside _ _ _ _ _ (Nat.le_refl _) (by simp [length_le_bytes])
        (by simp [length_le_bytes]; omega),
      Nat.sub_self,
      le_read_congr _ (le_bytes 4 (crc32 ino 120)) 4 0 0 (fun k hk => by
        rw [Nat.zero_add, getD_le_bytes _ _ _ (by omega), getD_le_bytes _ _ _ hk]),
      le_read_le_bytes]
    exact Nat.mod_eq_of_lt (crc32_lt _ _)
  · rw [h8]
    exact crc32_lt _ _
  · rw [mem_read_congr (dirent_checksum_finalize de 0) de 0 0 63 (fun k hk => by
      rw [Nat.zero_add, getD_dirent_checksum_finalize_of_lt _ _ hk])]
    unfold dirent_checksum_finalize xor_bytes
    rw [getD_set, if_pos ⟨by omega, by omega⟩, dirent_xor_eq_foldl]

theorem C12_finalizers_idempotent_witness :
    ((List.replicate 4096 0).length = 4096 ∧ (List.replicate 128 0).length = 128 ∧
      (List.replicate 64 0).length = 64) ∧
    superblock_crc_finalize (superblock_crc_finalize (List.replicate 4096 0) 0) 0
      = superblock_crc_finalize (List.replicate 4096 0) 0 ∧
    inode_crc_finalize (inode_crc_finalize (List.replicate 128 0) 0) 0
      = inode_crc_finalize (List.replicate 128 0) 0 ∧
    dirent_checksum_finalize (dirent_checksum_finalize (List.replicate 64 0) 0) 0
      = dirent_checksum_finalize (List.replicate 64 0) 0 :=
  have h := C12_finalizers_idempotent (List.replicate 4096 0) (List.replicate 128 0)
    (List.replicate 64 0) (List.length_replicate _ _) (List.length_replicate _ _)
    (List.length_replicate _ _)
  ⟨⟨List.length_replicate _ _, List.length_replicate _ _, List.length_replicate _ _⟩,
    h.1.1, h.2.1.1, h.2.2.1⟩

theorem crc32_bitwise_shift_lt (x : Nat) (hx : x < 4294967296) :
    crc32_bitwise_shift x < 4294967296 := by
  unfold crc32_bitwise_shift
  split
  · exact Nat.xor_lt_two_pow (n := 32) (by omega) (by decide)
  · omega

/-- The shift is injective on 32-bit registers: bit 31 of the result tells the bit
shifted out. -/
theorem crc32_bitwise_shift_inj (x y : Nat) (hx : x < 4294967296) (hy : y < 4294967296)
    (h : crc32_bitwise_shift x = crc32_bitwise_shift y) : x = y := by
  have htop : ∀ z, z < 4294967296 → (z / 2 ^^^ 0xEDB88320).testBit 31 = true := by
    intro z hz
    rw [Nat.testBit_xor, Nat.testBit_lt_two_pow (show z / 2 < 2 ^ 31 by omega)]
    decide
  have hlow : ∀ z, z < 4294967296 → (z / 2).testBit 31 = false := fun z hz =>
    Nat.testBit_lt_two_pow (show z / 2 < 2 ^ 31 by omega)
  unfold crc32_bitwise_shift at h
  by_cases h1 : x % 2 = 1 <;> by_cases h2 : y % 2 = 1
  · rw [if_pos h1, if_pos h2] at h
    have := Nat.xor_left_injective h
    omega
  · rw [if_pos h1, if_neg h2] at h
    have a := htop x hx
    rw [h, hlow y hy] at a
    exact Bool.noConfusion a
  · rw [if_neg h1, if_pos h2] at h
    have a := htop y hy
    rw [← h, hlow x hx] at a
    exact Bool.noConfusion a
  · rw [if_neg h1, if_neg h2] at h
    omega

theorem iterate_crc32_bitwise_shift_lt (k x : Nat) (hx : x < 4294967296) :
    Nat.iterate crc32_bitwise_shift k x < 4294967296 := by
  induction k generalizing x with
  | zero => exact hx
  | succ k ih =>
    rw [Function.iterate_succ_apply]
    exact ih _ (crc32_bitwise_shift_lt x hx)

theorem iterate_crc32_bitwise_shift_inj (k x y : Nat) (hx : x < 4294967296)
    (hy : y < 4294967296)
    (h : Nat.iterate crc32_bitwise_shift k x = Nat.iterate crc32_bitwise_shift k y) :
    x = y := by
  induction k generalizing x y with
  | zero => exact h
  | succ k ih =>
    rw [Function.iterate_succ_apply, Function.iterate_succ_apply] at h
    exact crc32_bitwise_shift_inj x y hx hy
      (ih _ _ (crc32_bitwise_shift_lt x hx) (crc32_bitwise_shift_lt y hy) h)

/-- The step of `crc32` is injective in the register and in the byte. -/
theorem crc32_step_inj (c1 c2 b1 b2 : Nat) (hc1 : c1 < 4294967296) (hc2 : c2 < 4294967296)
    (hb1 : b1 < 256) (hb2 : b2 < 256) (h : crc32_step c1 b1 = crc32_step c2 b2) :
    c1 ^^^ b1 = c2 ^^^ b2 := by
  rw [crc32_step_eq _ _ hb1, crc32_step_eq _ _ hb2] at h
  unfold crc32_bitwise_byte at h
  exact iterate_crc32_bitwise_shift_inj 8 _ _
    (Nat.xor_lt_two_pow (n := 32) hc1 (by omega))
    (Nat.xor_lt_two_pow (n := 32) hc2 (by omega)) h

/-- Different registers stay different over the same bytes. -/
theorem crc32_loop_ne_of_state (p q : List Nat) (c1 c2 : Nat) (hc1 : c1 < 4294967296)
    (hc2 : c2 < 4294967296) (hc : c1 ≠ c2) :
    ∀ n, (∀ j, j < n → p.getD j 0 = q.getD j 0 ∧ p.getD j 0 < 256) →
      crc32_loop p n c1 ≠ crc32_loop q n c2 := by
  intro n
  induction n with
  | zero => intro _; cases p <;> cases q <;> simpa [crc32_loop] using hc
  | succ n ih =>
    intro h
    rw [crc32_loop_succ, crc32_loop_succ]
    intro heq
    have hn := h n (Nat.lt_succ_self n)
    have := crc32_step_inj _ _ _ _ (crc32_loop_lt n p c1 hc1) (crc32_loop_lt n q c2 hc2)
      hn.2 (hn.1 ▸ hn.2) heq
    rw [hn.1] at this
    exact ih (fun j hj => h j (Nat.lt_succ_of_lt hj)) (Nat.xor_left_injective this)

/-- Two byte sequences that differ in exactly one of their first `n` bytes have
different CRCs. -/
theorem crc32_ne_of_one_byte (p q : List Nat) (n k : Nat) (hk : k < n)
    (hp : ∀ j, j < n → p.getD j 0 < 256) (hq : q.getD k 0 < 256)
    (hne : p.getD k 0 ≠ q.getD k 0)
    (heq : ∀ j, j < n → j ≠ k → p.getD j 0 = q.getD j 0) :
    crc32 p n ≠ crc32 q n := by
  have hpre : crc32_loop p k 0xFFFFFFFF = crc32_loop q k 0xFFFFFFFF :=
    crc32_loop_congr k p q _ (fun j hj => heq j (by omega) (by omega))
  have hk1 : crc32_loop p (k + 1) 0xFFFFFFFF ≠ crc32_loop q (k + 1) 0xFFFFFFFF := by
    rw [crc32_loop_succ, crc32_loop_succ, hpre]
    intro h
    have := crc32_step_inj _ _ _ _ (crc32_loop_lt k q _ (by decide))
      (crc32_loop_lt k q _ (by decide)) (hp k hk) hq h
    exact hne (Nat.xor_right_injective this)
  have hloop : ∀ d, k + 1 + d ≤ n →
      crc32_loop p (k + 1 + d) 0xFFFFFFFF ≠ crc32_loop q (k + 1 + d) 0xFFFFFFFF := by
    intro d
    induction d with
    | zero => intro _; exact hk1
    | succ d ih =>
      intro hd
      rw [← Nat.add_assoc, crc32_loop_succ, crc32_loop_succ]
      intro h
      have e := heq (k + 1 + d) (by omega) (by omega)
      have := crc32_step_inj _ _ _ _ (crc32_loop_lt _ p _ (by decide))
        (crc32_loop_lt _ q _ (by decide)) (hp _ (by omega)) (e ▸ hp _ (by omega)) h
      rw [e] at this
      exact ih (by omega) (Nat.xor_left_injective this)
  have hn := hloop (n - (k + 1)) (by omega)
  rw [show k + 1 + (n - (k + 1)) = n by omega] at hn
  unfold crc32
  exact fun h => hn (Nat.xor_left_injective h)

/-- The checksum field of a finalized inode record of 128 bytes holds the CRC32 of
its first 120 bytes. -/
theorem le_read_inode_crc_finalize_checksum (r : List Nat) (h : 128 ≤ r.length) :
    le_read (inode_crc_finalize r 0) 120 8 = crc32 r 120 := by
  rw [inode_crc_finalize_eq,
    le_read_memcpy_inside _ _ _ _ _ (Nat.le_refl _) (by simp [length_le_bytes])
      (by simp [length_le_bytes]; omega),
    Nat.sub_self, le_read_le_bytes]
  exact Nat.mod_eq_of_lt (Nat.lt_trans (crc32_lt _ _) (by decide))

/-- C13: for every inode record of 128 bytes and every change of exactly one of
its covered bytes (an index `k < 120` set to a different byte value `v`), the
checksum `inode_crc_finalize` stores for the changed record differs from the one
it stores for the original record; in particular for every flip of a single bit
`i < 8` of byte `k`. -/
theorem C13_inode_checksum_detects_one_byte (r : List Nat) (k v : Nat)
    (hlen : r.length = 128) (hbytes : ∀ b ∈ r, b < 256) (hk : k < 120)
    (hv : v < 256) (hne : v ≠ r.getD k 0) :
    le_read (inode_crc_finalize (r.set k v) 0) 120 8
        ≠ le_read (inode_crc_finalize r 0) 120 8 ∧
    ∀ i, i < 8 →
      le_read (inode_crc_finalize (r.set k (r.getD k 0 ^^^ 1 <<< i)) 0) 120 8
        ≠ le_read (inode_crc_finalize r 0) 120 8 := by
  have hr : ∀ j, j < 120 → r.getD j 0 < 256 := by
    intro j hj
    rw [List.getD_eq_getElem _ _ (by omega)]
    exact hbytes _ (List.getElem_mem _)
  have key : ∀ w, w < 256 → w ≠ r.getD k 0 →
      le_read (inode_crc_finalize (r.set k w) 0) 120 8
        ≠ le_read (inode_crc_finalize r 0) 120 8 := by
    intro w hw hwne
    rw [le_read_inode_crc_finalize_checksum _ (by rw [List.length_set]; omega),
      le_read_inode_crc_finalize_checksum _ (by omega)]
    refine (crc32_ne_of_one_byte r (r.set k w) 120 k hk hr ?_ ?_ ?_).symm
    · rw [getD_set, if_pos ⟨rfl, by omega⟩]; exact hw
    · rw [getD_set, if_pos ⟨rfl, by omega⟩]; exact fun h => hwne h.symm
    · intro j _ hjk
      rw [getD_set, if_neg (by omega)]
  refine ⟨key v hv hne, fun i hi => key _ ?_ ?_⟩
  · exact Nat.xor_lt_two_pow (n := 8) (hr k hk)
      (by rw [Nat.one_shiftLeft]; exact Nat.pow_lt_pow_right (by decide) hi)
  · intro h
    have h0 : r.getD k 0 ^^^ 1 <<< i = r.getD k 0 ^^^ 0 := by rw [Nat.xor_zero]; exact h
    have := Nat.xor_right_injective h0
    rw [Nat.one_shiftLeft] at this
    exact absurd this (Nat.pos_iff_ne_zero.mp (Nat.two_pow_pos i))

theorem C13_inode_checksum_detects_one_byte_witness :
    ((List.replicate 128 0).length = 128 ∧ (∀ b ∈ List.replicate 128 0, b < 256) ∧
      (5 : Nat) < 120 ∧ (1 : Nat) < 256 ∧ 1 ≠ (List.replicate 128 0).getD 5 0) ∧
    le_read (inode_crc_finalize ((List.replicate 128 0).set 5 1) 0) 120 8
      ≠ le_read (inode_crc_finalize (List.replicate 128 0) 0) 120 8 :=
  ⟨⟨List.length_replicate _ _, fun b hb => by rw [List.eq_of_mem_replicate hb]; decide,
      by decide, by decide, by decide⟩,
    (C13_inode_checksum_detects_one_byte (List.replicate 128 0) 5 1
      (List.length_replicate _ _)
      (fun b hb => by rw [List.eq_of_mem_replicate hb]; decide)
      (by decide) (by decide) (by decide)).1⟩

theorem le_read_inode_crc_finalize_before (mem : List Nat) (ino p w : Nat)
    (h : p + w ≤ ino + 120) :
    le_read (inode_crc_finalize mem ino) p w = le_read mem p w := by
  apply le_read_congr
  intro k hk
  exact getD_inode_crc_finalize_of_lt _ _ _ (by omega)

/-- The checksum field after `inode_crc_finalize` at offset `ino`: the CRC32 of the
120 bytes from `ino` on. -/
theorem le_read_inode_crc_finalize_at (mem : List Nat) (ino : Nat)
    (h : ino + 128 ≤ mem.length) :
    le_read (inode_crc_finalize mem ino) (ino + 120) 8
      = crc32 (mem_read (inode_crc_finalize mem ino) ino 120) 120 := by
  have hc : crc32 (mem_read (inode_crc_finalize mem ino) ino 120) 120
      = crc32 (memcpy (mem_read mem ino INODE_SIZE) 120 (List.replicate 8 0)) 120 := by
    apply crc32_congr
    intro k hk
    rw [getD_mem_read _ _ _ _ hk, getD_inode_crc_finalize_of_lt _ _ _ (by omega), getD_memcpy,
      if_neg (by omega), getD_mem_read _ _ _ _ (show k < INODE_SIZE by
        simp only [INODE_SIZE]; omega)]
  rw [hc]
  unfold inode_crc_finalize
  dsimp only
  rw [le_read_memcpy_inside _ _ _ _ _ (Nat.le_refl _) (by simp [length_le_bytes])
      (by simp [length_le_bytes]; omega),
    Nat.sub_self, le_read_le_bytes]
  exact Nat.mod_eq_of_lt (Nat.lt_trans (crc32_lt _ _) (by decide))

/-- The fields of the root inode after `update_root_inode`. -/
theorem le_read_update_root_inode (mem : List Nat) (r now : Nat)
    (h : r + 128 ≤ mem.length) :
    le_read (update_root_inode mem r now) (r + 12) 8
      = (le_read mem (r + 12) 8 + 64) % 18446744073709551616 ∧
    le_read (update_root_inode mem r now) (r + 2) 2
      = (le_read mem (r + 2) 2 + 1) % 65536 ∧
    le_read (update_root_inode mem r now) (r + 28) 8 = now % 18446744073709551616 ∧
    le_read (update_root_inode mem r now) (r + 120) 8
      = crc32 (mem_read (update_root_inode mem r now) r 120) 120 := by
  refine ⟨?_, ?_, ?_, ?_⟩
  · unfold update_root_inode
    dsimp only
    rw [le_read_inode_crc_finalize_before _ _ _ _ (by omega),
      le_read_memcpy_of_disjoint _ _ _ _ _ (by simp [length_le_bytes]),
      le_read_memcpy_of_disjoint _ _ _ _ _ (by simp [length_le_bytes]),
      le_read_memcpy_inside _ _ _ _ _ (Nat.le_refl _) (by simp [length_le_bytes])
        (by simp [length_le_bytes]; omega),
      Nat.sub_self, le_read_le_bytes]
    exact Nat.mod_eq_of_lt (Nat.mod_lt _ (by decide))
  · unfold update_root_inode
    dsimp only
    rw [le_read_inode_crc_finalize_before _ _ _ _ (by omega),
      le_read_memcpy_of_disjoint _ _ _ _ _ (by simp [length_le_bytes]),
      le_read_memcpy_inside _ _ _ _ _ (Nat.le_refl _) (by simp [length_le_bytes])
        (by simp [length_memcpy, length_le_bytes]; omega),
      Nat.sub_self, le_read_le_bytes,
      le_read_memcpy_of_disjoint _ _ _ _ _ (by simp [length_le_bytes])]
    exact Nat.mod_eq_of_lt (Nat.mod_lt _ (by decide))
  · unfold update_root_inode
    dsimp only
    rw [le_read_inode_crc_finalize_before _ _ _ _ (by omega),
      le_read_memcpy_inside _ _ _ _ _ (Nat.le_refl _) (by simp [length_le_bytes])
        (by simp [length_memcpy, length_le_bytes]; omega),
      Nat.sub_self, le_read_le_bytes]
    rfl
  · unfold update_root_inode
    dsimp only
    exact le_read_inode_crc_finalize_at _ _ (by simp only [length_memcpy]; exact h)

/-- Bytes of the root inode record that `update_root_inode` keeps: everything
outside `links`, `size_bytes`, `mtime` and the checksum. -/
theorem getD_update_root_inode_kept (mem : List Nat) (r now k : Nat) (hk : k < 120)
    (h2 : k < 2 ∨ 4 ≤ k) (h12 : k < 12 ∨ 20 ≤ k) (h28 : k < 28 ∨ 36 ≤ k) :
    (update_root_inode mem r now).getD (r + k) 0 = mem.getD (r + k) 0 := by
  unfold update_root_inode
  dsimp only
  rw [getD_inode_crc_finalize_of_lt _ _ _ (by omega)]
  simp only [getD_memcpy, length_le_bytes]
  rw [if_neg (by omega), if_neg (by omega), if_neg (by omega)]

theorem getD_memcpy_congr (a b src : List Nat) (off j : Nat) (hja : j < a.length)
    (hjb : j < b.length) (h : a.getD j 0 = b.getD j 0) :
    (memcpy a off src).getD j 0 = (memcpy b off src).getD j 0 := by
  rw [getD_memcpy, getD_memcpy, h]
  by_cases c : off ≤ j ∧ j < off + src.length
  · rw [if_pos ⟨c.1, c.2, hja⟩, if_pos ⟨c.1, c.2, hjb⟩]
  · rw [if_neg (fun x => c ⟨x.1, x.2.1⟩), if_neg (fun x => c ⟨x.1, x.2.1⟩)]

theorem getD_inode_crc_finalize_congr (a b : List Nat) (ino : Nat)
    (ha : ino + 128 ≤ a.length) (hb : ino + 128 ≤ b.length)
    (h : ∀ i, i < 128 → a.getD (ino + i) 0 = b.getD (ino + i) 0) (k : Nat) (hk : k < 128) :
    (inode_crc_finalize a ino).getD (ino + k) 0 = (inode_crc_finalize b ino).getD (ino + k) 0 := by
  have hc : crc32 (memcpy (mem_read a ino INODE_SIZE) 120 (List.replicate 8 0)) 120
      = crc32 (memcpy (mem_read b ino INODE_SIZE) 120 (List.replicate 8 0)) 120 := by
    apply crc32_congr
    intro i hi
    rw [getD_memcpy, getD_memcpy, if_neg (by omega), if_neg (by omega),
      getD_mem_read _ _ _ _ (show i < INODE_SIZE by simp only [INODE_SIZE]; omega),
      getD_mem_read _ _ _ _ (show i < INODE_SIZE by simp only [INODE_SIZE]; omega)]
    exact h i (by omega)
  unfold inode_crc_finalize
  dsimp only
  rw [hc]
  exact getD_memcpy_congr _ _ _ _ _ (by omega) (by omega) (h k hk)

/-- The result of `update_root_inode` inside the record depends on the record
only. -/
theorem update_root_inode_congr (a b : List Nat) (r now : Nat)
    (ha : r + 128 ≤ a.length) (hb : r + 128 ≤ b.length)
    (h : ∀ k, k < 128 → a.getD (r + k) 0 = b.getD (r + k) 0) (k : Nat) (hk : k < 128) :
    (update_root_inode a r now).getD (r + k) 0 = (update_root_inode b r now).getD (r + k) 0 := by
  have h12 : le_read a (r + 12) 8 = le_read b (r + 12) 8 :=
    le_read_congr _ _ _ _ _ (fun i hi => by
      rw [Nat.add_assoc]; exact h _ (by omega))
  have h2 : le_read (memcpy a (r + 12)
        (le_bytes 8 ((le_read a (r + 12) 8 + 64) % 18446744073709551616))) (r + 2) 2
      = le_read (memcpy b (r + 12)
        (le_bytes 8 ((le_read b (r + 12) 8 + 64) % 18446744073709551616))) (r + 2) 2 := by
    rw [le_read_memcpy_of_disjoint _ _ _ _ _ (by simp [length_le_bytes]),
      le_read_memcpy_of_disjoint _ _ _ _ _ (by simp [length_le_bytes])]
    exact le_read_congr _ _ _ _ _ (fun i hi => by
      rw [Nat.add_assoc]; exact h _ (by omega))
  have h3 : ∀ i, i < 128 →
      (memcpy (memcpy (memcpy a (r + 12)
        (le_bytes 8 ((le_read a (r + 12) 8 + 64) % 18446744073709551616))) (r + 2)
        (le_bytes 2 ((le_read (memcpy a (r + 12)
          (le_bytes 8 ((le_read a (r + 12) 8 + 64) % 18446744073709551616))) (r + 2) 2 + 1)
            % 65536))) (r + 28) (le_bytes 8 now)).getD (r + i) 0
      = (memcpy (memcpy (memcpy b (r + 12)
        (le_bytes 8 ((le_read b (r + 12) 8 + 64) % 18446744073709551616))) (r + 2)
        (le_bytes 2 ((le_read (memcpy b (r + 12)
          (le_bytes 8 ((le_read b (r + 12) 8 + 64) % 18446744073709551616))) (r + 2) 2 + 1)
            % 65536))) (r + 28) (le_bytes 8 now)).getD (r + i) 0 := by
    intro i hi
    rw [h2, h12]
    apply getD_memcpy_congr _ _ _ _ _ (by simp only [length_memcpy]; omega)
      (by simp only [length_memcpy]; omega)
    apply getD_memcpy_congr _ _ _ _ _ (by simp only [length_memcpy]; omega)
      (by simp only [length_memcpy]; omega)
    exact getD_memcpy_congr _ _ _ _ _ (by omega) (by omega) (h i hi)
  unfold update_root_inode
  dsimp only
  exact getD_inode_crc_finalize_congr _ _ _ (by simp only [length_memcpy]; omega)
    (by simp only [length_memcpy]; omega) h3 k hk

theorem find?_range_min (p : Nat → Bool) : ∀ (n e : Nat), (List.range n).find? p = some e →
    ∀ i, i < e → p i = false := by
  intro n
  induction n with
  | zero => intro e h; simp at h
  | succ n ih =>
    intro e h i hi
    rw [List.range_succ, List.find?_append] at h
    cases hf : (List.range n).find? p with
    | some e' =>
      rw [hf] at h
      have : e' = e := by simpa using h
      subst this
      exact ih _ hf i hi
    | none =>
      rw [List.find?_eq_none] at hf
      have he := (find?_range_lt p (n + 1) e (by
        rw [List.range_succ, List.find?_append]; exact h)).1
      have := hf i (List.mem_range.mpr (by omega))
      simpa using this

/-- What a successful run of the adder on a valid image did. -/
theorem insert_ok_effect (size_kib inode_count : Nat) (img file file_name : List Nat)
    (now : Nat) (out : List Nat) (drs drb : Nat)
    (hvi : valid_image size_kib inode_count img)
    (hdrs : drs = 3 + (inode_count * 128 + 4096 - 1) / 4096)
    (hdrb : drb = size_kib * 1024 / 4096 - (1 + 1 + 1 + (inode_count * 128 + 4096 - 1) / 4096))
    (hok : mkfs_adder.main img file file_name now = ⟨.Ok, out⟩) :
    ∃ ino e dbs,
      insert_effect inode_count img file (basename file_name) out now drs drb ino e dbs := by
  obtain ⟨hbn12, hino2, hinon, hdl, hname, e, he, hfind, hout⟩ :=
    adder_main_ok_inv size_kib inode_count img file file_name now drs drb _ _ _ _ out hvi hdrs
      hdrb rfl rfl rfl rfl hok
  obtain ⟨hmagic, hic, hib, hdb, hit, hdr, hdrb'⟩ := superblock_fields_valid_image _ _ _ hvi
  have hlen := hvi.2.1
  have hv := hvi.1
  obtain ⟨h1, h2, h3, h4, h5⟩ := hv
  have hfree := find_first_free_bit_block img 4096 inode_count (by omega)
  have hfree2 : bitmap_bit img 4096 (find_first_free_bit img 4096 BS inode_count - 1) = false ∧
      ∀ p, p < find_first_free_bit img 4096 BS inode_count - 1 →
        bitmap_bit img 4096 p = true := by
    rcases hfree with h0 | ⟨_, _, hf, hm⟩
    · omega
    · exact ⟨hf, hm⟩
  have hal : ∀ i, i < (alloc_blocks img 8192 drs drb ((file.length + BS - 1) / BS)).length →
      drs + 1 ≤ (alloc_blocks img 8192 drs drb ((file.length + BS - 1) / BS)).getD i 0 ∧
      (alloc_blocks img 8192 drs drb ((file.length + BS - 1) / BS)).getD i 0 < drs + drb ∧
      bitmap_bit img 8192
        ((alloc_blocks img 8192 drs drb ((file.length + BS - 1) / BS)).getD i 0 - drs)
          = false :=
    fun i hi => getD_alloc_blocks_valid_image size_kib inode_count img drs drb _ i hvi hi
  have hd : ∀ i, i < (file.length + BS - 1) / BS →
      drs + 1 ≤ (alloc_blocks img 8192 drs drb ((file.length + BS - 1) / BS) ++
        List.replicate (DIRECT_MAX -
          (alloc_blocks img 8192 drs drb ((file.length + BS - 1) / BS)).length) 0).getD i 0 ∧
      (alloc_blocks img 8192 drs drb ((file.length + BS - 1) / BS) ++
        List.replicate (DIRECT_MAX -
          (alloc_blocks img 8192 drs drb ((file.length + BS - 1) / BS)).length) 0).getD i 0
        < drs + drb := by
    intro i hi
    rw [getD_append_replicate_zero]
    have := hal i (by omega)
    exact ⟨this.1, this.2.1⟩
  have hslots : ∀ i, i < 64 →
      le_read (adder_store (read_superblock img 0) img file now ((file.length + BS - 1) / BS)
        (find_first_free_bit img 4096 BS inode_count)
        (alloc_blocks img 8192 drs drb ((file.length + BS - 1) / BS) ++
          List.replicate (DIRECT_MAX -
            (alloc_blocks img 8192 drs drb ((file.length + BS - 1) / BS)).length) 0))
        (drs * 4096 + i * 64) 4 = le_read img (drs * 4096 + i * 64) 4 :=
    fun i hi => le_read_store_dir_slot size_kib inode_count img file now _ _ _ drs drb hvi hdrs
      hdrb hino2 hinon hd i hi
  have hstorelen : (adder_store (read_superblock img 0) img file now
      ((file.length + BS - 1) / BS) (find_first_free_bit img 4096 BS inode_count)
      (alloc_blocks img 8192 drs drb ((file.length + BS - 1) / BS) ++
        List.replicate (DIRECT_MAX -
          (alloc_blocks img 8192 drs drb ((file.length + BS - 1) / BS)).length) 0)).length
      = img.length := length_adder_store _ _ _ _ _ _ _
  refine ⟨find_first_free_bit img 4096 BS inode_count, e,
    alloc_blocks img 8192 drs drb ((file.length + BS - 1) / BS), ?_⟩
  refine
    { ino_eq := rfl
      ino_ge := hino2
      ino_le := hinon
      ino_free := hfree2.1
      ino_min := hfree2.2
      dbs_eq := rfl
      dbs_len := hdl
      dbs_le := by omega
      dbs_range := fun i hi => ⟨(hal i hi).1, (hal i hi).2.1⟩
      dbs_free := fun i hi => (hal i hi).2.2
      dbs_lt := fun i j hij hj => alloc_blocks_lt _ _ _ _ _ i j hij hj
      e_lt := he
      e_free := ?_
      e_min := ?_
      name_le := by omega
      length_eq := ?_
      frame := ?_
      inode_bits := ?_
      data_bits := ?_
      inode_slot := ?_
      blocks := ?_
      dir_slot := ?_
      root_bytes := ?_
      checksum := ?_ }
  · have := (find?_range_lt _ _ _ hfind).2
    rw [hslots e he] at this
    simpa using this
  · intro i hi
    have := find?_range_min _ _ _ hfind i hi
    rw [hslots i (by omega)] at this
    simpa using this
  · rw [hout, length_adder_link, hstorelen]
  · intro j hsb hbm hroot hslot hblk hde
    rw [hout, getD_adder_link_of_out _ _ _ _ _ _ _ _ hit (by rw [hstorelen]; omega)
      (by omega) hsb hroot hde]
    apply getD_adder_store_layout _ _ _ _ _ _ _ _ hib hdb hit (by omega) (by omega) _
      (by rw [hdr]; omega) hbm hslot
    · intro i hi
      rw [getD_append_replicate_zero]
      exact hblk i (by omega)
    · intro i hi
      have := hd i hi
      rw [hdr]; omega
  · intro pos hpos
    rw [hout]
    exact bitmap_bit_final_inode size_kib inode_count img file _ now _ _ e drs drb _ hvi hdrs
      hdrb hino2 hinon (by omega) hd pos hpos
  · intro pos hpos
    rw [hout, bitmap_bit_final_data size_kib inode_count img file _ now _ _ e drs drb _ hvi
      hdrs hdrb hino2 hinon (by omega) hd pos hpos, hdl]
    constructor
    · rintro (h | ⟨i, hi, hp⟩)
      · exact Or.inl h
      · rw [getD_append_replicate_zero] at hp
        exact Or.inr ⟨i, hi, hp⟩
    · rintro (h | ⟨i, hi, hp⟩)
      · exact Or.inl h
      · refine Or.inr ⟨i, hi, ?_⟩
        rw [getD_append_replicate_zero]
        exact hp
  · intro k hk
    rw [hout, getD_final_inode_slot size_kib inode_count img file _ now _ _ e drs _ hvi hdrs
      hino2 hinon (by omega) k hk, hdl]
  · intro i t hi ht
    have := getD_final_block size_kib inode_count img file (basename file_name) now
      ((file.length + BS - 1) / BS) (find_first_free_bit img 4096 BS inode_count) e drs drb
      (alloc_blocks img 8192 drs drb ((file.length + BS - 1) / BS) ++
        List.replicate (DIRECT_MAX -
          (alloc_blocks img 8192 drs drb ((file.length + BS - 1) / BS)).length) 0)
      hvi hdrs hdrb hino2 hinon he (by omega) hd i t (by omega) ht (by
        intro i' hii' hi'
        rw [getD_append_replicate_zero, getD_append_replicate_zero]
        have := alloc_blocks_lt img 8192 drs drb ((file.length + BS - 1) / BS) i i' hii'
          (by omega)
        omega)
    rw [getD_append_replicate_zero] at this
    rw [hout, this, hdl]
  · intro k hk
    rw [hout]
    exact getD_final_dir_slot size_kib inode_count img file _ now _ _ e drs _ hvi hdrs he
      (by omega) k hk
  · intro k hk
    rw [hout]
    unfold adder_link
    dsimp only
    rw [hit, show 3 * BS % 18446744073709551616 = 12288 by decide]
    rw [getD_superblock_crc_finalize_of_ge _ _ (by
        rw [length_update_root_inode, length_memcpy, length_adder_store]; omega) (by omega)]
    apply update_root_inode_congr _ _ _ _ (by rw [length_memcpy, length_adder_store]; omega)
      (by omega) _ k hk
    intro t ht
    rw [getD_memcpy, if_neg (by omega)]
    exact getD_adder_store_valid_image size_kib inode_count img file now _ _ _ drs drb hvi hdrs
      hdrb hino2 hinon hd _ (by omega)
  · rw [hout]
    unfold adder_link
    dsimp only
    exact superblock_checksum_ok_finalize _ (by
      rw [length_update_root_inode, length_memcpy, length_adder_store]; omega)

/-- Fields of the superblock other than the checksum are read from the first 112
bytes. -/
theorem read_superblock_congr (a b : List Nat) (h : ∀ j, j < 112 → a.getD j 0 = b.getD j 0) :
    { read_superblock a 0 with mtime_epoch := 0, checksum := 0 }
      = { read_superblock b 0 with mtime_epoch := 0, checksum := 0 } := by
  have hf : ∀ p w, p + w ≤ 112 → le_read a p w = le_read b p w := fun p w hpw =>
    le_read_congr _ _ _ _ _ (fun k hk => h _ (by omega))
  simp only [read_superblock, Nat.zero_add]
  rw [hf 0 4 (by decide), hf 4 4 (by decide), hf 8 4 (by decide), hf 12 8 (by decide),
    hf 20 8 (by decide), hf 28 8 (by decide), hf 36 8 (by decide), hf 44 8 (by decide),
    hf 52 8 (by decide), hf 60 8 (by decide), hf 68 8 (by decide), hf 76 8 (by decide),
    hf 84 8 (by decide), hf 92 8 (by decide), hf 108 4 (by decide)]

/-- The bytes of the superblock before its checksum are kept by a run of the
adder. -/
theorem insert_effect_superblock (inode_count : Nat) (img file name out : List Nat)
    (now drs drb ino e : Nat) (dbs : List Nat)
    (hdrs : drs = 3 + (inode_count * 128 + 4096 - 1) / 4096)
    (E : insert_effect inode_count img file name out now drs drb ino e dbs)
    (j : Nat) (hj : j < 112 ∨ (116 ≤ j ∧ j < 4096)) : out.getD j 0 = img.getD j 0 := by
  have h2 := E.ino_ge
  apply E.frame j (by omega) (by omega) (by omega) (by omega)
  · intro i hi
    have := E.dbs_range i hi
    omega
  · omega

/-- A slot of the inode table other than the root slot and the slot of the new
inode is kept by a run of the adder. -/
theorem insert_effect_slot (inode_count : Nat) (img file name out : List Nat)
    (now drs drb ino e : Nat) (dbs : List Nat)
    (E : insert_effect inode_count img file name out now drs drb ino e dbs)
    (t : Nat) (ht1 : 1 ≤ t) (htn : t ≠ ino - 1) (htab : 12288 + t * 128 + 128 ≤ drs * 4096)
    (k : Nat) (hk : k < 128) :
    out.getD (12288 + t * 128 + k) 0 = img.getD (12288 + t * 128 + k) 0 := by
  apply E.frame _ (by omega) (by omega) (by omega) (by omega)
  · intro i hi
    have := E.dbs_range i hi
    omega
  · omega

/-- A slot of the root directory block other than the slot of the new entry is
kept by a run of the adder. -/
theorem insert_effect_dir (size_kib inode_count : Nat) (img file name out : List Nat)
    (now drs drb ino e : Nat) (dbs : List Nat)
    (hv : valid_params size_kib inode_count)
    (hdrs : drs = 3 + (inode_count * 128 + 4096 - 1) / 4096)
    (E : insert_effect inode_count img file name out now drs drb ino e dbs)
    (i : Nat) (hi : i < 64) (hie : i ≠ e) (k : Nat) (hk : k < 64) :
    out.getD (drs * 4096 + i * 64 + k) 0 = img.getD (drs * 4096 + i * 64 + k) 0 := by
  obtain ⟨h1, h2, h3, h4, h5⟩ := hv
  have hino := E.ino_le
  have hino2 := E.ino_ge
  apply E.frame _ (by omega) (by omega) (by omega) (by omega)
  · intro i' hi'
    have := E.dbs_range i' hi'
    omega
  · omega

/-- The inode number of the entry written into the directory slot. -/
theorem insert_effect_dir_slot (size_kib inode_count : Nat) (img file name out : List Nat)
    (now drs drb ino e : Nat) (dbs : List Nat)
    (hv : valid_params size_kib inode_count)
    (E : insert_effect inode_count img file name out now drs drb ino e dbs) :
    read_dirent out (drs * 4096 + e * 64)
      = { inode_no := ino, type := 1, name := name_field name,
          checksum := xor_bytes (mem_read out (drs * 4096 + e * 64) 63) } := by
  have hino := E.ino_le
  have hnm := E.name_le
  obtain ⟨h1, h2, h3, h4, h5⟩ := hv
  have hslot : ∀ k, k < 64 → out.getD (drs * 4096 + e * 64 + k) 0
      = (dirent_checksum_finalize (adder_new_entry ino name).bytes 0).getD (0 + k) 0 := by
    intro k hk
    rw [Nat.zero_add]
    exact E.dir_slot k hk
  rw [read_dirent_congr _ _ _ 0 hslot,
    read_dirent_finalized (adder_new_entry ino name) (show ino < 4294967296 by omega)
      (length_name_field _ (by omega)),
    mem_read_congr out _ (drs * 4096 + e * 64) 0 63 (fun k hk => hslot k (by omega))]
  rfl

/-- The new inode after a run of the adder: its size and its direct pointers. -/
theorem insert_effect_new_inode (size_kib inode_count : Nat) (img file name out : List Nat)
    (now drs drb ino e : Nat) (dbs : List Nat)
    (hv : valid_params size_kib inode_count)
    (hdrs : drs = 3 + (inode_count * 128 + 4096 - 1) / 4096)
    (hdrb : drb = size_kib * 1024 / 4096 - (1 + 1 + 1 + (inode_count * 128 + 4096 - 1) / 4096))
    (E : insert_effect inode_count img file name out now drs drb ino e dbs) :
    le_read out (12288 + (ino - 1) * 128 + 12) 8 = file.length ∧
    ∀ j, j < 12 → le_read out (12288 + (ino - 1) * 128 + 44 + 4 * j) 4
      = if j < dbs.length then dbs.getD j 0 else 0 := by
  obtain ⟨h1, h2, h3, h4, h5⟩ := hv
  have hfl : file.length < 18446744073709551616 := by
    have := E.dbs_len
    have := E.dbs_le
    simp only [BS] at *
    omega
  have hrd : ∀ p w, p + w ≤ 120 → le_read out (12288 + (ino - 1) * 128 + p) w
      = le_read (adder_new_inode file.length now dbs.length
          (dbs ++ List.replicate (DIRECT_MAX - dbs.length) 0)).bytes p w := by
    intro p w hpw
    rw [← le_read_inode_crc_finalize _ p w hpw]
    apply le_read_congr
    intro k hk
    rw [Nat.add_assoc]
    exact E.inode_slot (p + k) (by omega)
  refine ⟨?_, ?_⟩
  · rw [hrd 12 8 (by decide), le_read_inode_bytes_size]
    exact Nat.mod_eq_of_lt hfl
  · intro j hj
    rw [Nat.add_assoc (12288 + (ino - 1) * 128), hrd (44 + 4 * j) 4 (by omega),
      le_read_inode_bytes_direct _ j hj]
    simp only [adder_new_inode, DIRECT_MAX]
    rw [List.getD_eq_getElem _ _ (by simpa using hj)]
    simp only [List.getElem_map, List.getElem_range]
    by_cases hb : j < dbs.length
    · rw [if_pos hb, if_pos hb, getD_append_replicate_zero]
      have := E.dbs_range j hb
      exact Nat.mod_eq_of_lt (by omega)
    · rw [if_neg hb, if_neg hb]

/-- The root inode after a run of the adder. -/
theorem insert_effect_root (size_kib inode_count : Nat) (img file name out : List Nat)
    (now drs drb ino e : Nat) (dbs : List Nat)
    (hvi : valid_image size_kib inode_count img)
    (E : insert_effect inode_count img file name out now drs drb ino e dbs) :
    le_read out (12288 + 12) 8 = (le_read img (12288 + 12) 8 + 64) % 18446744073709551616 ∧
    le_read out (12288 + 2) 2 = (le_read img (12288 + 2) 2 + 1) % 65536 ∧
    le_read out (12288 + 28) 8 = now % 18446744073709551616 ∧
    le_read out (12288 + 120) 8 = crc32 (mem_read out 12288 120) 120 ∧
    ∀ k, k < 120 → (k < 2 ∨ 4 ≤ k) → (k < 12 ∨ 20 ≤ k) → (k < 28 ∨ 36 ≤ k) →
      out.getD (12288 + k) 0 = img.getD (12288 + k) 0 := by
  have hlen := hvi.2.1
  obtain ⟨h1, h2, h3, h4, h5⟩ := hvi.1
  have hu := le_read_update_root_inode img 12288 now (by omega)
  have hrd : ∀ p w, p + w ≤ 128 → le_read out (12288 + p) w
      = le_read (update_root_inode img 12288 now) (12288 + p) w := by
    intro p w hpw
    apply le_read_congr
    intro k hk
    rw [Nat.add_assoc]
    exact E.root_bytes (p + k) (by omega)
  refine ⟨?_, ?_, ?_, ?_, ?_⟩
  · rw [hrd 12 8 (by decide)]; exact hu.1
  · rw [hrd 2 2 (by decide)]; exact hu.2.1
  · rw [hrd 28 8 (by decide)]; exact hu.2.2.1
  · rw [hrd 120 8 (by decide), hu.2.2.2]
    exact crc32_congr _ _ _ (fun k hk => by
      rw [getD_mem_read _ _ _ _ hk, getD_mem_read _ _ _ _ hk]
      exact (E.root_bytes k (by omega)).symm)
  · intro k hk a b c
    rw [E.root_bytes k (by omega)]
    exact getD_update_root_inode_kept img 12288 now k hk a b c

/-- A successful run of the adder on a valid image writes a valid image. -/
theorem valid_image_insert (size_kib inode_count : Nat) (img file name out : List Nat)
    (now drs drb ino e : Nat) (dbs : List Nat)
    (hvi : valid_image size_kib inode_count img)
    (hdrs : drs = 3 + (inode_count * 128 + 4096 - 1) / 4096)
    (E : insert_effect inode_count img file name out now drs drb ino e dbs) :
    valid_image size_kib inode_count out := by
  obtain ⟨hv, hlen, hsb, hb1, hb2, hd0⟩ := hvi
  refine ⟨hv, by rw [E.length_eq, hlen], ?_, ?_, ?_, ?_⟩
  · rw [read_superblock_congr out img (fun j hj =>
      insert_effect_superblock inode_count img file name out now drs drb ino e dbs
        hdrs E j (Or.inl hj))]
    exact hsb
  · rw [show 1 * BS = 4096 by decide] at hb1 ⊢
    rw [E.inode_bits 0 (by decide), hb1]
    rfl
  · rw [show 2 * BS = 8192 by decide] at hb2 ⊢
    exact (E.data_bits 0 (by decide)).mpr (Or.inl hb2)
  · rw [← hd0]
    apply le_read_congr
    intro k hk
    rw [show 3 * BS + 44 + k = 12288 + (44 + k) by simp only [BS]; omega]
    exact (insert_effect_root size_kib inode_count img file name out now drs drb ino e dbs
      ⟨hv, hlen, hsb, hb1, hb2, hd0⟩ E).2.2.2.2 (44 + k) (by omega) (by omega) (by omega)
      (by omega)

/-- The inode table of a fresh image after the root record: zeroes. -/
theorem getD_builder_write_table_zero (size_kib inode_count now : Nat) (adj : List Nat)
    (hv : valid_params size_kib inode_count) (j : Nat) (h1 : 12288 + 128 ≤ j)
    (h2 : j < (3 + (inode_count * 128 + 4096 - 1) / 4096) * 4096) :
    (builder_write size_kib inode_count now adj).getD j 0 = 0 := by
  obtain ⟨_, _, _, h4, h5⟩ := hv
  rw [getD_builder_write, if_neg (by omega), if_neg (by omega), if_neg (by omega),
    if_pos (by omega), if_neg (by omega)]

theorem le_read_zero (mem : List Nat) : ∀ (w off : Nat),
    (∀ k, k < w → mem.getD (off + k) 0 = 0) → le_read mem off w = 0 := by
  intro w
  induction w with
  | zero => intro off _; rfl
  | succ w ih =>
    intro off h
    have h0 := h 0 (Nat.succ_pos w)
    rw [Nat.add_zero] at h0
    simp only [le_read, h0]
    rw [ih (off + 1) (fun k hk => by
      have := h (1 + k) (by omega)
      rw [← Nat.add_assoc] at this
      exact this)]

/-- The fields of the root inode of a fresh image. -/
theorem le_read_builder_write_root (size_kib inode_count now : Nat) (adj : List Nat)
    (hv : valid_params size_kib inode_count) :
    le_read (builder_write size_kib inode_count now adj) (12288 + 12) 8 = 128 ∧
    le_read (builder_write size_kib inode_count now adj) (12288 + 2) 2 = 2 ∧
    ∀ j, 1 ≤ j → j < 12 →
      le_read (builder_write size_kib inode_count now adj) (12288 + 0 * 128 + 44 + 4 * j) 4
        = 0 := by
  have hrd : ∀ p w, p + w ≤ 120 →
      le_read (builder_write size_kib inode_count now adj) (12288 + p) w
        = le_read (builder_root_inode (builder_superblock size_kib inode_count now)).bytes
            p w := by
    intro p w hpw
    apply le_read_congr
    intro k hk
    rw [Nat.add_assoc]
    exact getD_builder_write_root_inode _ _ _ _ hv (p + k) (by omega)
  refine ⟨?_, ?_, ?_⟩
  · rw [hrd 12 8 (by decide), le_read_inode_bytes_size]
    rfl
  · rw [hrd 2 2 (by decide)]
    simp [inode_t.bytes, le_read_append_left, le_read_append_right, le_read_le_bytes,
      length_le_bytes, builder_root_inode]
  · intro j hj1 hj
    rw [show 12288 + 0 * 128 + 44 + 4 * j = 12288 + (44 + 4 * j) by omega,
      hrd (44 + 4 * j) 4 (by omega), le_read_inode_bytes_direct _ j hj]
    simp only [builder_root_inode, DIRECT_MAX]
    obtain ⟨j', rfl⟩ : ∃ j', j = j' + 1 := ⟨j - 1, by omega⟩
    rw [List.getD_cons_succ, getD_replicate_zero]

/-- A fresh image satisfies the invariant for `k = 0`. -/
theorem image_inv_builder_write (size_kib inode_count now : Nat) (adj : List Nat)
    (hv : valid_params size_kib inode_count) :
    image_inv size_kib inode_count 0 (builder_write size_kib inode_count now adj)
      (3 + (inode_count * 128 + 4096 - 1) / 4096)
      (size_kib * 1024 / 4096 - (1 + 1 + 1 + (inode_count * 128 + 4096 - 1) / 4096)) := by
  have hvi := valid_image_builder_write size_kib inode_count now adj hv
  have hroot := le_read_builder_write_root size_kib inode_count now adj hv
  have hd0 := le_read_builder_write_direct0 size_kib inode_count now adj hv
  obtain ⟨h1, h2, h3, h4, h5⟩ := hv
  have hv : valid_params size_kib inode_count := ⟨h1, h2, h3, h4, h5⟩
  have hzero : ∀ t, 1 ≤ t →
      12288 + t * 128 + 128 ≤ (3 + (inode_count * 128 + 4096 - 1) / 4096) * 4096 → ∀ p w,
      p + w ≤ 128 →
      le_read (builder_write size_kib inode_count now adj) (12288 + t * 128 + p) w = 0 := by
    intro t ht1 htab p w hpw
    apply le_read_zero
    intro k hk
    exact getD_builder_write_table_zero _ _ _ _ hv _ (by omega) (by omega)
  have hD : ∀ t j, 12288 + t * 128 + 128 ≤ (3 + (inode_count * 128 + 4096 - 1) / 4096) * 4096 →
      j < 12 →
      le_read (builder_write size_kib inode_count now adj) (12288 + t * 128 + 44 + 4 * j) 4 ≠ 0 →
      t = 0 ∧ j = 0 := by
    intro t j htab hj hne
    by_cases ht : t = 0
    · subst ht
      by_cases hj0 : j = 0
      · exact ⟨rfl, hj0⟩
      · exact absurd (hroot.2.2 j (by omega) hj) hne
    · have := hzero t (by omega) htab (44 + 4 * j) 4 (by omega)
      rw [← Nat.add_assoc] at this
      exact absurd this hne
  refine
    { valid := hvi
      count_le := by omega
      inode_bits := ?_
      dir_slots := ?_
      root_size := hroot.1
      root_links := hroot.2.1
      root_direct := hroot.2.2
      slots := ?_
      owned := ?_
      unique := ?_ }
  · intro p hp
    rw [bitmap_bit_builder_write_inode _ _ _ _ _ hp]
    by_cases h0 : p = 0
    · subst h0; rfl
    · simp [h0]
  · intro i hi
    rw [le_read_builder_write_dir_slot _ _ _ _ hv i hi]
    by_cases h : i < 2
    · rw [if_pos h]
      exact ⟨fun x => absurd x (by decide), fun x => by omega⟩
    · rw [if_neg h]
      exact ⟨fun _ => by omega, fun _ => rfl⟩
  · intro t ht1 htab j hj
    have hs := hzero t ht1 htab 12 8 (by decide)
    have hd := hzero t ht1 htab (44 + 4 * j) 4 (by omega)
    rw [← Nat.add_assoc] at hd
    rw [hs, hd]
    exact ⟨fun x => by omega, fun _ => rfl⟩
  · intro t j htab hj hne
    obtain ⟨rfl, rfl⟩ := hD t j htab hj hne
    rw [show 12288 + 0 * 128 + 44 + 4 * 0 = 12288 + 44 by decide, hd0, Nat.sub_self]
    refine ⟨Nat.le_refl _, by omega, ?_⟩
    rw [bitmap_bit_builder_write_data _ _ _ _ _ (by decide)]
    rfl
  · intro t j t' j' htab hj htab' hj' hne heq
    obtain ⟨rfl, rfl⟩ := hD t j htab hj hne
    rw [heq] at hne
    obtain ⟨rfl, rfl⟩ := hD t' j' htab' hj' hne
    exact ⟨rfl, rfl⟩

/-- On an image that satisfies the invariant for `k`, a run of the adder takes
inode number `k + 2` and root directory slot `k + 2`. -/
theorem image_inv_choice (size_kib inode_count k : Nat) (img file name out : List Nat)
    (now drs drb ino e : Nat) (dbs : List Nat)
    (I : image_inv size_kib inode_count k img drs drb)
    (E : insert_effect inode_count img file name out now drs drb ino e dbs) :
    ino = k + 2 ∧ e = k + 2 := by
  have hk := I.count_le
  obtain ⟨h1, h2, h3, h4, h5⟩ := I.valid.1
  have hino2 := E.ino_ge
  have hinon := E.ino_le
  constructor
  · have hf := E.ino_free
    rw [I.inode_bits _ (by omega)] at hf
    have hgt : ¬ (ino - 1 ≤ k) := by simpa using hf
    by_contra hne
    have hm := E.ino_min (k + 1) (by omega)
    rw [I.inode_bits _ (by omega)] at hm
    have : k + 1 ≤ k := of_decide_eq_true hm
    omega
  · have he := E.e_lt
    have h0 := (I.dir_slots e he).mp E.e_free
    by_contra hne
    have hm := E.e_min (k + 2) (by omega)
    exact hm ((I.dir_slots (k + 2) (by omega)).mpr (by omega))

/-- The invariant is kept by a successful run of the adder. -/
theorem image_inv_insert (size_kib inode_count k : Nat) (img file name out : List Nat)
    (now drs drb ino e : Nat) (dbs : List Nat)
    (hdrs : drs = 3 + (inode_count * 128 + 4096 - 1) / 4096)
    (hdrb : drb = size_kib * 1024 / 4096 - (1 + 1 + 1 + (inode_count * 128 + 4096 - 1) / 4096))
    (I : image_inv size_kib inode_count k img drs drb)
    (E : insert_effect inode_count img file name out now drs drb ino e dbs) :
    image_inv size_kib inode_count (k + 1) out drs drb := by
  obtain ⟨hino, he⟩ := image_inv_choice size_kib inode_count k img file name out now drs drb
    ino e dbs I E
  have hvi := I.valid
  have hv := hvi.1
  obtain ⟨h1, h2, h3, h4, h5⟩ := hv
  have hv : valid_params size_kib inode_count := ⟨h1, h2, h3, h4, h5⟩
  have hk := I.count_le
  have helt := E.e_lt
  have hroot := insert_effect_root size_kib inode_count img file name out now drs drb ino e dbs
    hvi E
  have hnew := insert_effect_new_inode size_kib inode_count img file name out now drs drb ino e
    dbs hv hdrs hdrb E
  have hdl := E.dbs_le
  -- direct pointers and sizes of the slots that are kept
  have hkeepD : ∀ t j, t ≠ ino - 1 → 12288 + t * 128 + 128 ≤ drs * 4096 → j < 12 →
      le_read out (12288 + t * 128 + 44 + 4 * j) 4
        = le_read img (12288 + t * 128 + 44 + 4 * j) 4 := by
    intro t j htn htab hj
    apply le_read_congr
    intro i hi
    by_cases ht0 : t = 0
    · subst ht0
      rw [show 12288 + 0 * 128 + 44 + 4 * j + i = 12288 + (44 + 4 * j + i) by omega]
      exact hroot.2.2.2.2 _ (by omega) (by omega) (by omega) (by omega)
    · rw [show 12288 + t * 128 + 44 + 4 * j + i = 12288 + t * 128 + (44 + 4 * j + i) by omega]
      exact insert_effect_slot inode_count img file name out now drs drb ino e dbs E t
        (by omega) htn htab _ (by omega)
  have hkeepS : ∀ t, 1 ≤ t → t ≠ ino - 1 → 12288 + t * 128 + 128 ≤ drs * 4096 →
      le_read out (12288 + t * 128 + 12) 8 = le_read img (12288 + t * 128 + 12) 8 := by
    intro t ht1 htn htab
    apply le_read_congr
    intro i hi
    rw [show 12288 + t * 128 + 12 + i = 12288 + t * 128 + (12 + i) by omega]
    exact insert_effect_slot inode_count img file name out now drs drb ino e dbs E t
      ht1 htn htab _ (by omega)
  have hbits : ∀ pos, pos < 32768 → bitmap_bit img 8192 pos = true →
      bitmap_bit out 8192 pos = true :=
    fun pos hpos hb => (E.data_bits pos hpos).mpr (Or.inl hb)
  -- the pointers of the new inode
  have hnewD : ∀ j, j < 12 → le_read out (12288 + (ino - 1) * 128 + 44 + 4 * j) 4 ≠ 0 →
      j < dbs.length ∧ le_read out (12288 + (ino - 1) * 128 + 44 + 4 * j) 4 = dbs.getD j 0 := by
    intro j hj hne
    rw [hnew.2 j hj] at hne ⊢
    by_cases hb : j < dbs.length
    · rw [if_pos hb]; exact ⟨hb, rfl⟩
    · rw [if_neg hb] at hne; exact absurd rfl hne
  refine
    { valid := valid_image_insert size_kib inode_count img file name out now drs drb ino e dbs
        hvi hdrs E
      count_le := by omega
      inode_bits := ?_
      dir_slots := ?_
      root_size := ?_
      root_links := ?_
      root_direct := ?_
      slots := ?_
      owned := ?_
      unique := ?_ }
  · intro p hp
    rw [E.inode_bits p hp, I.inode_bits p hp, hino]
    by_cases c1 : p ≤ k
    · simp [c1, Nat.le_succ_of_le c1]
    · by_cases c2 : p = k + 1
      · simp [c2]
      · have c3 : ¬ p ≤ k + 1 := by omega
        have c4 : ¬ p = k + 2 - 1 := by omega
        simp [c1, c2, c3, c4]
  · intro i hi
    by_cases hie : i = e
    · subst hie
      have hd := insert_effect_dir_slot size_kib inode_count img file name out now drs drb ino
        i dbs hv E
      have hin : le_read out (drs * 4096 + i * 64) 4 = ino := congrArg dirent64_t.inode_no hd
      rw [hin]
      exact ⟨fun x => by omega, fun x => by omega⟩
    · have : le_read out (drs * 4096 + i * 64) 4 = le_read img (drs * 4096 + i * 64) 4 :=
        le_read_congr _ _ _ _ _ (fun t ht =>
          insert_effect_dir size_kib inode_count img file name out now drs drb ino e dbs hv
            hdrs E i hi hie t (by omega))
      rw [this, I.dir_slots i hi]
      exact ⟨fun x => by omega, fun x => by omega⟩
  · rw [hroot.1, I.root_size]
    omega
  · rw [hroot.2.1, I.root_links]
    omega
  · intro j hj1 hj
    rw [hkeepD 0 j (by omega) (by omega) hj]
    exact I.root_direct j hj1 hj
  · intro t ht1 htab j hj
    by_cases htn : t = ino - 1
    · subst htn
      rw [hnew.1, hnew.2 j hj]
      have hlen : (file.length + 4095) / 4096 = dbs.length := by
        have := E.dbs_len
        simp only [BS] at this
        omega
      rw [hlen]
      refine ⟨fun hb => ?_, fun hb => ?_⟩
      · rw [if_pos hb]
        have := E.dbs_range j hb
        omega
      · rw [if_neg (by omega)]
    · rw [hkeepS t ht1 htn htab, hkeepD t j htn htab hj]
      exact I.slots t ht1 htab j hj
  · intro t j htab hj hne
    by_cases htn : t = ino - 1
    · subst htn
      obtain ⟨hb, hval⟩ := hnewD j hj hne
      rw [hval]
      have hr := E.dbs_range j hb
      exact ⟨by omega, hr.2, (E.data_bits _ (by omega)).mpr (Or.inr ⟨j, hb, rfl⟩)⟩
    · rw [hkeepD t j htn htab hj] at hne ⊢
      obtain ⟨a, b, c⟩ := I.owned t j htab hj hne
      exact ⟨a, b, hbits _ (by omega) c⟩
  · intro t j t' j' htab hj htab' hj' hne heq
    by_cases htn : t = ino - 1
    · by_cases htn' : t' = ino - 1
      · subst htn
        subst htn'
        refine ⟨rfl, ?_⟩
        obtain ⟨hb, hval⟩ := hnewD j hj hne
        rw [heq] at hne
        obtain ⟨hb', hval'⟩ := hnewD j' hj' hne
        rw [hval, hval'] at heq
        by_contra hjj
        rcases Nat.lt_or_gt_of_ne hjj with hlt | hgt
        · have := E.dbs_lt j j' hlt hb'
          omega
        · have := E.dbs_lt j' j hgt hb
          omega
      · exfalso
        subst htn
        obtain ⟨hb, hval⟩ := hnewD j hj hne
        rw [heq] at hne
        rw [hval, hkeepD t' j' htn' htab' hj'] at heq
        rw [hkeepD t' j' htn' htab' hj'] at hne
        obtain ⟨a, b, c⟩ := I.owned t' j' htab' hj' hne
        have hf := E.dbs_free j hb
        rw [heq, c] at hf
        exact Bool.noConfusion hf
    · by_cases htn' : t' = ino - 1
      · exfalso
        subst htn'
        have hne' := hne
        rw [heq] at hne'
        obtain ⟨hb, hval⟩ := hnewD j' hj' hne'
        rw [hval, hkeepD t j htn htab hj] at heq
        rw [hkeepD t j htn htab hj] at hne
        obtain ⟨a, b, c⟩ := I.owned t j htab hj hne
        have hf := E.dbs_free j' hb
        rw [← heq, c] at hf
        exact Bool.noConfusion hf
      · rw [hkeepD t j htn htab hj] at hne heq
        rw [hkeepD t' j' htn' htab' hj'] at heq
        exact I.unique t j t' j' htab hj htab' hj' hne heq

/-- A value of `reachable` for `k = 0` is an image the builder wrote. -/
theorem reachable_zero (size_kib inode_count : Nat) (img : List Nat) :
    reachable size_kib inode_count 0 img ↔
      ∃ now adj, mkfs_builder.main size_kib inode_count now adj = .ok img := by
  rw [reachable]

theorem reachable_succ (size_kib inode_count k : Nat) (out : List Nat) :
    reachable size_kib inode_count (k + 1) out ↔
      ∃ img file file_name now, reachable size_kib inode_count k img ∧
        mkfs_adder.main img file file_name now = ⟨.Ok, out⟩ := by
  rw [reachable]

/-- The builder writes an image for valid parameters only. -/
theorem builder_main_ok_inv (size_kib inode_count now : Nat) (adj img : List Nat)
    (h : mkfs_builder.main size_kib inode_count now adj = .ok img) :
    valid_params size_kib inode_count ∧ img = builder_write size_kib inode_count now adj := by
  by_cases hv : valid_params size_kib inode_count
  · rw [builder_main_ok _ _ _ _ hv] at h
    exact ⟨hv, (Except.ok.inj h).symm⟩
  · exfalso
    unfold valid_params at hv
    unfold mkfs_builder.main at h
    by_cases h0 : size_kib = 0 ∨ inode_count = 0
    · rw [if_pos h0] at h
      exact Except.noConfusion h
    · rw [if_neg h0] at h
      by_cases h1 : size_kib < 180 ∨ size_kib > 4096 ∨ size_kib % 4 ≠ 0
      · rw [if_pos h1] at h
        exact Except.noConfusion h
      · rw [if_neg h1, if_pos (by omega)] at h
        exact Except.noConfusion h

/-- Every reachable image satisfies the invariant. -/
theorem reachable_inv (size_kib inode_count : Nat) : ∀ (k : Nat) (img : List Nat),
    reachable size_kib inode_count k img →
    image_inv size_kib inode_count k img (3 + (inode_count * 128 + 4096 - 1) / 4096)
      (size_kib * 1024 / 4096 - (1 + 1 + 1 + (inode_count * 128 + 4096 - 1) / 4096)) := by
  intro k
  induction k with
  | zero =>
    intro img h
    obtain ⟨now, adj, hb⟩ := (reachable_zero size_kib inode_count img).mp h
    have hbw := builder_main_ok_inv size_kib inode_count now adj img hb
    rw [hbw.2]
    exact image_inv_builder_write size_kib inode_count now adj hbw.1
  | succ k ih =>
    intro out h
    obtain ⟨img, file, file_name, now, hr, hok⟩ :=
      (reachable_succ size_kib inode_count k out).mp h
    have I := ih img hr
    obtain ⟨ino, e, dbs, E⟩ := insert_ok_effect size_kib inode_count img file file_name now out
      _ _ I.valid rfl rfl hok
    exact image_inv_insert size_kib inode_count k img file _ out now _ _ ino e dbs rfl rfl I E

/-- A run of the adder on a valid image that ends with `DirectoryFull` or
`NameTooLong`: an inode and the blocks were found, and the buffer is the one
`adder_store` left; with `DirectoryFull` no slot of the root directory is free. -/
theorem adder_main_late_inv (size_kib inode_count : Nat) (img file file_name : List Nat)
    (now drs drb bn ino : Nat) (dbs store : List Nat)
    (hvi : valid_image size_kib inode_count img)
    (hdrs : drs = 3 + (inode_count * 128 + 4096 - 1) / 4096)
    (hdrb : drb = size_kib * 1024 / 4096 - (1 + 1 + 1 + (inode_count * 128 + 4096 - 1) / 4096))
    (hbn : bn = (file.length + BS - 1) / BS)
    (hino : ino = find_first_free_bit img 4096 BS inode_count)
    (hdbs : dbs = alloc_blocks img 8192 drs drb bn)
    (hstore : store = adder_store (read_superblock img 0) img file now bn ino
      (dbs ++ List.replicate (DIRECT_MAX - dbs.length) 0))
    (hlate : (mkfs_adder.main img file file_name now).status = .DirectoryFull ∨
      (mkfs_adder.main img file file_name now).status = .NameTooLong) :
    bn ≤ 12 ∧ 2 ≤ ino ∧ ino ≤ inode_count ∧ dbs.length = bn ∧
    (mkfs_adder.main img file file_name now).fs_image = store ∧
    ((mkfs_adder.main img file file_name now).status = .DirectoryFull →
      ∀ i, i < 64 → le_read img (drs * 4096 + i * 64) 4 ≠ 0) := by
  rw [adder_main_valid_image size_kib inode_count img file file_name now drs drb bn ino dbs
    store hvi hdrs hdrb hbn hino hdbs hstore] at hlate ⊢
  by_cases h12 : bn > DIRECT_MAX
  · rw [if_pos h12] at hlate
    rcases hlate with h | h <;> exact Status.noConfusion h
  · rw [if_neg h12] at hlate ⊢
    by_cases h0 : ino = 0
    · rw [if_pos h0] at hlate
      rcases hlate with h | h <;> exact Status.noConfusion h
    · rw [if_neg h0] at hlate ⊢
      by_cases hl : dbs.length < bn
      · rw [if_pos hl] at hlate
        rcases hlate with h | h <;> exact Status.noConfusion h
      · rw [if_neg hl] at hlate ⊢
        have hino2 : 2 ≤ ino ∧ ino ≤ inode_count := by
          rcases find_first_free_bit_valid_image _ _ _ hvi with h | ⟨ha, hb, _⟩
          · exact absurd (hino.trans h) h0
          · rw [← hino] at ha hb; exact ⟨ha, hb⟩
        have hdl : dbs.length = bn := by
          have := length_alloc_blocks_le img 8192 drs drb bn
          rw [← hdbs] at this
          omega
        have hb12 : bn ≤ 12 := by simp only [DIRECT_MAX] at h12; omega
        have hd : ∀ i, i < bn →
            drs + 1 ≤ (dbs ++ List.replicate (DIRECT_MAX - dbs.length) 0).getD i 0 ∧
            (dbs ++ List.replicate (DIRECT_MAX - dbs.length) 0).getD i 0 < drs + drb := by
          intro i hi
          rw [getD_append_replicate_zero, hdbs]
          have := getD_alloc_blocks_valid_image size_kib inode_count img drs drb bn i hvi
            (by rw [← hdbs]; omega)
          exact ⟨this.1, this.2.1⟩
        cases hfind : (List.range 64).find?
            (fun i => decide (le_read store (drs * 4096 + i * 64) 4 = 0)) with
        | none =>
          refine ⟨hb12, hino2.1, hino2.2, hdl, rfl, fun _ i hi => ?_⟩
          rw [List.find?_eq_none] at hfind
          have := hfind i (List.mem_range.mpr hi)
          rw [hstore, le_read_store_dir_slot size_kib inode_count img file now bn ino _ drs drb
            hvi hdrs hdrb hino2.1 hino2.2 hd i hi] at this
          simpa using this
        | some e =>
          rw [hfind] at hlate
          dsimp only at hlate ⊢
          by_cases hname : (basename file_name).length ≥ 58
          · rw [if_pos hname]
            refine ⟨hb12, hino2.1, hino2.2, hdl, rfl, fun h => Status.noConfusion h⟩
          · rw [if_neg hname] at hlate
            rcases hlate with h | h <;> exact Status.noConfusion h

/-- A run of the adder on a valid image that ends with `DirectoryFull` or
`NameTooLong` has changed the buffer: the bit of the inode found, unset in the
image, is set in the buffer. -/
theorem adder_main_late_mutates (size_kib inode_count : Nat) (img file file_name : List Nat)
    (now : Nat) (hvi : valid_image size_kib inode_count img)
    (hlate : (mkfs_adder.main img file file_name now).status = .DirectoryFull ∨
      (mkfs_adder.main img file file_name now).status = .NameTooLong) :
    bitmap_bit img 4096 (find_first_free_bit img 4096 BS inode_count - 1) = false ∧
    bitmap_bit (mkfs_adder.main img file file_name now).fs_image 4096
      (find_first_free_bit img 4096 BS inode_count - 1) = true := by
  obtain ⟨hb12, hino2, hinon, hdl, himg, _⟩ :=
    adder_main_late_inv size_kib inode_count img file file_name now _ _ _ _ _ _ hvi rfl rfl
      rfl rfl rfl rfl hlate
  obtain ⟨_, _, hib, hdb, hit, hdr, _⟩ := superblock_fields_valid_image _ _ _ hvi
  have hlen := hvi.2.1
  obtain ⟨h1, h2, h3, h4, h5⟩ := hvi.1
  have hfree : bitmap_bit img 4096 (find_first_free_bit img 4096 BS inode_count - 1)
      = false := by
    rcases find_first_free_bit_valid_image _ _ _ hvi with h | ⟨_, _, hf⟩
    · omega
    · exact hf
  refine ⟨hfree, ?_⟩
  rw [himg, bitmap_bit_adder_store_inode _ _ _ _ _ _ _ _ hib hdb hit (by omega) (by omega)
    (by omega) _ (by rw [hdr]; omega) (by rw [hdr]; omega) (by omega)]
  · simp
  · intro i hi
    rw [getD_append_replicate_zero, hdr]
    have := getD_alloc_blocks_valid_image size_kib inode_count img
      (3 + (inode_count * 128 + 4096 - 1) / 4096)
      (size_kib * 1024 / 4096 - (1 + 1 + 1 + (inode_count * 128 + 4096 - 1) / 4096))
      ((file.length + BS - 1) / BS) i hvi (by omega)
    omega

/-- The outcome of the adder on a valid image that has a free inode and enough
free blocks for a file of at most 12 blocks, but no free slot in the root
directory. -/
theorem adder_main_directory_full (size_kib inode_count : Nat)
    (img file file_name : List Nat) (now drs drb bn : Nat)
    (hvi : valid_image size_kib inode_count img)
    (hdrs : drs = 3 + (inode_count * 128 + 4096 - 1) / 4096)
    (hdrb : drb = size_kib * 1024 / 4096 - (1 + 1 + 1 + (inode_count * 128 + 4096 - 1) / 4096))
    (hbn : bn = (file.length + BS - 1) / BS) (hbn12 : bn ≤ 12)
    (hinode : ∃ p, p < inode_count ∧ bitmap_bit img 4096 p = false)
    (hblocks : bn ≤ (free_units img 8192 drb).length)
    (hfull : ∀ i, i < 64 → le_read img (drs * 4096 + i * 64) 4 ≠ 0) :
    (mkfs_adder.main img file file_name now).status = .DirectoryFull := by
  have hnf := adder_main_valid_image size_kib inode_count img file file_name now drs drb bn
    _ _ _ hvi hdrs hdrb hbn rfl rfl rfl
  have hino0 : find_first_free_bit img 4096 BS inode_count ≠ 0 := by
    intro h0
    obtain ⟨p, hp, hfree⟩ := hinode
    obtain ⟨_, _, _, _, h5⟩ := hvi.1
    have hs := find_first_free_bit_outer_spec img 4096 BS inode_count (by omega) (by decide)
      BS 0 rfl (by omega) (fun q hq _ => absurd hq (by omega))
    have := hs.1 h0 p hp (by simp only [BS]; omega)
    rw [hfree] at this
    exact Bool.noConfusion this
  have hino2 : 2 ≤ find_first_free_bit img 4096 BS inode_count ∧
      find_first_free_bit img 4096 BS inode_count ≤ inode_count := by
    rcases find_first_free_bit_valid_image _ _ _ hvi with h | ⟨ha, hb, _⟩
    · exact absurd h hino0
    · exact ⟨ha, hb⟩
  have hdl : (alloc_blocks img 8192 drs drb bn).length = bn := by
    rw [length_alloc_blocks]; omega
  have hd : ∀ i, i < bn → drs + 1 ≤ (alloc_blocks img 8192 drs drb bn ++ List.replicate
      (DIRECT_MAX - (alloc_blocks img 8192 drs drb bn).length) 0).getD i 0 ∧
      (alloc_blocks img 8192 drs drb bn ++ List.replicate
        (DIRECT_MAX - (alloc_blocks img 8192 drs drb bn).length) 0).getD i 0 < drs + drb := by
    intro i hi
    rw [getD_append_replicate_zero]
    have := getD_alloc_blocks_valid_image _ _ _ drs drb bn i hvi (by rw [hdl]; exact hi)
    exact ⟨this.1, this.2.1⟩
  have hnone : (List.range 64).find?
      (fun i => decide (le_read (adder_store (read_superblock img 0) img file now bn
        (find_first_free_bit img 4096 BS inode_count)
        (alloc_blocks img 8192 drs drb bn ++ List.replicate
          (DIRECT_MAX - (alloc_blocks img 8192 drs drb bn).length) 0))
        (drs * 4096 + i * 64) 4 = 0)) = none := by
    rw [List.find?_eq_none]
    intro i hi
    have hi64 := List.mem_range.mp hi
    rw [le_read_store_dir_slot _ _ _ _ _ _ _ _ _ _ hvi hdrs hdrb hino2.1 hino2.2 hd i hi64]
    simpa using hfull i hi64
  rw [if_neg (by simp only [DIRECT_MAX]; omega), if_neg hino0, if_neg (by omega), hnone] at hnf
  rw [hnf]

/-- On an image reachable in `k` insertions, adding an empty file under a name of
at most 57 characters succeeds when `k < 62` and ends with `DirectoryFull` when
`k = 62`. -/
theorem insert_empty_reachable (size_kib inode_count k : Nat) (img file_name : List Nat)
    (now : Nat) (hr : reachable size_kib inode_count k img)
    (hname : (basename file_name).length ≤ 57) :
    (k < 62 → (mkfs_adder.main img [] file_name now).status = .Ok) ∧
    (k = 62 → (mkfs_adder.main img [] file_name now).status = .DirectoryFull) := by
  have I := reachable_inv size_kib inode_count k img hr
  have hk := I.count_le
  obtain ⟨h1, h2, h3, h4, h5⟩ := I.valid.1
  have hinode : ∃ p, p < inode_count ∧ bitmap_bit img 4096 p = false :=
    ⟨k + 1, by omega, by rw [I.inode_bits _ (by omega)]; simp⟩
  have hb0 : (([] : List Nat).length + BS - 1) / BS = 0 := by decide
  refine ⟨fun hlt => ?_, fun h62 => ?_⟩
  · exact (adder_main_with_resources size_kib inode_count img [] file_name now _ _ 0 I.valid
      rfl rfl hb0.symm (by omega) hinode (Nat.zero_le _)
      ⟨k + 2, by omega, (I.dir_slots (k + 2) (by omega)).mpr (by omega)⟩).1 (by omega)
  · exact adder_main_directory_full size_kib inode_count img [] file_name now _ _ 0 I.valid
      rfl rfl hb0.symm (by omega) hinode (Nat.zero_le _)
      (fun i hi h0 => by
        have := (I.dir_slots i hi).mp h0
        omega)

/-- Repeated insertion of an empty file into a fresh image: the first 62 runs
succeed, each on a reachable image. -/
theorem insert_times_empty (size_kib inode_count now0 : Nat) (adj file_name : List Nat)
    (now : Nat) (hv : valid_params size_kib inode_count)
    (hname : (basename file_name).length ≤ 57) :
    ∀ k, k ≤ 62 →
      (insert_times (builder_write size_kib inode_count now0 adj) [] file_name now k).status
        = .Ok ∧
      reachable size_kib inode_count k
        (insert_times (builder_write size_kib inode_count now0 adj) [] file_name now
          k).fs_image := by
  intro k
  induction k with
  | zero =>
    intro _
    exact ⟨rfl, (reachable_zero _ _ _).mpr ⟨now0, adj, builder_main_ok _ _ _ _ hv⟩⟩
  | succ k ih =>
    intro hk
    obtain ⟨hs, hr⟩ := ih (by omega)
    have hok := (insert_empty_reachable size_kib inode_count k _ file_name now hr hname).1
      (by omega)
    have hstep : insert_times (builder_write size_kib inode_count now0 adj) [] file_name now
        (k + 1) = mkfs_adder.main (insert_times (builder_write size_kib inode_count now0 adj)
          [] file_name now k).fs_image [] file_name now := by
      rw [insert_times, if_pos hs]
    rw [hstep]
    refine ⟨hok, (reachable_succ _ _ _ _).mpr ⟨_, [], file_name, now, hr, ?_⟩⟩
    cases hm : mkfs_adder.main (insert_times (builder_write size_kib inode_count now0 adj)
        [] file_name now k).fs_image [] file_name now with
    | mk st buf =>
      rw [hm] at hok
      dsimp only at hok
      rw [hok]

/-- The adder on an arbitrary image: a run that ends with `InvalidImage`,
`FileTooLarge`, `OutOfSpace` or `NoFreeInodes` ends with the buffer it read. -/
theorem adder_main_early (img file file_name : List Nat) (now : Nat)
    (h : (mkfs_adder.main img file file_name now).status = .InvalidImage ∨
      (mkfs_adder.main img file file_name now).status = .FileTooLarge ∨
      (mkfs_adder.main img file file_name now).status = .OutOfSpace ∨
      (mkfs_adder.main img file file_name now).status = .NoFreeInodes) :
    (mkfs_adder.main img file file_name now).fs_image = img := by
  unfold mkfs_adder.main at h ⊢
  dsimp only at h ⊢
  by_cases c1 : (file.length + BS - 1) / BS > DIRECT_MAX
  · rw [if_pos c1]
  · rw [if_neg c1] at h ⊢
    by_cases c2 : img.length < 116
    · rw [if_pos c2]
    · rw [if_neg c2] at h ⊢
      by_cases c3 : (read_superblock img 0).magic ≠ 0x4D565346
      · rw [if_pos c3]
      · rw [if_neg c3] at h ⊢
        by_cases c4 : (file.length + BS - 1) / BS > (read_superblock img 0).data_region_blocks
        · rw [if_pos c4]
        · rw [if_neg c4] at h ⊢
          unfold adder_insert at h ⊢
          dsimp only at h ⊢
          by_cases c5 : find_first_free_bit img
              ((read_superblock img 0).inode_bitmap_start * BS % 18446744073709551616) BS
              ((read_superblock img 0).inode_count % 4294967296) = 0
          · rw [if_pos c5]
          · rw [if_neg c5] at h ⊢
            generalize alloc_loop img
              ((read_superblock img 0).data_bitmap_start * BS % 18446744073709551616)
              (read_superblock img 0).data_region_start
              (read_superblock img 0).data_region_blocks ((file.length + BS - 1) / BS)
              alloc_fuel 1 [] = r at h ⊢
            cases r with
            | none => rfl
            | some found =>
              dsimp only at h ⊢
              by_cases c6 : found.length < (file.length + BS - 1) / BS
              · rw [if_pos c6]
              · rw [if_neg c6] at h ⊢
                exfalso
                generalize (List.range (BS / 64)).find? _ = q at h
                cases q with
                | none => rcases h with h | h | h | h <;> exact Status.noConfusion h
                | some e =>
                  dsimp only at h
                  by_cases c7 : (basename file_name).length ≥ 58
                  · rw [if_pos c7] at h
                    rcases h with h | h | h | h <;> exact Status.noConfusion h
                  · rw [if_neg c7] at h
                    rcases h with h | h | h | h <;> exact Status.noConfusion h

/-- C14 (as stated, refuted): the image written by 62 insertions of an empty file
named `a` into the fresh image for `size_kib = 180`, `inode_count = 128` has no free
slot in its root directory; one more insertion ends with `DirectoryFull`, and the
buffer at that point is not the input image: bit 63 of its inode bitmap, unset in
the input, is set. The directory is searched after the inode and the blocks were
written into the buffer. -/
theorem C14_directory_full_after_mutation :
    (insert_times (builder_write 180 128 0 []) [] [97] 0 62).status = .Ok ∧
    (mkfs_adder.main (insert_times (builder_write 180 128 0 []) [] [97] 0 62).fs_image
      [] [97] 0).status = .DirectoryFull ∧
    bitmap_bit (insert_times (builder_write 180 128 0 []) [] [97] 0 62).fs_image
      (1 * BS) 63 = false ∧
    bitmap_bit (mkfs_adder.main (insert_times (builder_write 180 128 0 []) [] [97] 0
      62).fs_image [] [97] 0).fs_image (1 * BS) 63 = true ∧
    (mkfs_adder.main (insert_times (builder_write 180 128 0 []) [] [97] 0 62).fs_image
      [] [97] 0).fs_image ≠ (insert_times (builder_write 180 128 0 []) [] [97] 0 62).fs_image := by
  obtain ⟨hs, hr⟩ := insert_times_empty 180 128 0 [] [97] 0 (by decide) (by decide) 62
    (Nat.le_refl _)
  have hfull := (insert_empty_reachable 180 128 62 _ [97] 0 hr (by decide)).2 rfl
  have I := reachable_inv 180 128 62 _ hr
  have hm := adder_main_late_mutates 180 128 _ [] [97] 0 I.valid (Or.inl hfull)
  have hino : find_first_free_bit
      (insert_times (builder_write 180 128 0 []) [] [97] 0 62).fs_image 4096 BS 128 - 1
      = 63 := by
    rcases find_first_free_bit_block
      (insert_times (builder_write 180 128 0 []) [] [97] 0 62).fs_image 4096 128
      (by decide) with h0 | ⟨ha, hb, hf, hmin⟩
    · have := hm.1
      rw [h0, I.inode_bits _ (by decide)] at this
      exact absurd this (by decide)
    · rw [I.inode_bits _ (by omega)] at hf
      have h1 : ¬ (find_first_free_bit
          (insert_times (builder_write 180 128 0 []) [] [97] 0 62).fs_image 4096 BS 128 - 1
          ≤ 62) := of_decide_eq_false hf
      by_contra hne
      have := hmin 63 (by omega)
      rw [I.inode_bits _ (by decide)] at this
      exact absurd this (by decide)
  rw [hino] at hm
  refine ⟨hs, hfull, hm.1, hm.2, fun heq => ?_⟩
  have h1 := hm.2
  rw [heq, hm.1] at h1
  exact Bool.noConfusion h1

/-- C14 (amended): a run of the adder that ends with `InvalidImage`,
`FileTooLarge`, `OutOfSpace` or `NoFreeInodes` ends before any change of the
buffer: the buffer is the input image, byte for byte. On a valid image a run that
ends with `DirectoryFull` (or with the naming error) ends after the inode and the
blocks were written: the buffer differs from the input image, in the bit of the
inode found at least. Only a run that ends with `Ok` writes the buffer out. -/
theorem C14_errors_and_the_buffer (img file file_name : List Nat) (now : Nat) :
    (((mkfs_adder.main img file file_name now).status = .InvalidImage ∨
        (mkfs_adder.main img file file_name now).status = .FileTooLarge ∨
        (mkfs_adder.main img file file_name now).status = .OutOfSpace ∨
        (mkfs_adder.main img file file_name now).status = .NoFreeInodes) →
      (mkfs_adder.main img file file_name now).fs_image = img) ∧
    (∀ size_kib inode_count, valid_image size_kib inode_count img →
      ((mkfs_adder.main img file file_name now).status = .DirectoryFull ∨
        (mkfs_adder.main img file file_name now).status = .NameTooLong) →
      (mkfs_adder.main img file file_name now).fs_image ≠ img ∧
      ∃ p, bitmap_bit img (1 * BS) p = false ∧
        bitmap_bit (mkfs_adder.main img file file_name now).fs_image (1 * BS) p = true) := by
  refine ⟨adder_main_early img file file_name now, fun size_kib inode_count hvi hlate => ?_⟩
  have hm := adder_main_late_mutates size_kib inode_count img file file_name now hvi hlate
  refine ⟨fun heq => ?_, _, hm.1, hm.2⟩
  have h1 := hm.2
  rw [heq, hm.1] at h1
  exact Bool.noConfusion h1

theorem C14_errors_and_the_buffer_witness :
    (mkfs_adder.main [] [] [97] 0).status = .InvalidImage ∧
    (mkfs_adder.main [] [] [97] 0).fs_image = [] :=
  ⟨by decide, (C14_errors_and_the_buffer [] [] [97] 0).1 (Or.inl (by decide))⟩

theorem bitmap_bit_memcpy_of_disjoint (mem src : List Nat) (off bitmap pos : Nat)
    (h : bitmap + pos / 8 < off ∨ off + src.length ≤ bitmap + pos / 8) :
    bitmap_bit (memcpy mem off src) bitmap pos = bitmap_bit mem bitmap pos := by
  unfold bitmap_bit
  rw [getD_memcpy, if_neg (by omega)]

theorem testBit_255 (i : Nat) (hi : i < 8) : (255 : Nat).testBit i = true := by
  interval_cases i <;> decide

/-- The bits of a bitmap inside a run of bytes `255` written by `memcpy` are set. -/
theorem bitmap_bit_memcpy_255 (mem : List Nat) (bitmap n pos : Nat) (hpos : pos < 8 * n)
    (hlen : bitmap + n ≤ mem.length) :
    bitmap_bit (memcpy mem bitmap (List.replicate n 255)) bitmap pos = true := by
  unfold bitmap_bit
  rw [getD_memcpy, if_pos ⟨by omega, by rw [List.length_replicate]; omega, by omega⟩,
    show bitmap + pos / 8 - bitmap = pos / 8 by omega,
    List.getD_eq_getElem _ _ (by rw [List.length_replicate]; omega), List.getElem_replicate]
  exact testBit_255 _ (Nat.mod_lt _ (by decide))

theorem length_full_bitmaps_image : full_bitmaps_image.length = 184320 := by
  unfold full_bitmaps_image
  rw [length_memcpy, length_memcpy, length_builder_write 180 128 0 [] (by decide)]

theorem bitmap_bit_full_bitmaps_image_inode (p : Nat) (hp : p < 128) :
    bitmap_bit full_bitmaps_image 4096 p = true := by
  unfold full_bitmaps_image
  rw [show 2 * BS = 8192 by decide, show 1 * BS = 4096 by decide,
    bitmap_bit_memcpy_of_disjoint _ _ _ _ _ (by omega)]
  exact bitmap_bit_memcpy_255 _ 4096 16 p (by omega)
    (by rw [length_builder_write 180 128 0 [] (by decide)]; decide)

theorem bitmap_bit_full_bitmaps_image_data (p : Nat) (hp : p < 40) :
    bitmap_bit full_bitmaps_image 8192 p = true := by
  unfold full_bitmaps_image
  rw [show 2 * BS = 8192 by decide, show 1 * BS = 4096 by decide]
  exact bitmap_bit_memcpy_255 _ 8192 5 p (by omega)
    (by rw [length_memcpy, length_builder_write 180 128 0 [] (by decide)]; decide)

theorem getD_full_bitmaps_image_of_out (j : Nat) (h : j < 4096 ∨ 12288 ≤ j) :
    full_bitmaps_image.getD j 0 = (builder_write 180 128 0 []).getD j 0 := by
  unfold full_bitmaps_image
  rw [show 2 * BS = 8192 by decide, show 1 * BS = 4096 by decide, getD_memcpy,
    if_neg (by rw [List.length_replicate]; omega), getD_memcpy,
    if_neg (by rw [List.length_replicate]; omega)]

/-- The image with both bitmaps full is a valid image. -/
theorem valid_image_full_bitmaps_image : valid_image 180 128 full_bitmaps_image := by
  have hvi := valid_image_builder_write 180 128 0 [] (by decide)
  obtain ⟨hv, _, hsb, _, _, hd0⟩ := hvi
  refine ⟨hv, length_full_bitmaps_image, ?_, ?_, ?_, ?_⟩
  · rw [read_superblock_congr full_bitmaps_image (builder_write 180 128 0 [])
      (fun j hj => getD_full_bitmaps_image_of_out j (by omega))]
    exact hsb
  · exact bitmap_bit_full_bitmaps_image_inode 0 (by decide)
  · exact bitmap_bit_full_bitmaps_image_data 0 (by decide)
  · rw [← hd0]
    apply le_read_congr
    intro k hk
    exact getD_full_bitmaps_image_of_out _ (by simp only [BS]; omega)

theorem free_units_full_bitmaps_image : free_units full_bitmaps_image 8192 38 = [] := by
  rw [List.eq_nil_iff_forall_not_mem]
  intro u hu
  have h := (mem_free_units _ _ _ _).mp hu
  rw [bitmap_bit_full_bitmaps_image_data _ (by omega)] at h
  exact Bool.noConfusion h.2

/-- The run of the adder on the image with both bitmaps full, for a file of one
block: `NoFreeInodes`. -/
theorem adder_main_full_bitmaps_image :
    mkfs_adder.main full_bitmaps_image [7] [97] 5 = ⟨.NoFreeInodes, full_bitmaps_image⟩ := by
  have hvi := valid_image_full_bitmaps_image
  have hino : find_first_free_bit full_bitmaps_image 4096 BS 128 = 0 := by
    rcases find_first_free_bit_valid_image 180 128 _ hvi with h | ⟨h2, h128, hf⟩
    · exact h
    · rw [bitmap_bit_full_bitmaps_image_inode _ (by omega)] at hf
      exact Bool.noConfusion hf
  rw [adder_main_valid_image 180 128 full_bitmaps_image [7] [97] 5 _ _ _ _ _ _ hvi rfl rfl
    rfl rfl rfl rfl, if_neg (by decide), if_pos hino]

theorem length_moved_region_image : moved_region_image.length = 184320 := by
  unfold moved_region_image
  rw [length_memcpy, length_builder_write 180 128 0 [] (by decide)]

/-- The fields of the superblock of `moved_region_image`. -/
theorem read_superblock_moved_region_image :
    (read_superblock moved_region_image 0).magic = 0x4D565346 ∧
    (read_superblock moved_region_image 0).data_bitmap_start = 2 ∧
    (read_superblock moved_region_image 0).data_region_start = 4294967303 ∧
    (read_superblock moved_region_image 0).data_region_blocks = 38 := by
  obtain ⟨hm, _, _, hdb, _, _, hdrb⟩ := superblock_fields_builder_write 180 128 0 [] (by decide)
  have hl : (le_bytes 8 4294967303).length = 8 := length_le_bytes _ _
  refine ⟨?_, ?_, ?_, ?_⟩
  · rw [← hm]
    show le_read moved_region_image 0 4 = le_read (builder_write 180 128 0 []) 0 4
    unfold moved_region_image
    exact le_read_memcpy_of_disjoint _ _ _ _ _ (by omega)
  · rw [← hdb]
    show le_read moved_region_image (0 + 44) 8 = le_read (builder_write 180 128 0 []) (0 + 44) 8
    unfold moved_region_image
    exact le_read_memcpy_of_disjoint _ _ _ _ _ (by omega)
  · show le_read moved_region_image (0 + 76) 8 = 4294967303
    unfold moved_region_image
    rw [le_read_memcpy_inside _ _ _ _ _ (by omega) (by omega)
      (by rw [length_builder_write 180 128 0 [] (by decide), hl]; decide),
      show 0 + 76 - 76 = 0 by decide, le_read_le_bytes]
    decide
  · have h : le_read moved_region_image (0 + 84) 8
        = le_read (builder_write 180 128 0 []) (0 + 84) 8 := by
      unfold moved_region_image
      exact le_read_memcpy_of_disjoint _ _ _ _ _ (by omega)
    exact h.trans hdrb

/-- The free units of `moved_region_image`: all but unit 1. -/
theorem free_units_moved_region_image :
    free_units moved_region_image 8192 38 = List.range' 2 37 := by
  have h : free_units moved_region_image 8192 38
      = (List.range' 1 38).filter fun u => !decide (u - 1 = 0) := by
    unfold free_units
    apply List.filter_congr
    intro u hu
    have hu2 := List.mem_range'_1.mp hu
    unfold moved_region_image
    rw [bitmap_bit_memcpy_of_disjoint _ _ _ _ _ (by rw [length_le_bytes]; omega),
      bitmap_bit_builder_write_data _ _ _ _ _ (by omega)]
  rw [h]
  decide

theorem le_read_moved_region_image (p w : Nat) (h : p + w ≤ 76 ∨ 84 ≤ p) :
    le_read moved_region_image p w = le_read (builder_write 180 128 0 []) p w := by
  unfold moved_region_image
  exact le_read_memcpy_of_disjoint _ _ _ _ _ (by rw [length_le_bytes]; omega)

theorem getD_moved_region_image (j : Nat) (h : j < 76 ∨ 84 ≤ j) :
    moved_region_image.getD j 0 = (builder_write 180 128 0 []).getD j 0 := by
  unfold moved_region_image
  rw [getD_memcpy, if_neg (by rw [length_le_bytes]; omega)]

/-- The layout fields of the superblock of `moved_region_image`. -/
theorem read_superblock_moved_region_image_layout :
    (read_superblock moved_region_image 0).inode_count = 128 ∧
    (read_superblock moved_region_image 0).inode_bitmap_start = 1 ∧
    (read_superblock moved_region_image 0).inode_table_start = 3 := by
  obtain ⟨_, hic, hib, _, hit, _, _⟩ := superblock_fields_builder_write 180 128 0 [] (by decide)
  exact ⟨(le_read_moved_region_image (0 + 20) 8 (by omega)).trans hic,
    (le_read_moved_region_image (0 + 28) 8 (by omega)).trans hib,
    (le_read_moved_region_image (0 + 60) 8 (by omega)).trans hit⟩

theorem find_first_free_bit_moved_region_image :
    find_first_free_bit moved_region_image 4096 BS 128 = 2 := by
  have hb : ∀ p, p < 128 → bitmap_bit moved_region_image 4096 p = decide (p = 0) := by
    intro p hp
    unfold moved_region_image
    rw [bitmap_bit_memcpy_of_disjoint _ _ _ _ _ (by rw [length_le_bytes]; omega),
      bitmap_bit_builder_write_inode _ _ _ _ _ (by omega)]
  apply find_first_free_bit_eq _ _ _ _ 1 (by decide) (by decide) (by decide) (by decide)
  · rw [hb 1 (by decide)]; rfl
  · intro q hq
    rw [hb q (by omega)]
    exact decide_eq_true (by omega)

/-- The scan of the data bitmap of `moved_region_image` for one block: the first
free unit is unit 2, and the block stored for it is block 8. -/
theorem alloc_loop_moved_region_image :
    alloc_loop moved_region_image 8192 4294967303 38 1 alloc_fuel 1 [] = some [8] := by
  rw [alloc_loop_eq _ _ _ _ _ (by decide), free_units_moved_region_image]
  rfl

/-- Frame of the store on `moved_region_image`: the root inode and the root
directory block are kept. -/
theorem getD_adder_store_moved_region_image (j : Nat)
    (hj : (12288 ≤ j ∧ j < 12288 + 128) ∨ (28672 ≤ j ∧ j < 28672 + 4096)) :
    (adder_store (read_superblock moved_region_image 0) moved_region_image [7] 5 1 2
      ([8] ++ List.replicate (DIRECT_MAX - [8].length) 0)).getD j 0
      = (builder_write 180 128 0 []).getD j 0 := by
  obtain ⟨_, hdb, hdrs, _⟩ := read_superblock_moved_region_image
  obtain ⟨_, hib, hit⟩ := read_superblock_moved_region_image_layout
  rw [getD_adder_store_of_out, getD_moved_region_image _ (by omega)]
  · rw [hit]
    have e : 3 * BS % 18446744073709551616
        + (2 + 4294967296 - 1) % 4294967296 * INODE_SIZE % 4294967296 = 12288 + 128 := by decide
    rw [e]; omega
  · rw [hib]
    have e : 1 * BS % 18446744073709551616 + (2 + 4294967296 - 1) % 4294967296 / 8 = 4096 := by
      decide
    rw [e]; omega
  · intro i hi
    have hi0 : i = 0 := by omega
    subst hi0
    rw [hdb, hdrs]
    have e : 2 * BS % 18446744073709551616
        + ((([8] ++ List.replicate (DIRECT_MAX - [8].length) 0).getD 0 0 + 18446744073709551616
          - 4294967303 + 1) % 18446744073709551616 % 4294967296 + 4294967296 - 1)
          % 4294967296 / 8 = 8192 := by decide
    rw [e]; omega
  · intro i hi
    have hi0 : i = 0 := by omega
    subst hi0
    have e : ([8] ++ List.replicate (DIRECT_MAX - [8].length) 0).getD 0 0 * BS % 4294967296
        = 32768 := by decide
    rw [e]
    simp only [BS]
    omega

/-- The pointer `root_dir_data` when `data_region_start` is `2^32 + 7` and the root
inode names block 7: the offset of block 7. -/
theorem adder_root_dir_data_wrapped (sb : superblock_t) (mem : List Nat)
    (hit : sb.inode_table_start = 3) (hdrs : sb.data_region_start = 4294967303)
    (hroot : le_read mem (12288 + 44) 4 = 7) : adder_root_dir_data sb mem = 28672 := by
  unfold adder_root_dir_data
  dsimp only
  rw [hit, hdrs, show 3 * BS % 18446744073709551616 + 44 = 12288 + 44 by decide, hroot]
  norm_num [BS]

theorem adder_root_dir_data_moved_region_image :
    adder_root_dir_data (read_superblock moved_region_image 0)
      (adder_store (read_superblock moved_region_image 0) moved_region_image [7] 5 1 2
        ([8] ++ List.replicate (DIRECT_MAX - [8].length) 0)) = 28672 := by
  obtain ⟨_, _, hdrs, _⟩ := read_superblock_moved_region_image
  obtain ⟨_, _, hit⟩ := read_superblock_moved_region_image_layout
  apply adder_root_dir_data_wrapped _ _ hit hdrs
  refine Eq.trans ?_ (le_read_builder_write_direct0 180 128 0 [] (by decide))
  apply le_read_congr
  intro k hk
  exact getD_adder_store_moved_region_image _ (Or.inl (by omega))

theorem find?_dir_moved_region_image :
    (List.range (BS / 64)).find? (fun i => decide (le_read
      (adder_store (read_superblock moved_region_image 0) moved_region_image [7] 5 1 2
        ([8] ++ List.replicate (DIRECT_MAX - [8].length) 0)) (28672 + i * 64) 4 = 0)) = some 2 := by
  have hs : ∀ i, i < 64 → le_read
      (adder_store (read_superblock moved_region_image 0) moved_region_image [7] 5 1 2
        ([8] ++ List.replicate (DIRECT_MAX - [8].length) 0)) (28672 + i * 64) 4
      = if i < 2 then 1 else 0 := by
    intro i hi
    rw [← le_read_builder_write_dir_slot 180 128 0 [] (by decide) i hi]
    apply le_read_congr
    intro k hk
    rw [getD_adder_store_moved_region_image _ (Or.inr (by omega))]
  rw [List.find?_eq_some]
  refine ⟨?_, [0, 1], List.range' 3 61, by decide, ?_⟩
  · rw [hs 2 (by decide)]; rfl
  · intro a ha
    have ha2 : a < 2 := by
      rcases List.mem_cons.mp ha with h | h
      · omega
      · rcases List.mem_cons.mp h with h | h
        · omega
        · cases h
    rw [hs a (by omega), if_pos ha2]
    rfl

/-- The run of the adder on `moved_region_image` for a file of one byte succeeds:
inode 2, block 8, directory slot 2. -/
theorem adder_main_moved_region_image :
    mkfs_adder.main moved_region_image [7] [97] 5 = ⟨.Ok,
      adder_link (read_superblock moved_region_image 0)
        (adder_store (read_superblock moved_region_image 0) moved_region_image [7] 5 1 2
          ([8] ++ List.replicate (DIRECT_MAX - [8].length) 0)) 28672 2 2 [97] 5⟩ := by
  obtain ⟨hm, hdb, hdrs, hdrb⟩ := read_superblock_moved_region_image
  obtain ⟨hic, hib, hit⟩ := read_superblock_moved_region_image_layout
  have hbn : ([7] : List Nat).length = 1 := rfl
  unfold mkfs_adder.main
  dsimp only
  rw [hbn, show (1 + BS - 1) / BS = 1 by decide, if_neg (by decide),
    if_neg (by rw [length_moved_region_image]; decide), if_neg (by rw [hm]; decide),
    if_neg (by rw [hdrb]; decide)]
  unfold adder_insert
  dsimp only
  rw [hib, hdb, hic, hdrs, hdrb, show 1 * BS % 18446744073709551616 = 4096 by decide,
    show 2 * BS % 18446744073709551616 = 8192 by decide,
    show 128 % 4294967296 = 128 by decide, find_first_free_bit_moved_region_image,
    if_neg (by decide), alloc_loop_moved_region_image]
  dsimp only
  rw [if_neg (by decide), adder_root_dir_data_moved_region_image, find?_dir_moved_region_image]
  dsimp only
  rw [basename_eq_self [97] (by decide) (by decide), if_neg (by decide)]

/-- After the run on `moved_region_image` the first direct pointer of the new inode
(slot 1 of the inode table) is block 8. -/
theorem le_read_direct_moved_region_image :
    le_read (mkfs_adder.main moved_region_image [7] [97] 5).fs_image (3 * BS + 128 + 44) 4
      = 8 := by
  obtain ⟨_, _, hit⟩ := read_superblock_moved_region_image_layout
  rw [adder_main_moved_region_image]
  have h : le_read (adder_link (read_superblock moved_region_image 0)
      (adder_store (read_superblock moved_region_image 0) moved_region_image [7] 5 1 2
        ([8] ++ List.replicate (DIRECT_MAX - [8].length) 0)) 28672 2 2 [97] 5)
        (3 * BS + 128 + 44) 4
      = le_read (inode_crc_finalize (adder_new_inode ([7] : List Nat).length 5 1
          ([8] ++ List.replicate (DIRECT_MAX - [8].length) 0)).bytes 0) (44 + 4 * 0) 4 := by
    apply le_read_congr
    intro k hk
    rw [show 3 * BS + 128 + 44 + k = 12288 + (2 - 1) * 128 + (44 + k) by
      simp only [BS]; omega,
      getD_adder_link_of_out _ _ _ _ _ _ _ _ hit
        (by rw [length_adder_store, length_moved_region_image]; decide) (by decide)
        (by omega) (by omega) (by omega),
      getD_adder_store_slot _ _ _ _ _ _ _ _ hit (by decide) (by decide) (by omega)
        (by rw [length_moved_region_image]; decide)]
  rw [h, le_read_inode_crc_finalize _ _ _ (by decide), le_read_inode_bytes_direct _ 0 (by decide)]
  rfl

theorem length_free_units_le (mem : List Nat) (db drb : Nat) :
    (free_units mem db drb).length ≤ drb := by
  unfold free_units
  exact Nat.le_trans (List.length_filter_le _ _) (by rw [List.length_range'])

/-- The free units left out by `take bn` come after the ones taken. -/
theorem free_units_take_lt_drop (mem : List Nat) (db drb bn u v : Nat)
    (hv : v ∈ (free_units mem db drb).take bn) (hu : u ∈ (free_units mem db drb).drop bn) :
    v < u := by
  have hp := pairwise_free_units mem db drb
  rw [← List.take_append_drop bn (free_units mem db drb), List.pairwise_append] at hp
  exact hp.2.2 v hv u hu

/-- The blocks `data_region_start + u - 1` of the units taken are strictly
ascending. -/
theorem pairwise_alloc_blocks (mem : List Nat) (db drs drb bn : Nat) :
    (alloc_blocks mem db drs drb bn).Pairwise (· < ·) := by
  unfold alloc_blocks
  rw [List.pairwise_map]
  have hp : ((free_units mem db drb).take bn).Pairwise (· < ·) :=
    (pairwise_free_units mem db drb).sublist (List.take_sublist _ _)
  refine List.Pairwise.imp_of_mem ?_ hp
  intro a b ha _ hab
  have := (mem_free_units _ _ _ _).mp (List.mem_of_mem_take ha)
  omega

/-- C15 (as stated, refuted): two images with the magic number on which the claim fails.
On `moved_region_image`, whose `data_region_start` is `2^32 + 7`, the run for a file
of one byte succeeds; the lowest free unit is unit 2, and the block the scan stores
for it, which the new inode names in `direct[0]`, is block 8, not block
`data_region_start + 2 - 1`. On `full_bitmaps_image`, a valid image with no free
inode and no free block, fewer units are free than the file of one byte needs, and
the run ends with `NoFreeInodes`, not with `OutOfSpace`. -/
theorem C15_block_number_wraps_and_no_free_inode_comes_first :
    ((read_superblock moved_region_image 0).magic = 0x4D565346 ∧
      (read_superblock moved_region_image 0).data_region_start = 4294967303 ∧
      (free_units moved_region_image
        ((read_superblock moved_region_image 0).data_bitmap_start * BS % 18446744073709551616)
        (read_superblock moved_region_image 0).data_region_blocks).take
          ((([7] : List Nat).length + BS - 1) / BS) = [2] ∧
      alloc_loop moved_region_image
        ((read_superblock moved_region_image 0).data_bitmap_start * BS % 18446744073709551616)
        (read_superblock moved_region_image 0).data_region_start
        (read_superblock moved_region_image 0).data_region_blocks
        ((([7] : List Nat).length + BS - 1) / BS) alloc_fuel 1 [] = some [8] ∧
      (mkfs_adder.main moved_region_image [7] [97] 5).status = .Ok ∧
      (read_inode (mkfs_adder.main moved_region_image [7] [97] 5).fs_image
        (3 * BS + 128)).direct.getD 0 0 = 8 ∧
      (read_superblock moved_region_image 0).data_region_start + 2 - 1 ≠ 8) ∧
    (valid_image 180 128 full_bitmaps_image ∧
      (read_superblock full_bitmaps_image 0).magic = 0x4D565346 ∧
      (free_units full_bitmaps_image
        ((read_superblock full_bitmaps_image 0).data_bitmap_start * BS % 18446744073709551616)
        (read_superblock full_bitmaps_image 0).data_region_blocks).length
          < (([7] : List Nat).length + BS - 1) / BS ∧
      (mkfs_adder.main full_bitmaps_image [7] [97] 5).status = .NoFreeInodes ∧
      (mkfs_adder.main full_bitmaps_image [7] [97] 5).status ≠ .OutOfSpace) := by
  obtain ⟨hm, hdb, hdrs, hdrb⟩ := read_superblock_moved_region_image
  obtain ⟨hm2, _, _, hdb2, _, _, hdrb2⟩ :=
    superblock_fields_valid_image 180 128 _ valid_image_full_bitmaps_image
  have e2 : 2 * BS % 18446744073709551616 = 8192 := by decide
  have ebn : (([7] : List Nat).length + BS - 1) / BS = 1 := by decide
  refine ⟨⟨hm, hdrs, ?_, ?_, ?_, ?_, ?_⟩, valid_image_full_bitmaps_image, hm2, ?_, ?_, ?_⟩
  · rw [hdb, hdrb, e2, free_units_moved_region_image]
    rfl
  · rw [hdb, hdrs, hdrb, e2, ebn]
    exact alloc_loop_moved_region_image
  · rw [adder_main_moved_region_image]
  · rw [getD_read_inode_direct _ _ _ (by decide)]
    exact le_read_direct_moved_region_image
  · rw [hdrs]
    decide
  · rw [hdb2, hdrb2, e2]
    rw [show 180 * 1024 / 4096 - (1 + 1 + 1 + (128 * 128 + 4096 - 1) / 4096) = 38 by decide,
      free_units_full_bitmaps_image]
    decide
  · rw [adder_main_full_bitmaps_image]
  · rw [adder_main_full_bitmaps_image]
    exact fun h => Status.noConfusion h

/-- C15 (amended): on every image that holds a whole superblock with the magic number
and whose `data_region_blocks` is below `2^32 - 1` (the range in which the 32-bit
counter of the loop does not wrap), for every file of at most 12 blocks, the scan
of the data bitmap returns the blocks of the first `blocks_needed` entries of
`free_units`, the ascending list of the units `1 .. data_region_blocks` whose bit
is unset: the units taken are strictly ascending, each has its bit unset, and every
unset unit not taken is greater than all units taken. Unit `u` is stored as block
`(data_region_start + u - 1) mod 2^32`; when the data region ends within 32-bit
block numbers this is block `data_region_start + u - 1` and the blocks are strictly
ascending. The run ends with `OutOfSpace` if and only if fewer than `blocks_needed`
units have their bit unset and either the file needs more than
`data_region_blocks` blocks or a free inode was found; it ends with `NoFreeInodes`
if and only if the file needs at most `data_region_blocks` blocks and no inode is
free, whatever the number of unset units. -/
theorem C15_allocation_takes_lowest_free_units (img file file_name : List Nat) (now : Nat)
    (hlen : 116 ≤ img.length) (hmagic : (read_superblock img 0).magic = 0x4D565346)
    (hbn : (file.length + BS - 1) / BS ≤ DIRECT_MAX)
    (hdrb : (read_superblock img 0).data_region_blocks + 1 < 4294967296) :
    alloc_loop img ((read_superblock img 0).data_bitmap_start * BS % 18446744073709551616)
        (read_superblock img 0).data_region_start (read_superblock img 0).data_region_blocks
        ((file.length + BS - 1) / BS) alloc_fuel 1 []
      = some (((free_units img
          ((read_superblock img 0).data_bitmap_start * BS % 18446744073709551616)
          (read_superblock img 0).data_region_blocks).take ((file.length + BS - 1) / BS)).map
          fun u => ((read_superblock img 0).data_region_start + u - 1) % 4294967296) ∧
    ((read_superblock img 0).data_region_start + (read_superblock img 0).data_region_blocks
        ≤ 4294967296 →
      alloc_loop img ((read_superblock img 0).data_bitmap_start * BS % 18446744073709551616)
          (read_superblock img 0).data_region_start (read_superblock img 0).data_region_blocks
          ((file.length + BS - 1) / BS) alloc_fuel 1 []
        = some (((free_units img
            ((read_superblock img 0).data_bitmap_start * BS % 18446744073709551616)
            (read_superblock img 0).data_region_blocks).take ((file.length + BS - 1) / BS)).map
            fun u => (read_superblock img 0).data_region_start + u - 1) ∧
      (((free_units img
            ((read_superblock img 0).data_bitmap_start * BS % 18446744073709551616)
            (read_superblock img 0).data_region_blocks).take ((file.length + BS - 1) / BS)).map
            fun u => (read_superblock img 0).data_region_start + u - 1).Pairwise (· < ·)) ∧
    (free_units img ((read_superblock img 0).data_bitmap_start * BS % 18446744073709551616)
      (read_superblock img 0).data_region_blocks).Pairwise (· < ·) ∧
    (∀ u, u ∈ free_units img
        ((read_superblock img 0).data_bitmap_start * BS % 18446744073709551616)
        (read_superblock img 0).data_region_blocks ↔
      (1 ≤ u ∧ u ≤ (read_superblock img 0).data_region_blocks) ∧
      bitmap_bit img ((read_superblock img 0).data_bitmap_start * BS % 18446744073709551616)
        (u - 1) = false) ∧
    (∀ u v, v ∈ (free_units img
        ((read_superblock img 0).data_bitmap_start * BS % 18446744073709551616)
        (read_superblock img 0).data_region_blocks).take ((file.length + BS - 1) / BS) →
      u ∈ (free_units img
        ((read_superblock img 0).data_bitmap_start * BS % 18446744073709551616)
        (read_superblock img 0).data_region_blocks).drop ((file.length + BS - 1) / BS) →
      v < u) ∧
    ((mkfs_adder.main img file file_name now).status = .OutOfSpace ↔
      (free_units img ((read_superblock img 0).data_bitmap_start * BS % 18446744073709551616)
        (read_superblock img 0).data_region_blocks).length < (file.length + BS - 1) / BS ∧
      ((read_superblock img 0).data_region_blocks < (file.length + BS - 1) / BS ∨
        find_first_free_bit img
          ((read_superblock img 0).inode_bitmap_start * BS % 18446744073709551616) BS
          ((read_superblock img 0).inode_count % 4294967296) ≠ 0)) ∧
    ((mkfs_adder.main img file file_name now).status = .NoFreeInodes ↔
      (file.length + BS - 1) / BS ≤ (read_superblock img 0).data_region_blocks ∧
      find_first_free_bit img
        ((read_superblock img 0).inode_bitmap_start * BS % 18446744073709551616) BS
        ((read_superblock img 0).inode_count % 4294967296) = 0) := by
  have hmap : ∀ u, u ∈ (free_units img
      ((read_superblock img 0).data_bitmap_start * BS % 18446744073709551616)
      (read_superblock img 0).data_region_blocks).take ((file.length + BS - 1) / BS) →
      1 ≤ u ∧ u ≤ (read_superblock img 0).data_region_blocks := fun u hu =>
    ((mem_free_units _ _ _ _).mp (List.mem_of_mem_take hu)).1
  have hal : alloc_loop img
      ((read_superblock img 0).data_bitmap_start * BS % 18446744073709551616)
      (read_superblock img 0).data_region_start (read_superblock img 0).data_region_blocks
      ((file.length + BS - 1) / BS) alloc_fuel 1 []
      = some (((free_units img
          ((read_superblock img 0).data_bitmap_start * BS % 18446744073709551616)
          (read_superblock img 0).data_region_blocks).take ((file.length + BS - 1) / BS)).map
          fun u => ((read_superblock img 0).data_region_start + u - 1) % 4294967296) := by
    rw [alloc_loop_eq _ _ _ _ _ hdrb]
    refine congrArg some (List.map_congr_left ?_)
    intro u hu
    have := hmap u hu
    omega
  have hle := length_free_units_le img
    ((read_superblock img 0).data_bitmap_start * BS % 18446744073709551616)
    (read_superblock img 0).data_region_blocks
  refine ⟨hal, fun hfit => ⟨?_, pairwise_alloc_blocks _ _ _ _ _⟩, pairwise_free_units _ _ _,
    fun u => mem_free_units _ _ _ _,
    fun u v hv hu => free_units_take_lt_drop _ _ _ _ u v hv hu, ?_⟩
  · rw [hal]
    refine congrArg some (List.map_congr_left ?_)
    intro u hu
    have := hmap u hu
    exact Nat.mod_eq_of_lt (by omega)
  unfold mkfs_adder.main
  dsimp only
  rw [if_neg (by omega), if_neg (by omega), if_neg (by rw [hmagic]; decide)]
  by_cases c4 : (file.length + BS - 1) / BS > (read_superblock img 0).data_region_blocks
  · rw [if_pos c4]
    exact ⟨⟨fun _ => ⟨by omega, Or.inl c4⟩, fun _ => rfl⟩,
      ⟨fun h => Status.noConfusion h, fun h => absurd h.1 (by omega)⟩⟩
  · rw [if_neg c4]
    unfold adder_insert
    dsimp only
    by_cases c5 : find_first_free_bit img
        ((read_superblock img 0).inode_bitmap_start * BS % 18446744073709551616) BS
        ((read_superblock img 0).inode_count % 4294967296) = 0
    · rw [if_pos c5]
      exact ⟨⟨fun h => Status.noConfusion h, fun h => h.2.elim (fun h1 => absurd h1 c4)
        (fun h1 => absurd c5 h1)⟩, ⟨fun _ => ⟨by omega, c5⟩, fun _ => rfl⟩⟩
    · rw [if_neg c5, hal]
      dsimp only
      rw [List.length_map, List.length_take]
      by_cases c6 : (free_units img
          ((read_superblock img 0).data_bitmap_start * BS % 18446744073709551616)
          (read_superblock img 0).data_region_blocks).length < (file.length + BS - 1) / BS
      · rw [if_pos (by omega)]
        exact ⟨⟨fun _ => ⟨c6, Or.inr c5⟩, fun _ => rfl⟩,
          ⟨fun h => Status.noConfusion h, fun h => absurd h.2 c5⟩⟩
      · rw [if_neg (by omega)]
        refine ⟨⟨fun h => ?_, fun h => absurd h.1 c6⟩, ⟨fun h => ?_, fun h => absurd h.2 c5⟩⟩
        all_goals
          exfalso
          generalize (List.range (BS / 64)).find? _ = q at h
          cases q with
          | none => exact Status.noConfusion h
          | some e =>
            dsimp only at h
            by_cases c7 : (basename file_name).length ≥ 58
            · rw [if_pos c7] at h
              exact Status.noConfusion h
            · rw [if_neg c7] at h
              exact Status.noConfusion h

theorem C15_allocation_takes_lowest_free_units_witness :
    (116 ≤ (builder_write 180 128 0 []).length ∧
      (read_superblock (builder_write 180 128 0 []) 0).magic = 0x4D565346 ∧
      ((List.replicate 5000 7).length + BS - 1) / BS ≤ DIRECT_MAX ∧
      (read_superblock (builder_write 180 128 0 []) 0).data_region_blocks + 1 < 4294967296) ∧
    alloc_loop (builder_write 180 128 0 [])
        ((read_superblock (builder_write 180 128 0 []) 0).data_bitmap_start * BS
          % 18446744073709551616)
        (read_superblock (builder_write 180 128 0 []) 0).data_region_start
        (read_superblock (builder_write 180 128 0 []) 0).data_region_blocks
        (((List.replicate 5000 7).length + BS - 1) / BS) alloc_fuel 1 []
      = some (((free_units (builder_write 180 128 0 [])
          ((read_superblock (builder_write 180 128 0 []) 0).data_bitmap_start * BS
            % 18446744073709551616)
          (read_superblock (builder_write 180 128 0 []) 0).data_region_blocks).take
            (((List.replicate 5000 7).length + BS - 1) / BS)).map
          fun u => ((read_superblock (builder_write 180 128 0 []) 0).data_region_start + u - 1)
            % 4294967296) :=
  have hv : valid_params 180 128 := by decide
  have hf := superblock_fields_builder_write 180 128 0 [] hv
  have hl : 116 ≤ (builder_write 180 128 0 []).length := by
    rw [length_builder_write 180 128 0 [] hv]; decide
  have hb : ((List.replicate 5000 7).length + BS - 1) / BS ≤ DIRECT_MAX := by
    rw [List.length_replicate]; decide
  have hd : (read_superblock (builder_write 180 128 0 []) 0).data_region_blocks + 1
      < 4294967296 := by
    rw [hf.2.2.2.2.2.2]; decide
  ⟨⟨hl, hf.1, hb, hd⟩,
    (C15_allocation_takes_lowest_free_units (builder_write 180 128 0 [])
      (List.replicate 5000 7) [97] 0 hl hf.1 hb hd).1⟩

theorem length_filter_lt_range (m : Nat) : ∀ (n : Nat), m ≤ n →
    ((List.range n).filter fun i => decide (i < m)).length = m := by
  intro n
  induction n with
  | zero => intro h; simp; omega
  | succ n ih =>
    intro h
    rw [List.range_succ, List.filter_append, List.length_append]
    by_cases hm : m ≤ n
    · rw [ih hm]
      have : ¬ n < m := by omega
      simp [this]
    · have e : m = n + 1 := by omega
      subst e
      have hall : (List.range n).filter (fun i => decide (i < n + 1)) = List.range n := by
        rw [List.filter_eq_self]
        intro a ha
        have := List.mem_range.mp ha
        simpa using Nat.lt_succ_of_lt this
      rw [hall]
      simp

/-- The occupied slots of a directory block whose slots `0 .. m - 1` are the
non-zero ones. -/
theorem occupied_slots_eq (img : List Nat) (dir m : Nat) (hm : m ≤ 64)
    (h : ∀ i, i < 64 → (le_read img (dir + i * 64) 4 = 0 ↔ m ≤ i)) :
    occupied_slots img dir = m := by
  unfold occupied_slots
  rw [← length_filter_lt_range m 64 hm]
  congr 1
  apply List.filter_congr
  intro i hi
  have hi64 := List.mem_range.mp hi
  have := h i hi64
  show decide (le_read img (dir + i * 64) 4 ≠ 0) = decide (i < m)
  by_cases c : i < m
  · have h0 : le_read img (dir + i * 64) 4 ≠ 0 := fun x => by have := this.mp x; omega
    simp [c, h0]
  · have h0 : le_read img (dir + i * 64) 4 = 0 := this.mpr (by omega)
    simp [c, h0]

/-- The fields of an inode record other than `links`, `size_bytes`, `mtime` and the
checksum are read from the other bytes of its first 120. -/
theorem read_inode_congr_kept (a b : List Nat) (off : Nat)
    (h : ∀ k, k < 120 → (k < 2 ∨ 4 ≤ k) → (k < 12 ∨ 20 ≤ k) → (k < 28 ∨ 36 ≤ k) →
      a.getD (off + k) 0 = b.getD (off + k) 0) :
    { read_inode a off with links := 0, size_bytes := 0, mtime := 0, inode_crc := 0 }
      = { read_inode b off with links := 0, size_bytes := 0, mtime := 0, inode_crc := 0 } := by
  have hf : ∀ p w, p + w ≤ 120 → (p + w ≤ 2 ∨ 4 ≤ p) → (p + w ≤ 12 ∨ 20 ≤ p) →
      (p + w ≤ 28 ∨ 36 ≤ p) → le_read a (off + p) w = le_read b (off + p) w := by
    intro p w h1 h2 h3 h4
    apply le_read_congr
    intro k hk
    rw [Nat.add_assoc]
    exact h (p + k) (by omega) (by omega) (by omega) (by omega)
  have hd : (List.range DIRECT_MAX).map (fun k => le_read a (off + 44 + 4 * k) 4)
      = (List.range DIRECT_MAX).map (fun k => le_read b (off + 44 + 4 * k) 4) := by
    apply List.map_congr_left
    intro k hk
    have := List.mem_range.mp hk
    simp only [DIRECT_MAX] at this
    rw [Nat.add_assoc]
    exact hf (44 + 4 * k) 4 (by omega) (by omega) (by omega) (by omega)
  have h0 := hf 0 2 (by decide) (by decide) (by decide) (by decide)
  rw [Nat.add_zero] at h0
  simp only [read_inode]
  rw [h0, hf 4 4 (by decide) (by decide) (by decide) (by decide),
    hf 8 4 (by decide) (by decide) (by decide) (by decide),
    hf 20 8 (by decide) (by decide) (by decide) (by decide),
    hf 36 8 (by decide) (by decide) (by decide) (by decide), hd,
    hf 92 4 (by decide) (by decide) (by decide) (by decide),
    hf 96 4 (by decide) (by decide) (by decide) (by decide),
    hf 100 4 (by decide) (by decide) (by decide) (by decide),
    hf 104 4 (by decide) (by decide) (by decide) (by decide),
    hf 108 4 (by decide) (by decide) (by decide) (by decide),
    hf 112 8 (by decide) (by decide) (by decide) (by decide)]

theorem run_eq_of_status (r : Run) (s : Status) (h : r.status = s) : r = ⟨s, r.fs_image⟩ := by
  cases r with
  | mk st buf =>
    dsimp only at h
    rw [h]

/-- The number of blocks of the inode table recorded in a valid image. -/
theorem inode_table_blocks_valid_image (size_kib inode_count : Nat) (img : List Nat)
    (hvi : valid_image size_kib inode_count img) :
    (read_superblock img 0).inode_table_blocks = (inode_count * 128 + 4096 - 1) / 4096 :=
  congrArg superblock_t.inode_table_blocks hvi.2.2.1

theorem length_links_max_image : links_max_image.length = 184320 := by
  unfold links_max_image
  rw [length_memcpy, length_builder_write 180 128 0 [] (by decide)]

theorem getD_links_max_image (j : Nat) (h : j < 12290 ∨ 12292 ≤ j) :
    links_max_image.getD j 0 = (builder_write 180 128 0 []).getD j 0 := by
  unfold links_max_image
  rw [show 3 * BS + 2 = 12290 by decide, getD_memcpy,
    if_neg (by rw [length_le_bytes]; omega)]

theorem bitmap_bit_links_max_image (bitmap pos : Nat) (h : bitmap + pos / 8 < 12290) :
    bitmap_bit links_max_image bitmap pos
      = bitmap_bit (builder_write 180 128 0 []) bitmap pos := by
  unfold bitmap_bit
  rw [getD_links_max_image _ (Or.inl h)]

/-- The image `links_max_image` is a valid image. -/
theorem valid_image_links_max_image : valid_image 180 128 links_max_image := by
  obtain ⟨hv, _, hsb, hb1, hb2, hd0⟩ := valid_image_builder_write 180 128 0 [] (by decide)
  refine ⟨hv, length_links_max_image, ?_, ?_, ?_, ?_⟩
  · rw [read_superblock_congr links_max_image (builder_write 180 128 0 [])
      (fun j hj => getD_links_max_image j (by omega))]
    exact hsb
  · rw [bitmap_bit_links_max_image _ _ (by decide)]
    exact hb1
  · rw [bitmap_bit_links_max_image _ _ (by decide)]
    exact hb2
  · rw [← hd0]
    apply le_read_congr
    intro k hk
    exact getD_links_max_image _ (by simp only [BS]; omega)

theorem links_root_inode (mem : List Nat) :
    (read_inode mem (3 * BS)).links = le_read mem (12288 + 2) 2 := rfl

/-- The link count of the root inode of `links_max_image` is `0xFFFF`. -/
theorem links_links_max_image : (read_inode links_max_image (3 * BS)).links = 65535 := by
  rw [links_root_inode, show 12288 + 2 = 3 * BS + 2 by decide]
  unfold links_max_image
  rw [le_read_memcpy_inside _ _ _ _ _ (Nat.le_refl _) (by rw [length_le_bytes])
    (by rw [length_le_bytes, length_builder_write 180 128 0 [] (by decide)]; decide),
    Nat.sub_self, le_read_le_bytes]
  decide

/-- The run of the adder on `links_max_image` for the empty file succeeds. -/
theorem adder_main_links_max_image :
    (mkfs_adder.main links_max_image [] [97] 5).status = .Ok := by
  refine (adder_main_with_resources 180 128 links_max_image [] [97] 5 _ _ 0
    valid_image_links_max_image rfl rfl (by decide) (by decide) ⟨1, by decide, ?_⟩
    (Nat.zero_le _) ⟨2, by decide, ?_⟩).1 (by decide)
  · rw [bitmap_bit_links_max_image _ _ (by decide),
      bitmap_bit_builder_write_inode _ _ _ _ _ (by decide)]
    rfl
  · have h := le_read_builder_write_dir_slot 180 128 0 [] (by decide) 2 (by decide)
    rw [if_neg (by decide)] at h
    rw [← h]
    apply le_read_congr
    intro k hk
    exact getD_links_max_image _ (by omega)

/-- C17 (as stated, refuted): `links_max_image` is a valid image whose root inode has the
link count `0xFFFF`; the run of the adder on it for the empty file succeeds, and the
link count of the root inode afterwards is 0, not the previous link count plus 1. -/
theorem C17_link_count_wraps :
    valid_image 180 128 links_max_image ∧
    (read_inode links_max_image (3 * BS)).links = 65535 ∧
    (mkfs_adder.main links_max_image [] [97] 5).status = .Ok ∧
    (read_inode (mkfs_adder.main links_max_image [] [97] 5).fs_image (3 * BS)).links = 0 ∧
    (read_inode (mkfs_adder.main links_max_image [] [97] 5).fs_image (3 * BS)).links
      ≠ (read_inode links_max_image (3 * BS)).links + 1 := by
  have hvi := valid_image_links_max_image
  have hok := run_eq_of_status _ _ adder_main_links_max_image
  obtain ⟨ino, e, dbs, E⟩ := insert_ok_effect 180 128 links_max_image [] [97] 5 _ _ _ hvi
    rfl rfl hok
  have hroot := insert_effect_root 180 128 links_max_image [] _ _ 5 _ _ ino e dbs hvi E
  have h0 : (read_inode (mkfs_adder.main links_max_image [] [97] 5).fs_image (3 * BS)).links
      = 0 := by
    rw [links_root_inode, hroot.2.1, ← links_root_inode, links_links_max_image]
  refine ⟨hvi, links_links_max_image, adder_main_links_max_image, h0, ?_⟩
  rw [h0, links_links_max_image]
  decide

/-- C17 (amended): a successful run of the adder on a valid image leaves the root
inode (slot 0 of the table) with `size_bytes` equal to the previous size plus 64
as a 64-bit number, `links` equal to the previous link count plus 1 as a 16-bit
number (a link count of `0xFFFF` becomes 0), `mtime` equal to the time of the run,
every other field as it was, and a checksum field equal to the CRC32 of the first
120 bytes of the record. On an image reachable from the builder in `k` successful
insertions neither addition wraps: the root size before the run is `64 * (2 + k)`
and the link count `2 + k`, the root size after the run is the previous size plus
64, that is `64 * (2 + (k + 1))`, the link count the previous one plus 1, and before
and after the run the root size is 64 times the number of occupied slots of the
root directory. -/
theorem C17_root_inode_after_insert (size_kib inode_count : Nat)
    (img file file_name : List Nat) (now : Nat) (out : List Nat)
    (hvi : valid_image size_kib inode_count img)
    (hok : mkfs_adder.main img file file_name now = ⟨.Ok, out⟩) :
    (read_inode out (3 * BS)).size_bytes
      = ((read_inode img (3 * BS)).size_bytes + 64) % 18446744073709551616 ∧
    (read_inode out (3 * BS)).links = ((read_inode img (3 * BS)).links + 1) % 65536 ∧
    (read_inode out (3 * BS)).mtime = now % 18446744073709551616 ∧
    { read_inode out (3 * BS) with links := 0, size_bytes := 0, mtime := 0, inode_crc := 0 }
      = { read_inode img (3 * BS) with
          links := 0, size_bytes := 0, mtime := 0, inode_crc := 0 } ∧
    (read_inode out (3 * BS)).inode_crc = crc32 (mem_read out (3 * BS) 120) 120 ∧
    ∀ k, reachable size_kib inode_count k img →
      ((read_inode img (3 * BS)).size_bytes = 64 * (2 + k) ∧
        (read_inode img (3 * BS)).links = 2 + k ∧
        occupied_slots img ((read_superblock img 0).data_region_start * BS) = 2 + k) ∧
      ((read_inode out (3 * BS)).size_bytes = (read_inode img (3 * BS)).size_bytes + 64 ∧
        (read_inode out (3 * BS)).links = (read_inode img (3 * BS)).links + 1 ∧
        (read_inode out (3 * BS)).size_bytes = 64 * (2 + (k + 1)) ∧
        occupied_slots out ((read_superblock out 0).data_region_start * BS) = 2 + (k + 1)) := by
  obtain ⟨ino, e, dbs, E⟩ := insert_ok_effect size_kib inode_count img file file_name now out
    _ _ hvi rfl rfl hok
  have hroot := insert_effect_root size_kib inode_count img file _ out now _ _ ino e dbs
    hvi E
  refine ⟨hroot.1, hroot.2.1, hroot.2.2.1,
    read_inode_congr_kept out img (3 * BS) (fun t ht a b c => hroot.2.2.2.2 t ht a b c),
    hroot.2.2.2.1, ?_⟩
  intro k hr
  have I := reachable_inv size_kib inode_count k img hr
  have hr' : reachable size_kib inode_count (k + 1) out :=
    (reachable_succ size_kib inode_count k out).mpr ⟨img, file, file_name, now, hr, hok⟩
  have I' := reachable_inv size_kib inode_count (k + 1) out hr'
  have hk := I.count_le
  have hk' := I'.count_le
  have hdr := (superblock_fields_valid_image _ _ _ I.valid).2.2.2.2.2.1
  have hdr' := (superblock_fields_valid_image _ _ _ I'.valid).2.2.2.2.2.1
  have hs : (read_inode img (3 * BS)).size_bytes = 64 * (2 + k) := I.root_size
  have hs' : (read_inode out (3 * BS)).size_bytes = 64 * (2 + (k + 1)) := I'.root_size
  have hl : (read_inode img (3 * BS)).links = 2 + k := I.root_links
  have hl' : (read_inode out (3 * BS)).links = 2 + (k + 1) := I'.root_links
  refine ⟨⟨hs, hl, ?_⟩, by rw [hs, hs']; omega, by rw [hl, hl']; omega, hs', ?_⟩
  · rw [hdr]
    exact occupied_slots_eq img _ (2 + k) (by omega) I.dir_slots
  · rw [hdr']
    exact occupied_slots_eq out _ (2 + (k + 1)) (by omega) I'.dir_slots

theorem C17_root_inode_after_insert_witness :
    (valid_image 180 128 (builder_write 180 128 0 []) ∧
      mkfs_adder.main (builder_write 180 128 0 []) [] [97] 5
        = ⟨.Ok, (mkfs_adder.main (builder_write 180 128 0 []) [] [97] 5).fs_image⟩) ∧
    (read_inode (mkfs_adder.main (builder_write 180 128 0 []) [] [97] 5).fs_image
      (3 * BS)).size_bytes = 64 * (2 + (0 + 1)) ∧
    (read_inode (mkfs_adder.main (builder_write 180 128 0 []) [] [97] 5).fs_image
      (3 * BS)).mtime = 5 % 18446744073709551616 :=
  have hr : reachable 180 128 0 (builder_write 180 128 0 []) :=
    (reachable_zero 180 128 _).mpr ⟨0, [], builder_main_ok 180 128 0 [] (by decide)⟩
  have hvi := valid_image_builder_write 180 128 0 [] (by decide)
  have hok := run_eq_of_status _ _
    ((insert_empty_reachable 180 128 0 (builder_write 180 128 0 []) [97] 5 hr (by decide)).1
      (by decide))
  have h := C17_root_inode_after_insert 180 128 (builder_write 180 128 0 []) [] [97] 5 _
    hvi hok
  ⟨⟨hvi, hok⟩, (h.2.2.2.2.2 0 hr).2.2.2.1, h.2.2.1⟩

/-- C18: in every image reachable from the builder by successful runs of the
adder, every record of the inode table has non-zero direct pointers at the indices
below `ceil(size_bytes / 4096)` and zero direct pointers from there on; the size of
the root inode is at most 4096. -/
theorem C18_direct_pointers_match_size (size_kib inode_count k : Nat) (img : List Nat)
    (t j : Nat) (hr : reachable size_kib inode_count k img)
    (ht : t < (read_superblock img 0).inode_table_blocks * (BS / INODE_SIZE))
    (hj : j < DIRECT_MAX) :
    (j < ((read_inode img (3 * BS + t * INODE_SIZE)).size_bytes + BS - 1) / BS →
      (read_inode img (3 * BS + t * INODE_SIZE)).direct.getD j 0 ≠ 0) ∧
    (((read_inode img (3 * BS + t * INODE_SIZE)).size_bytes + BS - 1) / BS ≤ j →
      (read_inode img (3 * BS + t * INODE_SIZE)).direct.getD j 0 = 0) ∧
    (read_inode img (3 * BS)).size_bytes ≤ BS := by
  have I := reachable_inv size_kib inode_count k img hr
  have hk := I.count_le
  obtain ⟨h1, h2, h3, h4, h5⟩ := I.valid.1
  rw [inode_table_blocks_valid_image _ _ _ I.valid, show BS / INODE_SIZE = 32 by decide] at ht
  simp only [DIRECT_MAX] at hj
  have hroot : (read_inode img (3 * BS)).size_bytes = 64 * (2 + k) := I.root_size
  rw [getD_read_inode_direct _ _ _ hj]
  have hsz : (read_inode img (3 * BS + t * INODE_SIZE)).size_bytes
      = le_read img (12288 + t * 128 + 12) 8 := rfl
  rw [hsz, show 3 * BS + t * INODE_SIZE + 44 + 4 * j = 12288 + t * 128 + 44 + 4 * j from rfl,
    show (le_read img (12288 + t * 128 + 12) 8 + BS - 1) / BS
      = (le_read img (12288 + t * 128 + 12) 8 + 4095) / 4096 from rfl]
  refine ⟨?_, ?_, by rw [hroot]; simp only [BS]; omega⟩
  · by_cases ht0 : t = 0
    · subst ht0
      intro hlt
      have hs : le_read img (12288 + 0 * 128 + 12) 8 = 64 * (2 + k) := I.root_size
      rw [hs] at hlt
      have hj0 : j = 0 := by omega
      subst hj0
      have hd0 : le_read img (12288 + 0 * 128 + 44 + 4 * 0) 4
          = 3 + (inode_count * 128 + 4096 - 1) / 4096 := I.valid.2.2.2.2.2
      rw [hd0]
      omega
    · exact (I.slots t (by omega) (by omega) j hj).1
  · by_cases ht0 : t = 0
    · subst ht0
      intro hge
      have hs : le_read img (12288 + 0 * 128 + 12) 8 = 64 * (2 + k) := I.root_size
      rw [hs] at hge
      exact I.root_direct j (by omega) hj
    · exact (I.slots t (by omega) (by omega) j hj).2

theorem C18_direct_pointers_match_size_witness :
    (reachable 180 128 0 (builder_write 180 128 0 []) ∧
      0 < (read_superblock (builder_write 180 128 0 []) 0).inode_table_blocks
        * (BS / INODE_SIZE) ∧ 1 < DIRECT_MAX) ∧
    (((read_inode (builder_write 180 128 0 []) (3 * BS + 0 * INODE_SIZE)).size_bytes + BS - 1)
        / BS ≤ 1 →
      (read_inode (builder_write 180 128 0 []) (3 * BS + 0 * INODE_SIZE)).direct.getD 1 0
        = 0) :=
  have hr : reachable 180 128 0 (builder_write 180 128 0 []) :=
    (reachable_zero 180 128 _).mpr ⟨0, [], builder_main_ok 180 128 0 [] (by decide)⟩
  have ht : 0 < (read_superblock (builder_write 180 128 0 []) 0).inode_table_blocks
      * (BS / INODE_SIZE) := by
    rw [inode_table_blocks_valid_image 180 128 _
      (valid_image_builder_write 180 128 0 [] (by decide))]
    decide
  ⟨⟨hr, ht, by decide⟩,
    (C18_direct_pointers_match_size 180 128 0 (builder_write 180 128 0 []) 0 1 hr ht
      (by decide)).2.1⟩

/-- C19: in every image reachable from the builder by successful runs of the
adder, every non-zero direct pointer of every record of the inode table names a
block of the data region whose bit in the data bitmap is set, and no other direct
pointer, of the same or of another record, names the same block. -/
theorem C19_block_ownership (size_kib inode_count k : Nat) (img : List Nat) (t j : Nat)
    (hr : reachable size_kib inode_count k img)
    (ht : t < (read_superblock img 0).inode_table_blocks * (BS / INODE_SIZE))
    (hj : j < DIRECT_MAX)
    (hne : (read_inode img (3 * BS + t * INODE_SIZE)).direct.getD j 0 ≠ 0) :
    (read_superblock img 0).data_region_start
      ≤ (read_inode img (3 * BS + t * INODE_SIZE)).direct.getD j 0 ∧
    (read_inode img (3 * BS + t * INODE_SIZE)).direct.getD j 0
      < (read_superblock img 0).data_region_start
        + (read_superblock img 0).data_region_blocks ∧
    bitmap_bit img (2 * BS) ((read_inode img (3 * BS + t * INODE_SIZE)).direct.getD j 0
      - (read_superblock img 0).data_region_start) = true ∧
    ∀ t' j', t' < (read_superblock img 0).inode_table_blocks * (BS / INODE_SIZE) →
      j' < DIRECT_MAX →
      (read_inode img (3 * BS + t' * INODE_SIZE)).direct.getD j' 0
        = (read_inode img (3 * BS + t * INODE_SIZE)).direct.getD j 0 →
      t' = t ∧ j' = j := by
  have I := reachable_inv size_kib inode_count k img hr
  obtain ⟨_, _, _, _, _, hdr, hdrb⟩ := superblock_fields_valid_image _ _ _ I.valid
  rw [inode_table_blocks_valid_image _ _ _ I.valid, show BS / INODE_SIZE = 32 by decide] at ht ⊢
  simp only [DIRECT_MAX] at hj ⊢
  rw [getD_read_inode_direct _ _ _ hj] at hne ⊢
  rw [hdr, hdrb, show 2 * BS = 8192 by decide]
  have hown := I.owned t j (by omega) hj hne
  refine ⟨hown.1, hown.2.1, hown.2.2, fun t' j' ht' hj' heq => ?_⟩
  rw [getD_read_inode_direct _ _ _ hj'] at heq
  have := I.unique t j t' j' (by omega) hj (by omega) hj' hne heq.symm
  exact ⟨this.1.symm, this.2.symm⟩

theorem C19_block_ownership_witness :
    (reachable 180 128 0 (builder_write 180 128 0 []) ∧
      0 < (read_superblock (builder_write 180 128 0 []) 0).inode_table_blocks
        * (BS / INODE_SIZE) ∧ 0 < DIRECT_MAX ∧
      (read_inode (builder_write 180 128 0 []) (3 * BS + 0 * INODE_SIZE)).direct.getD 0 0
        ≠ 0) ∧
    bitmap_bit (builder_write 180 128 0 []) (2 * BS)
      ((read_inode (builder_write 180 128 0 []) (3 * BS + 0 * INODE_SIZE)).direct.getD 0 0
        - (read_superblock (builder_write 180 128 0 []) 0).data_region_start) = true :=
  have hr : reachable 180 128 0 (builder_write 180 128 0 []) :=
    (reachable_zero 180 128 _).mpr ⟨0, [], builder_main_ok 180 128 0 [] (by decide)⟩
  have ht : 0 < (read_superblock (builder_write 180 128 0 []) 0).inode_table_blocks
      * (BS / INODE_SIZE) := by
    rw [inode_table_blocks_valid_image 180 128 _
      (valid_image_builder_write 180 128 0 [] (by decide))]
    decide
  have hne : (read_inode (builder_write 180 128 0 []) (3 * BS + 0 * INODE_SIZE)).direct.getD
      0 0 ≠ 0 := by
    rw [getD_read_inode_direct _ _ _ (by decide)]
    have := le_read_builder_write_direct0 180 128 0 [] (by decide)
    rw [show 3 * BS + 0 * INODE_SIZE + 44 + 4 * 0 = 12288 + 44 by decide, this]
    decide
  ⟨⟨hr, ht, by decide, hne⟩,
    (C19_block_ownership 180 128 0 (builder_write 180 128 0 []) 0 0 hr ht (by decide)
      hne).2.2.1⟩

/-- C20: a successful run of the adder on a valid image (every image reachable from
the builder is one) changes only the checksum field of the superblock, the bit of
the new inode in the inode bitmap, the bits of the blocks found in the data bitmap,
the slot of the new inode and the slot of the root inode in the inode table, the
blocks found, and the one slot `e` of the root directory that takes the new entry.
Every other byte of the image, and every other bit of the two bitmap blocks, is
unchanged: in particular the other bytes of block 0, the records of the other
inodes, the other blocks of the data region and the other slots of the root
directory. -/
theorem C20_insert_frame (size_kib inode_count : Nat) (img file file_name : List Nat)
    (now : Nat) (out : List Nat) (hvi : valid_image size_kib inode_count img)
    (hok : mkfs_adder.main img file file_name now = ⟨.Ok, out⟩) :
    ∃ ino e dbs,
      ino = find_first_free_bit img (1 * BS) BS inode_count ∧
      dbs = alloc_blocks img (2 * BS) (read_superblock img 0).data_region_start
        (read_superblock img 0).data_region_blocks ((file.length + BS - 1) / BS) ∧
      e < 64 ∧
      out.length = img.length ∧
      (∀ j, (j < 112 ∨ 116 ≤ j) → (j < 4096 ∨ 12288 ≤ j) → (j < 12288 ∨ 12288 + 128 ≤ j) →
        (j < 12288 + (ino - 1) * 128 ∨ 12288 + (ino - 1) * 128 + 128 ≤ j) →
        (∀ i, i < dbs.length → j < dbs.getD i 0 * 4096 ∨ dbs.getD i 0 * 4096 + 4096 ≤ j) →
        (j < (read_superblock img 0).data_region_start * 4096 + e * 64 ∨
          (read_superblock img 0).data_region_start * 4096 + e * 64 + 64 ≤ j) →
        out.getD j 0 = img.getD j 0) ∧
      (∀ pos, pos < 32768 → pos ≠ ino - 1 →
        bitmap_bit out 4096 pos = bitmap_bit img 4096 pos) ∧
      (∀ pos, pos < 32768 →
        (∀ i, i < dbs.length → pos ≠ dbs.getD i 0 - (read_superblock img 0).data_region_start) →
        bitmap_bit out 8192 pos = bitmap_bit img 8192 pos) ∧
      (∀ j, j < 4096 → (j < 112 ∨ 116 ≤ j) → out.getD j 0 = img.getD j 0) ∧
      (∀ t, 1 ≤ t → t ≠ ino - 1 →
        t < (read_superblock img 0).inode_table_blocks * (BS / INODE_SIZE) →
        ∀ k, k < 128 → out.getD (12288 + t * 128 + k) 0 = img.getD (12288 + t * 128 + k) 0) ∧
      (∀ b, (read_superblock img 0).data_region_start < b →
        b < (read_superblock img 0).data_region_start
          + (read_superblock img 0).data_region_blocks →
        (∀ i, i < dbs.length → b ≠ dbs.getD i 0) →
        ∀ k, k < 4096 → out.getD (b * 4096 + k) 0 = img.getD (b * 4096 + k) 0) ∧
      (∀ i, i < 64 → i ≠ e → ∀ k, k < 64 →
        out.getD ((read_superblock img 0).data_region_start * 4096 + i * 64 + k) 0
          = img.getD ((read_superblock img 0).data_region_start * 4096 + i * 64 + k) 0) := by
  obtain ⟨_, _, _, _, _, hdr, hdrb⟩ := superblock_fields_valid_image _ _ _ hvi
  obtain ⟨ino, e, dbs, E⟩ := insert_ok_effect size_kib inode_count img file file_name now out
    _ _ hvi rfl rfl hok
  have hv := hvi.1
  obtain ⟨h1, h2, h3, h4, h5⟩ := hv
  have hv : valid_params size_kib inode_count := ⟨h1, h2, h3, h4, h5⟩
  have hino2 := E.ino_ge
  have hinon := E.ino_le
  rw [hdr, hdrb, inode_table_blocks_valid_image _ _ _ hvi, show 1 * BS = 4096 by decide,
    show 2 * BS = 8192 by decide, show BS / INODE_SIZE = 32 by decide]
  refine ⟨ino, e, dbs, E.ino_eq, E.dbs_eq, E.e_lt, E.length_eq, E.frame, ?_, ?_, ?_, ?_, ?_, ?_⟩
  · intro pos hpos hne
    rw [E.inode_bits pos hpos]
    simp [hne]
  · intro pos hpos hne
    have hiff := E.data_bits pos hpos
    cases hb : bitmap_bit img 8192 pos with
    | true => exact hiff.mpr (Or.inl hb)
    | false =>
      cases ho : bitmap_bit out 8192 pos with
      | false => rfl
      | true =>
        rcases hiff.mp ho with h | ⟨i, hi, hp⟩
        · rw [hb] at h; exact Bool.noConfusion h
        · exact absurd hp (hne i hi)
  · intro j hj hsb
    exact insert_effect_superblock inode_count img file _ out now _ _ ino e dbs rfl E j
      (by omega)
  · intro t ht1 htn htab k hk
    exact insert_effect_slot inode_count img file _ out now _ _ ino e dbs E t ht1 htn
      (by omega) k hk
  · intro b hb1 hb2 hnb k hk
    apply E.frame _ (by omega) (by omega) (by omega) (by omega)
    · intro i hi
      have := hnb i hi
      omega
    · have := E.e_lt
      omega
  · intro i hi hie k hk
    exact insert_effect_dir size_kib inode_count img file _ out now _ _ ino e dbs hv rfl E i
      hi hie k hk

theorem C20_insert_frame_witness :
    (valid_image 180 128 (builder_write 180 128 0 []) ∧
      mkfs_adder.main (builder_write 180 128 0 []) [] [97] 5
        = ⟨.Ok, (mkfs_adder.main (builder_write 180 128 0 []) [] [97] 5).fs_image⟩) ∧
    (mkfs_adder.main (builder_write 180 128 0 []) [] [97] 5).fs_image.length
      = (builder_write 180 128 0 []).length ∧
    ∀ j, j < 4096 → (j < 112 ∨ 116 ≤ j) →
      (mkfs_adder.main (builder_write 180 128 0 []) [] [97] 5).fs_image.getD j 0
        = (builder_write 180 128 0 []).getD j 0 :=
  have hvi := valid_image_builder_write 180 128 0 [] (by decide)
  have hr : reachable 180 128 0 (builder_write 180 128 0 []) :=
    (reachable_zero 180 128 _).mpr ⟨0, [], builder_main_ok 180 128 0 [] (by decide)⟩
  have hok := run_eq_of_status _ _
    ((insert_empty_reachable 180 128 0 (builder_write 180 128 0 []) [97] 5 hr (by decide)).1
      (by decide))
  match C20_insert_frame 180 128 (builder_write 180 128 0 []) [] [97] 5 _ hvi hok with
  | ⟨_, _, _, _, _, _, hlen, _, _, _, hsb, _⟩ => ⟨⟨hvi, hok⟩, hlen, hsb⟩

/-- The set bits of a bitmap whose bits `0 .. m - 1` are the set ones. -/
theorem count_set_bits_eq (mem : List Nat) (bitmap n m : Nat) (hm : m ≤ n)
    (h : ∀ p, p < n → bitmap_bit mem bitmap p = decide (p < m)) :
    count_set_bits mem bitmap n = m := by
  unfold count_set_bits
  rw [← length_filter_lt_range m n hm]
  congr 1
  apply List.filter_congr
  intro p hp
  exact h p (List.mem_range.mp hp)

/-- On an image reachable in `k` insertions the search for a free inode returns
`k + 2`. -/
theorem find_first_free_bit_reachable (size_kib inode_count k : Nat) (img : List Nat)
    (hr : reachable size_kib inode_count k img) :
    find_first_free_bit img 4096 BS inode_count = k + 2 := by
  have I := reachable_inv size_kib inode_count k img hr
  have hk := I.count_le
  obtain ⟨h1, h2, h3, h4, h5⟩ := I.valid.1
  have hfree : bitmap_bit img 4096 (k + 1) = false := by
    rw [I.inode_bits _ (by omega)]; simp
  have hs := find_first_free_bit_outer_spec img 4096 BS inode_count (by omega) (by decide)
    BS 0 rfl (by omega) (fun q hq _ => absurd hq (by omega))
  rcases find_first_free_bit_block img 4096 inode_count (by omega) with h0 | ⟨ha, hb, hf, hmin⟩
  · have := hs.1 h0 (k + 1) (by omega) (by simp only [BS]; omega)
    rw [hfree] at this
    exact Bool.noConfusion this
  · rw [I.inode_bits _ (by omega)] at hf
    have hgt : ¬ (find_first_free_bit img 4096 BS inode_count - 1 ≤ k) := of_decide_eq_false hf
    by_contra hne
    have hm := hmin (k + 1) (by omega)
    rw [hfree] at hm
    exact Bool.noConfusion hm

/-- A run of the adder on a valid image ends with `NoFreeInodes` only when the
search for a free inode returns 0. -/
theorem adder_main_no_free_inodes_inv (size_kib inode_count : Nat)
    (img file file_name : List Nat) (now : Nat) (hvi : valid_image size_kib inode_count img)
    (h : (mkfs_adder.main img file file_name now).status = .NoFreeInodes) :
    find_first_free_bit img 4096 BS inode_count = 0 := by
  rw [adder_main_valid_image size_kib inode_count img file file_name now _ _ _ _ _ _ hvi rfl
    rfl rfl rfl rfl rfl] at h
  by_contra h0
  by_cases c1 : (file.length + BS - 1) / BS > DIRECT_MAX
  · rw [if_pos c1] at h
    exact Status.noConfusion h
  · rw [if_neg c1, if_neg h0] at h
    by_cases c2 : (alloc_blocks img 8192 (3 + (inode_count * 128 + 4096 - 1) / 4096)
        (size_kib * 1024 / 4096 - (1 + 1 + 1 + (inode_count * 128 + 4096 - 1) / 4096))
        ((file.length + BS - 1) / BS)).length < (file.length + BS - 1) / BS
    · rw [if_pos c2] at h
      exact Status.noConfusion h
    · rw [if_neg c2] at h
      generalize (List.range 64).find? _ = q at h
      cases q with
      | none => exact Status.noConfusion h
      | some e =>
        dsimp only at h
        by_cases c7 : (basename file_name).length ≥ 58
        · rw [if_pos c7] at h
          exact Status.noConfusion h
        · rw [if_neg c7] at h
          exact Status.noConfusion h

/-- The image a successful run of the adder writes carries the checksum of its own
superblock, whatever image the run started from. -/
theorem adder_main_ok_checksum (img file file_name : List Nat) (now : Nat)
    (h : (mkfs_adder.main img file file_name now).status = .Ok) :
    superblock_checksum_ok (mkfs_adder.main img file file_name now).fs_image ∧
    (mkfs_adder.main img file file_name now).fs_image.length = img.length := by
  unfold mkfs_adder.main at h ⊢
  dsimp only at h ⊢
  by_cases c1 : (file.length + BS - 1) / BS > DIRECT_MAX
  · rw [if_pos c1] at h
    exact Status.noConfusion h
  · rw [if_neg c1] at h ⊢
    by_cases c2 : img.length < 116
    · rw [if_pos c2] at h
      exact Status.noConfusion h
    · rw [if_neg c2] at h ⊢
      by_cases c3 : (read_superblock img 0).magic ≠ 0x4D565346
      · rw [if_pos c3] at h
        exact Status.noConfusion h
      · rw [if_neg c3] at h ⊢
        by_cases c4 : (file.length + BS - 1) / BS > (read_superblock img 0).data_region_blocks
        · rw [if_pos c4] at h
          exact Status.noConfusion h
        · rw [if_neg c4] at h ⊢
          unfold adder_insert at h ⊢
          dsimp only at h ⊢
          by_cases c5 : find_first_free_bit img
              ((read_superblock img 0).inode_bitmap_start * BS % 18446744073709551616) BS
              ((read_superblock img 0).inode_count % 4294967296) = 0
          · rw [if_pos c5] at h
            exact Status.noConfusion h
          · rw [if_neg c5] at h ⊢
            generalize alloc_loop img
              ((read_superblock img 0).data_bitmap_start * BS % 18446744073709551616)
              (read_superblock img 0).data_region_start
              (read_superblock img 0).data_region_blocks ((file.length + BS - 1) / BS)
              alloc_fuel 1 [] = r at h ⊢
            cases r with
            | none => exact Status.noConfusion h
            | some found =>
              dsimp only at h ⊢
              by_cases c6 : found.length < (file.length + BS - 1) / BS
              · rw [if_pos c6] at h
                exact Status.noConfusion h
              · rw [if_neg c6] at h ⊢
                generalize (List.range (BS / 64)).find? _ = q at h ⊢
                cases q with
                | none => exact Status.noConfusion h
                | some e =>
                  dsimp only at h ⊢
                  by_cases c7 : (basename file_name).length ≥ 58
                  · rw [if_pos c7] at h
                    exact Status.noConfusion h
                  · rw [if_neg c7]
                    dsimp only
                    refine ⟨?_, by rw [length_adder_link, length_adder_store]⟩
                    unfold adder_link
                    dsimp only
                    exact superblock_checksum_ok_finalize _ (by
                      rw [length_update_root_inode, length_memcpy, length_adder_store]
                      omega)

/-- C21: in every image reachable from the builder in `k` successful runs of the
adder, the set bits of the inode bitmap are the bits `0 .. k`: their number, over
the whole bitmap block as over the first `inode_count` positions, is the number of
occupied slots of the root directory minus 1, and at most 63. As `inode_count` is
at least 128, bit `k + 1` is a free inode, the search for a free inode finds it
(inode number `k + 2`), and no run of the adder on such an image ends with
`NoFreeInodes`: the 64 slots of the root directory are used up first. -/
theorem C21_never_no_free_inodes (size_kib inode_count k : Nat) (img : List Nat)
    (hr : reachable size_kib inode_count k img) :
    count_set_bits img (1 * BS) (8 * BS)
      = occupied_slots img ((read_superblock img 0).data_region_start * BS) - 1 ∧
    count_set_bits img (1 * BS) inode_count
      = occupied_slots img ((read_superblock img 0).data_region_start * BS) - 1 ∧
    (count_set_bits img (1 * BS) (8 * BS) ≤ 63 ∧
      occupied_slots img ((read_superblock img 0).data_region_start * BS) ≤ 64) ∧
    (128 ≤ inode_count ∧ k + 1 < inode_count ∧ bitmap_bit img (1 * BS) (k + 1) = false) ∧
    (find_first_free_bit img (1 * BS) BS inode_count ≠ 0 ∧
      find_first_free_bit img (1 * BS) BS inode_count = k + 2) ∧
    ∀ file file_name now, (mkfs_adder.main img file file_name now).status ≠ .NoFreeInodes := by
  have I := reachable_inv size_kib inode_count k img hr
  have hk := I.count_le
  obtain ⟨h1, h2, h3, h4, h5⟩ := I.valid.1
  have hdr := (superblock_fields_valid_image _ _ _ I.valid).2.2.2.2.2.1
  have hocc : occupied_slots img ((read_superblock img 0).data_region_start * BS) = 2 + k := by
    rw [hdr]
    exact occupied_slots_eq img _ (2 + k) (by omega) I.dir_slots
  have hbits : ∀ n, k + 1 ≤ n → n ≤ 32768 → count_set_bits img 4096 n = k + 1 := by
    intro n hn1 hn2
    apply count_set_bits_eq img 4096 n (k + 1) hn1
    intro p hp
    rw [I.inode_bits p (by omega)]
    by_cases c : p ≤ k
    · simp [c, Nat.lt_succ_of_le c]
    · have c2 : ¬ p < k + 1 := by omega
      simp [c, c2]
  have hff := find_first_free_bit_reachable size_kib inode_count k img hr
  rw [hocc, show 1 * BS = 4096 by decide, show 8 * BS = 32768 by decide,
    hbits 32768 (by omega) (Nat.le_refl _), hbits inode_count (by omega) (by omega), hff]
  refine ⟨by omega, by omega, ⟨by omega, by omega⟩, ⟨h4, by omega, ?_⟩,
    ⟨by omega, rfl⟩, fun file file_name now hnfi => ?_⟩
  · rw [I.inode_bits _ (by omega)]
    simp
  · have := adder_main_no_free_inodes_inv size_kib inode_count img file file_name now I.valid
      hnfi
    omega

theorem C21_never_no_free_inodes_witness :
    reachable 180 128 0 (builder_write 180 128 0 []) ∧
    count_set_bits (builder_write 180 128 0 []) (1 * BS) (8 * BS)
      = occupied_slots (builder_write 180 128 0 [])
          ((read_superblock (builder_write 180 128 0 []) 0).data_region_start * BS) - 1 ∧
    find_first_free_bit (builder_write 180 128 0 []) (1 * BS) BS 128 = 0 + 2 ∧
    (mkfs_adder.main (builder_write 180 128 0 []) [7] [97] 5).status ≠ .NoFreeInodes :=
  have hr : reachable 180 128 0 (builder_write 180 128 0 []) :=
    (reachable_zero 180 128 _).mpr ⟨0, [], builder_main_ok 180 128 0 [] (by decide)⟩
  have h := C21_never_no_free_inodes 180 128 0 (builder_write 180 128 0 []) hr
  ⟨hr, h.1, h.2.2.2.2.1.2, h.2.2.2.2.2 [7] [97] 5⟩

/-- C22: the image a successful run of the adder writes stores, in bytes 112..115
of block 0, the CRC32 over bytes `[0, 4092)` of its block 0 with the checksum field
taken as zero, whatever checksum the input image carried; the image written has
the length of the input image. -/
theorem C22_superblock_checksum_after_insert (img file file_name : List Nat) (now : Nat)
    (out : List Nat) (hlen : BS ≤ img.length)
    (hok : mkfs_adder.main img file file_name now = ⟨.Ok, out⟩) :
    le_read out 112 4 = crc32 (memcpy out 112 (le_bytes 4 0)) (BS - 4) ∧
    superblock_checksum_ok out ∧
    BS ≤ out.length := by
  have h := adder_main_ok_checksum img file file_name now (by rw [hok])
  rw [hok] at h
  exact ⟨h.1, h.1, by rw [h.2]; exact hlen⟩

theorem C22_superblock_checksum_after_insert_witness :
    (BS ≤ (builder_write 180 128 0 (List.replicate 3975 0 ++ [1])).length ∧
      mkfs_adder.main (builder_write 180 128 0 (List.replicate 3975 0 ++ [1])) [] [97] 5
        = ⟨.Ok, (mkfs_adder.main (builder_write 180 128 0 (List.replicate 3975 0 ++ [1]))
            [] [97] 5).fs_image⟩) ∧
    superblock_checksum_ok
      (mkfs_adder.main (builder_write 180 128 0 (List.replicate 3975 0 ++ [1]))
        [] [97] 5).fs_image :=
  have hl : BS ≤ (builder_write 180 128 0 (List.replicate 3975 0 ++ [1])).length := by
    rw [length_builder_write 180 128 0 _ (by decide)]; decide
  have hr : reachable 180 128 0 (builder_write 180 128 0 (List.replicate 3975 0 ++ [1])) :=
    (reachable_zero 180 128 _).mpr ⟨0, _, builder_main_ok 180 128 0 _ (by decide)⟩
  have hok := run_eq_of_status _ _
    ((insert_empty_reachable 180 128 0 _ [97] 5 hr (by decide)).1 (by decide))
  ⟨⟨hl, hok⟩,
    (C22_superblock_checksum_after_insert _ [] [97] 5 _ hl hok).2.1⟩

end MiniVSFS
